import Mathlib

/-!
# Counter server (`server.c`) and HTTP bridge (`client.c`): embedding and verified properties

The TCP counter server keeps one `long long counter`, a table of client slots
(`struct client { int fd; char buf[BUFSIZE]; int len; }`) and, in `main`, a
`select` loop that accepts connections into free slots, appends received bytes to
the slot's buffer, cuts the buffer at each `'\n'` and hands every line to
`handle_command`. The bridge answers one HTTP request per connection and, for the
routes under `/counter`, sends a command line to the server and reads one reply
line.

Conventions of the embedding

* a byte is a `Nat`; a `char` array is a `List Nat`; a pointer into an array is
  either an offset (`Nat`) or, where the callee only reads a C string, the list
  of bytes from the pointed position on (read up to the first `0`);
* C `int` values that can be negative (`fd`, `len`, `leftover`, `r`) are `Int`;
* `counter` is a 64-bit signed integer: `counter++` and `counter--` wrap;
* a store or a read outside the array makes the step fail (`none`); the
  descriptor set `readfds` is such an array, of `FD_SETSIZE` bits;
* `send` and `close` are recorded in the logs `sent` and `closed`; `calls`
  records the invocations of `handle_command` (observation only);
* `send` and the receive step describe replies to a peer that has not reset its
  connection; `recv_event` and `main_turn` add the peer that has (`SIGPIPE`).
-/

namespace CounterServer

/-! ## Constants and bytes -/

/-- The bytes of an ASCII string literal. -/
def bytes (s : String) : List Nat := s.toList.map Char.toNat

/-- Source: `#define BUFSIZE 4096`. -/
def BUFSIZE : Nat := 4096

/-- The character `'\n'`. -/
def NL : Nat := 10

/-- The character `'\r'`. -/
def CR : Nat := 13

/-- Source: `struct client { int fd; char buf[BUFSIZE]; int len; }`. -/
structure client where
  fd : Int
  buf : List Nat
  len : Int
deriving DecidableEq, Repr

/-- Process state of the server: the variables of `main` that survive a loop
iteration, the global `counter`, and the observable effects. -/
structure Server where
  clients : List client
  listener : Int
  maxfd : Int
  counter : Int
  sent : List (Int × List Nat)
  closed : List Int
  calls : List (Int × List Nat)
deriving DecidableEq, Repr

/-! ## Library functions used by the source -/

/-- Value of a `long long` after an arithmetic result `x` (two's complement wrap). -/
def wrap64 (x : Int) : Int := (x + 2 ^ 63) % 2 ^ 64 - 2 ^ 63

/-- The function `tolower` in the C locale. -/
def tolower (c : Nat) : Nat := if 65 ≤ c ∧ c ≤ 90 then c + 32 else c

/-- The bytes of the C string starting a list: everything before the first `0`. -/
def cstr : List Nat → List Nat
  | [] => []
  | b :: rest => if b = 0 then [] else b :: cstr rest

/-- The function `strcasecmp(a, b)`: both arguments are read as C strings (the end
of the list counts as the terminator); the result is the difference of the first
pair of bytes that differ after `tolower`, `0` when there is none. -/
def strcasecmp : List Nat → List Nat → Int
  | [], [] => 0
  | [], b :: _ => 0 - (tolower b : Int)
  | a :: _, [] => (tolower a : Int)
  | a :: as, b :: bs =>
    if tolower a ≠ tolower b then (tolower a : Int) - (tolower b : Int)
    else if a = 0 then 0
    else strcasecmp as bs

/-- Scan for `strchr`: the list is the memory from the scanned position on, `pos`
the offset of its head. The outer `none` is a read past the end of the array. -/
def strchr_from : List Nat → Nat → Nat → Option (Option Nat)
  | [], _, _ => none
  | b :: rest, c, pos =>
    if b = c then some (some pos)
    else if b = 0 then some none
    else strchr_from rest c (pos + 1)

/-- The call `strchr(buf + start, c)`: offset in `buf` of the first `c` at or after
`start` and before the terminator, `some none` for `NULL`. -/
def strchr (buf : List Nat) (start : Nat) (c : Nat) : Option (Option Nat) :=
  strchr_from (buf.drop start) c start

/-- The store `buf[off] = v`; fails outside the array. -/
def store (buf : List Nat) (off : Int) (v : Nat) : Option (List Nat) :=
  if 0 ≤ off ∧ off < buf.length then some (buf.set off.toNat v) else none

/-- The read `buf[off]`; fails outside the array. -/
def load (buf : List Nat) (off : Int) : Option Nat :=
  if 0 ≤ off ∧ off < buf.length then buf[off.toNat]? else none

/-- The call `memcpy(buf + off, src, n)`; fails when the `n` bytes do not lie
inside `buf` or `src`. -/
def memcpy (buf : List Nat) (off : Int) (src : List Nat) (n : Nat) : Option (List Nat) :=
  if 0 ≤ off ∧ off + n ≤ buf.length ∧ n ≤ src.length then
    some (buf.take off.toNat ++ src.take n ++ buf.drop (off.toNat + n))
  else none

/-- The call `memmove(buf, buf + from, n)`; fails when the source range does not
lie inside `buf`. -/
def memmove (buf : List Nat) (src : Nat) (n : Nat) : Option (List Nat) :=
  if src + n ≤ buf.length then some ((buf.drop src).take n ++ buf.drop n) else none

/-- Digits of a natural number, most significant first (fuel bounds the recursion). -/
def utoa : Nat → Nat → List Nat → List Nat
  | 0, _, acc => acc
  | fuel + 1, n, acc =>
    if n < 10 then (48 + n) :: acc else utoa fuel (n / 10) ((48 + n % 10) :: acc)

/-- What `snprintf` prints for `%lld`. -/
def fmt_lld (n : Int) : List Nat :=
  (if n < 0 then [45] else []) ++ utoa (n.natAbs + 1) n.natAbs []

/-! ## `remove_client` and `handle_command` -/

/-- The loop `for (j ...) if (clients[j].fd > *maxfd) *maxfd = clients[j].fd`. -/
def recompute_maxfd (clients : List client) (listener : Int) : Int :=
  clients.foldl (fun m c => if c.fd > m then c.fd else m) listener

/-- Source: `remove_client(clients, i, listener, &maxfd)`. -/
def remove_client (s : Server) (i : Nat) : Option Server :=
  match s.clients[i]? with
  | none => none
  | some c =>
    let closed := if c.fd ≥ 0 then s.closed ++ [c.fd] else s.closed
    match store c.buf 0 0 with
    | none => none
    | some b =>
      let clients := s.clients.set i { fd := -1, buf := b, len := 0 }
      some { s with clients := clients, closed := closed,
                    maxfd := recompute_maxfd clients s.listener }

/-- The call `send(fd, out, strlen(out), 0)` on a connection the peer has not
reset: the bytes are handed to the socket. The call on a connection the peer has
reset raises `SIGPIPE`; `recv_event` covers it. -/
def send (s : Server) (fd : Int) (out : List Nat) : Server :=
  { s with sent := s.sent ++ [(fd, cstr out)] }

/-- Source: `handle_command(cmd, fd)`. -/
def handle_command (cmd : List Nat) (fd : Int) (s0 : Server) : Server :=
  let s := { s0 with calls := s0.calls ++ [(fd, cstr cmd)] }
  if strcasecmp cmd (bytes "INCR") = 0 then
    send { s with counter := wrap64 (s.counter + 1) } fd (bytes "OK\n")
  else if strcasecmp cmd (bytes "DECR") = 0 then
    send { s with counter := wrap64 (s.counter - 1) } fd (bytes "OK\n")
  else if strcasecmp cmd (bytes "GET") = 0 then
    send s fd (fmt_lld s.counter ++ bytes "\n")
  else if strcasecmp cmd (bytes "RESET") = 0 then
    send { s with counter := 0 } fd (bytes "OK\n")
  else if strcasecmp cmd (bytes "QUIT") = 0 then
    send s fd (bytes "BYE\n")
  else
    send s fd (bytes "ERR Unknown command\n")

/-! ## The receive step of `main` -/

/-- Outcome of `recv(fd, tmp, sizeof(tmp) - 1, 0)`: an error (`r < 0`), or the
bytes placed in `tmp`, `r` being their number (`r = 0` is end-of-stream). -/
inductive RecvResult where
  | error
  | data (tmp : List Nat)
deriving DecidableEq, Repr

/-- The value `r` returned by `recv`. -/
def RecvResult.r : RecvResult → Int
  | .error => -1
  | .data tmp => tmp.length

/-- The bytes `recv` placed in `tmp`. -/
def RecvResult.tmp : RecvResult → List Nat
  | .error => []
  | .data tmp => tmp

/-- Source: `if (newline > line_start && *(newline - 1) == '\r') *(newline - 1) = '\0'`
in the loop of `main`. The byte before `newline` is read only when the first test
holds (`&&` evaluates its right operand only then). -/
def trim_cr (buf : List Nat) (line_start newline : Nat) : Option (List Nat) :=
  if newline > line_start then
    match load buf ((newline : Int) - 1) with
    | none => none
    | some v => if v = CR then store buf ((newline : Int) - 1) 0 else some buf
  else some buf

/-- Source: the loop `while ((newline = strchr(line_start, '\n')) != NULL)` of
`main`, for slot `i` whose handle was `fd` when the step began. The result is the
state and the value of `line_start` when the loop is left. The first argument
bounds the number of iterations. -/
def process_lines : Nat → Server → Nat → Int → Nat → Option (Server × Nat)
  | 0, _, _, _, _ => none
  | fuel + 1, s, i, fd, line_start =>
    match s.clients[i]? with
    | none => none
    | some c =>
      match strchr c.buf line_start NL with
      | none => none
      | some none => some (s, line_start)
      | some (some newline) =>
        match store c.buf newline 0 with
        | none => none
        | some b1 =>
          match trim_cr b1 line_start newline with
          | none => none
          | some b2 =>
            let s1 := { s with clients := s.clients.set i { c with buf := b2 } }
            let cmd := b2.drop line_start
            if strcasecmp cmd (bytes "QUIT") = 0 then
              match remove_client (handle_command cmd fd s1) i with
              | none => none
              | some s2 => some (s2, line_start)
            else
              process_lines fuel (handle_command cmd fd s1) i fd (newline + 1)

/-- Source: the `if (clients[i].fd >= 0) { leftover ... }` block after the loop. -/
def compact (s : Server) (i : Nat) (line_start : Nat) : Option Server :=
  match s.clients[i]? with
  | none => none
  | some c =>
    if c.fd ≥ 0 then
      let leftover : Int := c.len - line_start
      match (if leftover > 0 ∧ line_start ≠ 0 then memmove c.buf line_start leftover.toNat
             else some c.buf) with
      | none => none
      | some b1 =>
        match store b1 leftover 0 with
        | none => none
        | some b2 =>
          some { s with clients := s.clients.set i { c with buf := b2, len := leftover } }
    else some s

/-- Source: `tmp[r] = '\0'` and the block under `// append to client's buffer`:
the overflow reset, the `memcpy` of the `r` received bytes and the terminator. -/
def append_chunk (c : client) (res : RecvResult) : Option client :=
  let r := res.r
  if ¬ r < BUFSIZE then none
  else
    match (if c.len + r ≥ (BUFSIZE : Int) - 1
           then (store c.buf 0 0).map (fun b => { c with len := 0, buf := b })
           else some c) with
    | none => none
    | some c1 =>
      match memcpy c1.buf c1.len res.tmp r.toNat with
      | none => none
      | some b1 =>
        match store b1 (c1.len + r) 0 with
        | none => none
        | some b2 => some { c1 with buf := b2, len := c1.len + r }

/-- Source: the body of `for (int i = 0; i < MAX_CLIENTS; ++i)` in `main` for a
slot reported ready, `res` being what `recv` returns. -/
def recv_step (s : Server) (i : Nat) (res : RecvResult) : Option Server :=
  match s.clients[i]? with
  | none => none
  | some c =>
    let fd := c.fd
    if fd < 0 then some s
    else if res.r ≤ 0 then remove_client s i
    else
      match append_chunk c res with
      | none => none
      | some c1 =>
        match process_lines BUFSIZE { s with clients := s.clients.set i c1 } i fd 0 with
        | none => none
        | some (s2, line_start) => compact s2 i line_start

/-- Successive receive steps on slot `i`, one per chunk. -/
def run (s : Server) (i : Nat) : List (List Nat) → Option Server
  | [] => some s
  | x :: xs =>
    match recv_step s i (.data x) with
    | none => none
    | some s1 => run s1 i xs

/-! ## Line view of the receive step

The functions below describe the receive step on the byte sequence the buffer
holds, without offsets; `recv_step_data` proves that `recv_step` computes them. -/

/-- Cut at the first `'\n'` that `strchr` can reach: the bytes before it and the
bytes after it, `none` when a `0` or the end of the data comes first. -/
def split_line : List Nat → Option (List Nat × List Nat)
  | [] => none
  | b :: rest =>
    if b = NL then some ([], rest)
    else if b = 0 then none
    else (split_line rest).map (fun p => (b :: p.1, p.2))

/-- The lines the loop of `main` finds in the buffer contents `data` (each without
its `'\n'`), and the bytes left when `strchr` returns `NULL`. -/
def split_lines : List Nat → List (List Nat) × List Nat
  | [] => ([], [])
  | b :: rest =>
    if b = 0 then ([], b :: rest)
    else if b = NL then ([] :: (split_lines rest).1, (split_lines rest).2)
    else
      match (split_lines rest).1 with
      | [] => ([], b :: (split_lines rest).2)
      | l :: ls => ((b :: l) :: ls, (split_lines rest).2)

/-- A line without one trailing `'\r'`. -/
def strip_cr (l : List Nat) : List Nat :=
  if l.getLast? = some CR then l.dropLast else l

/-- The tokens are handed to `handle_command` in order, up to and including the
first one that compares equal to `QUIT`; the flag tells whether there was one. -/
def exec_lines (fd : Int) : Server → List (List Nat) → Server × Bool
  | s, [] => (s, false)
  | s, l :: ls =>
    if strcasecmp l (bytes "QUIT") = 0 then (handle_command l fd s, true)
    else exec_lines fd (handle_command l fd s) ls

/-- The bytes of slot `c` that are pending: `buf[0 .. len)`. -/
def pending (c : client) : List Nat := c.buf.take c.len.toNat

/-- The pending bytes a receive step keeps when `tmp` arrives: none of them when
the overflow reset applies. -/
def kept (c : client) (tmp : List Nat) : List Nat :=
  if c.len + tmp.length ≥ (BUFSIZE : Int) - 1 then [] else pending c

/-- The buffer contents the line loop of a receive step works on: the pending
bytes (none after the overflow reset) followed by the received bytes. -/
def step_data (c : client) (tmp : List Nat) : List Nat :=
  (if c.len + tmp.length ≥ (BUFSIZE : Int) - 1 then [] else pending c) ++ tmp

/-- A slot with its buffer cut down to the pending bytes: what later steps can
read of it. -/
def client.observe (c : client) : client := { c with buf := pending c }

/-- The observable state: every slot's handle, `len` and pending bytes, and all
other fields as they are. Two states with the same observable state differ only
in buffer bytes at or after `len`. -/
def observe (s : Server) : Server := { s with clients := s.clients.map client.observe }

/-- The receive step on observable states, by lines: the slot is left alone when it
is free, removed on error or end-of-stream, and otherwise the lines of the buffer
contents are executed in order up to the first `QUIT`. -/
def line_step (s : Server) (i : Nat) (res : RecvResult) : Server :=
  match s.clients[i]? with
  | none => s
  | some c =>
    if c.fd < 0 then s
    else
      let removed := s.clients.set i { fd := -1, buf := [], len := 0 }
      if res.r ≤ 0 then
        { s with clients := removed, closed := s.closed ++ [c.fd],
                 maxfd := recompute_maxfd removed s.listener }
      else
        let sp := split_lines (step_data c res.tmp)
        let e := exec_lines c.fd s (sp.1.map strip_cr)
        if e.2 then
          { e.1 with clients := removed, closed := s.closed ++ [c.fd],
                     maxfd := recompute_maxfd removed s.listener }
        else
          { e.1 with clients := s.clients.set i { fd := c.fd, buf := sp.2, len := sp.2.length } }

/-- Successive `line_step`s on slot `i`, one per chunk. -/
def line_run (s : Server) (i : Nat) (chunks : List (List Nat)) : Server :=
  chunks.foldl (fun t x => line_step t i (.data x)) s

/-- Slot `i` exists, its array has `BUFSIZE` bytes and `0 ≤ len ≤ BUFSIZE - 1`. -/
def slot_ok (s : Server) (i : Nat) : Prop :=
  ∃ c, s.clients[i]? = some c ∧ c.buf.length = BUFSIZE ∧ 0 ≤ c.len ∧ c.len ≤ (BUFSIZE : Int) - 1

/-- The receive step of a live slot when the overflow rule does not apply: the
buffer contents are the pending bytes followed by the received ones. -/
def stream_step (s : Server) (i : Nat) (tmp : List Nat) : Server :=
  match s.clients[i]? with
  | none => s
  | some c =>
    if c.fd < 0 then s
    else
      let removed := s.clients.set i { fd := -1, buf := [], len := 0 }
      let sp := split_lines (pending c ++ tmp)
      let e := exec_lines c.fd s (sp.1.map strip_cr)
      if e.2 then
        { e.1 with clients := removed, closed := s.closed ++ [c.fd],
                   maxfd := recompute_maxfd removed s.listener }
      else
        { e.1 with clients := s.clients.set i { fd := c.fd, buf := sp.2, len := sp.2.length } }

/-- No read of the run triggers the overflow reset: at every step at which slot
`i` holds a connection, `len + r < BUFSIZE - 1`. -/
def no_overflow (s : Server) (i : Nat) : List (List Nat) → Prop
  | [] => True
  | x :: xs =>
    (∀ c, s.clients[i]? = some c → 0 ≤ c.fd → c.len + x.length < (BUFSIZE : Int) - 1) ∧
    (∀ s1, recv_step s i (.data x) = some s1 → no_overflow s1 i xs)

/-- The same condition, computed on observable states. -/
def line_no_overflow (s : Server) (i : Nat) : List (List Nat) → Bool
  | [] => true
  | x :: xs =>
    (match s.clients[i]? with
     | none => true
     | some c => decide (0 ≤ c.fd → c.len + x.length < (BUFSIZE : Int) - 1)) &&
    line_no_overflow (line_step s i (.data x)) i xs

/-! ## Vocabulary of the properties -/

/-- The four commands that read or change the counter. -/
inductive Cmd where
  | INCR
  | DECR
  | GET
  | RESET
deriving DecidableEq, Repr

/-- The token of a command. -/
def Cmd.token : Cmd → List Nat
  | .INCR => bytes "INCR"
  | .DECR => bytes "DECR"
  | .GET => bytes "GET"
  | .RESET => bytes "RESET"

/-- The commands executed since the last `RESET`, all of them when there was none. -/
def since_reset : List Cmd → List Cmd
  | [] => []
  | c :: cs =>
    if Cmd.RESET ∈ cs then since_reset cs
    else if c = Cmd.RESET then cs
    else c :: cs

/-- Number of `INCR` minus number of `DECR` executed since the last `RESET`. -/
def net (cs : List Cmd) : Int :=
  ((since_reset cs).count Cmd.INCR : Int) - ((since_reset cs).count Cmd.DECR : Int)

/-- A sequence of commands, each with the handle of the connection that issued it,
processed by `handle_command` in order. -/
def run_commands (s : Server) (cs : List (Cmd × Int)) : Server :=
  cs.foldl (fun t p => handle_command p.1.token p.2 t) s

/-- The reply the property expects for the `k`-th command of a sequence: `OK`, and
for `GET` the decimal string of the net count of the commands up to it. -/
def expected_reply (cs : List (Cmd × Int)) (k : Nat) : Option (Int × List Nat) :=
  match cs[k]? with
  | none => none
  | some (Cmd.GET, fd) => some (fd, fmt_lld (net ((cs.take (k + 1)).map Prod.fst)) ++ bytes "\n")
  | some (_, fd) => some (fd, bytes "OK\n")

/-- The `'\n'`-terminated lines of a byte sequence, each without its `'\n'`, and
the bytes after the last `'\n'`. -/
def lines_of : List Nat → List (List Nat) × List Nat
  | [] => ([], [])
  | b :: rest =>
    if b = NL then ([] :: (lines_of rest).1, (lines_of rest).2)
    else
      match (lines_of rest).1 with
      | [] => ([], b :: (lines_of rest).2)
      | l :: ls => ((b :: l) :: ls, (lines_of rest).2)

/-- The token spells `QUIT`, in any letter case. -/
def is_quit (t : List Nat) : Bool := t.map tolower == bytes "quit"

/-- The token spells one of the five commands, in any letter case. -/
def is_command (t : List Nat) : Bool :=
  decide (t.map tolower ∈ [bytes "incr", bytes "decr", bytes "get", bytes "reset", bytes "quit"])

/-- The other case of an ASCII letter; every other byte is left as it is. -/
def swap_case (c : Nat) : Nat :=
  if 65 ≤ c ∧ c ≤ 90 then c + 32 else if 97 ≤ c ∧ c ≤ 122 then c - 32 else c

/-- The second token is the first one with the case of some of its ASCII letters
changed. -/
def case_variant : List Nat → List Nat → Bool
  | [], [] => true
  | a :: as, b :: bs => (b == a || b == swap_case a) && case_variant as bs
  | _, _ => false

/-- The tokens up to and including the first `QUIT`. -/
def upto_quit : List (List Nat) → List (List Nat)
  | [] => []
  | t :: ts => if is_quit t then [t] else t :: upto_quit ts

/-- The tokens handed to `handle_command` one after the other on handle `fd`. -/
def interpret (fd : Int) (s : Server) (toks : List (List Nat)) : Server :=
  toks.foldl (fun t tok => handle_command tok fd t) s

/-- A slot that holds no connection, as `main` initialises it. -/
def free_slot : client := { fd := -1, buf := List.replicate BUFSIZE 0, len := 0 }

/-- A server with listener 3 and one connection, handle 4, registered in slot 0
with an empty buffer; slot 1 is free and the counter is 0. -/
def sample_server : Server :=
  { clients := [{ fd := 4, buf := List.replicate BUFSIZE 0, len := 0 }, free_slot],
    listener := 3, maxfd := 4, counter := 0, sent := [], closed := [], calls := [] }

/-! ## Accepting a connection and the start of `main` -/

/-- Source: the constant `FD_SETSIZE` of `<sys/select.h>`, the number of handles an
`fd_set` has a bit for. The constant is the platform's, and the table has
`MAX_CLIENTS`, that is `FD_SETSIZE`, slots; here it is the number of slots the
table of the state has. -/
def FD_SETSIZE (s : Server) : Nat := s.clients.length

/-- Source: `#define MAX_CLIENTS FD_SETSIZE`, the number of slots of the table
`struct client clients[MAX_CLIENTS]`. -/
def MAX_CLIENTS (s : Server) : Nat := FD_SETSIZE s

/-- Source: `for (i = 0; i < MAX_CLIENTS; ++i) if (clients[i].fd < 0) break;`
under `// find slot`: the value of `i` after the loop, the number of slots when
no slot is free. -/
def find_slot : List client → Nat
  | [] => 0
  | c :: cs => if c.fd < 0 then 0 else find_slot cs + 1

/-- Source: the block `if (FD_ISSET(listener, &readfds))` of `main`, `connfd`
being what `accept` returns. -/
def accept_step (s : Server) (connfd : Int) : Option Server :=
  if connfd < 0 then some s
  else
    let i := find_slot s.clients
    if i = MAX_CLIENTS s then some { s with closed := s.closed ++ [connfd] }
    else
      match s.clients[i]? with
      | none => none
      | some c =>
        match store c.buf 0 0 with
        | none => none
        | some b =>
          some { s with clients := s.clients.set i { fd := connfd, buf := b, len := 0 },
                        maxfd := if connfd > s.maxfd then connfd else s.maxfd }

/-- Source: the start of `main`, from the loop that clears the table to
`maxfd = listener`; `mem` is what the arrays `buf` of the slots hold before. -/
def init_server (mem : List (List Nat)) (listener : Int) : Server :=
  { clients := mem.map (fun b => { fd := -1, buf := b.set 0 0, len := 0 }),
    listener := listener, maxfd := listener, counter := 0, sent := [], closed := [], calls := [] }

/-- The sockets of `live` that are still open after a step from `s` to `s1`: those
the step did not `close`. -/
def open_after (live : List Int) (s s1 : Server) : List Int :=
  live.filter (fun fd => decide (fd ∉ s1.closed.drop s.closed.length))

/-! ## The descriptor set and the loop of `main` -/

/-- Source: `FD_ZERO(&readfds)`: a set of `n` bits with no handle in it. -/
def FD_ZERO (n : Nat) : List Bool := List.replicate n false

/-- Source: `FD_SET(fd, &readfds)`: sets the bit of `fd`. A handle that is negative
or not below the number of bits is a store outside the set. -/
def FD_SET (fd : Int) (set : List Bool) : Option (List Bool) :=
  if 0 ≤ fd ∧ fd < (set.length : Int) then some (set.set fd.toNat true) else none

/-- Source: `FD_ISSET(fd, &readfds)`: reads the bit of `fd`. A handle that is
negative or not below the number of bits is a read outside the set. -/
def FD_ISSET (fd : Int) (set : List Bool) : Option Bool :=
  if 0 ≤ fd ∧ fd < (set.length : Int) then set[fd.toNat]? else none

/-- Source: `for (int i = 0; i < MAX_CLIENTS; ++i) if (clients[i].fd >= 0)
FD_SET(clients[i].fd, &readfds);` at the head of the loop of `main`. -/
def fd_set_clients : List client → List Bool → Option (List Bool)
  | [], r => some r
  | c :: cs, r =>
    if c.fd ≥ 0 then
      match FD_SET c.fd r with
      | none => none
      | some r1 => fd_set_clients cs r1
    else fd_set_clients cs r

/-- Source: the head of the loop of `main`, from `FD_ZERO(&readfds)` to the end of
the loop that adds the handles of the table: the set handed to `select`. -/
def fill_readfds (s : Server) : Option (List Bool) :=
  match FD_SET s.listener (FD_ZERO (FD_SETSIZE s)) with
  | none => none
  | some r => fd_set_clients s.clients r

/-- Source: `select(maxfd + 1, &readfds, NULL, NULL, NULL)`, its effect on the set:
`select` examines the first `nfds` bits and leaves set those whose handle is
ready, `ready` being the handles that can be read. More bits than the set has is
an access outside it. -/
def select (nfds : Int) (readfds : List Bool) (ready : Nat → Bool) : Option (List Bool) :=
  if nfds ≤ (readfds.length : Int) then
    some ((List.range readfds.length).map
      (fun (k : Nat) => decide ((k : Int) < nfds) && (readfds.getD k false && ready k)))
  else none

/-- How a step of the process ends: it goes on in a state, `main` has left its
loop and returns, or the process has been ended by a signal. -/
inductive Outcome where
  | running (s : Server)
  | stopped (s : Server)
  | killed
deriving DecidableEq, Repr

/-- Source: the body of `for (int i = 0; i < MAX_CLIENTS; ++i)` for a slot reported
ready, with the state of the peer. `handle_command` calls
`send(fd, out, strlen(out), 0)` with flags 0 and the program neither handles nor
blocks `SIGPIPE`, so the first `send` after the peer has reset the connection
raises the signal, whose default action ends the process. `reset` is `none` when
the peer keeps the connection, and `some k` when it has reset it and `k` more
calls of `send` go through; the calls of the step are those it adds to `sent`. -/
def recv_event (s : Server) (i : Nat) (res : RecvResult) (reset : Option Nat) :
    Option Outcome :=
  match recv_step s i res with
  | none => none
  | some s1 =>
    match reset with
    | none => some (.running s1)
    | some k => if k < s1.sent.length - s.sent.length then some .killed else some (.running s1)

/-- What the environment does during one turn of the loop of `main`: the value
`select` returns and whether `errno` is `EINTR` when it is negative, the handles
that can be read, what `accept` returns if it is called, and for each slot what
`recv` returns and the state of its peer (see `recv_event`) if it is read. -/
structure Turn where
  nready : Int
  eintr : Bool
  ready : Nat → Bool
  connfd : Int
  recvs : Nat → RecvResult
  resets : Nat → Option Nat

/-- Source: the loop `for (int i = 0; i < MAX_CLIENTS; ++i)` at the end of the loop
of `main`, from slot `i` on, `rs` being the set `select` has left and `nready` the
count that is left; the first argument bounds the number of slots to visit. -/
def serve_slots (rs : List Bool) (t : Turn) : Nat → Nat → Int → Server → Option Outcome
  | 0, i, _, s => if i < MAX_CLIENTS s then none else some (.running s)
  | fuel + 1, i, nready, s =>
    if i < MAX_CLIENTS s then
      match s.clients[i]? with
      | none => none
      | some c =>
        if c.fd < 0 then serve_slots rs t fuel (i + 1) nready s
        else
          match FD_ISSET c.fd rs with
          | none => none
          | some false => serve_slots rs t fuel (i + 1) nready s
          | some true =>
            match recv_event s i (t.recvs i) (t.resets i) with
            | none => none
            | some (.running s1) =>
              if nready - 1 ≤ 0 then some (.running s1)
              else serve_slots rs t fuel (i + 1) (nready - 1) s1
            | some o => some o
    else some (.running s)

/-- Source: one turn of `while (1)` in `main`, and for the `break` the
`close(listener)` that follows the loop. -/
def main_turn (s : Server) (t : Turn) : Option Outcome :=
  match fill_readfds s with
  | none => none
  | some readfds =>
    match select (s.maxfd + 1) readfds t.ready with
    | none => none
    | some rs =>
      if t.nready < 0 then
        if t.eintr then some (.running s)
        else some (.stopped { s with closed := s.closed ++ [s.listener] })
      else
        match FD_ISSET s.listener rs with
        | none => none
        | some false => serve_slots rs t (MAX_CLIENTS s) 0 t.nready s
        | some true =>
          match accept_step s t.connfd with
          | none => none
          | some s1 =>
            if t.nready - 1 ≤ 0 then some (.running s1)
            else serve_slots rs t (MAX_CLIENTS s1) 0 (t.nready - 1) s1

/-- The handle a turn adds to the open client sockets: what `accept` returns, when
the turn calls it and it succeeds. -/
def accepted (s : Server) (t : Turn) : List Int :=
  match fill_readfds s with
  | none => []
  | some readfds =>
    match select (s.maxfd + 1) readfds t.ready with
    | none => []
    | some rs =>
      if 0 ≤ t.nready ∧ FD_ISSET s.listener rs = some true ∧ 0 ≤ t.connfd then [t.connfd]
      else []

/-- What `recv(fd, tmp, sizeof(tmp) - 1, 0)` guarantees in a turn: at most the
`BUFSIZE - 1` bytes asked for. -/
def recv_bounded (t : Turn) : Prop := ∀ i, (t.recvs i).tmp.length ≤ BUFSIZE - 1

/-- A handle that `accept` returns in the turn is in no slot of the table. -/
def fresh_accept (s : Server) (t : Turn) : Prop :=
  0 ≤ t.connfd → ∀ c ∈ s.clients, c.fd ≠ t.connfd

/-- A handle that `accept` returns in the turn is below `FD_SETSIZE`. -/
def small_accept (s : Server) (t : Turn) : Prop := t.connfd < (FD_SETSIZE s : Int)

/-- The states in which `main` is at the head of its loop, each with the client
sockets that are open in it: the state after the start of `main`, and the state
in which a turn leaves the process running. `P` is what is assumed of the
environment in each turn, besides `recv_bounded`. -/
inductive Reachable (P : Server → Turn → Prop) (mem : List (List Nat)) (listener : Int) :
    Server → List Int → Prop where
  | init : Reachable P mem listener (init_server mem listener) []
  | turn (s s1 : Server) (live : List Int) (t : Turn) :
      Reachable P mem listener s live → recv_bounded t → P s t →
      main_turn s t = some (.running s1) →
      Reachable P mem listener s1 (open_after (accepted s t ++ live) s s1)

/-- A turn in which only the listening handle `listener` is ready and `accept`
returns `connfd`. -/
def accept_turn (listener : Nat) (connfd : Int) : Turn :=
  { nready := 1, eintr := false, ready := fun k => k == listener, connfd := connfd,
    recvs := fun _ => .error, resets := fun _ => none }

/-- A table of two connections: handle 4 with an empty buffer in slot 0, and
handle 5 with the pending bytes "IN" in slot 1. -/
def two_clients : Server :=
  { clients := [{ fd := 4, buf := List.replicate BUFSIZE 0, len := 0 },
      { fd := 5, buf := bytes "IN" ++ List.replicate (BUFSIZE - 2) 0, len := 2 }],
    listener := 3, maxfd := 5, counter := 0, sent := [], closed := [], calls := [] }

/-- The largest of the listening handle and the handles of the occupied slots. -/
def max_handle (s : Server) : Int :=
  ((s.clients.filter (fun c => decide (0 ≤ c.fd))).map client.fd).foldr max s.listener

/-! ## Reading a decimal number -/

/-- The value of a string of decimal digits; `none` when the string is empty or
holds a byte that is not a digit. -/
def digits_value (ds : List Nat) : Option Nat :=
  if ds ≠ [] ∧ ds.all (fun d => decide (48 ≤ d ∧ d ≤ 57)) then
    some (ds.foldl (fun a d => 10 * a + (d - 48)) 0)
  else none

/-- The integer a decimal string denotes: an optional `'-'` and then digits. -/
def parse_decimal : List Nat → Option Int
  | [] => none
  | b :: ds =>
    if b = 45 then
      match digits_value ds with
      | none => none
      | some n => some (-(n : Int))
    else
      match digits_value (b :: ds) with
      | none => none
      | some n => some (n : Int)

/-- The handles of the slots, by slot number. -/
def handles (s : Server) : List Int := s.clients.map client.fd

/-- The invariant of the connection table, for the listening handle `listener` and
the open client sockets `live`: every array has `BUFSIZE` bytes and `len` is within
it; a slot that holds no connection has `fd = -1` and `len = 0`; the handles that
are not negative are the open client sockets, each in one slot; and `maxfd` is the
largest of the listening handle and the handles of the table. -/
def table_inv (listener : Int) (s : Server) (live : List Int) : Prop :=
  s.listener = listener ∧
  (∀ c ∈ s.clients, c.buf.length = BUFSIZE ∧ 0 ≤ c.len ∧ c.len ≤ (BUFSIZE : Int) - 1 ∧
    (c.fd < 0 → c.fd = -1 ∧ c.len = 0)) ∧
  (∀ fd, fd ∈ live ↔ fd ∈ handles s ∧ 0 ≤ fd) ∧
  (∀ (j k : Nat) (a : Int),
    (handles s)[j]? = some a → (handles s)[k]? = some a → 0 ≤ a → j = k) ∧
  s.listener ≤ s.maxfd ∧ (∀ a ∈ handles s, a ≤ s.maxfd) ∧
  (s.maxfd = s.listener ∨ (s.maxfd ∈ handles s ∧ 0 ≤ s.maxfd))

/-- The part of the invariant that `maxfd` needs: every array has `BUFSIZE` bytes
and `len` is within it, and `maxfd` is the largest of the listening handle and the
handles of the table. -/
def max_inv (listener : Int) (s : Server) : Prop :=
  s.listener = listener ∧
  (∀ c ∈ s.clients, c.buf.length = BUFSIZE ∧ 0 ≤ c.len ∧ c.len ≤ (BUFSIZE : Int) - 1) ∧
  s.listener ≤ s.maxfd ∧ (∀ a ∈ handles s, a ≤ s.maxfd) ∧
  (s.maxfd = s.listener ∨ (s.maxfd ∈ handles s ∧ 0 ≤ s.maxfd))

/-- A server that holds one connection, with handle `fd` and an empty buffer, and
nothing else. -/
def lone_connection (fd : Int) : Server :=
  { clients := [{ fd := fd, buf := [], len := 0 }], listener := 0, maxfd := fd, counter := 0,
    sent := [], closed := [], calls := [] }

/-- The calls of `handle_command` that the reads `chunks` cause on a connection
with handle `fd` that starts with an empty buffer: a function of the handle and of
the bytes read, of nothing else. -/
def session_calls (fd : Int) (chunks : List (List Nat)) : List (Int × List Nat) :=
  (line_run (lone_connection fd) 0 chunks).calls

/-! ## The HTTP bridge (`client.c`)

The bridge serves one HTTP request per accepted connection and talks to the counter
server over one upstream socket. The socket calls on the upstream socket are given
by an `Upstream`: what `connect_to_server` and `send` return and which bytes the
peer sends back. The bytes that have arrived are read one by one by `recv`; when
none is left `recv` returns a value `<= 0` (a `recv` that would wait is not part of
the model). -/

/-- Source: `#define BUFSIZE 8192` of `client.c`. -/
def Bridge.BUFSIZE : Nat := 8192

/-- The function `strcmp(a, b)`: both arguments are read as C strings; the result
is the difference of the first pair of bytes that differ, `0` when there is none. -/
def strcmp : List Nat → List Nat → Int
  | [], [] => 0
  | [], b :: _ => 0 - (b : Int)
  | a :: _, [] => (a : Int)
  | a :: as, b :: bs =>
    if a ≠ b then (a : Int) - (b : Int)
    else if a = 0 then 0
    else strcmp as bs

/-- The function `isspace` in the C locale. -/
def isspace (c : Nat) : Bool := c == 32 || (9 ≤ c && c ≤ 13)

/-- The conversion `%Ns` of `sscanf` on the rest `s` of the input string: white
space is skipped, then at most `n` bytes that are not white space are stored. The
result is the string stored and the input left; `none` when the input ends before a
byte is stored. -/
def scan_s (n : Nat) (s : List Nat) : Option (List Nat × List Nat) :=
  let s1 := s.dropWhile isspace
  let tok := (s1.takeWhile (fun c => !isspace c)).take n
  if tok = [] then none else some (tok, s1.drop tok.length)

/-- The call `sscanf(buf, "%15s %255s", method, path)`: the value returned and the
strings stored in `method` and `path`. -/
def sscanf_request (buf : List Nat) : Int × List Nat × List Nat :=
  match scan_s 15 (cstr buf) with
  | none => (-1, [], [])
  | some (method, rest) =>
    match scan_s 255 rest with
    | none => (1, method, [])
    | some (path, _) => (2, method, path)

/-- What the socket calls on the upstream socket do, `σ` being the state of the
network and of the peer. `connect` is `connect_to_server(host, port)`: the socket or
`-1`, the state after, and the bytes the peer sends at once. `send` is
`send(sock, bytes, n, 0)`: the value returned, the state after, and the bytes the
peer sends in answer. `close` is `close(sock)`. -/
structure Upstream (σ : Type) where
  connect : σ → Int × σ × List Nat
  send : σ → Int → List Nat → Int × σ × List Nat
  close : σ → Int → σ

/-- The bridge's side of the upstream connection: the state of the peer, the bytes
that have arrived and are not read yet, and the variable `upstream_sock` of `main`. -/
structure Net (σ : Type) where
  peer : σ
  inbox : List Nat
  psock : Int

/-- Source: the loop `while (pos + 1 < outlen)` of `send_command_and_read` with the
statements after it. The first list is the bytes the successive calls
`recv(sock, out + pos, 1, 0)` return, after which `recv` returns a value `<= 0`;
`out` is the content of `out[0 .. pos)`, the terminator is stored at `out[pos]`
when the function returns 0. The result is the value returned, `out`, and the
bytes not read. -/
def read_reply (outlen : Nat) : List Nat → List Nat → Int × List Nat × List Nat
  | [], out => if out.length + 1 < outlen then (-1, out, []) else (0, out, [])
  | b :: rest, out =>
    if out.length + 1 < outlen then
      if b = CR then read_reply outlen rest out
      else if b = NL then (0, out, rest)
      else read_reply outlen rest (out ++ [b])
    else (0, out, b :: rest)

/-- Source: `send_command_and_read(psock, cmd, out, outlen, host, port)`: the value
returned, the content of `out` before its terminator, and the state after. -/
def send_command_and_read {σ : Type} (U : Upstream σ) (n : Net σ) (cmd : List Nat)
    (outlen : Nat) : Int × List Nat × Net σ :=
  if n.psock < 0 ∧ (U.connect n.peer).1 < 0 then
    (-1, [], { n with peer := (U.connect n.peer).2.1 })
  else
    let n1 : Net σ :=
      if n.psock < 0 then
        { peer := (U.connect n.peer).2.1, inbox := (U.connect n.peer).2.2,
          psock := (U.connect n.peer).1 }
      else n
    if (cstr cmd).length + 1 ≥ 256 then (-1, [], n1)
    else
      let r := U.send n1.peer n1.psock (cstr cmd ++ [NL])
      if r.1 < 0 then (-1, [], { peer := U.close r.2.1 n1.psock, inbox := [], psock := -1 })
      else
        let rd := read_reply outlen (n1.inbox ++ r.2.2) []
        if rd.1 < 0 then
          (-1, rd.2.1, { peer := U.close r.2.1 n1.psock, inbox := [], psock := -1 })
        else (0, rd.2.1, { peer := r.2.1, inbox := rd.2.2, psock := n1.psock })

/-- The text `snprintf` builds in `write_http_response`. -/
def http_header (status : Int) (status_text content_type : List Nat) (body_len : Int) :
    List Nat :=
  bytes "HTTP/1.1 " ++ fmt_lld status ++ bytes " " ++ cstr status_text ++
    bytes "\r\nContent-Type: " ++ cstr content_type ++
    bytes "\r\nContent-Length: " ++ fmt_lld body_len ++
    bytes "\r\nAccess-Control-Allow-Origin: *\r\nConnection: close\r\n\r\n"

/-- Source: `write_http_response(clientfd, status, status_text, content_type, body)`:
the sends on `clientfd`, in order. The header is sent with the length `snprintf`
returns; the step fails when that is not below the 1024 bytes of `header`. -/
def write_http_response (clientfd : Int) (status : Int) (status_text content_type body : List Nat) :
    Option (List (Int × List Nat)) :=
  let body_len := (cstr body).length
  let header := http_header status status_text content_type body_len
  if header.length < 1024 then
    some ((clientfd, header) :: (if body_len > 0 then [(clientfd, cstr body)] else []))
  else none

/-- What `snprintf(body, sizeof(body), "{\"value\": %s}\n", reply)` leaves in the
256 bytes of `body`. -/
def value_body (reply : List Nat) : List Nat :=
  (bytes "\x7b\"value\": " ++ cstr reply ++ bytes "\x7d\n").take 255

/-- Source: `handle_client(clientfd, psock, host, port)`, `req` being what the
`recv` on `clientfd` returns: the sends on `clientfd` and the state after. -/
def handle_client {σ : Type} (U : Upstream σ) (n : Net σ) (clientfd : Int) (req : RecvResult) :
    Option (List (Int × List Nat) × Net σ) :=
  if req.r ≤ 0 then some ([], n)
  else if ¬ req.r < Bridge.BUFSIZE then none
  else
    let buf := req.tmp ++ [0]
    let parsed := sscanf_request buf
    let method := parsed.2.1
    let path := parsed.2.2
    if parsed.1 ≠ 2 then
      (write_http_response clientfd 400 (bytes "Bad Request") (bytes "text/plain")
        (bytes "Bad Request\n")).map (fun w => (w, n))
    else if strcmp method (bytes "GET") = 0 ∧ strcmp path (bytes "/counter") = 0 then
      let r := send_command_and_read U n (bytes "GET") 256
      if r.1 = 0 then
        (write_http_response clientfd 200 (bytes "OK") (bytes "application/json")
          (value_body r.2.1)).map (fun w => (w, r.2.2))
      else
        (write_http_response clientfd 500 (bytes "Internal Server Error")
          (bytes "application/json")
          (bytes "\x7b\"error\": \"server unreachable\"\x7d\n")).map (fun w => (w, r.2.2))
    else if strcmp method (bytes "POST") = 0 ∧
        (strcmp path (bytes "/counter/incr") = 0 ∨ strcmp path (bytes "/counter/decr") = 0 ∨
          strcmp path (bytes "/counter/reset") = 0) then
      let cmd : Option (List Nat) :=
        if strcmp path (bytes "/counter/incr") = 0 then some (bytes "INCR")
        else if strcmp path (bytes "/counter/decr") = 0 then some (bytes "DECR")
        else if strcmp path (bytes "/counter/reset") = 0 then some (bytes "RESET")
        else none
      match cmd with
      | none =>
        (write_http_response clientfd 404 (bytes "Not Found") (bytes "application/json")
          (bytes "\x7b\"error\": \"not found\"\x7d\n")).map (fun w => (w, n))
      | some cmd =>
        let r1 := send_command_and_read U n cmd 256
        if r1.1 = 0 then
          let r2 := send_command_and_read U r1.2.2 (bytes "GET") 256
          if r2.1 = 0 then
            (write_http_response clientfd 200 (bytes "OK") (bytes "application/json")
              (value_body r2.2.1)).map (fun w => (w, r2.2.2))
          else
            (write_http_response clientfd 500 (bytes "Internal Server Error")
              (bytes "application/json")
              (bytes "\x7b\"error\": \"read failed\"\x7d\n")).map (fun w => (w, r2.2.2))
        else
          (write_http_response clientfd 500 (bytes "Internal Server Error")
            (bytes "application/json")
            (bytes "\x7b\"error\": \"command failed\"\x7d\n")).map (fun w => (w, r1.2.2))
    else if strcmp method (bytes "OPTIONS") = 0 then
      some ([(clientfd, cstr (bytes "HTTP/1.1 204 No Content\r\nAccess-Control-Allow-Origin: *\r\nAccess-Control-Allow-Methods: GET, POST, OPTIONS\r\nAccess-Control-Allow-Headers: Content-Type\r\nContent-Length: 0\r\nConnection: close\r\n\r\n"))], n)
    else
      (write_http_response clientfd 404 (bytes "Not Found") (bytes "application/json")
        (bytes "\x7b\"error\": \"not found\"\x7d\n")).map (fun w => (w, n))

/-- Source: the loop `for (;;)` of `main` in `client.c`: one call of `handle_client`
for each accepted connection; the result is the bytes sent on each connection, in
order, and the state after. -/
def serve {σ : Type} (U : Upstream σ) : Net σ → List (Int × RecvResult) →
    Option (List (List Nat) × Net σ)
  | n, [] => some ([], n)
  | n, (clientfd, req) :: rest =>
    match handle_client U n clientfd req with
    | none => none
    | some (w, n1) =>
      match serve U n1 rest with
      | none => none
      | some (ws, n2) => some ((w.map Prod.snd).flatten :: ws, n2)

/-! ## The counter server as the upstream peer -/

/-- The counter server at the other end of the upstream socket: the state of the
server, the slot of its table that holds the bridge's connection (when it holds
it), the handle `accept` returns in the server for a connection of the bridge, and
the socket `connect_to_server` returns in the bridge. -/
structure Link where
  server : Server
  slot : Option Nat
  connfd : Int
  sock : Int

/-- The bytes the server sent on handle `fd` during a step from `s` to `s1`. -/
def replies (s s1 : Server) (fd : Int) : List Nat :=
  (((s1.sent.drop s.sent.length).filter (fun p => decide (p.1 = fd))).map Prod.snd).flatten

/-- A connect of the bridge: the server runs its accept step; the connection is
held by the free slot with the lowest index when there is one. -/
def server_connect (l : Link) : Int × Link × List Nat :=
  match accept_step l.server l.connfd with
  | none => (-1, l, [])
  | some s1 =>
    (l.sock,
      { l with
        server := s1,
        slot := if 0 ≤ l.connfd ∧ find_slot l.server.clients < MAX_CLIENTS l.server
                then some (find_slot l.server.clients) else none },
      [])

/-- A `send` of the bridge: the bytes reach the server in one read of the bridge's
slot; the replies of that receive step are the bytes that arrive at the bridge. -/
def server_send (l : Link) (x : List Nat) : Int × Link × List Nat :=
  match l.slot with
  | none => (-1, l, [])
  | some i =>
    match recv_step l.server i (.data x) with
    | none => (-1, l, [])
    | some s1 =>
      (x.length,
        { l with
          server := s1,
          slot := if (s1.clients[i]?).map client.fd = some l.connfd then some i else none },
        replies l.server s1 l.connfd)

/-- A `close` of the bridge: the server reads end-of-stream on the bridge's slot. -/
def server_close (l : Link) : Link :=
  match l.slot with
  | none => l
  | some i =>
    match recv_step l.server i (.data []) with
    | none => l
    | some s1 => { l with server := s1, slot := none }

/-- The socket calls of the bridge when the peer is the counter server. -/
def counter_upstream : Upstream Link :=
  { connect := server_connect, send := fun l _ x => server_send l x,
    close := fun l _ => server_close l }

/-! ## Vocabulary of the properties of the bridge -/

/-- The three routes that change the counter. -/
inductive Route where
  | incr
  | decr
  | reset
deriving DecidableEq, Repr

/-- The requests of the property: `POST` on one of the three routes, or
`GET /counter`. -/
inductive Req where
  | post (r : Route)
  | get
deriving DecidableEq, Repr

/-- The method of a request. -/
def Req.method : Req → List Nat
  | .post _ => bytes "POST"
  | .get => bytes "GET"

/-- The path of a request. -/
def Req.path : Req → List Nat
  | .post .incr => bytes "/counter/incr"
  | .post .decr => bytes "/counter/decr"
  | .post .reset => bytes "/counter/reset"
  | .get => bytes "/counter"

/-- The counter after the command of a request, `c` being the counter before:
one more, one less (both within 64 bits), 0, or unchanged. -/
def Req.next (c : Int) : Req → Int
  | .post .incr => wrap64 (c + 1)
  | .post .decr => wrap64 (c - 1)
  | .post .reset => 0
  | .get => c

/-- The bytes `text`, received in one read, are an HTTP request whose request line
has the method and the path of `q`. -/
def is_request (q : Req) (text : List Nat) : Prop :=
  text ≠ [] ∧ text.length < Bridge.BUFSIZE ∧ sscanf_request (text ++ [0]) = (2, q.method, q.path)

/-- The response with status 200 whose body is the JSON object with the member
`value` equal to `n`, followed by a line feed. -/
def ok_response (n : Int) : List Nat :=
  http_header 200 (bytes "OK") (bytes "application/json")
      ((bytes "\x7b\"value\": " ++ fmt_lld n ++ bytes "\x7d\n").length : Nat) ++
    (bytes "\x7b\"value\": " ++ fmt_lld n ++ bytes "\x7d\n")

/-- The responses the property expects for a sequence of requests, `c` being the
counter of the server before the first: each shows the counter after its command. -/
def shown : Int → List Req → List (List Nat)
  | _, [] => []
  | c, q :: qs => ok_response (q.next c) :: shown (q.next c) qs

/-- The header lines of an HTTP message: the lines, each ended by `"\r\n"`, before
the first empty line; `none` when no empty line ends the header block. The first
argument is the part of the current line already read. -/
def header_lines_from : List Nat → List Nat → Option (List (List Nat))
  | _, [] => none
  | cur, a :: tl =>
    if a = NL ∧ cur.getLast? = some CR then
      if cur.dropLast = [] then some []
      else (header_lines_from [] tl).map (fun ls => cur.dropLast :: ls)
    else header_lines_from (cur ++ [a]) tl

/-- The header lines of an HTTP message. -/
def header_lines (m : List Nat) : Option (List (List Nat)) := header_lines_from [] m

/-- An upstream peer that cannot be reached: `connect_to_server` returns `-1`. -/
def dead_upstream : Upstream Unit :=
  { connect := fun _ => (-1, (), []), send := fun _ _ _ => (-1, (), []), close := fun _ _ => () }

/-- The bridge holds an upstream socket and the server holds that connection in a
slot whose buffer is empty; nothing is waiting to be read; the counter is within
64 bits. -/
def linked (n : Net Link) : Prop :=
  0 ≤ n.psock ∧ n.inbox = [] ∧ 0 ≤ n.peer.connfd ∧
  (-2 ^ 63 ≤ n.peer.server.counter ∧ n.peer.server.counter < 2 ^ 63) ∧
  ∃ (i : Nat) (c : client), n.peer.slot = some i ∧ n.peer.server.clients[i]? = some c ∧
    c.fd = n.peer.connfd ∧ c.buf.length = BUFSIZE ∧ c.len = 0

/-- The bridge has no upstream socket yet (`upstream_sock` is negative, as `main`
sets it), the table of the server has its arrays and a free slot, the handles the
two sides will get for the connection are not negative, and the counter is within
64 bits. -/
def unlinked (n : Net Link) : Prop :=
  n.psock < 0 ∧ 0 ≤ n.peer.sock ∧ 0 ≤ n.peer.connfd ∧
  (-2 ^ 63 ≤ n.peer.server.counter ∧ n.peer.server.counter < 2 ^ 63) ∧
  (∀ c ∈ n.peer.server.clients, c.buf.length = BUFSIZE) ∧
  (∃ c ∈ n.peer.server.clients, c.fd < 0)

/-- The text of the reply line of a command, `c` being the counter before it. -/
def Cmd.reply_text (c : Int) : Cmd → List Nat
  | .GET => fmt_lld c
  | _ => bytes "OK"

/-- The counter after a command, `c` being the counter before it. -/
def Cmd.apply (c : Int) : Cmd → Int
  | .INCR => wrap64 (c + 1)
  | .DECR => wrap64 (c - 1)
  | .GET => c
  | .RESET => 0

/-! ## Lemmas: the receive step computes the line view -/

theorem split_line_some {D l rest : List Nat} (h : split_line D = some (l, rest)) :
    D = l ++ NL :: rest ∧ ∀ b ∈ l, b ≠ NL ∧ b ≠ 0 := by
  induction D generalizing l rest with
  | nil => simp [split_line] at h
  | cons b D ih =>
    rw [split_line] at h
    split_ifs at h with h1 h2
    · simp at h
      obtain ⟨rfl, rfl⟩ := h
      simp [h1]
    · cases hs : split_line D with
      | none => simp [hs] at h
      | some p =>
        obtain ⟨l1, r1⟩ := p
        simp [hs] at h
        obtain ⟨rfl, rfl⟩ := h
        obtain ⟨e, hl⟩ := ih hs
        refine ⟨by simp [e], ?_⟩
        intro x hx
        rcases List.mem_cons.mp hx with rfl | hx
        · exact ⟨h1, h2⟩
        · exact hl x hx

theorem split_lines_unfold (D : List Nat) :
    split_lines D = match split_line D with
      | none => ([], D)
      | some (l, rest) => (l :: (split_lines rest).1, (split_lines rest).2) := by
  induction D with
  | nil => simp [split_lines, split_line]
  | cons b D ih =>
    rw [split_lines, split_line]
    by_cases h0 : b = 0
    · have : (0 : Nat) ≠ NL := by decide
      simp [h0, this]
    · by_cases h1 : b = NL
      · have : NL ≠ 0 := by decide
        simp [h1, this]
      · simp only [h0, h1, if_false]
        rw [ih]
        cases hs : split_line D with
        | none => simp
        | some p => simp

theorem strchr_from_data (D post : List Nat) (pos : Nat) :
    strchr_from (D ++ 0 :: post) NL pos
      = some ((split_line D).map (fun p => pos + p.1.length)) := by
  induction D generalizing pos with
  | nil => simp [strchr_from, split_line, NL]
  | cons b D ih =>
    rw [List.cons_append, strchr_from, split_line]
    split_ifs with h1 h2
    · simp
    · simp
    · rw [ih]
      cases hs : split_line D with
      | none => simp
      | some p => simp; omega

theorem tolower_eq_zero {y : Nat} : tolower y = 0 ↔ y = 0 := by
  unfold tolower
  split_ifs with h
  · exact ⟨fun h1 => h1.elim, fun h1 => by omega⟩
  · rfl

theorem strcasecmp_cstr (a b : List Nat) : strcasecmp (cstr a) b = strcasecmp a b := by
  induction a generalizing b with
  | nil => simp [cstr]
  | cons x a ih =>
    by_cases hx : x = 0
    · subst hx
      cases b with
      | nil => simp [cstr, strcasecmp, tolower]
      | cons y b =>
        simp only [cstr, if_true, strcasecmp]
        have h0 : tolower 0 = 0 := by decide
        by_cases hy : tolower y = 0
        · simp [h0, hy]
        · have : (0 : Nat) ≠ tolower y := fun h => hy h.symm
          simp [h0, this]
    · have : cstr (x :: a) = x :: cstr a := by simp [cstr, hx]
      rw [this]
      cases b with
      | nil => simp [strcasecmp]
      | cons y b => simp only [strcasecmp, ih]

theorem cstr_idem (a : List Nat) : cstr (cstr a) = cstr a := by
  induction a with
  | nil => simp [cstr]
  | cons x a ih =>
    by_cases hx : x = 0
    · simp [cstr, hx]
    · simp [cstr, hx, ih]

theorem handle_command_cstr (cmd : List Nat) (fd : Int) (s : Server) :
    handle_command (cstr cmd) fd s = handle_command cmd fd s := by
  simp only [handle_command, strcasecmp_cstr, cstr_idem]

theorem cstr_append_zero (l x : List Nat) (h : ∀ b ∈ l, b ≠ 0) : cstr (l ++ 0 :: x) = l := by
  induction l with
  | nil => simp [cstr]
  | cons b l ih =>
    have hb := h b (List.mem_cons_self _ _)
    have := ih (fun y hy => h y (List.mem_cons_of_mem _ hy))
    simp [cstr, hb, this]


theorem store_at (a b : List Nat) (x v : Nat) (k : Int) (hk : k = a.length) :
    store (a ++ x :: b) k v = some (a ++ v :: b) := by
  subst hk
  simp [store]

theorem strip_cr_clean {l : List Nat} (hl : ∀ b ∈ l, b ≠ NL ∧ b ≠ 0) :
    ∀ b ∈ strip_cr l, b ≠ 0 := by
  intro b hb
  unfold strip_cr at hb
  split_ifs at hb
  · exact (hl b (List.mem_of_mem_dropLast hb)).2
  · exact (hl b hb).2

theorem trim_cr_eq (b : List Nat) (ls nl : Nat) (h : nl < b.length) :
    trim_cr b ls nl
      = if nl > ls ∧ b[nl - 1]? = some CR then store b ((nl : Int) - 1) 0 else some b := by
  unfold trim_cr load
  by_cases h1 : nl > ls
  · have h2 : (0 : Int) ≤ (nl : Int) - 1 ∧ (nl : Int) - 1 < (b.length : Int) := by omega
    have h3 : ((nl : Int) - 1).toNat = nl - 1 := by omega
    have h4 : nl - 1 < b.length := by omega
    simp only [h1, if_true, h2, and_self, h3, true_and, List.getElem?_eq_getElem h4,
      Option.some.injEq]
  · simp only [h1, if_false, false_and]

/-- The two stores of one loop iteration: `*newline = 0` and the trim of `'\r'`. -/
theorem trim_spec (pre l rest post : List Nat) :
    ∃ b2 pre2,
      trim_cr (pre ++ l ++ 0 :: (rest ++ 0 :: post)) pre.length (pre.length + l.length)
        = some b2 ∧
      b2 = pre2 ++ rest ++ 0 :: post ∧ pre2.length = pre.length + l.length + 1 ∧
      ∃ x, b2.drop pre.length = strip_cr l ++ 0 :: x := by
  rw [trim_cr_eq _ _ _ (by simp only [List.length_append, List.length_cons]; omega)]
  by_cases hcr : l.getLast? = some CR
  · obtain ⟨l1, rfl⟩ := List.getLast?_eq_some_iff.mp hcr
    have hget : (pre ++ (l1 ++ [CR]) ++ 0 :: (rest ++ 0 :: post))[pre.length + (l1 ++ [CR]).length - 1]? = some CR := by
      have : pre ++ (l1 ++ [CR]) ++ 0 :: (rest ++ 0 :: post) = (pre ++ l1) ++ CR :: (0 :: (rest ++ 0 :: post)) := by simp
      rw [this, List.getElem?_append_right (by simp)]
      simp
    have hst : store (pre ++ (l1 ++ [CR]) ++ 0 :: (rest ++ 0 :: post)) (((pre.length + (l1 ++ [CR]).length : Nat) : Int) - 1) 0
        = some ((pre ++ l1) ++ 0 :: (0 :: (rest ++ 0 :: post))) := by
      have : pre ++ (l1 ++ [CR]) ++ 0 :: (rest ++ 0 :: post) = (pre ++ l1) ++ CR :: (0 :: (rest ++ 0 :: post)) := by simp
      rw [this]
      apply store_at
      simp only [List.length_append, List.length_singleton, Nat.cast_add, Nat.cast_one]
      omega
    refine ⟨(pre ++ l1) ++ 0 :: (0 :: (rest ++ 0 :: post)), pre ++ l1 ++ [0, 0], ?_, ?_, ?_, ?_⟩
    · rw [if_pos ⟨by simp, hget⟩, hst]
    · simp
    · simp only [List.length_append, List.length_cons, List.length_nil]; omega
    · refine ⟨0 :: (rest ++ 0 :: post), ?_⟩
      simp [strip_cr]
  · refine ⟨pre ++ l ++ 0 :: (rest ++ 0 :: post), pre ++ l ++ [0], ?_, ?_, ?_, ?_⟩
    · rw [if_neg]
      rintro ⟨h1, h2⟩
      apply hcr
      have hne : l ≠ [] := by
        intro h; simp [h] at h1
      obtain ⟨l1, x, rfl⟩ : ∃ l1 x, l = l1 ++ [x] := ⟨l.dropLast, l.getLast hne, (List.dropLast_append_getLast hne).symm⟩
      have : pre ++ (l1 ++ [x]) ++ 0 :: (rest ++ 0 :: post) = (pre ++ l1) ++ x :: (0 :: (rest ++ 0 :: post)) := by simp
      rw [this, List.getElem?_append_right (by simp)] at h2
      simp at h2
      simp [h2]
    · simp
    · simp only [List.length_append, List.length_cons, List.length_nil]
    · refine ⟨rest ++ 0 :: post, ?_⟩
      simp [strip_cr, hcr]


theorem handle_command_clients (cmd : List Nat) (fd : Int) (s : Server) (cl : List client) :
    handle_command cmd fd { s with clients := cl }
      = { handle_command cmd fd s with clients := cl } := by
  simp only [handle_command, send]
  split_ifs <;> rfl

theorem handle_command_frame (cmd : List Nat) (fd : Int) (s : Server) :
    (handle_command cmd fd s).clients = s.clients ∧
    (handle_command cmd fd s).listener = s.listener ∧
    (handle_command cmd fd s).maxfd = s.maxfd ∧
    (handle_command cmd fd s).closed = s.closed := by
  simp only [handle_command, send]
  split_ifs <;> simp

theorem exec_lines_clients (fd : Int) (s : Server) (cl : List client) (L : List (List Nat)) :
    exec_lines fd { s with clients := cl } L
      = ({ (exec_lines fd s L).1 with clients := cl }, (exec_lines fd s L).2) := by
  induction L generalizing s with
  | nil => simp [exec_lines]
  | cons l L ih =>
    simp only [exec_lines]
    split_ifs with h
    · simp [handle_command_clients]
    · rw [handle_command_clients, ih]

theorem exec_lines_frame (fd : Int) (s : Server) (L : List (List Nat)) :
    (exec_lines fd s L).1.clients = s.clients ∧
    (exec_lines fd s L).1.listener = s.listener ∧
    (exec_lines fd s L).1.maxfd = s.maxfd ∧
    (exec_lines fd s L).1.closed = s.closed := by
  induction L generalizing s with
  | nil => simp [exec_lines]
  | cons l L ih =>
    simp only [exec_lines]
    split_ifs with h
    · exact handle_command_frame l fd s
    · obtain ⟨h1, h2, h3, h4⟩ := ih (handle_command l fd s)
      obtain ⟨g1, g2, g3, g4⟩ := handle_command_frame l fd s
      exact ⟨h1.trans g1, h2.trans g2, h3.trans g3, h4.trans g4⟩


theorem set_self {α : Type} (l : List α) (i : Nat) (c : α) (h : l[i]? = some c) :
    l.set i c = l := by
  apply List.ext_getElem?
  intro j
  rw [List.getElem?_set]
  split_ifs with h1 h2
  · subst h1; exact h.symm
  · subst h1
    have : i < l.length := by
      by_contra hh
      rw [List.getElem?_eq_none (by omega)] at h
      simp at h
    exact absurd this h2
  · rfl

theorem process_lines_spec (fuel : Nat) : ∀ (s : Server) (i : Nat) (fd : Int) (c : client)
    (pre D post : List Nat),
    s.clients[i]? = some c → c.buf = pre ++ D ++ 0 :: post → D.length < fuel →
    ∃ b ls, b.length = c.buf.length ∧
      process_lines fuel s i fd pre.length = some (
        (if (exec_lines fd s ((split_lines D).1.map strip_cr)).2 then
          { (exec_lines fd s ((split_lines D).1.map strip_cr)).1 with
            clients := s.clients.set i ⟨-1, b, 0⟩,
            closed := if c.fd ≥ 0 then s.closed ++ [c.fd] else s.closed,
            maxfd := recompute_maxfd (s.clients.set i ⟨-1, b, 0⟩) s.listener }
        else
          { (exec_lines fd s ((split_lines D).1.map strip_cr)).1 with
            clients := s.clients.set i { c with buf := b } }), ls) ∧
      ((exec_lines fd s ((split_lines D).1.map strip_cr)).2 = false →
        ls + (split_lines D).2.length = pre.length + D.length ∧
        b.drop ls = (split_lines D).2 ++ 0 :: post) := by
  induction fuel with
  | zero => intro s i fd c pre D post _ _ h; omega
  | succ fuel ih =>
    intro s i fd c pre D post hc hbuf hfuel
    have hstr : strchr c.buf pre.length NL
        = some ((split_line D).map (fun p => pre.length + p.1.length)) := by
      rw [strchr, hbuf, List.append_assoc, List.drop_left]
      exact strchr_from_data D post pre.length
    rw [process_lines]
    simp only [hc, hstr]
    rw [split_lines_unfold]
    cases hsl : split_line D with
    | none =>
      refine ⟨c.buf, pre.length, rfl, ?_, ?_⟩
      · simp only [Option.map_none', List.map_nil, exec_lines]
        have : ({ c with buf := c.buf } : client) = c := rfl
        simp [this, set_self _ _ _ hc]
      · intro _
        simp [hbuf]
    | some p =>
      obtain ⟨l, rest⟩ := p
      obtain ⟨hD, hl⟩ := split_line_some hsl
      subst hD
      have hbuf1 : c.buf = (pre ++ l) ++ NL :: (rest ++ 0 :: post) := by rw [hbuf]; simp
      have hst1 : store c.buf ((pre.length + l.length : Nat) : Int) 0
          = some (pre ++ l ++ 0 :: (rest ++ 0 :: post)) := by
        rw [hbuf1]; exact store_at _ _ _ _ _ (by simp)
      obtain ⟨b2, pre2, htrim, hb2, hpre2, x, hx⟩ := trim_spec pre l rest post
      have hcmd : cstr (b2.drop pre.length) = strip_cr l := by
        rw [hx]; exact cstr_append_zero _ _ (strip_cr_clean hl)
      have hsc : strcasecmp (b2.drop pre.length) (bytes "QUIT")
          = strcasecmp (strip_cr l) (bytes "QUIT") := by
        rw [← strcasecmp_cstr, hcmd]
      have hhc : ∀ t : Server, handle_command (b2.drop pre.length) fd t
          = handle_command (strip_cr l) fd t := by
        intro t; rw [← handle_command_cstr, hcmd]
      have hi : i < s.clients.length := by
        by_contra hh
        rw [List.getElem?_eq_none (by omega)] at hc
        simp at hc
      have hb2len : b2.length = c.buf.length := by
        rw [hb2, hbuf]; simp only [List.length_append, List.length_cons]; omega
      simp only [Option.map_some', hst1, htrim, hsc, hhc, List.map_cons, exec_lines]
      by_cases hq : strcasecmp (strip_cr l) (bytes "QUIT") = 0
      · simp only [hq, if_true]
        have h0 : store b2 0 0 = some (b2.set 0 0) := by
          have : 0 < b2.length := by rw [hb2]; simp
          simp [store, this]
        refine ⟨b2.set 0 0, pre.length, by simp [hb2len], ?_, by simp⟩
        rw [handle_command_clients]
        simp only [remove_client, List.getElem?_set_self hi, h0, List.set_set]
        obtain ⟨g1, g2, g3, g4⟩ := handle_command_frame (strip_cr l) fd s
        simp [g2, g4]
      · simp only [hq, if_false]
        rw [handle_command_clients]
        obtain ⟨g1, g2, g3, g4⟩ := handle_command_frame (strip_cr l) fd s
        have hc2 : ({ handle_command (strip_cr l) fd s with
            clients := s.clients.set i { c with buf := b2 } } : Server).clients[i]?
            = some { c with buf := b2 } := by
          simp [List.getElem?_set_self hi]
        obtain ⟨b, ls, hblen, hrun, hrest⟩ := ih _ i fd { c with buf := b2 } pre2 rest post hc2
          (by simp [hb2]) (by simp at hfuel; omega)
        rw [exec_lines_clients] at hrun hrest
        refine ⟨b, ls, by rw [hblen]; exact hb2len, ?_, ?_⟩
        · have : pre.length + l.length + 1 = pre2.length := hpre2.symm
          rw [this]
          refine hrun.trans ?_
          simp [List.set_set, g2, g4]
        · intro hf
          obtain ⟨h1, h2⟩ := hrest hf
          refine ⟨?_, h2⟩
          simp only [List.length_append, List.length_cons]
          omega


theorem memcpy_spec (B tmp : List Nat) (off : Int) (k n : Nat) (hoff : off = k)
    (hn : n = tmp.length) (hk : k + tmp.length ≤ B.length) :
    memcpy B off tmp n = some (B.take k ++ tmp ++ B.drop (k + tmp.length)) := by
  subst hoff hn
  unfold memcpy
  rw [if_pos ⟨by omega, by exact_mod_cast hk, le_refl _⟩]
  simp

theorem store_end_spec (B tmp : List Nat) (off : Int) (k : Nat) (hoff : off = k + tmp.length)
    (hk : k + tmp.length < B.length) :
    store (B.take k ++ tmp ++ B.drop (k + tmp.length)) off 0
      = some (B.take k ++ tmp ++ 0 :: B.drop (k + tmp.length + 1)) := by
  rw [List.drop_eq_getElem_cons hk]
  apply store_at
  rw [hoff]
  simp only [List.length_append, List.length_take]
  have : min k B.length = k := by omega
  rw [this]; push_cast; ring

theorem append_chunk_spec (c : client) (tmp : List Nat) (hbuf : c.buf.length = BUFSIZE)
    (hlen : 0 ≤ c.len) (h1 : tmp ≠ []) (h2 : tmp.length ≤ BUFSIZE - 1) :
    ∃ post, (step_data c tmp ++ 0 :: post).length = BUFSIZE ∧
      (step_data c tmp).length < BUFSIZE ∧
      append_chunk c (.data tmp)
        = some ⟨c.fd, step_data c tmp ++ 0 :: post, ((step_data c tmp).length : Nat)⟩ := by
  have hr : 0 < tmp.length := List.length_pos.mpr h1
  have hB : BUFSIZE = 4096 := rfl
  unfold append_chunk step_data pending
  simp only [RecvResult.r, RecvResult.tmp]
  have hlt : ((tmp.length : Nat) : Int) < (BUFSIZE : Nat) := by omega
  simp only [hlt, not_true_eq_false, if_false]
  by_cases hov : c.len + tmp.length ≥ (BUFSIZE : Int) - 1
  · simp only [hov, if_true]
    have h0 : store c.buf 0 0 = some (c.buf.set 0 0) := by
      simp [store, hbuf, hB]
    have hm := memcpy_spec (c.buf.set 0 0) tmp 0 0 ((tmp.length : Int)).toNat rfl (by simp)
      (by simp [hbuf]; omega)
    have hs := store_end_spec (c.buf.set 0 0) tmp (0 + (tmp.length : Int)) 0 (by simp)
      (by simp [hbuf]; omega)
    simp only [h0, Option.map_some', hm, hs]
    refine ⟨(c.buf.set 0 0).drop (0 + tmp.length + 1), ?_, ?_, ?_⟩
    · simp [hbuf]; omega
    · simp; omega
    · simp
  · simp only [hov, if_false]
    have hk : c.len = (c.len.toNat : Int) := by omega
    have hm := memcpy_spec c.buf tmp c.len c.len.toNat ((tmp.length : Int)).toNat hk (by simp)
      (by rw [hbuf]; omega)
    have hs := store_end_spec c.buf tmp (c.len + (tmp.length : Int)) c.len.toNat (by omega)
      (by rw [hbuf]; omega)
    simp only [hm, hs]
    refine ⟨c.buf.drop (c.len.toNat + tmp.length + 1), ?_, ?_, ?_⟩
    · simp [hbuf]; omega
    · simp [hbuf]; omega
    · simp [hbuf]
      omega


theorem take_set_same (b : List Nat) (k v : Nat) : (b.set k v).take k = b.take k := by
  apply List.ext_getElem?
  intro j
  rw [List.getElem?_take, List.getElem?_take]
  split
  · rw [List.getElem?_set_ne (by omega)]
  · rfl

theorem store_take (b : List Nat) (k : Nat) (off : Int) (hoff : off = k) (hk : k < b.length) :
    ∃ b2, store b off 0 = some b2 ∧ b2.length = b.length ∧ b2.take k = b.take k := by
  subst hoff
  refine ⟨b.set k 0, ?_, by simp, take_set_same b k 0⟩
  unfold store
  rw [if_pos ⟨by omega, by exact_mod_cast hk⟩]
  simp

theorem compact_spec (s : Server) (i ls : Nat) (c : client) (rem post : List Nat)
    (hc : s.clients[i]? = some c) (hfd : 0 ≤ c.fd)
    (hlen : c.len = ((ls + rem.length : Nat) : Int))
    (hdrop : c.buf.drop ls = rem ++ 0 :: post) :
    ∃ b, b.length = c.buf.length ∧ b.take rem.length = rem ∧
      compact s i ls
        = some { s with clients := s.clients.set i ⟨c.fd, b, (rem.length : Nat)⟩ } := by
  have hlenb : ls + rem.length < c.buf.length := by
    have := congrArg List.length hdrop
    simp at this
    omega
  have hleft : c.len - (ls : Int) = (rem.length : Nat) := by rw [hlen]; push_cast; ring
  unfold compact
  simp only [hc, hleft, ge_iff_le, hfd, if_true, Int.toNat_ofNat]
  by_cases hmv : ((rem.length : Nat) : Int) > 0 ∧ ls ≠ 0
  · have hm : memmove c.buf ls rem.length = some (rem ++ c.buf.drop rem.length) := by
      unfold memmove
      rw [if_pos (by omega), hdrop]
      simp
    obtain ⟨b2, hst, hl2, ht2⟩ := store_take (rem ++ c.buf.drop rem.length) rem.length
      (rem.length : Nat) rfl (by simp; omega)
    refine ⟨b2, ?_, ?_, ?_⟩
    rotate_left 2
    · simp [hmv.2, hmv.1, hm, hst]
    · rw [hl2]; simp; omega
    · rw [ht2]; simp
  · simp only [hmv, if_false]
    obtain ⟨b2, hst, hl2, ht2⟩ := store_take c.buf rem.length (rem.length : Nat) rfl (by omega)
    simp only [hst]
    refine ⟨b2, hl2, ?_, by simp⟩
    rw [ht2]
    by_cases hr : rem.length = 0
    · have : rem = [] := List.length_eq_zero.mp hr
      simp [this]
    · have hls : ls = 0 := by
        by_contra hh
        exact hmv ⟨by omega, hh⟩
      subst hls
      simp at hdrop
      rw [hdrop]; simp


theorem getElem?_lt {α : Type} {l : List α} {i : Nat} {c : α} (h : l[i]? = some c) :
    i < l.length := by
  by_contra hh
  rw [List.getElem?_eq_none (by omega)] at h
  simp at h

/-- One receive step that delivers data, in terms of the lines of the buffer. -/
theorem recv_step_data (s : Server) (i : Nat) (c : client) (tmp : List Nat)
    (hc : s.clients[i]? = some c) (hfd : 0 ≤ c.fd) (hbuf : c.buf.length = BUFSIZE)
    (hlen : 0 ≤ c.len) (h1 : tmp ≠ []) (h2 : tmp.length ≤ BUFSIZE - 1) :
    ∃ b, b.length = BUFSIZE ∧
      recv_step s i (.data tmp) = some (
        if (exec_lines c.fd s ((split_lines (step_data c tmp)).1.map strip_cr)).2 then
          { (exec_lines c.fd s ((split_lines (step_data c tmp)).1.map strip_cr)).1 with
            clients := s.clients.set i ⟨-1, b, 0⟩,
            closed := s.closed ++ [c.fd],
            maxfd := recompute_maxfd (s.clients.set i ⟨-1, b, 0⟩) s.listener }
        else
          { (exec_lines c.fd s ((split_lines (step_data c tmp)).1.map strip_cr)).1 with
            clients := s.clients.set i
              ⟨c.fd, b, ((split_lines (step_data c tmp)).2.length : Nat)⟩ }) ∧
      ((exec_lines c.fd s ((split_lines (step_data c tmp)).1.map strip_cr)).2 = false →
        b.take (split_lines (step_data c tmp)).2.length = (split_lines (step_data c tmp)).2) := by
  obtain ⟨post, hlenD, hDlt, happ⟩ := append_chunk_spec c tmp hbuf hlen h1 h2
  have hi := getElem?_lt hc
  have hr : 0 < tmp.length := List.length_pos.mpr h1
  have hrr : ¬ (RecvResult.data tmp).r ≤ 0 := by
    show ¬ ((tmp.length : Nat) : Int) ≤ 0
    omega
  unfold recv_step
  simp only [hc, not_lt.mpr hfd, if_false, hrr, happ]
  set D := step_data c tmp with hD
  set c1 : client := ⟨c.fd, D ++ 0 :: post, (D.length : Nat)⟩ with hc1d
  have hc1 : ({ s with clients := s.clients.set i c1 } : Server).clients[i]? = some c1 := by
    simp [List.getElem?_set_self hi]
  obtain ⟨b, ls, hblen, hrun, hrest⟩ := process_lines_spec BUFSIZE _ i c.fd c1 [] D post hc1
    (by simp [hc1d]) hDlt
  rw [exec_lines_clients] at hrun hrest
  simp only [List.length_nil, List.set_set, zero_add] at hrun hrest
  rw [hrun]
  have hbl : b.length = BUFSIZE := by rw [hblen, ← hlenD]
  cases he : (exec_lines c.fd s ((split_lines D).1.map strip_cr)).2 with
  | true =>
    refine ⟨b, hbl, ?_, by simp⟩
    simp only [he, if_true]
    unfold compact
    simp [List.getElem?_set_self hi, hc1d, hfd]
  | false =>
    simp only [he] at hrest
    obtain ⟨hls, hdrop⟩ := hrest trivial
    have hc2 : ({ (exec_lines c.fd s ((split_lines D).1.map strip_cr)).1 with
        clients := s.clients.set i { c1 with buf := b } } : Server).clients[i]?
        = some { c1 with buf := b } := by
      simp [List.getElem?_set_self hi]
    obtain ⟨b3, hb3, htake, hcomp⟩ := compact_spec _ i ls { c1 with buf := b }
      (split_lines D).2 post hc2 hfd (by rw [hls]) hdrop
    refine ⟨b3, by rw [hb3]; exact hbl, ?_, fun _ => htake⟩
    simp only [he, Bool.false_eq_true, if_false]
    rw [hcomp]
    simp [List.set_set, hc1d]

/-! ## Lemmas: `handle_command` on the command tokens -/

theorem wrap64_of_range (x : Int) (h1 : -2 ^ 63 ≤ x) (h2 : x < 2 ^ 63) : wrap64 x = x := by
  unfold wrap64
  norm_num at h1 h2 ⊢
  omega

theorem since_reset_snoc (cs : List Cmd) (c : Cmd) :
    since_reset (cs ++ [c]) = if c = Cmd.RESET then [] else since_reset cs ++ [c] := by
  induction cs with
  | nil =>
    by_cases h : c = Cmd.RESET <;> simp [since_reset, h]
  | cons a cs ih =>
    rw [List.cons_append, since_reset, since_reset, ih]
    by_cases h : c = Cmd.RESET
    · simp [h]
    · have hn : ¬ Cmd.RESET = c := fun e => h e.symm
      by_cases h1 : Cmd.RESET ∈ cs
      · simp [h, h1]
      · by_cases h2 : a = Cmd.RESET
        · simp [h, hn, h1, h2]
        · simp [h, hn, h1, h2]

theorem net_snoc (cs : List Cmd) (c : Cmd) :
    net (cs ++ [c]) = match c with
      | Cmd.INCR => net cs + 1
      | Cmd.DECR => net cs - 1
      | Cmd.GET => net cs
      | Cmd.RESET => 0 := by
  unfold net
  rw [since_reset_snoc]
  cases c <;> simp [List.count_append] <;> ring

theorem cstr_of_nonzero (l : List Nat) (h : ∀ b ∈ l, b ≠ 0) : cstr l = l := by
  induction l with
  | nil => rfl
  | cons b l ih =>
    have hb := h b (List.mem_cons_self _ _)
    simp [cstr, hb, ih (fun y hy => h y (List.mem_cons_of_mem _ hy))]

theorem utoa_nonzero (fuel n : Nat) (acc : List Nat) (h : ∀ b ∈ acc, b ≠ 0) :
    ∀ b ∈ utoa fuel n acc, b ≠ 0 := by
  induction fuel generalizing n acc with
  | zero => simpa [utoa] using h
  | succ fuel ih =>
    rw [utoa]
    split_ifs with hn
    · intro b hb
      rcases List.mem_cons.mp hb with rfl | hb
      · omega
      · exact h b hb
    · apply ih
      intro b hb
      rcases List.mem_cons.mp hb with rfl | hb
      · omega
      · exact h b hb

theorem fmt_lld_nonzero (n : Int) : ∀ b ∈ fmt_lld n, b ≠ 0 := by
  intro b hb
  unfold fmt_lld at hb
  rcases List.mem_append.mp hb with hb | hb
  · split_ifs at hb
    · simp at hb; omega
    · simp at hb
  · exact utoa_nonzero _ _ [] (by simp) b hb

theorem cstr_fmt_lld (n : Int) : cstr (fmt_lld n ++ bytes "\n") = fmt_lld n ++ bytes "\n" := by
  apply cstr_of_nonzero
  intro b hb
  rcases List.mem_append.mp hb with hb | hb
  · exact fmt_lld_nonzero n b hb
  · have : bytes "\n" = [10] := by decide
    rw [this] at hb
    simp at hb; omega

theorem handle_command_token (c : Cmd) (fd : Int) (s : Server) :
    handle_command c.token fd s =
      { s with
        calls := s.calls ++ [(fd, c.token)]
        counter := match c with
          | Cmd.INCR => wrap64 (s.counter + 1)
          | Cmd.DECR => wrap64 (s.counter - 1)
          | Cmd.GET => s.counter
          | Cmd.RESET => 0
        sent := s.sent ++ [(fd, match c with
          | Cmd.GET => fmt_lld s.counter ++ bytes "\n"
          | _ => bytes "OK\n")] } := by
  have hok : cstr (bytes "OK\n") = bytes "OK\n" := by decide
  cases c
  · have h1 : strcasecmp (bytes "INCR") (bytes "INCR") = 0 := by decide
    have h2 : cstr (bytes "INCR") = bytes "INCR" := by decide
    simp [handle_command, Cmd.token, h1, h2, hok, send]
  · have h0 : strcasecmp (bytes "DECR") (bytes "INCR") ≠ 0 := by decide
    have h1 : strcasecmp (bytes "DECR") (bytes "DECR") = 0 := by decide
    have h2 : cstr (bytes "DECR") = bytes "DECR" := by decide
    simp [handle_command, Cmd.token, h0, h1, h2, hok, send]
  · have h0 : strcasecmp (bytes "GET") (bytes "INCR") ≠ 0 := by decide
    have h0' : strcasecmp (bytes "GET") (bytes "DECR") ≠ 0 := by decide
    have h1 : strcasecmp (bytes "GET") (bytes "GET") = 0 := by decide
    have h2 : cstr (bytes "GET") = bytes "GET" := by decide
    simp [handle_command, Cmd.token, h0, h0', h1, h2, cstr_fmt_lld, send]
  · have h0 : strcasecmp (bytes "RESET") (bytes "INCR") ≠ 0 := by decide
    have h0' : strcasecmp (bytes "RESET") (bytes "DECR") ≠ 0 := by decide
    have h0'' : strcasecmp (bytes "RESET") (bytes "GET") ≠ 0 := by decide
    have h1 : strcasecmp (bytes "RESET") (bytes "RESET") = 0 := by decide
    have h2 : cstr (bytes "RESET") = bytes "RESET" := by decide
    simp [handle_command, Cmd.token, h0, h0', h0'', h1, h2, hok, send]

theorem run_commands_snoc (s : Server) (cs : List (Cmd × Int)) (p : Cmd × Int) :
    run_commands s (cs ++ [p]) = handle_command p.1.token p.2 (run_commands s cs) := by
  simp [run_commands, List.foldl_append]

theorem run_commands_spec (s : Server) (hstart : s.counter = 0) (cs : List (Cmd × Int)) :
    (∀ k, k ≤ cs.length →
      -2 ^ 63 ≤ net ((cs.take k).map Prod.fst) ∧ net ((cs.take k).map Prod.fst) < 2 ^ 63) →
    (run_commands s cs).counter = net (cs.map Prod.fst) ∧
    ∃ R : List (Int × List Nat), (run_commands s cs).sent = s.sent ++ R ∧
      R.length = cs.length ∧ ∀ k, k < cs.length → R[k]? = expected_reply cs k := by
  induction cs using List.reverseRecOn with
  | nil =>
    intro _
    refine ⟨by simp [run_commands, hstart, net, since_reset], [], by simp [run_commands], rfl, ?_⟩
    intro k hk; simp at hk
  | append_singleton cs p ih =>
    intro hrange
    have hpre : ∀ k, k ≤ cs.length →
        -2 ^ 63 ≤ net ((cs.take k).map Prod.fst) ∧ net ((cs.take k).map Prod.fst) < 2 ^ 63 := by
      intro k hk
      have := hrange k (by simp; omega)
      rwa [List.take_append_of_le_length hk] at this
    obtain ⟨hcnt, R, hsent, hlen, hR⟩ := ih hpre
    have hall := hrange (cs.length + 1) (by simp)
    have htake : (cs ++ [p]).take (cs.length + 1) = cs ++ [p] := by
      apply List.take_of_length_le; simp
    rw [htake, List.map_append, List.map_singleton, net_snoc] at hall
    obtain ⟨c, fd⟩ := p
    rw [run_commands_snoc, handle_command_token]
    simp only [List.map_append, List.map_singleton, net_snoc, hcnt, hsent]
    refine ⟨?_, R ++ [(fd, match c with
          | Cmd.GET => fmt_lld (net (cs.map Prod.fst)) ++ bytes "\n"
          | _ => bytes "OK\n")], by simp, by simp [hlen], ?_⟩
    · cases c <;> simp only at hall ⊢
      · exact wrap64_of_range _ hall.1 hall.2
      · exact wrap64_of_range _ hall.1 hall.2
    · intro k hk
      simp only [List.length_append, List.length_singleton] at hk
      by_cases hk2 : k < cs.length
      · rw [List.getElem?_append_left (by omega), hR k hk2]
        unfold expected_reply
        rw [List.getElem?_append_left hk2, List.take_append_of_le_length (by omega)]
      · have hk3 : k = cs.length := by omega
        subst hk3
        rw [List.getElem?_append_right (by omega)]
        unfold expected_reply
        rw [List.getElem?_append_right (le_refl _), htake]
        simp only [hlen, Nat.sub_self, List.getElem?_cons_zero, List.map_append,
          List.map_singleton, net_snoc]
        cases c <;> rfl


/-! ## Lemmas: the observable effect of a receive step -/

theorem recompute_maxfd_map (cl : List client) (l : Int) (f : client → client)
    (hf : ∀ c, (f c).fd = c.fd) : recompute_maxfd (cl.map f) l = recompute_maxfd cl l := by
  unfold recompute_maxfd
  induction cl generalizing l with
  | nil => rfl
  | cons c cl ih => simp only [List.map_cons, List.foldl_cons, hf, ih]

theorem observe_fd (c : client) : c.observe.fd = c.fd := rfl

theorem observe_len (c : client) : c.observe.len = c.len := rfl

theorem pending_observe (c : client) : pending c.observe = pending c := by
  simp [pending, client.observe]

theorem step_data_observe (c : client) (tmp : List Nat) :
    step_data c.observe tmp = step_data c tmp := by
  unfold step_data
  rw [pending_observe, observe_len]

theorem observe_clients_get (s : Server) (i : Nat) :
    (observe s).clients[i]? = (s.clients[i]?).map client.observe := by
  simp [observe]

theorem exec_lines_observe (fd : Int) (s : Server) (L : List (List Nat)) :
    exec_lines fd (observe s) L = (observe (exec_lines fd s L).1, (exec_lines fd s L).2) := by
  have h := exec_lines_clients fd s (s.clients.map client.observe) L
  have hfr := (exec_lines_frame fd s L).1
  unfold observe
  rw [h, hfr]

theorem slot_ok_length {s : Server} {i : Nat} (h : slot_ok s i) : i < s.clients.length := by
  obtain ⟨c, hc, _⟩ := h
  exact getElem?_lt hc

theorem split_lines_length (D : List Nat) : (split_lines D).2.length ≤ D.length := by
  induction D with
  | nil => simp [split_lines]
  | cons b D ih =>
    rw [split_lines]
    split_ifs
    · simp
    · simp; omega
    · split <;> simp <;> omega


theorem observe_removed (b : List Nat) :
    client.observe { fd := -1, buf := b, len := 0 } = { fd := -1, buf := [], len := 0 } := by
  simp [client.observe, pending]

theorem observe_kept (fd : Int) (b rem : List Nat) (h : b.take rem.length = rem) :
    client.observe { fd := fd, buf := b, len := (rem.length : Nat) }
      = { fd := fd, buf := rem, len := (rem.length : Nat) } := by
  simp [client.observe, pending, h]

theorem remove_client_spec (s : Server) (i : Nat) (c : client) (hc : s.clients[i]? = some c)
    (hlen : 0 < c.buf.length) :
    remove_client s i = some { s with
      clients := s.clients.set i { fd := -1, buf := c.buf.set 0 0, len := 0 },
      closed := if c.fd ≥ 0 then s.closed ++ [c.fd] else s.closed,
      maxfd := recompute_maxfd (s.clients.set i { fd := -1, buf := c.buf.set 0 0, len := 0 })
        s.listener } := by
  have h0 : store c.buf 0 0 = some (c.buf.set 0 0) := by
    simp [store, hlen]
  unfold remove_client
  simp only [hc, h0]

/-- Every receive step succeeds on a well-formed slot, keeps it well-formed, and
its observable effect is the one `line_step` describes. -/
theorem recv_step_refines (s : Server) (i : Nat) (res : RecvResult) (hok : slot_ok s i)
    (hres : res.tmp.length ≤ BUFSIZE - 1) :
    ∃ s1, recv_step s i res = some s1 ∧ observe s1 = line_step (observe s) i res ∧
      slot_ok s1 i := by
  have hi := slot_ok_length hok
  obtain ⟨c, hc, hbuf, hl0, hl1⟩ := hok
  have hB : BUFSIZE = 4096 := rfl
  have hco : (observe s).clients[i]? = some c.observe := by
    rw [observe_clients_get, hc]; rfl
  by_cases hfd : c.fd < 0
  · refine ⟨s, ?_, ?_, ⟨c, hc, hbuf, hl0, hl1⟩⟩
    · unfold recv_step; simp [hc, hfd]
    · unfold line_step; simp [hco, observe_fd, hfd]
  · by_cases hr : res.r ≤ 0
    · have hrm := remove_client_spec s i c hc (by rw [hbuf, hB]; decide)
      have hstep : recv_step s i res = remove_client s i := by
        unfold recv_step
        simp only [hc, hfd, if_false, hr, if_true]
      rw [hrm] at hstep
      refine ⟨_, hstep, ?_, ?_⟩
      · unfold line_step
        simp only [hco, observe_fd, hfd, if_false, hr, if_true]
        have hge : c.fd ≥ 0 := by omega
        simp only [observe, hge, if_true, List.map_set, observe_removed]
        rw [← recompute_maxfd_map (s.clients.set i _) s.listener client.observe observe_fd,
          List.map_set, observe_removed]
      · refine ⟨⟨-1, c.buf.set 0 0, 0⟩, by simp [List.getElem?_set_self hi], ?_, ?_, ?_⟩ <;>
          simp [hbuf, hB]
    · have hfd0 : 0 ≤ c.fd := by omega
      obtain ⟨tmp, rfl⟩ : ∃ tmp, res = .data tmp := by
        cases res with
        | error => exact absurd (by decide : RecvResult.error.r ≤ 0) hr
        | data tmp => exact ⟨tmp, rfl⟩
      have h1 : tmp ≠ [] := by
        rintro rfl
        exact hr (by decide)
      obtain ⟨b, hb, hstep, htake⟩ := recv_step_data s i c tmp hc hfd0 hbuf hl0 h1 hres
      refine ⟨_, hstep, ?_, ?_⟩
      · unfold line_step
        simp only [hco, observe_fd, hfd, if_false, hr, RecvResult.tmp, step_data_observe,
          exec_lines_observe]
        cases he : (exec_lines c.fd s ((split_lines (step_data c tmp)).1.map strip_cr)).2 with
        | true =>
          simp only [if_true]
          simp only [observe, List.map_set, observe_removed]
          rw [← recompute_maxfd_map (s.clients.set i _) s.listener client.observe observe_fd,
            List.map_set, observe_removed]
        | false =>
          simp only [Bool.false_eq_true, if_false]
          simp only [observe, List.map_set, observe_kept _ _ _ (htake he)]
      · have hlenD : (split_lines (step_data c tmp)).2.length ≤ BUFSIZE - 1 := by
          have h3 := split_lines_length (step_data c tmp)
          have h4 : (step_data c tmp).length ≤ BUFSIZE - 1 := by
            unfold step_data pending
            split_ifs with hov
            · simpa using hres
            · simp only [List.length_append, List.length_take]
              omega
          omega
        split_ifs
        · refine ⟨⟨-1, b, 0⟩, by simp [List.getElem?_set_self hi], ?_, ?_, ?_⟩ <;> simp [hb, hB]
        · refine ⟨⟨c.fd, b, ((split_lines (step_data c tmp)).2.length : Nat)⟩,
            by simp [List.getElem?_set_self hi], hb, by simp, ?_⟩
          simp only []
          omega

theorem strcasecmp_eq_zero (a b : List Nat) :
    strcasecmp a b = 0 ↔ (cstr a).map tolower = (cstr b).map tolower := by
  induction a generalizing b with
  | nil =>
    cases b with
    | nil => simp [strcasecmp, cstr]
    | cons y b =>
      by_cases hy : y = 0
      · simp [strcasecmp, cstr, hy, tolower]
      · have : tolower y ≠ 0 := fun h => hy (tolower_eq_zero.mp h)
        simp [strcasecmp, cstr, hy]
        omega
  | cons x a ih =>
    cases b with
    | nil =>
      by_cases hx : x = 0
      · simp [strcasecmp, cstr, hx, tolower]
      · have : tolower x ≠ 0 := fun h => hx (tolower_eq_zero.mp h)
        simp [strcasecmp, cstr, hx]
        omega
    | cons y b =>
      rw [strcasecmp]
      by_cases hxy : tolower x = tolower y
      · by_cases hx : x = 0
        · have hy : y = 0 := by
            rw [hx] at hxy
            exact tolower_eq_zero.mp hxy.symm
          simp [hx, hy, cstr]
        · have hy : y ≠ 0 := by
            intro hy; rw [hy] at hxy
            exact hx (tolower_eq_zero.mp hxy)
          simp [hxy, hx, hy, cstr, ih]
      · have hne : (tolower x : Int) - (tolower y : Int) ≠ 0 := by omega
        simp only [ne_eq, hxy, not_false_eq_true, if_true, hne, false_iff]
        by_cases hx : x = 0
        · have hy : y ≠ 0 := by
            intro hy; apply hxy; rw [hx, hy]
          simp [cstr, hx, hy]
        · by_cases hy : y = 0
          · simp [cstr, hx, hy]
          · simp [cstr, hx, hy, hxy]

/-- A run of receive steps succeeds on a well-formed slot and its observable effect
is the one `line_run` describes. -/
theorem run_refines (chunks : List (List Nat)) : ∀ (s : Server) (i : Nat), slot_ok s i →
    (∀ x ∈ chunks, x.length ≤ BUFSIZE - 1) →
    ∃ s1, run s i chunks = some s1 ∧ observe s1 = line_run (observe s) i chunks ∧
      slot_ok s1 i := by
  induction chunks with
  | nil => intro s i hok _; exact ⟨s, rfl, rfl, hok⟩
  | cons x xs ih =>
    intro s i hok hch
    obtain ⟨s1, h1, h2, h3⟩ := recv_step_refines s i (.data x) hok
      (hch x (List.mem_cons_self _ _))
    obtain ⟨s2, g1, g2, g3⟩ := ih s1 i h3 (fun y hy => hch y (List.mem_cons_of_mem _ hy))
    refine ⟨s2, ?_, ?_, g3⟩
    · simp only [run, h1, g1]
    · rw [g2, h2]; rfl

theorem no_overflow_iff (chunks : List (List Nat)) : ∀ (s : Server) (i : Nat), slot_ok s i →
    (∀ x ∈ chunks, x.length ≤ BUFSIZE - 1) →
    (no_overflow s i chunks ↔ line_no_overflow (observe s) i chunks = true) := by
  induction chunks with
  | nil => intro s i _ _; simp [no_overflow, line_no_overflow]
  | cons x xs ih =>
    intro s i hok hch
    obtain ⟨s1, h1, h2, h3⟩ := recv_step_refines s i (.data x) hok
      (hch x (List.mem_cons_self _ _))
    have hih := ih s1 i h3 (fun y hy => hch y (List.mem_cons_of_mem _ hy))
    obtain ⟨c, hc, _⟩ := hok
    simp only [no_overflow, line_no_overflow, observe_clients_get, hc, Option.map_some',
      observe_fd, observe_len, Bool.and_eq_true, decide_eq_true_eq, h1, ← h2, ← hih]
    constructor
    · rintro ⟨a, b⟩
      exact ⟨a c rfl, b s1 rfl⟩
    · rintro ⟨a, b⟩
      refine ⟨fun c1 hc1 => ?_, fun t ht => ?_⟩
      · cases hc1; exact a
      · cases ht; exact b

theorem split_lines_append (D Y : List Nat) :
    split_lines (D ++ Y) =
      ((split_lines D).1 ++ (split_lines ((split_lines D).2 ++ Y)).1,
       (split_lines ((split_lines D).2 ++ Y)).2) := by
  induction D with
  | nil => simp [split_lines]
  | cons b D ih =>
    by_cases h0 : b = 0
    · subst h0
      simp [split_lines]
    · by_cases h1 : b = NL
      · subst h1
        rw [List.cons_append, split_lines, split_lines, ih]
        simp [h0]
      · rw [List.cons_append, split_lines, split_lines, ih]
        simp only [h0, h1, if_false]
        cases hL : (split_lines D).1 with
        | nil =>
          simp only [List.nil_append, List.cons_append]
          rw [split_lines]
          simp [h0, h1]
        | cons l ls => simp

theorem exec_lines_append (fd : Int) (s : Server) (L1 L2 : List (List Nat)) :
    exec_lines fd s (L1 ++ L2) =
      if (exec_lines fd s L1).2 then exec_lines fd s L1
      else exec_lines fd (exec_lines fd s L1).1 L2 := by
  induction L1 generalizing s with
  | nil => simp [exec_lines]
  | cons l L1 ih =>
    simp only [List.cons_append, exec_lines]
    split_ifs with h <;> simp_all


theorem pending_kept (fd : Int) (rem : List Nat) :
    pending { fd := fd, buf := rem, len := (rem.length : Nat) } = rem := by
  simp [pending]

theorem stream_step_append (s : Server) (i : Nat) (X Y : List Nat) :
    stream_step (stream_step s i X) i Y = stream_step s i (X ++ Y) := by
  cases hc : s.clients[i]? with
  | none => simp [stream_step, hc]
  | some c =>
    have hi := getElem?_lt hc
    by_cases hfd : c.fd < 0
    · simp [stream_step, hc, hfd]
    · have hsp := split_lines_append (pending c ++ X) Y
      rw [List.append_assoc] at hsp
      have hex := exec_lines_append c.fd s ((split_lines (pending c ++ X)).1.map strip_cr)
        ((split_lines ((split_lines (pending c ++ X)).2 ++ Y)).1.map strip_cr)
      obtain ⟨f1, f2, f3, f4⟩ := exec_lines_frame c.fd s
        ((split_lines (pending c ++ X)).1.map strip_cr)
      rw [stream_step.eq_def s i (X ++ Y), stream_step.eq_def s i X]
      simp only [hc, hfd, if_false, hsp, List.map_append, hex]
      cases he : (exec_lines c.fd s ((split_lines (pending c ++ X)).1.map strip_cr)).2 with
      | true =>
        simp only [if_true, he]
        simp [stream_step, List.getElem?_set_self hi]
      | false =>
        simp only [Bool.false_eq_true, if_false]
        rw [stream_step]
        simp only [List.getElem?_set_self hi, hfd, if_false, pending_kept, exec_lines_clients,
          List.set_set]
        simp only [f2, f4]


theorem line_step_eq_stream (s : Server) (i : Nat) (X : List Nat) (hX : X ≠ [])
    (hfit : ∀ c, s.clients[i]? = some c → 0 ≤ c.fd → c.len + X.length < (BUFSIZE : Int) - 1) :
    line_step s i (.data X) = stream_step s i X := by
  cases hc : s.clients[i]? with
  | none => simp [line_step, stream_step, hc]
  | some c =>
    by_cases hfd : c.fd < 0
    · simp [line_step, stream_step, hc, hfd]
    · have h := hfit c hc (by omega)
      have hr : ¬ (RecvResult.data X).r ≤ 0 := by
        have := List.length_pos.mpr hX
        show ¬ ((X.length : Nat) : Int) ≤ 0
        omega
      have hd : step_data c X = pending c ++ X := by
        unfold step_data
        rw [if_neg (by omega)]
      simp only [line_step, stream_step, hc, hfd, if_false, hr, RecvResult.tmp, hd]

theorem line_run_eq_stream (chunks : List (List Nat)) : ∀ (s : Server) (i : Nat),
    (∀ x ∈ chunks, x ≠ []) → line_no_overflow s i chunks = true →
    line_run s i chunks = chunks.foldl (fun t x => stream_step t i x) s := by
  induction chunks with
  | nil => intro s i _ _; rfl
  | cons x xs ih =>
    intro s i hne hfit
    simp only [line_no_overflow, Bool.and_eq_true] at hfit
    have hstep : line_step s i (.data x) = stream_step s i x := by
      apply line_step_eq_stream s i x (hne x (List.mem_cons_self _ _))
      intro c hc hfd
      have := hfit.1
      simp only [hc, decide_eq_true_eq] at this
      exact this hfd
    simp only [line_run, List.foldl_cons]
    rw [← hstep]
    exact ih _ i (fun y hy => hne y (List.mem_cons_of_mem _ hy)) hfit.2

theorem stream_fold_join (chunks : List (List Nat)) : ∀ (s : Server) (i : Nat) (x : List Nat),
    (x :: chunks).foldl (fun t y => stream_step t i y) s
      = stream_step s i (x :: chunks).flatten := by
  induction chunks with
  | nil => intro s i x; simp
  | cons y ys ih =>
    intro s i x
    rw [List.foldl_cons, ih, stream_step_append]
    simp

theorem observe_fields (s : Server) :
    (observe s).counter = s.counter ∧ (observe s).sent = s.sent ∧ (observe s).calls = s.calls ∧
    (observe s).closed = s.closed ∧ (observe s).maxfd = s.maxfd ∧
    (observe s).listener = s.listener := ⟨rfl, rfl, rfl, rfl, rfl, rfl⟩

/-- Cutting a stream differently does not change what a run without overflow does. -/
theorem run_cut_independent (s : Server) (i : Nat) (cuts1 cuts2 : List (List Nat))
    (hok : slot_ok s i)
    (hsame : cuts1.flatten = cuts2.flatten)
    (hsz1 : ∀ x ∈ cuts1, x ≠ [] ∧ x.length ≤ BUFSIZE - 1)
    (hsz2 : ∀ x ∈ cuts2, x ≠ [] ∧ x.length ≤ BUFSIZE - 1)
    (hfit1 : no_overflow s i cuts1) (hfit2 : no_overflow s i cuts2) :
    ∃ s1 s2, run s i cuts1 = some s1 ∧ run s i cuts2 = some s2 ∧ observe s1 = observe s2 := by
  obtain ⟨s1, h1, o1, _⟩ := run_refines cuts1 s i hok (fun x hx => (hsz1 x hx).2)
  obtain ⟨s2, h2, o2, _⟩ := run_refines cuts2 s i hok (fun x hx => (hsz2 x hx).2)
  refine ⟨s1, s2, h1, h2, ?_⟩
  rw [o1, o2,
    line_run_eq_stream cuts1 _ i (fun x hx => (hsz1 x hx).1)
      ((no_overflow_iff cuts1 s i hok (fun x hx => (hsz1 x hx).2)).mp hfit1),
    line_run_eq_stream cuts2 _ i (fun x hx => (hsz2 x hx).1)
      ((no_overflow_iff cuts2 s i hok (fun x hx => (hsz2 x hx).2)).mp hfit2)]
  cases cuts1 with
  | nil =>
    cases cuts2 with
    | nil => rfl
    | cons y ys =>
      exfalso
      have hy := (hsz2 y (List.mem_cons_self _ _)).1
      simp at hsame
      exact hy hsame.1
  | cons x xs =>
    cases cuts2 with
    | nil =>
      exfalso
      have hx := (hsz1 x (List.mem_cons_self _ _)).1
      simp at hsame
      exact hx hsame.1
    | cons y ys =>
      rw [stream_fold_join, stream_fold_join, hsame]


theorem step_data_empty (c : client) (tmp : List Nat) (hlen : c.len = 0) :
    step_data c tmp = tmp := by
  unfold step_data pending
  rw [hlen]
  split_ifs <;> simp

theorem step_data_length (c : client) (tmp : List Nat) (h0 : 0 ≤ c.len) :
    ((step_data c tmp).length : Int) ≤ c.len + tmp.length := by
  unfold step_data pending
  split_ifs
  · simp only [List.nil_append]
    omega
  · simp only [List.length_append, List.length_take, Nat.cast_add]
    omega

theorem line_no_overflow_of_small (chunks : List (List Nat)) : ∀ (s : Server) (i : Nat),
    (∀ c, s.clients[i]? = some c → 0 ≤ c.fd →
      0 ≤ c.len ∧ c.len + (chunks.flatten).length < (BUFSIZE : Int) - 1) →
    line_no_overflow s i chunks = true := by
  induction chunks with
  | nil => intro s i _; rfl
  | cons x xs ih =>
    intro s i h
    simp only [line_no_overflow, Bool.and_eq_true]
    constructor
    · cases hc : s.clients[i]? with
      | none => rfl
      | some c =>
        simp only [decide_eq_true_eq]
        intro hfd
        have := (h c hc hfd).2
        simp only [List.flatten_cons, List.length_append, Nat.cast_add] at this
        omega
    · apply ih
      intro c1 hc1 hfd1
      cases hc : s.clients[i]? with
      | none =>
        simp only [line_step, hc] at hc1
        cases hc1
      | some c =>
        have hi := getElem?_lt hc
        by_cases hfd : c.fd < 0
        · simp only [line_step, hc, hfd, if_true] at hc1
          cases hc1; omega
        · have hh := h c hc (by omega)
          simp only [List.flatten_cons, List.length_append, Nat.cast_add] at hh
          simp only [line_step, hc, hfd, if_false] at hc1
          split_ifs at hc1 with h1 h2
          · simp only [List.getElem?_set_self hi] at hc1
            cases hc1; simp at hfd1
          · simp only [List.getElem?_set_self hi] at hc1
            cases hc1; simp at hfd1
          · simp only [List.getElem?_set_self hi] at hc1
            cases hc1
            have h3 := split_lines_length (step_data c x)
            have h4 := step_data_length c x hh.1
            simp only [RecvResult.tmp] at h3 ⊢
            constructor <;> omega

theorem split_read_incr (s : Server) (i : Nat) (c : client) (hc : s.clients[i]? = some c)
    (hfd : 0 ≤ c.fd) (hbuf : c.buf.length = BUFSIZE) (hlen : c.len = 0) :
    ∃ s3, run s i [bytes "IN", bytes "CR\n"] = some s3 ∧
      s3.calls = s.calls ++ [(c.fd, bytes "INCR")] ∧
      s3.counter = wrap64 (s.counter + 1) ∧
      s3.sent = s.sent ++ [(c.fd, bytes "OK\n")] := by
  have hB : BUFSIZE = 4096 := rfl
  have hok : slot_ok s i := ⟨c, hc, hbuf, by omega, by rw [hlen, hB]; decide⟩
  have hi := getElem?_lt hc
  obtain ⟨s3, h3, o3, _⟩ := run_refines [bytes "IN", bytes "CR\n"] s i hok (by
    intro x hx
    simp only [List.mem_cons, List.mem_singleton, List.not_mem_nil, or_false] at hx
    rcases hx with rfl | rfl <;> rw [hB] <;> decide)
  have hco : (observe s).clients[i]? = some c.observe := by
    rw [observe_clients_get, hc]; rfl
  have hnfd : ¬ c.fd < 0 := by omega
  have hfit : line_no_overflow (observe s) i [bytes "IN", bytes "CR\n"] = true := by
    apply line_no_overflow_of_small
    intro c1 hc1 _
    rw [hco] at hc1; cases hc1
    rw [observe_len, hlen, hB]
    decide
  rw [line_run_eq_stream _ _ i (by
      intro x hx
      simp only [List.mem_cons, List.mem_singleton, List.not_mem_nil, or_false] at hx
      rcases hx with rfl | rfl <;> decide) hfit, stream_fold_join] at o3
  have hp : pending c.observe = [] := by
    rw [pending_observe]; simp [pending, hlen]
  have hsp : split_lines ([] ++ [bytes "IN", bytes "CR\n"].flatten) = ([bytes "INCR"], []) := by
    decide
  have hst : strip_cr (bytes "INCR") = bytes "INCR" := by decide
  have hq : ¬ strcasecmp (bytes "INCR") (bytes "QUIT") = 0 := by decide
  have hh := handle_command_token Cmd.INCR c.fd (observe s)
  simp only [Cmd.token] at hh
  simp only [stream_step, hco, observe_fd, hnfd, if_false, hp, hsp, List.map_cons, List.map_nil,
    hst, exec_lines, hq, hh] at o3
  obtain ⟨f1, f2, f3, _, _, _⟩ := observe_fields s3
  refine ⟨s3, h3, ?_, ?_, ?_⟩
  · rw [← f3, o3]; rfl
  · rw [← f1, o3]; rfl
  · rw [← f2, o3]; rfl

theorem sample_slot_ok : slot_ok sample_server 0 :=
  ⟨{ fd := 4, buf := List.replicate BUFSIZE 0, len := 0 }, rfl, by simp, by decide, by decide⟩


/-! ## Lemmas: lines, tokens and `QUIT` -/

theorem split_lines_eq_lines_of (D : List Nat) (h : ∀ b ∈ D, b ≠ 0) :
    split_lines D = lines_of D := by
  induction D with
  | nil => rfl
  | cons b D ih =>
    have hb := h b (List.mem_cons_self _ _)
    rw [split_lines, lines_of, ih (fun y hy => h y (List.mem_cons_of_mem _ hy))]
    simp [hb]

theorem lines_of_mem (D : List Nat) :
    (∀ l ∈ (lines_of D).1, ∀ b ∈ l, b ∈ D) ∧ ∀ b ∈ (lines_of D).2, b ∈ D := by
  induction D with
  | nil => simp [lines_of]
  | cons x D ih =>
    rw [lines_of]
    split_ifs with hx
    · constructor
      · intro l hl b hb
        rcases List.mem_cons.mp hl with rfl | hl
        · simp at hb
        · exact List.mem_cons_of_mem _ (ih.1 l hl b hb)
      · intro b hb; exact List.mem_cons_of_mem _ (ih.2 b hb)
    · cases hL : (lines_of D).1 with
      | nil =>
        simp only [List.not_mem_nil, false_implies, implies_true, true_and]
        intro b hb
        rcases List.mem_cons.mp hb with rfl | hb
        · exact List.mem_cons_self _ _
        · exact List.mem_cons_of_mem _ (ih.2 b hb)
      | cons l ls =>
        simp only
        constructor
        · intro l1 hl1 b hb
          rcases List.mem_cons.mp hl1 with rfl | hl1
          · rcases List.mem_cons.mp hb with rfl | hb
            · exact List.mem_cons_self _ _
            · exact List.mem_cons_of_mem _ (ih.1 l (by rw [hL]; exact List.mem_cons_self _ _) b hb)
          · exact List.mem_cons_of_mem _ (ih.1 l1 (by rw [hL]; exact List.mem_cons_of_mem _ hl1) b hb)
        · intro b hb; exact List.mem_cons_of_mem _ (ih.2 b hb)

theorem strip_cr_mem (l : List Nat) : ∀ b ∈ strip_cr l, b ∈ l := by
  intro b hb
  unfold strip_cr at hb
  split_ifs at hb
  · exact List.mem_of_mem_dropLast hb
  · exact hb

theorem is_quit_iff (t : List Nat) (h : ∀ b ∈ t, b ≠ 0) :
    strcasecmp t (bytes "QUIT") = 0 ↔ is_quit t = true := by
  rw [strcasecmp_eq_zero, cstr_of_nonzero t h]
  have : (cstr (bytes "QUIT")).map tolower = bytes "quit" := by decide
  rw [this]
  simp [is_quit]

theorem exec_lines_interpret (fd : Int) (L : List (List Nat)) : ∀ (s : Server),
    (∀ t ∈ L, ∀ b ∈ t, b ≠ 0) →
    exec_lines fd s L = (interpret fd s (upto_quit L), L.any is_quit) := by
  induction L with
  | nil => intro s _; rfl
  | cons t L ih =>
    intro s h
    have ht := is_quit_iff t (h t (List.mem_cons_self _ _))
    rw [exec_lines, upto_quit]
    by_cases hq : is_quit t = true
    · simp [ht.mpr hq, hq, interpret]
    · have hq2 : ¬ strcasecmp t (bytes "QUIT") = 0 := fun e => hq (ht.mp e)
      rw [if_neg hq2, ih _ (fun y hy => h y (List.mem_cons_of_mem _ hy))]
      simp [hq, interpret]

theorem handle_command_sent (t : List Nat) (fd : Int) (s : Server) :
    ∃ r, (handle_command t fd s).sent = s.sent ++ [(fd, r)] := by
  simp only [handle_command, send]
  split_ifs <;> exact ⟨_, rfl⟩

theorem handle_command_calls (t : List Nat) (fd : Int) (s : Server) :
    (handle_command t fd s).calls = s.calls ++ [(fd, cstr t)] := by
  simp only [handle_command, send]
  split_ifs <;> rfl

theorem interpret_calls (fd : Int) (L : List (List Nat)) : ∀ (s : Server),
    (∀ t ∈ L, ∀ b ∈ t, b ≠ 0) →
    (interpret fd s L).calls = s.calls ++ L.map (fun t => (fd, t)) ∧
    ∃ R : List (Int × List Nat), (interpret fd s L).sent = s.sent ++ R ∧
      R.length = L.length ∧ ∀ p ∈ R, p.1 = fd := by
  induction L with
  | nil => intro s _; exact ⟨by simp [interpret], [], by simp [interpret], rfl, by simp⟩
  | cons t L ih =>
    intro s h
    have ht := cstr_of_nonzero t (h t (List.mem_cons_self _ _))
    obtain ⟨i1, R, i2, i3, i4⟩ :=
      ih (handle_command t fd s) (fun y hy => h y (List.mem_cons_of_mem _ hy))
    obtain ⟨r, hr⟩ := handle_command_sent t fd s
    have hfold : interpret fd s (t :: L) = interpret fd (handle_command t fd s) L := rfl
    rw [hfold]
    refine ⟨by rw [i1, handle_command_calls, ht]; simp, (fd, r) :: R, by rw [i2, hr]; simp,
      by simp [i3], ?_⟩
    intro p hp
    rcases List.mem_cons.mp hp with rfl | hp
    · rfl
    · exact i4 p hp


theorem observe_sample :
    observe sample_server =
      { clients := [{ fd := 4, buf := [], len := 0 }, { fd := -1, buf := [], len := 0 }],
        listener := 3, maxfd := 4, counter := 0, sent := [], closed := [], calls := [] } := by
  rfl


/-! ## Lemmas: bytes without a line end -/

theorem step_data_kept (c : client) (tmp : List Nat) : step_data c tmp = kept c tmp ++ tmp := rfl

theorem kept_mem (c : client) (tmp : List Nat) : ∀ b ∈ kept c tmp, b ∈ pending c := by
  intro b hb
  unfold kept at hb
  split_ifs at hb
  · simp at hb
  · exact hb

theorem split_lines_junk (X : List Nat) (h : ∀ b ∈ X, b ≠ NL ∧ b ≠ 0) :
    split_lines X = ([], X) := by
  induction X with
  | nil => rfl
  | cons b X ih =>
    have hb := h b (List.mem_cons_self _ _)
    rw [split_lines, ih (fun y hy => h y (List.mem_cons_of_mem _ hy))]
    simp [hb.1, hb.2]

theorem split_lines_line (l rest : List Nat) (h : ∀ b ∈ l, b ≠ NL ∧ b ≠ 0) :
    split_lines (l ++ NL :: rest) = (l :: (split_lines rest).1, (split_lines rest).2) := by
  induction l with
  | nil =>
    have : NL ≠ 0 := by decide
    rw [List.nil_append, split_lines]
    simp [this]
  | cons b l ih =>
    have hb := h b (List.mem_cons_self _ _)
    rw [List.cons_append, split_lines, ih (fun y hy => h y (List.mem_cons_of_mem _ hy))]
    simp [hb.1, hb.2]

theorem line_step_junk (s : Server) (i : Nat) (c : client) (X : List Nat)
    (hc : s.clients[i]? = some c) (hfd : 0 ≤ c.fd) (hX : X ≠ [])
    (hjunk : ∀ b ∈ step_data c X, b ≠ NL ∧ b ≠ 0) :
    line_step s i (.data X) = { s with
      clients := s.clients.set i ⟨c.fd, step_data c X, ((step_data c X).length : Nat)⟩ } := by
  have hnfd : ¬ c.fd < 0 := by omega
  have hr : ¬ (RecvResult.data X).r ≤ 0 := by
    have := List.length_pos.mpr hX
    show ¬ ((X.length : Nat) : Int) ≤ 0
    omega
  unfold line_step
  simp only [hc, hnfd, if_false, hr, RecvResult.tmp, split_lines_junk _ hjunk, List.map_nil,
    exec_lines, Bool.false_eq_true]


theorem junk_step (s : Server) (i : Nat) (c : client) (x : List Nat)
    (hc : s.clients[i]? = some c) (hfd : 0 ≤ c.fd) (hbuf : c.buf.length = BUFSIZE)
    (hlen : 0 ≤ c.len ∧ c.len ≤ (BUFSIZE : Int) - 1)
    (hp : ∀ b ∈ pending c, b ≠ NL ∧ b ≠ 0)
    (hx : x ≠ [] ∧ x.length ≤ BUFSIZE - 1 ∧ ∀ b ∈ x, b ≠ NL ∧ b ≠ 0) :
    ∃ s1 c1, recv_step s i (.data x) = some s1 ∧ s1.clients[i]? = some c1 ∧ c1.fd = c.fd ∧
      c1.buf.length = BUFSIZE ∧ (0 ≤ c1.len ∧ c1.len ≤ (BUFSIZE : Int) - 1) ∧
      (∀ b ∈ pending c1, b ≠ NL ∧ b ≠ 0) ∧
      s1.counter = s.counter ∧ s1.sent = s.sent ∧ s1.calls = s.calls ∧ s1.closed = s.closed := by
  have hok : slot_ok s i := ⟨c, hc, hbuf, hlen.1, hlen.2⟩
  have hi := getElem?_lt hc
  obtain ⟨s1, h1, o1, c1, g1, g2, g3, g4⟩ := recv_step_refines s i (.data x) hok hx.2.1
  have hco : (observe s).clients[i]? = some c.observe := by
    rw [observe_clients_get, hc]; rfl
  have hjunk : ∀ b ∈ step_data c.observe x, b ≠ NL ∧ b ≠ 0 := by
    intro b hb
    rw [step_data_observe, step_data_kept] at hb
    rcases List.mem_append.mp hb with hb | hb
    · exact hp b (kept_mem c x b hb)
    · exact hx.2.2 b hb
  rw [line_step_junk (observe s) i c.observe x hco hfd hx.1 hjunk] at o1
  have hc1o : (observe s1).clients[i]? = some c1.observe := by
    rw [observe_clients_get, g1]; rfl
  have hi2 : i < (observe s).clients.length := by simp [observe, hi]
  rw [o1] at hc1o
  simp only [List.getElem?_set_self hi2, Option.some.injEq] at hc1o
  have e1 : c1.fd = c.fd := by
    have := congrArg client.fd hc1o; simpa [client.observe] using this.symm
  have e2 : pending c1 = step_data c.observe x := by
    have := congrArg client.buf hc1o; simpa [client.observe] using this.symm
  obtain ⟨f1, f2, f3, f4, _, _⟩ := observe_fields s1
  refine ⟨s1, c1, h1, g1, e1, g2, ⟨g3, g4⟩, by rw [e2]; exact hjunk, ?_, ?_, ?_, ?_⟩
  · rw [← f1, o1]; rfl
  · rw [← f2, o1]; rfl
  · rw [← f3, o1]; rfl
  · rw [← f4, o1]; rfl

theorem junk_run (chunks : List (List Nat)) : ∀ (s : Server) (i : Nat) (c : client),
    s.clients[i]? = some c → 0 ≤ c.fd → c.buf.length = BUFSIZE →
    (0 ≤ c.len ∧ c.len ≤ (BUFSIZE : Int) - 1) →
    (∀ b ∈ pending c, b ≠ NL ∧ b ≠ 0) →
    (∀ x ∈ chunks, x ≠ [] ∧ x.length ≤ BUFSIZE - 1 ∧ ∀ b ∈ x, b ≠ NL ∧ b ≠ 0) →
    ∃ s1 c1, run s i chunks = some s1 ∧ s1.clients[i]? = some c1 ∧ c1.fd = c.fd ∧
      c1.buf.length = BUFSIZE ∧ (0 ≤ c1.len ∧ c1.len ≤ (BUFSIZE : Int) - 1) ∧
      (∀ b ∈ pending c1, b ≠ NL ∧ b ≠ 0) ∧
      s1.counter = s.counter ∧ s1.sent = s.sent ∧ s1.calls = s.calls ∧ s1.closed = s.closed := by
  induction chunks with
  | nil =>
    intro s i c hc hfd hbuf hlen hp _
    exact ⟨s, c, rfl, hc, rfl, hbuf, hlen, hp, rfl, rfl, rfl, rfl⟩
  | cons x xs ih =>
    intro s i c hc hfd hbuf hlen hp hch
    obtain ⟨s1, c1, h1, g1, g2, g3, g4, g5, g6, g7, g8, g9⟩ :=
      junk_step s i c x hc hfd hbuf hlen hp (hch x (List.mem_cons_self _ _))
    obtain ⟨s2, c2, k1, k2, k3, k4, k5, k6, k7, k8, k9, k10⟩ :=
      ih s1 i c1 g1 (by rw [g2]; exact hfd) g3 g4 g5
        (fun y hy => hch y (List.mem_cons_of_mem _ hy))
    refine ⟨s2, c2, by simp only [run, h1, k1], k2, k3.trans g2, k4, k5, k6, k7.trans g6,
      k8.trans g7, k9.trans g8, k10.trans g9⟩

/-- The five tokens of the protocol. -/
theorem vocabulary_clean (cmd : List Nat)
    (hcmd : cmd ∈ [bytes "INCR", bytes "DECR", bytes "GET", bytes "RESET", bytes "QUIT"]) :
    (∀ b ∈ cmd, b ≠ NL ∧ b ≠ 0) ∧ strip_cr cmd = cmd := by
  simp only [List.mem_cons, List.mem_singleton, List.not_mem_nil, or_false] at hcmd
  rcases hcmd with rfl | rfl | rfl | rfl | rfl <;> exact ⟨by decide, by decide⟩

theorem handle_command_observe (t : List Nat) (fd : Int) (s : Server) :
    handle_command t fd (observe s) = observe (handle_command t fd s) := by
  have h := handle_command_clients t fd s (s.clients.map client.observe)
  have hfr := (handle_command_frame t fd s).1
  unfold observe
  rw [h, hfr]

theorem line_command_after_junk (t : Server) (i : Nat) (c : client) (cmd : List Nat)
    (ys : List (List Nat))
    (hc : t.clients[i]? = some c) (hfd : 0 ≤ c.fd)
    (hp : ∀ b ∈ pending c, b ≠ NL ∧ b ≠ 0)
    (hcmd : cmd ∈ [bytes "INCR", bytes "DECR", bytes "GET", bytes "RESET", bytes "QUIT"])
    (hq : is_quit (strip_cr (pending c)) = false)
    (hys : ys.flatten = NL :: cmd ++ [NL]) (hne : ∀ y ∈ ys, y ≠ []) :
    ∃ junk, (junk = [] ∨ junk = strip_cr (pending c)) ∧
      (line_run t i ys).calls = t.calls ++ [(c.fd, junk), (c.fd, cmd)] ∧
      (line_run t i ys).sent
        = (handle_command cmd c.fd (handle_command junk c.fd t)).sent ∧
      (line_run t i ys).counter
        = (handle_command cmd c.fd (handle_command junk c.fd t)).counter := by
  obtain ⟨hclean, hstrip⟩ := vocabulary_clean cmd hcmd
  have hB : BUFSIZE = 4096 := rfl
  have hcl : cmd.length ≤ 5 := by
    simp only [List.mem_cons, List.mem_singleton, List.not_mem_nil, or_false] at hcmd
    rcases hcmd with rfl | rfl | rfl | rfl | rfl <;> decide
  have hi := getElem?_lt hc
  have hnfd : ¬ c.fd < 0 := by omega
  cases ys with
  | nil => simp at hys
  | cons y1 rest =>
    have hy1 := hne y1 (List.mem_cons_self _ _)
    obtain ⟨y1', rfl⟩ : ∃ y1', y1 = NL :: y1' := by
      cases y1 with
      | nil => exact absurd rfl hy1
      | cons a y1' =>
        simp only [List.flatten_cons, List.cons_append, List.cons.injEq] at hys
        exact ⟨y1', by rw [hys.1]⟩
    have hrest : y1' ++ rest.flatten = cmd ++ [NL] := by
      simpa using hys
    have hr : ¬ (RecvResult.data (NL :: y1')).r ≤ 0 := by
      show ¬ (((NL :: y1').length : Nat) : Int) ≤ 0
      simp only [List.length_cons]; omega
    set junk0 := kept c (NL :: y1') with hjunk0
    have hk : junk0 = [] ∨ junk0 = pending c := by
      rw [hjunk0]; unfold kept; split_ifs <;> simp
    have hkclean : ∀ b ∈ junk0, b ≠ NL ∧ b ≠ 0 := fun b hb => hp b (kept_mem c _ b hb)
    have hjq : ¬ strcasecmp (strip_cr junk0) (bytes "QUIT") = 0 := by
      intro e
      rw [is_quit_iff _ (fun b hb => (hkclean b (strip_cr_mem _ b hb)).2)] at e
      rcases hk with h | h
      · rw [h] at e; exact absurd e (by decide)
      · rw [h, hq] at e; cases e
    have hcalls : ∀ u : Server, (handle_command cmd c.fd (handle_command (strip_cr junk0) c.fd u)).calls
        = u.calls ++ [(c.fd, strip_cr junk0), (c.fd, cmd)] := by
      intro u
      rw [handle_command_calls, handle_command_calls,
        cstr_of_nonzero _ (fun b hb => (hclean b hb).2),
        cstr_of_nonzero _ (fun b hb => (hkclean b (strip_cr_mem _ b hb)).2)]
      simp
    refine ⟨strip_cr junk0, ?_, ?_⟩
    · rcases hk with h | h
      · left; rw [h]; rfl
      · right; rw [h]
    have hsd : step_data c (NL :: y1') = junk0 ++ NL :: y1' := step_data_kept c _
    cases rest with
    | nil =>
      have hy : y1' = cmd ++ NL :: [] := by simpa using hrest
      have hsp : split_lines (step_data c (NL :: y1')) = ([junk0, cmd], []) := by
        rw [hsd, hy, split_lines_line _ _ hkclean, split_lines_line _ _ hclean]
        rfl
      have hrun : line_run t i [NL :: y1'] = line_step t i (.data (NL :: y1')) := rfl
      rw [hrun, ← hcalls t]
      unfold line_step
      simp only [hc, hnfd, if_false, hr, RecvResult.tmp, hsp, List.map_cons, List.map_nil,
        hstrip, exec_lines, hjq]
      split_ifs <;> exact ⟨rfl, rfl, rfl⟩
    | cons y2 rest2 =>
      have hy2 := hne y2 (List.mem_cons_of_mem _ (List.mem_cons_self _ _))
      have hlen1 : y1'.length ≤ cmd.length := by
        have h := congrArg List.length hrest
        have h2 := List.length_pos.mpr hy2
        simp only [List.flatten_cons, List.length_append, List.length_singleton] at h
        omega
      have hy1clean : ∀ b ∈ y1', b ≠ NL ∧ b ≠ 0 := by
        intro b hb
        apply hclean
        have h := congrArg (List.take y1'.length) hrest
        rw [List.take_left, List.take_append_of_le_length hlen1] at h
        rw [h] at hb
        exact List.mem_of_mem_take hb
      have hsp : split_lines (step_data c (NL :: y1')) = ([junk0], y1') := by
        rw [hsd, split_lines_line _ _ hkclean, split_lines_junk _ hy1clean]
      have hstep : line_step t i (.data (NL :: y1'))
          = { handle_command (strip_cr junk0) c.fd t with
              clients := t.clients.set i ⟨c.fd, y1', (y1'.length : Nat)⟩ } := by
        unfold line_step
        simp only [hc, hnfd, if_false, hr, RecvResult.tmp, hsp, List.map_cons, List.map_nil,
          exec_lines, hjq, Bool.false_eq_true]
      have hrun : line_run t i ((NL :: y1') :: y2 :: rest2)
          = line_run (line_step t i (.data (NL :: y1'))) i (y2 :: rest2) := rfl
      rw [hrun, hstep]
      set t1 : Server := { handle_command (strip_cr junk0) c.fd t with
              clients := t.clients.set i ⟨c.fd, y1', (y1'.length : Nat)⟩ } with ht1
      have hc1 : t1.clients[i]? = some ⟨c.fd, y1', (y1'.length : Nat)⟩ := by
        simp [ht1, List.getElem?_set_self hi]
      have hfit : line_no_overflow t1 i (y2 :: rest2) = true := by
        apply line_no_overflow_of_small
        intro c1 hc1' _
        rw [hc1] at hc1'; cases hc1'
        have h := congrArg List.length hrest
        simp only [List.length_append, List.length_singleton] at h
        simp only []
        rw [hB]
        constructor <;> omega
      rw [line_run_eq_stream _ _ i (fun y hy => hne y (List.mem_cons_of_mem _ hy)) hfit,
        stream_fold_join]
      have hsp2 : split_lines (pending ⟨c.fd, y1', (y1'.length : Nat)⟩ ++ (y2 :: rest2).flatten)
          = ([cmd], []) := by
        rw [pending_kept, hrest, split_lines_line _ _ hclean]
        rfl
      have hh : handle_command cmd c.fd t1
          = { handle_command cmd c.fd (handle_command (strip_cr junk0) c.fd t) with
              clients := t.clients.set i ⟨c.fd, y1', (y1'.length : Nat)⟩ } := by
        rw [ht1, handle_command_clients]
      rw [← hcalls t]
      unfold stream_step
      simp only [hc1, hnfd, if_false, hsp2, List.map_cons, List.map_nil, hstrip, exec_lines, hh]
      split_ifs <;> exact ⟨rfl, rfl, rfl⟩

/-! ## Lemmas: the overflow reset -/

theorem append_chunk_reset (c : client) (X : List Nat) (hbuf : c.buf.length = BUFSIZE)
    (hX : X ≠ []) (hsz : X.length ≤ BUFSIZE - 1)
    (hov : c.len + X.length ≥ (BUFSIZE : Int) - 1) :
    append_chunk c (.data X) = append_chunk { c with len := 0 } (.data X) := by
  have hB : BUFSIZE = 4096 := rfl
  have hr := List.length_pos.mpr hX
  have h0 : store c.buf 0 0 = some (c.buf.set 0 0) := by
    simp [store, hbuf, hB]
  have hm1 : memcpy (c.buf.set 0 0) 0 X ((X.length : Int)).toNat
      = some (X ++ c.buf.drop X.length) := by
    rw [memcpy_spec (c.buf.set 0 0) X 0 0 _ rfl (by simp) (by simp [hbuf]; omega)]
    simp only [List.take_zero, List.nil_append, zero_add]
    rw [List.drop_set_of_lt _ _ hr]
  have hm2 : memcpy c.buf 0 X ((X.length : Int)).toNat = some (X ++ c.buf.drop X.length) := by
    rw [memcpy_spec c.buf X 0 0 _ rfl (by simp) (by simp [hbuf]; omega)]
    simp
  unfold append_chunk
  simp only [RecvResult.r, RecvResult.tmp, hov, if_true, h0, Option.map_some', hm1, hm2]
  split_ifs <;> simp only [hm1, hm2]


theorem recv_step_unfold (s : Server) (i : Nat) (c : client) (X : List Nat)
    (hc : s.clients[i]? = some c) (hfd : 0 ≤ c.fd) (hX : X ≠ []) :
    recv_step s i (.data X) = (append_chunk c (.data X)).bind (fun c1 =>
      (process_lines BUFSIZE { s with clients := s.clients.set i c1 } i c.fd 0).bind
        (fun p => compact p.1 i p.2)) := by
  have hr : ¬ (RecvResult.data X).r ≤ 0 := by
    have := List.length_pos.mpr hX
    show ¬ ((X.length : Nat) : Int) ≤ 0
    omega
  unfold recv_step
  simp only [hc, not_lt.mpr hfd, if_false, hr]
  cases append_chunk c (.data X) with
  | none => rfl
  | some c1 =>
    simp only [Option.some_bind]
    cases process_lines BUFSIZE { s with clients := s.clients.set i c1 } i c.fd 0 with
    | none => rfl
    | some p => rfl

theorem step_data_overflow (c : client) (X : List Nat)
    (hov : c.len + X.length ≥ (BUFSIZE : Int) - 1) : step_data c X = X := by
  unfold step_data
  rw [if_pos hov]; rfl


theorem split_lines_nonzero (D : List Nat) : ∀ l ∈ (split_lines D).1, ∀ b ∈ l, b ≠ 0 := by
  induction D with
  | nil => simp [split_lines]
  | cons x D ih =>
    rw [split_lines]
    split_ifs with h0 h1
    · simp
    · intro l hl b hb
      rcases List.mem_cons.mp hl with rfl | hl
      · simp at hb
      · exact ih l hl b hb
    · cases hL : (split_lines D).1 with
      | nil => simp
      | cons l ls =>
        simp only
        rw [hL] at ih
        intro l1 hl1 b hb
        rcases List.mem_cons.mp hl1 with rfl | hl1
        · rcases List.mem_cons.mp hb with rfl | hb
          · exact h0
          · exact ih l (List.mem_cons_self _ _) b hb
        · exact ih l1 (List.mem_cons_of_mem _ hl1) b hb

theorem split_lines_sub_lines_of (D : List Nat) :
    ∃ more, (lines_of D).1 = (split_lines D).1 ++ more := by
  induction D with
  | nil => exact ⟨[], rfl⟩
  | cons x D ih =>
    obtain ⟨more, hm⟩ := ih
    rw [split_lines, lines_of]
    by_cases h0 : x = 0
    · simp [h0]
    · by_cases h1 : x = NL
      · simp only [h0, h1, if_false, if_true]
        exact ⟨more, by rw [hm]; rfl⟩
      · simp only [h0, h1, if_false]
        cases hL : (split_lines D).1 with
        | nil => simp
        | cons l ls =>
          rw [hL] at hm
          rw [hm]
          exact ⟨more, rfl⟩

theorem exec_lines_no_quit (fd : Int) (L : List (List Nat)) : ∀ (s : Server),
    (∀ t ∈ L, strcasecmp t (bytes "QUIT") ≠ 0) → (exec_lines fd s L).2 = false := by
  induction L with
  | nil => intro s _; rfl
  | cons t L ih =>
    intro s h
    rw [exec_lines, if_neg (h t (List.mem_cons_self _ _))]
    exact ih _ (fun y hy => h y (List.mem_cons_of_mem _ hy))

/-- No line of the data is `QUIT`, hence none of the lines the scan finds. -/
theorem no_quit_in_scan (D : List Nat)
    (h : ∀ t ∈ (lines_of D).1.map strip_cr, is_quit t = false) :
    ∀ t ∈ (split_lines D).1.map strip_cr, strcasecmp t (bytes "QUIT") ≠ 0 := by
  intro t ht e
  obtain ⟨l, hl, rfl⟩ := List.mem_map.mp ht
  obtain ⟨more, hm⟩ := split_lines_sub_lines_of D
  have hmem : strip_cr l ∈ (lines_of D).1.map strip_cr := by
    rw [hm]; exact List.mem_map_of_mem _ (List.mem_append_left _ hl)
  have hz : ∀ b ∈ strip_cr l, b ≠ 0 :=
    fun b hb => split_lines_nonzero D l hl b (strip_cr_mem l b hb)
  rw [is_quit_iff _ hz, h _ hmem] at e
  cases e


theorem sample_after_junk :
    ∃ s1 c1, recv_step sample_server 0 (.data (List.replicate 4094 65)) = some s1 ∧
      s1.clients[0]? = some c1 ∧ slot_ok s1 0 ∧ c1.len = 4094 ∧
      observe s1 =
        { clients := [⟨4, List.replicate 4094 65, 4094⟩, ⟨-1, [], 0⟩], listener := 3,
          maxfd := 4, counter := 0, sent := [], closed := [], calls := [] } := by
  have hA : ∀ b ∈ List.replicate 4094 65, b ≠ NL ∧ b ≠ 0 := by
    intro b hb
    rw [List.eq_of_mem_replicate hb]
    decide
  have hne : List.replicate 4094 65 ≠ [] :=
    List.ne_nil_of_length_pos (by rw [List.length_replicate]; decide)
  obtain ⟨s1, h1, o1, c1, g1, g2, g3, g4⟩ := recv_step_refines sample_server 0
    (.data (List.replicate 4094 65)) sample_slot_ok (by
      show (List.replicate 4094 65).length ≤ BUFSIZE - 1
      rw [List.length_replicate]; decide)
  have hs1 : step_data ⟨4, [], 0⟩ (List.replicate 4094 65) = List.replicate 4094 65 :=
    step_data_empty _ _ rfl
  have e1 := line_step_junk
    { clients := [⟨4, [], 0⟩, ⟨-1, [], 0⟩], listener := 3, maxfd := 4, counter := 0,
      sent := [], closed := [], calls := [] } 0 ⟨4, [], 0⟩ (List.replicate 4094 65) rfl
    (by decide) hne (by rw [hs1]; exact hA)
  rw [hs1] at e1
  simp only [List.set_cons_zero, List.length_replicate] at e1
  rw [observe_sample, e1] at o1
  have hc1o : (observe s1).clients[0]? = some c1.observe := by
    rw [observe_clients_get, g1]; rfl
  rw [o1] at hc1o
  simp only [List.getElem?_cons_zero, Option.some.injEq] at hc1o
  have hlen1 : c1.len = 4094 := by
    have := congrArg client.len hc1o; simpa [client.observe] using this.symm
  exact ⟨s1, c1, h1, g1, ⟨c1, g1, g2, g3, g4⟩, hlen1, o1⟩


theorem handle_command_quit (t : List Nat) (fd : Int) (s : Server)
    (h : strcasecmp t (bytes "QUIT") = 0) :
    handle_command t fd s
      = { s with calls := s.calls ++ [(fd, cstr t)], sent := s.sent ++ [(fd, bytes "BYE\n")] } := by
  have hq := (strcasecmp_eq_zero t (bytes "QUIT")).mp h
  have hne : ∀ lit : List Nat, (cstr lit).map tolower ≠ (cstr (bytes "QUIT")).map tolower →
      strcasecmp t lit ≠ 0 := by
    intro lit hl e
    exact hl (((strcasecmp_eq_zero t lit).mp e).symm.trans hq)
  have h1 := hne (bytes "INCR") (by decide)
  have h2 := hne (bytes "DECR") (by decide)
  have h3 := hne (bytes "GET") (by decide)
  have h4 := hne (bytes "RESET") (by decide)
  have hb : cstr (bytes "BYE\n") = bytes "BYE\n" := by decide
  simp only [handle_command, h1, h2, h3, h4, h, if_false, if_true, send, hb]

theorem exec_lines_quit_last (fd : Int) (L : List (List Nat)) : ∀ (s : Server),
    (exec_lines fd s L).2 = true →
    (exec_lines fd s L).1.sent.getLast? = some (fd, bytes "BYE\n") := by
  induction L with
  | nil => intro s h; simp [exec_lines] at h
  | cons t L ih =>
    intro s h
    rw [exec_lines] at h ⊢
    split_ifs at h ⊢ with hq
    · rw [handle_command_quit t fd s hq]
      simp
    · exact ih _ h

theorem upto_quit_no_quit (L : List (List Nat)) (h : ∀ t ∈ L, is_quit t = false) :
    upto_quit L = L ∧ L.any is_quit = false := by
  induction L with
  | nil => exact ⟨rfl, rfl⟩
  | cons t L ih =>
    have ht := h t (List.mem_cons_self _ _)
    obtain ⟨i1, i2⟩ := ih (fun y hy => h y (List.mem_cons_of_mem _ hy))
    rw [upto_quit]
    simp [ht, i1, i2]



/-! ## Lemmas: unknown tokens and letter case -/

theorem handle_command_unknown (t : List Nat) (fd : Int) (s : Server)
    (hz : ∀ b ∈ t, b ≠ 0) (hu : is_command t = false) :
    handle_command t fd s
      = { s with calls := s.calls ++ [(fd, t)],
                 sent := s.sent ++ [(fd, bytes "ERR Unknown command\n")] } := by
  have hne : ∀ lit low : List Nat, (cstr lit).map tolower = low →
      low ∈ [bytes "incr", bytes "decr", bytes "get", bytes "reset", bytes "quit"] →
      strcasecmp t lit ≠ 0 := by
    intro lit low hl hm e
    rw [strcasecmp_eq_zero, cstr_of_nonzero t hz, hl] at e
    rw [← e] at hm
    simp only [is_command, decide_eq_false_iff_not] at hu
    exact hu hm
  have h1 := hne (bytes "INCR") (bytes "incr") (by decide) (by decide)
  have h2 := hne (bytes "DECR") (bytes "decr") (by decide) (by decide)
  have h3 := hne (bytes "GET") (bytes "get") (by decide) (by decide)
  have h4 := hne (bytes "RESET") (bytes "reset") (by decide) (by decide)
  have h5 := hne (bytes "QUIT") (bytes "quit") (by decide) (by decide)
  have hb : cstr (bytes "ERR Unknown command\n") = bytes "ERR Unknown command\n" := by decide
  simp only [handle_command, h1, h2, h3, h4, h5, if_false, send, hb, cstr_of_nonzero t hz]

theorem not_quit_of_not_command (t : List Nat) (hu : is_command t = false) :
    is_quit t = false := by
  simp only [is_command, decide_eq_false_iff_not] at hu
  cases h : is_quit t with
  | false => rfl
  | true =>
    exfalso
    apply hu
    simp only [is_quit, beq_iff_eq] at h
    rw [h]; decide

theorem line_step_skip_line (t : Server) (i : Nat) (c : client) (l rest : List Nat)
    (hc : t.clients[i]? = some c) (hfd : 0 ≤ c.fd) (hlen : c.len = 0)
    (hl : ∀ b ∈ l, b ≠ NL ∧ b ≠ 0) (hq : is_quit (strip_cr l) = false) (hrest : rest ≠ []) :
    line_step t i (.data (l ++ NL :: rest))
      = line_step (handle_command (strip_cr l) c.fd t) i (.data rest) := by
  have hnfd : ¬ c.fd < 0 := by omega
  have hr1 : ¬ (RecvResult.data (l ++ NL :: rest)).r ≤ 0 := by
    show ¬ (((l ++ NL :: rest).length : Nat) : Int) ≤ 0
    simp only [List.length_append, List.length_cons]; omega
  have hr2 : ¬ (RecvResult.data rest).r ≤ 0 := by
    have := List.length_pos.mpr hrest
    show ¬ ((rest.length : Nat) : Int) ≤ 0
    omega
  obtain ⟨g1, g2, g3, g4⟩ := handle_command_frame (strip_cr l) c.fd t
  have hc2 : (handle_command (strip_cr l) c.fd t).clients[i]? = some c := by rw [g1]; exact hc
  have hz : ∀ b ∈ strip_cr l, b ≠ 0 := fun b hb => (hl b (strip_cr_mem l b hb)).2
  have hjq : ¬ strcasecmp (strip_cr l) (bytes "QUIT") = 0 := by
    intro e
    rw [is_quit_iff _ hz, hq] at e
    cases e
  unfold line_step
  simp only [hc, hc2, hnfd, if_false, hr1, hr2, RecvResult.tmp, step_data_empty c _ hlen,
    split_lines_line l rest hl, List.map_cons, exec_lines, hjq, g1, g2, g4]



theorem swap_case_facts (a b : Nat) (h : b = a ∨ b = swap_case a) :
    tolower b = tolower a ∧ (b = 0 ↔ a = 0) ∧ (b = NL ↔ a = NL) ∧ (b = CR ↔ a = CR) := by
  rcases h with rfl | rfl
  · exact ⟨rfl, Iff.rfl, Iff.rfl, Iff.rfl⟩
  · have hNL : NL = 10 := rfl
    have hCR : CR = 13 := rfl
    rw [hNL, hCR]
    by_cases h1 : 65 ≤ a ∧ a ≤ 90
    · have e : swap_case a = a + 32 := by simp only [swap_case, h1, and_self, if_true]
      have e1 : tolower (a + 32) = a + 32 := by
        unfold tolower; rw [if_neg (by omega)]
      have e2 : tolower a = a + 32 := by
        unfold tolower; rw [if_pos h1]
      rw [e, e1, e2]
      exact ⟨rfl, by omega, by omega, by omega⟩
    · by_cases h2 : 97 ≤ a ∧ a ≤ 122
      · have e : swap_case a = a - 32 := by
          unfold swap_case; rw [if_neg h1, if_pos h2]
        have e1 : tolower (a - 32) = a := by
          unfold tolower; rw [if_pos (by omega)]; omega
        have e2 : tolower a = a := by
          unfold tolower; rw [if_neg h1]
        rw [e, e1, e2]
        exact ⟨rfl, by omega, by omega, by omega⟩
      · have e : swap_case a = a := by
          unfold swap_case; rw [if_neg h1, if_neg h2]
        rw [e]
        exact ⟨rfl, Iff.rfl, Iff.rfl, Iff.rfl⟩

theorem strcasecmp_variant (t t' : List Nat) (h : case_variant t t' = true) (lit : List Nat) :
    strcasecmp t lit = strcasecmp t' lit := by
  induction t generalizing t' lit with
  | nil =>
    cases t' with
    | nil => rfl
    | cons b bs => simp [case_variant] at h
  | cons a as ih =>
    cases t' with
    | nil => simp [case_variant] at h
    | cons b bs =>
      simp only [case_variant, Bool.and_eq_true, Bool.or_eq_true, beq_iff_eq] at h
      obtain ⟨f1, f2, _, _⟩ := swap_case_facts a b h.1
      cases lit with
      | nil => simp only [strcasecmp, f1]
      | cons x lit =>
        simp only [strcasecmp, f1, f2, ih bs h.2 lit]

theorem handle_command_variant (t t' : List Nat) (fd : Int) (s : Server)
    (h : case_variant t t' = true) :
    (handle_command t fd s).counter = (handle_command t' fd s).counter ∧
    (handle_command t fd s).sent = (handle_command t' fd s).sent := by
  simp only [handle_command, strcasecmp_variant t t' h, send]
  split_ifs <;> exact ⟨rfl, rfl⟩

theorem case_variant_last (t : List Nat) : ∀ t', case_variant t t' = true →
    (t.getLast? = some CR ↔ t'.getLast? = some CR) ∧
    case_variant t.dropLast t'.dropLast = true := by
  induction t with
  | nil =>
    intro t' h
    cases t' with
    | nil => exact ⟨Iff.rfl, rfl⟩
    | cons b bs => simp [case_variant] at h
  | cons a as ih =>
    intro t' h
    cases t' with
    | nil => simp [case_variant] at h
    | cons b bs =>
      simp only [case_variant, Bool.and_eq_true, Bool.or_eq_true, beq_iff_eq] at h
      obtain ⟨_, _, _, f4⟩ := swap_case_facts a b h.1
      cases as with
      | nil =>
        cases bs with
        | nil =>
          refine ⟨?_, rfl⟩
          simp only [List.getLast?_singleton, Option.some.injEq]
          exact f4.symm
        | cons b2 bs => simp [case_variant] at h
      | cons a2 as =>
        cases bs with
        | nil => simp [case_variant] at h
        | cons b2 bs =>
          obtain ⟨i1, i2⟩ := ih (b2 :: bs) h.2
          refine ⟨?_, ?_⟩
          · rw [List.getLast?_cons_cons, List.getLast?_cons_cons]; exact i1
          · rw [List.dropLast_cons₂, List.dropLast_cons₂]
            simp only [case_variant, Bool.and_eq_true, Bool.or_eq_true, beq_iff_eq]
            exact ⟨h.1, i2⟩

theorem case_variant_strip_cr (t t' : List Nat) (h : case_variant t t' = true) :
    case_variant (strip_cr t) (strip_cr t') = true := by
  obtain ⟨h1, h2⟩ := case_variant_last t t' h
  unfold strip_cr
  by_cases hc : t.getLast? = some CR
  · rw [if_pos hc, if_pos (h1.mp hc)]; exact h2
  · rw [if_neg hc, if_neg (fun e => hc (h1.mpr e))]; exact h

theorem case_variant_clean (t : List Nat) : ∀ t', case_variant t t' = true →
    (∀ b ∈ t, b ≠ NL ∧ b ≠ 0) → ∀ b ∈ t', b ≠ NL ∧ b ≠ 0 := by
  induction t with
  | nil =>
    intro t' h _
    cases t' with
    | nil => simp
    | cons b bs => simp [case_variant] at h
  | cons a as ih =>
    intro t' h hc
    cases t' with
    | nil => simp
    | cons b bs =>
      simp only [case_variant, Bool.and_eq_true, Bool.or_eq_true, beq_iff_eq] at h
      obtain ⟨_, f2, f3, _⟩ := swap_case_facts a b h.1
      have ha := hc a (List.mem_cons_self _ _)
      intro x hx
      rcases List.mem_cons.mp hx with rfl | hx
      · exact ⟨fun e => ha.1 (f3.mp e), fun e => ha.2 (f2.mp e)⟩
      · exact ih bs h.2 (fun y hy => hc y (List.mem_cons_of_mem _ hy)) x hx

theorem case_variant_length (t : List Nat) : ∀ t', case_variant t t' = true →
    t.length = t'.length := by
  induction t with
  | nil =>
    intro t' h
    cases t' with
    | nil => rfl
    | cons b bs => simp [case_variant] at h
  | cons a as ih =>
    intro t' h
    cases t' with
    | nil => simp [case_variant] at h
    | cons b bs =>
      simp only [case_variant, Bool.and_eq_true] at h
      simp [ih bs h.2]


theorem line_step_single (u : Server) (i : Nat) (c : client) (l : List Nat)
    (hc : u.clients[i]? = some c) (hfd : 0 ≤ c.fd) (hlen : c.len = 0)
    (hl : ∀ b ∈ l, b ≠ NL ∧ b ≠ 0) :
    line_step u i (.data (l ++ [NL])) =
      if strcasecmp (strip_cr l) (bytes "QUIT") = 0 then
        { handle_command (strip_cr l) c.fd u with
          clients := u.clients.set i ⟨-1, [], 0⟩, closed := u.closed ++ [c.fd],
          maxfd := recompute_maxfd (u.clients.set i ⟨-1, [], 0⟩) u.listener }
      else
        { handle_command (strip_cr l) c.fd u with clients := u.clients.set i ⟨c.fd, [], 0⟩ } := by
  have hnfd : ¬ c.fd < 0 := by omega
  have hr1 : ¬ (RecvResult.data (l ++ [NL])).r ≤ 0 := by
    show ¬ (((l ++ [NL]).length : Nat) : Int) ≤ 0
    simp only [List.length_append, List.length_singleton]; omega
  have hsp : split_lines (l ++ [NL]) = ([l], []) := split_lines_line l [] hl
  unfold line_step
  by_cases hq : strcasecmp (strip_cr l) (bytes "QUIT") = 0
  · simp only [hc, hnfd, if_false, hr1, RecvResult.tmp, step_data_empty c _ hlen, hsp,
      List.map_cons, List.map_nil, exec_lines, hq, if_true]
  · simp only [hc, hnfd, if_false, hr1, RecvResult.tmp, step_data_empty c _ hlen, hsp,
      List.map_cons, List.map_nil, exec_lines, hq, Bool.false_eq_true]
    rfl


/-! ## Lemmas: line endings -/

theorem strip_cr_snoc (l : List Nat) : strip_cr (l ++ [CR]) = l := by
  simp [strip_cr]

theorem strip_cr_id (t : List Nat) (h : t.getLast? ≠ some CR) : strip_cr t = t := by
  simp [strip_cr, h]

theorem clean_snoc_cr {t : List Nat} (ht : ∀ b ∈ t, b ≠ NL ∧ b ≠ 0) :
    ∀ b ∈ t ++ [CR], b ≠ NL ∧ b ≠ 0 := by
  intro b hb
  rcases List.mem_append.mp hb with h | h
  · exact ht b h
  · rw [List.mem_singleton.mp h]; decide

theorem stream_step_token (u : Server) (i : Nat) (c : client) (l l' rest : List Nat)
    (hc : u.clients[i]? = some c) (hlen : c.len = 0)
    (hl : ∀ b ∈ l, b ≠ NL ∧ b ≠ 0) (hl' : ∀ b ∈ l', b ≠ NL ∧ b ≠ 0)
    (h : strip_cr l = strip_cr l') :
    stream_step u i (l ++ NL :: rest) = stream_step u i (l' ++ NL :: rest) := by
  have hp : pending c = [] := by simp [pending, hlen]
  unfold stream_step
  simp only [hc, hp, List.nil_append, split_lines_line l rest hl, split_lines_line l' rest hl',
    List.map_cons, h]

theorem is_command_short (t : List Nat) (h : 5 < t.length) : is_command t = false := by
  simp only [is_command, decide_eq_false_iff_not]
  intro hm
  have hlen : (t.map tolower).length ≤ 5 := by
    simp only [List.mem_cons, List.mem_singleton, List.not_mem_nil, or_false] at hm
    rcases hm with e | e | e | e | e <;> rw [e] <;> decide
  rw [List.length_map] at hlen
  omega

theorem length_le_flatten (L : List (List Nat)) : ∀ x ∈ L, x.length ≤ L.flatten.length := by
  induction L with
  | nil => intro x hx; cases hx
  | cons y ys ih =>
    intro x hx
    simp only [List.flatten_cons, List.length_append]
    rcases List.mem_cons.mp hx with rfl | h
    · omega
    · have := ih x h; omega

/-- A run of non-empty reads on an empty buffer whose bytes together stay below the
overflow bound is the stream step on the bytes joined. -/
theorem run_small_stream (s : Server) (i : Nat) (c : client) (cuts : List (List Nat))
    (hc : s.clients[i]? = some c) (hbuf : c.buf.length = BUFSIZE)
    (hlen : c.len = 0) (hne : ∀ x ∈ cuts, x ≠ []) (hcuts : cuts ≠ [])
    (hfit : cuts.flatten.length < BUFSIZE - 1) :
    ∃ s1, run s i cuts = some s1 ∧ observe s1 = stream_step (observe s) i cuts.flatten := by
  have hB : BUFSIZE = 4096 := rfl
  have hok : slot_ok s i := ⟨c, hc, hbuf, by omega, by rw [hlen, hB]; decide⟩
  have hsz : ∀ x ∈ cuts, x.length ≤ BUFSIZE - 1 := by
    intro x hx
    have := length_le_flatten cuts x hx
    omega
  obtain ⟨s1, h1, o1, _⟩ := run_refines cuts s i hok hsz
  have hco : (observe s).clients[i]? = some c.observe := by
    rw [observe_clients_get, hc]; rfl
  have hno : line_no_overflow (observe s) i cuts = true := by
    apply line_no_overflow_of_small
    intro c1 hc1 _
    rw [hco] at hc1; cases hc1
    rw [observe_len, hlen]
    refine ⟨le_refl _, ?_⟩
    rw [hB] at hfit ⊢
    omega
  refine ⟨s1, h1, ?_⟩
  rw [o1, line_run_eq_stream cuts _ i hne hno]
  cases cuts with
  | nil => exact absurd rfl hcuts
  | cons x xs => exact stream_fold_join xs _ i x


theorem run_single (s : Server) (i : Nat) (x : List Nat) :
    run s i [x] = recv_step s i (.data x) := by
  simp only [run]
  cases recv_step s i (.data x) <;> rfl

/-- Both line endings on an empty buffer, any cuts, no overflow. -/
theorem crlf_cuts (s : Server) (i : Nat) (c : client) (t rest : List Nat)
    (cuts1 cuts2 : List (List Nat))
    (hc : s.clients[i]? = some c) (hbuf : c.buf.length = BUFSIZE)
    (hlen : c.len = 0) (ht : ∀ b ∈ t, b ≠ NL ∧ b ≠ 0) (hcr : t.getLast? ≠ some CR)
    (h1 : cuts1.flatten = t ++ CR :: NL :: rest) (h2 : cuts2.flatten = t ++ NL :: rest)
    (hne1 : ∀ x ∈ cuts1, x ≠ []) (hne2 : ∀ x ∈ cuts2, x ≠ [])
    (hfit : t.length + 2 + rest.length < BUFSIZE - 1) :
    ∃ s1 s2, run s i cuts1 = some s1 ∧ run s i cuts2 = some s2 ∧ observe s1 = observe s2 := by
  have hco : (observe s).clients[i]? = some c.observe := by
    rw [observe_clients_get, hc]; rfl
  have hc1 : cuts1 ≠ [] := by
    rintro rfl
    simp at h1
  have hc2 : cuts2 ≠ [] := by
    rintro rfl
    simp at h2
  obtain ⟨s1, r1, o1⟩ := run_small_stream s i c cuts1 hc hbuf hlen hne1 hc1 (by
    rw [h1]; simp only [List.length_append, List.length_cons]; omega)
  obtain ⟨s2, r2, o2⟩ := run_small_stream s i c cuts2 hc hbuf hlen hne2 hc2 (by
    rw [h2]; simp only [List.length_append, List.length_cons]; omega)
  refine ⟨s1, s2, r1, r2, ?_⟩
  rw [o1, o2, h1, h2]
  have e : t ++ CR :: NL :: rest = (t ++ [CR]) ++ NL :: rest := by simp
  rw [e]
  exact stream_step_token (observe s) i c.observe (t ++ [CR]) t rest hco hlen
    (clean_snoc_cr ht) ht (by rw [strip_cr_snoc, strip_cr_id t hcr])

/-- A line too long to be kept: the `'\r'` ends one read, the `'\n'` comes alone
in the next and triggers the overflow reset; the reply is the one of the line
delivered in one read. -/
theorem crlf_split_long (s : Server) (i : Nat) (c : client) (t : List Nat)
    (hc : s.clients[i]? = some c) (hfd : 0 ≤ c.fd) (hbuf : c.buf.length = BUFSIZE)
    (hlen : c.len = 0) (ht : ∀ b ∈ t, b ≠ NL ∧ b ≠ 0) (hcr : t.getLast? ≠ some CR)
    (hread : t.length + 1 ≤ BUFSIZE - 1) (hlong : BUFSIZE - 1 ≤ t.length + 2) :
    ∃ s2 s3, run s i [t ++ [CR], [NL]] = some s2 ∧ run s i [t ++ [NL]] = some s3 ∧
      s2.sent = s3.sent ∧ s2.counter = s3.counter ∧ s2.closed = s3.closed ∧
      s2.maxfd = s3.maxfd ∧ (observe s2).clients = (observe s3).clients := by
  have hB : BUFSIZE = 4096 := rfl
  have hok : slot_ok s i := ⟨c, hc, hbuf, by omega, by rw [hlen, hB]; decide⟩
  have hi := getElem?_lt hc
  have hco : (observe s).clients[i]? = some c.observe := by
    rw [observe_clients_get, hc]; rfl
  have hio : i < (observe s).clients.length := getElem?_lt hco
  have hnfd : ¬ c.fd < 0 := by omega
  obtain ⟨s2, r2, o2, _⟩ := run_refines [t ++ [CR], [NL]] s i hok (by
    intro x hx
    simp only [List.mem_cons, List.mem_singleton, List.not_mem_nil, or_false] at hx
    rcases hx with rfl | rfl
    · simp only [List.length_append, List.length_singleton]; omega
    · rw [hB]; decide)
  obtain ⟨s3, r3, o3, _⟩ := run_refines [t ++ [NL]] s i hok (by
    intro x hx
    simp only [List.mem_singleton] at hx
    subst hx
    simp only [List.length_append, List.length_singleton]; omega)
  have hu : is_command t = false := is_command_short t (by rw [hB] at hlong; omega)
  have hq := not_quit_of_not_command _ hu
  have hz : ∀ b ∈ t, b ≠ 0 := fun b hb => (ht b hb).2
  have hjq : ¬ strcasecmp t (bytes "QUIT") = 0 := by
    intro e
    rw [is_quit_iff _ hz, hq] at e
    cases e
  -- the line in one read
  have e3 : line_run (observe s) i [t ++ [NL]]
      = { handle_command t c.fd (observe s) with
          clients := (observe s).clients.set i ⟨c.fd, [], 0⟩ } := by
    show line_step (observe s) i (.data (t ++ [NL])) = _
    rw [line_step_single (observe s) i c.observe t hco (by rw [observe_fd]; exact hfd) hlen ht,
      strip_cr_id t hcr, if_neg hjq]
    rfl
  -- the line in two reads
  have hsd : step_data c.observe (t ++ [CR]) = t ++ [CR] := step_data_empty _ _ hlen
  have e1 : line_step (observe s) i (.data (t ++ [CR]))
      = { observe s with
          clients := (observe s).clients.set i ⟨c.fd, t ++ [CR], ((t ++ [CR]).length : Nat)⟩ } := by
    have := line_step_junk (observe s) i c.observe (t ++ [CR]) hco
      (by rw [observe_fd]; exact hfd) (by simp) (by rw [hsd]; exact clean_snoc_cr ht)
    rw [this, hsd]; rfl
  have e2 : line_run (observe s) i [t ++ [CR], [NL]]
      = { handle_command [] c.fd (observe s) with
          clients := (observe s).clients.set i ⟨c.fd, [], 0⟩ } := by
    show line_step (line_step (observe s) i (.data (t ++ [CR]))) i (.data [NL]) = _
    rw [e1]
    have hov : ((((t ++ [CR]).length : Nat) : Int)) + (([NL] : List Nat).length : Nat)
        ≥ (BUFSIZE : Int) - 1 := by
      simp only [List.length_append, List.length_singleton, Nat.cast_add, Nat.cast_one]
      rw [hB] at hlong ⊢
      omega
    have hsd2 : step_data ⟨c.fd, t ++ [CR], ((t ++ [CR]).length : Nat)⟩ [NL] = [NL] := by
      unfold step_data
      rw [if_pos hov]; rfl
    have hr : ¬ (RecvResult.data [NL]).r ≤ 0 := by decide
    have hsp : split_lines [NL] = ([[]], []) := by decide
    have hs0 : strip_cr [] = [] := by decide
    have hq0 : ¬ strcasecmp [] (bytes "QUIT") = 0 := by decide
    unfold line_step
    simp only [List.getElem?_set_self hio, hnfd, if_false, hr, RecvResult.tmp, hsd2, hsp,
      List.map_cons, List.map_nil, hs0, exec_lines, hq0, Bool.false_eq_true, List.set_set,
      List.length_nil]
    rw [handle_command_clients]
    rfl
  have u1 := handle_command_unknown t c.fd (observe s) hz hu
  have u2 := handle_command_unknown [] c.fd (observe s) (by simp) (by decide)
  rw [e2, u2] at o2
  rw [e3, u1] at o3
  obtain ⟨f1, f2, _, f4, f5, _⟩ := observe_fields s2
  obtain ⟨d1, d2, _, d4, d5, _⟩ := observe_fields s3
  refine ⟨s2, s3, r2, r3, ?_, ?_, ?_, ?_, ?_⟩
  · rw [← f2, ← d2, o2, o3]
  · rw [← f1, ← d1, o2, o3]
  · rw [← f4, ← d4, o2, o3]
  · rw [← f5, ← d5, o2, o3]
  · rw [o2, o3]


theorem line_step_token (u : Server) (i : Nat) (c : client) (l l' rest : List Nat)
    (hc : u.clients[i]? = some c) (hlen : c.len = 0)
    (hl : ∀ b ∈ l, b ≠ NL ∧ b ≠ 0) (hl' : ∀ b ∈ l', b ≠ NL ∧ b ≠ 0)
    (h : strip_cr l = strip_cr l') :
    line_step u i (.data (l ++ NL :: rest)) = line_step u i (.data (l' ++ NL :: rest)) := by
  have hr1 : ¬ (RecvResult.data (l ++ NL :: rest)).r ≤ 0 := by
    show ¬ (((l ++ NL :: rest).length : Nat) : Int) ≤ 0
    simp only [List.length_append, List.length_cons]; omega
  have hr2 : ¬ (RecvResult.data (l' ++ NL :: rest)).r ≤ 0 := by
    show ¬ (((l' ++ NL :: rest).length : Nat) : Int) ≤ 0
    simp only [List.length_append, List.length_cons]; omega
  unfold line_step
  simp only [hc, hr1, hr2, if_false, RecvResult.tmp, step_data_empty c _ hlen,
    split_lines_line l rest hl, split_lines_line l' rest hl', List.map_cons, h]

/-- The token handed to `handle_command` for a line delivered alone to an empty
buffer. -/
theorem line_alone_calls (s : Server) (i : Nat) (c : client) (l : List Nat)
    (hc : s.clients[i]? = some c) (hfd : 0 ≤ c.fd) (hbuf : c.buf.length = BUFSIZE)
    (hlen : c.len = 0) (hl : ∀ b ∈ l, b ≠ NL ∧ b ≠ 0) (hsz : l.length + 1 ≤ BUFSIZE - 1) :
    ∃ s1, recv_step s i (.data (l ++ [NL])) = some s1 ∧
      s1.calls = s.calls ++ [(c.fd, strip_cr l)] ∧
      s1.sent = (handle_command (strip_cr l) c.fd s).sent ∧
      s1.counter = (handle_command (strip_cr l) c.fd s).counter := by
  have hB : BUFSIZE = 4096 := rfl
  have hok : slot_ok s i := ⟨c, hc, hbuf, by omega, by rw [hlen, hB]; decide⟩
  have hco : (observe s).clients[i]? = some c.observe := by
    rw [observe_clients_get, hc]; rfl
  obtain ⟨s1, h1, o1, _⟩ := recv_step_refines s i (.data (l ++ [NL])) hok (by
    show (l ++ [NL]).length ≤ BUFSIZE - 1
    simp only [List.length_append, List.length_singleton]; omega)
  rw [line_step_single (observe s) i c.observe l hco (by rw [observe_fd]; exact hfd) hlen hl,
    observe_fd, handle_command_observe] at o1
  have hz : ∀ b ∈ strip_cr l, b ≠ 0 := fun b hb => (hl b (strip_cr_mem l b hb)).2
  obtain ⟨f1, f2, f3, _, _, _⟩ := observe_fields s1
  obtain ⟨g1, g2, g3, _, _, _⟩ := observe_fields (handle_command (strip_cr l) c.fd s)
  refine ⟨s1, h1, ?_, ?_, ?_⟩
  · rw [← f3, o1]
    have : (handle_command (strip_cr l) c.fd s).calls = s.calls ++ [(c.fd, strip_cr l)] := by
      rw [handle_command_calls, cstr_of_nonzero _ hz]
    split_ifs <;> exact g3.trans this
  · rw [← f2, o1]; split_ifs <;> exact g2
  · rw [← f1, o1]; split_ifs <;> exact g1

/-! ## Lemmas: accepting a connection -/

theorem find_slot_le (cl : List client) : find_slot cl ≤ cl.length := by
  induction cl with
  | nil => simp [find_slot]
  | cons c cs ih =>
    simp only [find_slot, List.length_cons]
    split_ifs <;> omega

/-- When no slot is free the scan ends at the number of slots. -/
theorem find_slot_full (cl : List client) (h : ∀ c ∈ cl, 0 ≤ c.fd) :
    find_slot cl = cl.length := by
  induction cl with
  | nil => rfl
  | cons c cs ih =>
    have hc := h c (List.mem_cons_self _ _)
    simp only [find_slot, List.length_cons, not_lt.mpr hc, if_false,
      ih (fun x hx => h x (List.mem_cons_of_mem _ hx))]

/-- The scan ends at the first free slot. -/
theorem find_slot_first (cl : List client) : ∀ (i : Nat) (c : client),
    cl[i]? = some c → c.fd < 0 → (∀ j cj, j < i → cl[j]? = some cj → 0 ≤ cj.fd) →
    find_slot cl = i := by
  induction cl with
  | nil => intro i c h; simp at h
  | cons d ds ih =>
    intro i c h hfree hocc
    cases i with
    | zero =>
      simp only [List.getElem?_cons_zero, Option.some.injEq] at h
      subst h
      simp [find_slot, hfree]
    | succ k =>
      have hd : 0 ≤ d.fd := hocc 0 d (by omega) (by simp)
      simp only [find_slot, not_lt.mpr hd, if_false]
      rw [ih k c (by simpa using h) hfree (fun j cj hj hcj => hocc (j + 1) cj (by omega)
        (by simpa using hcj))]

/-- What the scan found: a free slot with only occupied slots before it, or the
number of slots with every slot occupied. -/
theorem find_slot_spec (cl : List client) :
    (find_slot cl = cl.length ∧ ∀ c ∈ cl, 0 ≤ c.fd) ∨
    (∃ c, cl[find_slot cl]? = some c ∧ c.fd < 0 ∧
      ∀ j cj, j < find_slot cl → cl[j]? = some cj → 0 ≤ cj.fd) := by
  induction cl with
  | nil => left; simp [find_slot]
  | cons d ds ih =>
    by_cases hd : d.fd < 0
    · right
      refine ⟨d, by simp [find_slot, hd], hd, ?_⟩
      intro j cj hj
      simp [find_slot, hd] at hj
    · simp only [find_slot, hd, if_false]
      rcases ih with ⟨h1, h2⟩ | ⟨c, h1, h2, h3⟩
      · left
        refine ⟨by simp [h1], ?_⟩
        intro c hc
        rcases List.mem_cons.mp hc with rfl | h
        · omega
        · exact h2 c h
      · right
        refine ⟨c, by simpa using h1, h2, ?_⟩
        intro j cj hj hcj
        cases j with
        | zero =>
          simp only [List.getElem?_cons_zero, Option.some.injEq] at hcj
          subst hcj; omega
        | succ k => exact h3 k cj (by omega) (by simpa using hcj)

theorem accept_step_full (s : Server) (connfd : Int) (h0 : 0 ≤ connfd)
    (hfull : ∀ c ∈ s.clients, 0 ≤ c.fd) :
    accept_step s connfd = some { s with closed := s.closed ++ [connfd] } := by
  unfold accept_step
  simp only [not_lt.mpr h0, if_false, find_slot_full _ hfull, MAX_CLIENTS, FD_SETSIZE,
    if_true]

theorem accept_step_free (s : Server) (connfd : Int) (i : Nat) (c : client) (h0 : 0 ≤ connfd)
    (hc : s.clients[i]? = some c) (hfree : c.fd < 0) (hbuf : 0 < c.buf.length)
    (hocc : ∀ j cj, j < i → s.clients[j]? = some cj → 0 ≤ cj.fd) :
    accept_step s connfd = some { s with
      clients := s.clients.set i { fd := connfd, buf := c.buf.set 0 0, len := 0 },
      maxfd := if connfd > s.maxfd then connfd else s.maxfd } := by
  have hi := getElem?_lt hc
  have h0s : store c.buf 0 0 = some (c.buf.set 0 0) := by
    simp [store, hbuf]
  unfold accept_step
  simp only [not_lt.mpr h0, if_false, find_slot_first _ i c hc hfree hocc, MAX_CLIENTS,
    FD_SETSIZE,
    Nat.ne_of_lt hi, hc, h0s]

/-! ## Lemmas: the reply line -/

theorem utoa_acc (fuel : Nat) : ∀ (n : Nat) (acc : List Nat),
    utoa fuel n acc = utoa fuel n [] ++ acc := by
  induction fuel with
  | zero => intro n acc; simp [utoa]
  | succ f ih =>
    intro n acc
    simp only [utoa]
    split_ifs
    · simp
    · rw [ih (n / 10) ((48 + n % 10) :: acc), ih (n / 10) [48 + n % 10]]
      simp

/-- The digits `utoa` prints: not empty, all decimal digits, and their value is the
number printed. -/
theorem utoa_value (fuel : Nat) : ∀ n : Nat, n < fuel →
    utoa fuel n [] ≠ [] ∧ (∀ d ∈ utoa fuel n [], 48 ≤ d ∧ d ≤ 57) ∧
    (utoa fuel n []).foldl (fun a d => 10 * a + (d - 48)) 0 = n := by
  induction fuel with
  | zero => intro n h; omega
  | succ f ih =>
    intro n hn
    simp only [utoa]
    split_ifs with h
    · refine ⟨by simp, ?_, ?_⟩
      · intro d hd
        simp only [List.mem_singleton] at hd
        omega
      · simp
    · obtain ⟨h1, h2, h3⟩ := ih (n / 10) (by omega)
      rw [utoa_acc]
      refine ⟨by simp, ?_, ?_⟩
      · intro d hd
        rcases List.mem_append.mp hd with hd | hd
        · exact h2 d hd
        · simp only [List.mem_singleton] at hd
          omega
      · rw [List.foldl_append, h3]
        simp only [List.foldl_cons, List.foldl_nil]
        omega

theorem utoa_length (fuel : Nat) : ∀ n k : Nat, n < 10 ^ (k + 1) →
    (utoa fuel n []).length ≤ k + 1 := by
  induction fuel with
  | zero => intro n k _; simp [utoa]
  | succ f ih =>
    intro n k hn
    simp only [utoa]
    split_ifs with h
    · simp
    · cases k with
      | zero => simp at hn; omega
      | succ k =>
        have : n / 10 < 10 ^ (k + 1) := by
          rw [Nat.div_lt_iff_lt_mul (by decide)]
          rw [pow_succ] at hn
          exact hn
        have := ih (n / 10) k this
        rw [utoa_acc]
        simp only [List.length_append, List.length_singleton]
        omega

theorem digits_value_utoa (n : Nat) : digits_value (utoa (n + 1) n []) = some n := by
  obtain ⟨h1, h2, h3⟩ := utoa_value (n + 1) n (by omega)
  unfold digits_value
  rw [if_pos, h3]
  refine ⟨h1, ?_⟩
  rw [List.all_eq_true]
  intro d hd
  exact decide_eq_true (h2 d hd)

/-- The decimal string printed for the counter reads back as the counter. -/
theorem parse_decimal_fmt_lld (n : Int) : parse_decimal (fmt_lld n) = some n := by
  obtain ⟨h1, h2, _⟩ := utoa_value (n.natAbs + 1) n.natAbs (by omega)
  unfold fmt_lld
  by_cases hn : n < 0
  · simp only [hn, if_true, List.singleton_append, parse_decimal, digits_value_utoa,
      Option.some.injEq]
    omega
  · simp only [hn, if_false, List.nil_append]
    obtain ⟨b, ds, hbd⟩ := List.exists_cons_of_ne_nil h1
    have hb := h2 b (by rw [hbd]; exact List.mem_cons_self _ _)
    have hv := digits_value_utoa n.natAbs
    rw [hbd] at hv ⊢
    have hb45 : b ≠ 45 := by omega
    simp only [parse_decimal, hb45, if_false, hv, Option.some.injEq]
    omega

theorem fmt_lld_chars (n : Int) : fmt_lld n ≠ [] ∧ ∀ b ∈ fmt_lld n, b = 45 ∨ (48 ≤ b ∧ b ≤ 57) := by
  obtain ⟨h1, h2, _⟩ := utoa_value (n.natAbs + 1) n.natAbs (by omega)
  unfold fmt_lld
  refine ⟨by simp [h1], ?_⟩
  intro b hb
  rcases List.mem_append.mp hb with h | h
  · split_ifs at h
    · simp only [List.mem_singleton] at h; exact Or.inl h
    · cases h
  · exact Or.inr (h2 b h)

theorem fmt_lld_sign (n : Int) : (n < 0 ↔ (fmt_lld n).head? = some 45) := by
  obtain ⟨h1, h2, _⟩ := utoa_value (n.natAbs + 1) n.natAbs (by omega)
  unfold fmt_lld
  by_cases hn : n < 0
  · simp [hn]
  · simp only [hn, if_false, List.nil_append, false_iff]
    obtain ⟨b, ds, hbd⟩ := List.exists_cons_of_ne_nil h1
    have hb := h2 b (by rw [hbd]; exact List.mem_cons_self _ _)
    rw [hbd]
    simp only [List.head?_cons, Option.some.injEq]
    omega

theorem fmt_lld_length (n : Int) (h1 : -2 ^ 63 ≤ n) (h2 : n < 2 ^ 63) :
    (fmt_lld n).length ≤ 20 := by
  have hk : n.natAbs < 10 ^ (18 + 1) := by
    have : (10 : Nat) ^ (18 + 1) = 10000000000000000000 := by norm_num
    rw [this]
    omega
  have := utoa_length (n.natAbs + 1) n.natAbs 18 hk
  unfold fmt_lld
  simp only [List.length_append]
  split_ifs <;> simp <;> omega

/-- The reply `handle_command` sends, by the branch taken. -/
theorem handle_command_reply (cmd : List Nat) (fd : Int) (s : Server) :
    ∃ text, (handle_command cmd fd s).sent = s.sent ++ [(fd, text ++ [NL])] ∧
      (text = bytes "OK" ∨ text = bytes "BYE" ∨ text = bytes "ERR Unknown command" ∨
        text = fmt_lld s.counter) ∧
      (strcasecmp cmd (bytes "GET") = 0 → text = fmt_lld s.counter) := by
  have hok : cstr (bytes "OK\n") = bytes "OK" ++ [NL] := by decide
  have hbye : cstr (bytes "BYE\n") = bytes "BYE" ++ [NL] := by decide
  have herr : cstr (bytes "ERR Unknown command\n") = bytes "ERR Unknown command" ++ [NL] := by
    decide
  have hget : cstr (fmt_lld s.counter ++ bytes "\n") = fmt_lld s.counter ++ [NL] :=
    cstr_fmt_lld s.counter
  have hx : ∀ lit : List Nat, (cstr lit).map tolower ≠ (cstr (bytes "GET")).map tolower →
      strcasecmp cmd lit = 0 → strcasecmp cmd (bytes "GET") = 0 → False := by
    intro lit hne h1 h2
    rw [strcasecmp_eq_zero] at h1 h2
    exact hne (h1.symm.trans h2)
  simp only [handle_command, send]
  split_ifs with h1 h2 h3 h4 h5
  · exact ⟨bytes "OK", by rw [hok], Or.inl rfl, fun h => (hx _ (by decide) h1 h).elim⟩
  · exact ⟨bytes "OK", by rw [hok], Or.inl rfl, fun h => (hx _ (by decide) h2 h).elim⟩
  · exact ⟨fmt_lld s.counter, by rw [hget], Or.inr (Or.inr (Or.inr rfl)), fun _ => rfl⟩
  · exact ⟨bytes "OK", by rw [hok], Or.inl rfl, fun h => (h3 h).elim⟩
  · exact ⟨bytes "BYE", by rw [hbye], Or.inr (Or.inl rfl), fun h => (h3 h).elim⟩
  · exact ⟨bytes "ERR Unknown command", by rw [herr], Or.inr (Or.inr (Or.inl rfl)),
      fun h => (h3 h).elim⟩

/-! ## Lemmas: the table across the steps of `main` -/

/-- A receive step on slot `i` changes no other slot; slot `i` keeps its handle, or
the connection is removed: the handle is closed, the slot cleared and `maxfd`
recomputed. -/
theorem recv_step_shape (s : Server) (i : Nat) (c : client) (res : RecvResult)
    (hc : s.clients[i]? = some c) (hbuf : c.buf.length = BUFSIZE) (hl0 : 0 ≤ c.len)
    (hl1 : c.len ≤ (BUFSIZE : Int) - 1) (hres : res.tmp.length ≤ BUFSIZE - 1) :
    ∃ s1 c1, recv_step s i res = some s1 ∧ s1.clients = s.clients.set i c1 ∧
      s1.listener = s.listener ∧
      c1.buf.length = BUFSIZE ∧ 0 ≤ c1.len ∧ c1.len ≤ (BUFSIZE : Int) - 1 ∧
      ((c1.fd = c.fd ∧ (c.fd < 0 → c1 = c) ∧ s1.closed = s.closed ∧ s1.maxfd = s.maxfd) ∨
       (0 ≤ c.fd ∧ c1.fd = -1 ∧ c1.len = 0 ∧ s1.closed = s.closed ++ [c.fd] ∧
         s1.maxfd = recompute_maxfd (s.clients.set i c1) s.listener)) := by
  have hB : BUFSIZE = 4096 := rfl
  have hi := getElem?_lt hc
  have hz : (0 : Int) ≤ (BUFSIZE : Int) - 1 := by rw [hB]; decide
  by_cases hfd : c.fd < 0
  · refine ⟨s, c, ?_, (set_self _ _ _ hc).symm, rfl, hbuf, hl0, hl1, Or.inl ⟨rfl, fun _ => rfl, rfl, rfl⟩⟩
    unfold recv_step; simp [hc, hfd]
  · have hfd0 : 0 ≤ c.fd := by omega
    by_cases hr : res.r ≤ 0
    · have hrm := remove_client_spec s i c hc (by rw [hbuf, hB]; decide)
      have hstep : recv_step s i res = remove_client s i := by
        unfold recv_step
        simp only [hc, hfd, if_false, hr, if_true]
      rw [hrm] at hstep
      refine ⟨_, ⟨-1, c.buf.set 0 0, 0⟩, hstep, rfl, rfl, by simp [hbuf], le_refl _,
        hz, Or.inr ⟨hfd0, rfl, rfl, ?_, rfl⟩⟩
      simp [hfd0]
    · obtain ⟨tmp, rfl⟩ : ∃ tmp, res = .data tmp := by
        cases res with
        | error => exact absurd (by decide : RecvResult.error.r ≤ 0) hr
        | data tmp => exact ⟨tmp, rfl⟩
      have h1 : tmp ≠ [] := by
        rintro rfl
        exact hr (by decide)
      obtain ⟨b, hb, hstep, _⟩ := recv_step_data s i c tmp hc hfd0 hbuf hl0 h1 hres
      obtain ⟨g1, g2, g3, g4⟩ := exec_lines_frame c.fd s
        ((split_lines (step_data c tmp)).1.map strip_cr)
      have hlenD : (split_lines (step_data c tmp)).2.length ≤ BUFSIZE - 1 := by
        have h3 := split_lines_length (step_data c tmp)
        have h4 : (step_data c tmp).length ≤ BUFSIZE - 1 := by
          unfold step_data pending
          split_ifs with hov
          · simpa using hres
          · simp only [List.length_append, List.length_take]
            omega
        omega
      cases he : (exec_lines c.fd s ((split_lines (step_data c tmp)).1.map strip_cr)).2 with
      | true =>
        simp only [he, if_true] at hstep
        exact ⟨_, ⟨-1, b, 0⟩, hstep, rfl, g2, hb, le_refl _, hz,
          Or.inr ⟨hfd0, rfl, rfl, rfl, rfl⟩⟩
      | false =>
        simp only [he, Bool.false_eq_true, if_false] at hstep
        refine ⟨_, ⟨c.fd, b, ((split_lines (step_data c tmp)).2.length : Nat)⟩, hstep, rfl, g2,
          hb, by simp, ?_, Or.inl ⟨rfl, fun h => absurd h hfd, g4, g3⟩⟩
        simp only []
        omega

/-- The same for `remove_client`. -/
theorem remove_client_shape (s : Server) (i : Nat) (c : client)
    (hc : s.clients[i]? = some c) (hbuf : c.buf.length = BUFSIZE) :
    ∃ s1 c1, remove_client s i = some s1 ∧ s1.clients = s.clients.set i c1 ∧
      s1.listener = s.listener ∧ c1.buf.length = BUFSIZE ∧ c1.fd = -1 ∧ c1.len = 0 ∧
      s1.closed = (if c.fd ≥ 0 then s.closed ++ [c.fd] else s.closed) ∧
      s1.maxfd = recompute_maxfd (s.clients.set i c1) s.listener := by
  have hB : BUFSIZE = 4096 := rfl
  have hrm := remove_client_spec s i c hc (by rw [hbuf, hB]; decide)
  exact ⟨_, ⟨-1, c.buf.set 0 0, 0⟩, hrm, rfl, rfl, by simp [hbuf], rfl, rfl, rfl, rfl⟩

theorem recompute_maxfd_spec (cl : List client) : ∀ l : Int,
    l ≤ recompute_maxfd cl l ∧ (∀ c ∈ cl, c.fd ≤ recompute_maxfd cl l) ∧
    (recompute_maxfd cl l = l ∨ ∃ c ∈ cl, c.fd = recompute_maxfd cl l) := by
  induction cl with
  | nil => intro l; simp [recompute_maxfd]
  | cons c cs ih =>
    intro l
    have e : recompute_maxfd (c :: cs) l = recompute_maxfd cs (if c.fd > l then c.fd else l) := rfl
    obtain ⟨h1, h2, h3⟩ := ih (if c.fd > l then c.fd else l)
    rw [e]
    by_cases h : c.fd > l
    · simp only [h, if_true] at h1 h2 h3 ⊢
      refine ⟨by omega, ?_, ?_⟩
      · intro d hd
        rcases List.mem_cons.mp hd with rfl | hd
        · exact h1
        · exact h2 d hd
      · rcases h3 with h3 | ⟨d, hd, h3⟩
        · exact Or.inr ⟨c, List.mem_cons_self _ _, h3.symm⟩
        · exact Or.inr ⟨d, List.mem_cons_of_mem _ hd, h3⟩
    · simp only [h, if_false] at h1 h2 h3 ⊢
      refine ⟨h1, ?_, ?_⟩
      · intro d hd
        rcases List.mem_cons.mp hd with rfl | hd
        · omega
        · exact h2 d hd
      · rcases h3 with h3 | ⟨d, hd, h3⟩
        · exact Or.inl h3
        · exact Or.inr ⟨d, List.mem_cons_of_mem _ hd, h3⟩

theorem foldr_max_spec (L : List Int) (l : Int) :
    l ≤ L.foldr max l ∧ (∀ a ∈ L, a ≤ L.foldr max l) ∧ (L.foldr max l = l ∨ L.foldr max l ∈ L) := by
  induction L with
  | nil => simp
  | cons a as ih =>
    obtain ⟨h1, h2, h3⟩ := ih
    simp only [List.foldr_cons, List.mem_cons]
    refine ⟨le_trans h1 (le_max_right _ _), ?_, ?_⟩
    · intro b hb
      rcases hb with rfl | hb
      · exact le_max_left _ _
      · exact le_trans (h2 b hb) (le_max_right _ _)
    · rcases max_choice a (as.foldr max l) with h | h
      · exact Or.inr (Or.inl h)
      · rw [h]
        rcases h3 with h3 | h3
        · exact Or.inl h3
        · exact Or.inr (Or.inr h3)

theorem mem_handles {s : Server} {a : Int} : a ∈ handles s ↔ ∃ c ∈ s.clients, c.fd = a := by
  simp [handles]

/-- The value `maxfd` has under the invariant is the largest handle. -/
theorem max_handle_eq (s : Server) (h1 : s.listener ≤ s.maxfd)
    (h2 : ∀ a ∈ handles s, a ≤ s.maxfd)
    (h3 : s.maxfd = s.listener ∨ (s.maxfd ∈ handles s ∧ 0 ≤ s.maxfd)) :
    s.maxfd = max_handle s := by
  have hsp := foldr_max_spec
    ((s.clients.filter (fun c : client => decide (0 ≤ c.fd))).map client.fd) s.listener
  obtain ⟨g1, g2, g3⟩ := hsp
  have hmem : ∀ a, a ∈ (s.clients.filter (fun c => decide (0 ≤ c.fd))).map client.fd ↔
      a ∈ handles s ∧ 0 ≤ a := by
    intro a
    simp only [handles, List.mem_map, List.mem_filter, decide_eq_true_eq]
    constructor
    · rintro ⟨c, ⟨hc, h0⟩, rfl⟩; exact ⟨⟨c, hc, rfl⟩, h0⟩
    · rintro ⟨⟨c, hc, rfl⟩, h0⟩; exact ⟨c, ⟨hc, h0⟩, rfl⟩
  unfold max_handle
  apply le_antisymm
  · rcases h3 with h3 | ⟨h3, h4⟩
    · rw [h3]; exact g1
    · exact g2 _ ((hmem _).mpr ⟨h3, h4⟩)
  · rcases g3 with g3 | g3
    · rw [g3]; exact h1
    · exact h2 _ ((hmem _).mp g3).1

theorem mem_set_iff (F : List Int) (i : Nat) (a x : Int) (hi : i < F.length) :
    x ∈ F.set i a ↔ x = a ∨ ∃ j, j ≠ i ∧ F[j]? = some x := by
  rw [List.mem_iff_getElem?]
  constructor
  · rintro ⟨j, hj⟩
    by_cases e : j = i
    · subst e
      rw [List.getElem?_set_self hi] at hj
      exact Or.inl (Option.some.inj hj).symm
    · rw [List.getElem?_set_ne (Ne.symm e)] at hj
      exact Or.inr ⟨j, e, hj⟩
  · rintro (rfl | ⟨j, e, hj⟩)
    · exact ⟨i, List.getElem?_set_self hi⟩
    · exact ⟨j, by rw [List.getElem?_set_ne (Ne.symm e)]; exact hj⟩

theorem handles_set (s : Server) (i : Nat) (c1 : client) :
    (s.clients.set i c1).map client.fd = (handles s).set i c1.fd := by
  simp [handles, List.map_set]

theorem handles_get (s : Server) (i : Nat) (c : client) (hc : s.clients[i]? = some c) :
    (handles s)[i]? = some c.fd := by
  simp [handles, hc]

theorem open_after_same (live : List Int) (s s1 : Server) (h : s1.closed = s.closed) :
    open_after live s s1 = live := by
  unfold open_after
  rw [h, List.drop_length]
  simp

theorem open_after_closed (live : List Int) (s s1 : Server) (a : Int)
    (h : s1.closed = s.closed ++ [a]) :
    open_after live s s1 = live.filter (fun fd => decide (fd ≠ a)) := by
  unfold open_after
  rw [h, List.drop_left]
  simp

theorem table_inv_keep (L : Int) (s s1 : Server) (live : List Int) (i : Nat) (c c1 : client)
    (hinv : table_inv L s live) (hc : s.clients[i]? = some c)
    (hcl : s1.clients = s.clients.set i c1) (hli : s1.listener = s.listener)
    (hb : c1.buf.length = BUFSIZE) (hl0 : 0 ≤ c1.len) (hl1 : c1.len ≤ (BUFSIZE : Int) - 1)
    (hfd : c1.fd = c.fd) (hfree : c.fd < 0 → c1 = c) (hclosed : s1.closed = s.closed)
    (hmax : s1.maxfd = s.maxfd) :
    table_inv L s1 (open_after live s s1) := by
  obtain ⟨i1, i2, i3, i4, i5, i6, i7⟩ := hinv
  have hh : handles s1 = handles s := by
    show s1.clients.map client.fd = handles s
    rw [hcl, handles_set, hfd]
    exact set_self _ _ _ (handles_get s i c hc)
  rw [open_after_same _ _ _ hclosed]
  refine ⟨hli.trans i1, ?_, by rw [hh]; exact i3, by rw [hh]; exact i4,
    by rw [hli, hmax]; exact i5, by rw [hh, hmax]; exact i6, by rw [hh, hmax, hli]; exact i7⟩
  intro d hd
  rw [hcl] at hd
  rcases List.mem_or_eq_of_mem_set hd with h | rfl
  · exact i2 d h
  · refine ⟨hb, hl0, hl1, fun h => ?_⟩
    rw [hfd] at h
    rw [hfree h]
    exact (i2 c (List.mem_iff_getElem?.mpr ⟨i, hc⟩)).2.2.2 h

theorem table_inv_remove (L : Int) (s s1 : Server) (live : List Int) (i : Nat) (c c1 : client)
    (hinv : table_inv L s live) (h0 : 0 ≤ L) (hc : s.clients[i]? = some c)
    (hcl : s1.clients = s.clients.set i c1) (hli : s1.listener = s.listener)
    (hb : c1.buf.length = BUFSIZE) (hfd : c1.fd = -1) (hlen : c1.len = 0)
    (hclosed : s1.closed = if c.fd ≥ 0 then s.closed ++ [c.fd] else s.closed)
    (hmax : s1.maxfd = recompute_maxfd (s.clients.set i c1) s.listener) :
    table_inv L s1 (open_after live s s1) := by
  have hB : BUFSIZE = 4096 := rfl
  obtain ⟨i1, i2, i3, i4, i5, i6, i7⟩ := hinv
  have hi := getElem?_lt hc
  have hiF : i < (handles s).length := by simp [handles, hi]
  have hFi := handles_get s i c hc
  have hh : handles s1 = (handles s).set i (-1) := by
    show s1.clients.map client.fd = _
    rw [hcl, handles_set, hfd]
  obtain ⟨m1, m2, m3⟩ := recompute_maxfd_spec (s.clients.set i c1) s.listener
  rw [← hmax] at m1 m2 m3
  rw [← hcl] at m2 m3
  have hM : 0 ≤ s1.maxfd := by rw [i1] at m1; omega
  refine ⟨hli.trans i1, ?_, ?_, ?_, by rw [hli]; exact m1, ?_, ?_⟩
  · intro d hd
    rw [hcl] at hd
    rcases List.mem_or_eq_of_mem_set hd with h | rfl
    · exact i2 d h
    · exact ⟨hb, by rw [hlen], by rw [hlen, hB]; decide, fun _ => ⟨hfd, hlen⟩⟩
  · intro fd
    rw [hh, mem_set_iff _ _ _ _ hiF]
    by_cases hcfd : c.fd ≥ 0
    · rw [if_pos hcfd] at hclosed
      rw [open_after_closed _ _ _ _ hclosed]
      simp only [List.mem_filter, decide_eq_true_eq, i3]
      constructor
      · rintro ⟨⟨hm, hp⟩, hne⟩
        obtain ⟨j, hj⟩ := List.mem_iff_getElem?.mp hm
        refine ⟨Or.inr ⟨j, ?_, hj⟩, hp⟩
        rintro rfl
        rw [hFi] at hj
        exact hne (Option.some.inj hj).symm
      · rintro ⟨h | ⟨j, hj, hg⟩, hp⟩
        · omega
        · refine ⟨⟨List.mem_iff_getElem?.mpr ⟨j, hg⟩, hp⟩, ?_⟩
          intro e
          rw [e] at hg hp
          exact hj (i4 j i c.fd hg hFi hp)
    · rw [if_neg hcfd] at hclosed
      rw [open_after_same _ _ _ hclosed, i3]
      have hm1 : c.fd = -1 := ((i2 c (List.mem_iff_getElem?.mpr ⟨i, hc⟩)).2.2.2 (by omega)).1
      constructor
      · rintro ⟨hm, hp⟩
        obtain ⟨j, hj⟩ := List.mem_iff_getElem?.mp hm
        refine ⟨Or.inr ⟨j, ?_, hj⟩, hp⟩
        rintro rfl
        rw [hFi] at hj
        have := Option.some.inj hj
        omega
      · rintro ⟨h | ⟨j, _, hg⟩, hp⟩
        · omega
        · exact ⟨List.mem_iff_getElem?.mpr ⟨j, hg⟩, hp⟩
  · intro j k a hj hk ha
    rw [hh] at hj hk
    have hji : j ≠ i := by
      rintro rfl
      rw [List.getElem?_set_self hiF] at hj
      have := Option.some.inj hj
      omega
    have hki : k ≠ i := by
      rintro rfl
      rw [List.getElem?_set_self hiF] at hk
      have := Option.some.inj hk
      omega
    rw [List.getElem?_set_ne (Ne.symm hji)] at hj
    rw [List.getElem?_set_ne (Ne.symm hki)] at hk
    exact i4 j k a hj hk ha
  · intro a ha
    obtain ⟨d, hd, rfl⟩ := mem_handles.mp ha
    exact m2 d hd
  · rcases m3 with m3 | ⟨d, hd, m3⟩
    · exact Or.inl (m3.trans hli.symm)
    · exact Or.inr ⟨mem_handles.mpr ⟨d, hd, m3⟩, hM⟩

theorem table_inv_register (L : Int) (s s1 : Server) (live : List Int) (i : Nat) (c c1 : client)
    (connfd : Int)
    (hinv : table_inv L s live) (hc : s.clients[i]? = some c) (hfree : c.fd < 0)
    (h0 : 0 ≤ connfd) (hnew : connfd ∉ handles s)
    (hcl : s1.clients = s.clients.set i c1) (hli : s1.listener = s.listener)
    (hb : c1.buf.length = BUFSIZE) (hfd : c1.fd = connfd) (hlen : c1.len = 0)
    (hclosed : s1.closed = s.closed)
    (hmax : s1.maxfd = if connfd > s.maxfd then connfd else s.maxfd) :
    table_inv L s1 (open_after (connfd :: live) s s1) := by
  have hB : BUFSIZE = 4096 := rfl
  obtain ⟨i1, i2, i3, i4, i5, i6, i7⟩ := hinv
  have hi := getElem?_lt hc
  have hiF : i < (handles s).length := by simp [handles, hi]
  have hFi := handles_get s i c hc
  have hh : handles s1 = (handles s).set i connfd := by
    show s1.clients.map client.fd = _
    rw [hcl, handles_set, hfd]
  have hne : ∀ j a, (handles s)[j]? = some a → 0 ≤ a → j ≠ i := by
    rintro j a hj ha rfl
    rw [hFi] at hj
    have := Option.some.inj hj
    omega
  rw [open_after_same _ _ _ hclosed]
  refine ⟨hli.trans i1, ?_, ?_, ?_, ?_, ?_, ?_⟩
  · intro d hd
    rw [hcl] at hd
    rcases List.mem_or_eq_of_mem_set hd with h | rfl
    · exact i2 d h
    · exact ⟨hb, by rw [hlen], by rw [hlen, hB]; decide, fun h => by omega⟩
  · intro fd
    rw [hh, mem_set_iff _ _ _ _ hiF, List.mem_cons, i3]
    constructor
    · rintro (rfl | ⟨hm, hp⟩)
      · exact ⟨Or.inl rfl, h0⟩
      · obtain ⟨j, hj⟩ := List.mem_iff_getElem?.mp hm
        exact ⟨Or.inr ⟨j, hne j fd hj hp, hj⟩, hp⟩
    · rintro ⟨h | ⟨j, _, hg⟩, hp⟩
      · exact Or.inl h
      · exact Or.inr ⟨List.mem_iff_getElem?.mpr ⟨j, hg⟩, hp⟩
  · intro j k a hj hk ha
    rw [hh] at hj hk
    by_cases hji : j = i
    · by_cases hki : k = i
      · rw [hji, hki]
      · subst hji
        rw [List.getElem?_set_self hiF] at hj
        rw [List.getElem?_set_ne (Ne.symm hki)] at hk
        have := Option.some.inj hj
        subst this
        exact absurd (List.mem_iff_getElem?.mpr ⟨k, hk⟩) hnew
    · rw [List.getElem?_set_ne (Ne.symm hji)] at hj
      by_cases hki : k = i
      · subst hki
        rw [List.getElem?_set_self hiF] at hk
        have := Option.some.inj hk
        subst this
        exact absurd (List.mem_iff_getElem?.mpr ⟨j, hj⟩) hnew
      · rw [List.getElem?_set_ne (Ne.symm hki)] at hk
        exact i4 j k a hj hk ha
  · rw [hli, hmax]; split_ifs <;> omega
  · intro a ha
    rw [hh, mem_set_iff _ _ _ _ hiF] at ha
    rw [hmax]
    rcases ha with rfl | ⟨j, _, hg⟩
    · split_ifs <;> omega
    · have := i6 a (List.mem_iff_getElem?.mpr ⟨j, hg⟩)
      split_ifs <;> omega
  · rw [hh, hmax, hli]
    by_cases hgt : connfd > s.maxfd
    · rw [if_pos hgt]
      exact Or.inr ⟨(mem_set_iff _ _ _ _ hiF).mpr (Or.inl rfl), h0⟩
    · rw [if_neg hgt]
      rcases i7 with h | ⟨hm, hp⟩
      · exact Or.inl h
      · obtain ⟨j, hj⟩ := List.mem_iff_getElem?.mp hm
        exact Or.inr ⟨(mem_set_iff _ _ _ _ hiF).mpr (Or.inr ⟨j, hne j _ hj hp, hj⟩), hp⟩

theorem table_inv_reject (L : Int) (s : Server) (live : List Int) (connfd : Int)
    (hinv : table_inv L s live) (hnew : connfd ∉ handles s) :
    table_inv L { s with closed := s.closed ++ [connfd] }
      (open_after (connfd :: live) s { s with closed := s.closed ++ [connfd] }) := by
  obtain ⟨i1, i2, i3, i4, i5, i6, i7⟩ := hinv
  have hlive : connfd ∉ live := fun h => hnew ((i3 connfd).mp h).1
  have e : open_after (connfd :: live) s { s with closed := s.closed ++ [connfd] } = live := by
    rw [open_after_closed _ _ _ connfd rfl]
    simp only [List.filter_cons, ne_eq, not_true_eq_false, decide_False, Bool.false_eq_true,
      if_false]
    rw [List.filter_eq_self]
    intro a ha
    simp only [decide_eq_true_eq]
    rintro rfl
    exact hlive ha
  rw [e]
  exact ⟨i1, i2, i3, i4, i5, i6, i7⟩

theorem table_inv_init (mem : List (List Nat)) (L : Int) (hmem : ∀ b ∈ mem, b.length = BUFSIZE)
    (h0 : 0 ≤ L) : table_inv L (init_server mem L) [] := by
  have hB : BUFSIZE = 4096 := rfl
  have hall : ∀ a ∈ handles (init_server mem L), a = -1 := by
    intro a ha
    simp only [handles, init_server, List.map_map, List.mem_map, Function.comp] at ha
    obtain ⟨_, _, rfl⟩ := ha
    rfl
  refine ⟨rfl, ?_, ?_, ?_, le_refl _, ?_, Or.inl rfl⟩
  · intro c hc
    simp only [init_server, List.mem_map] at hc
    obtain ⟨b, hb, rfl⟩ := hc
    have hz : (0 : Int) ≤ (BUFSIZE : Int) - 1 := by rw [hB]; decide
    exact ⟨by simp [hmem b hb], le_refl _, hz, fun _ => ⟨rfl, rfl⟩⟩
  · intro fd
    constructor
    · intro h; cases h
    · rintro ⟨h1, h2⟩
      have := hall fd h1
      omega
  · intro j k a hj _ ha
    have := hall a (List.mem_iff_getElem?.mpr ⟨j, hj⟩)
    omega
  · intro a ha
    have := hall a ha
    show a ≤ L
    omega

/-- In a state that satisfies the invariant every step of `main` succeeds. -/
theorem table_inv_total (L : Int) (s : Server) (live : List Int) (hinv : table_inv L s live) :
    (∀ connfd, ∃ s1, accept_step s connfd = some s1) ∧
    (∀ (i : Nat) (res : RecvResult), i < s.clients.length → res.tmp.length ≤ BUFSIZE - 1 →
      ∃ s1, recv_step s i res = some s1) ∧
    (∀ i, i < s.clients.length → ∃ s1, remove_client s i = some s1) := by
  refine ⟨?_, ?_, ?_⟩
  · intro connfd
    by_cases hc0 : connfd < 0
    · exact ⟨s, by unfold accept_step; simp [hc0]⟩
    · rcases find_slot_spec s.clients with ⟨_, hfull⟩ | ⟨c, hc, hfree, hocc⟩
      · exact ⟨_, accept_step_full s connfd (by omega) hfull⟩
      · have hw := hinv.2.1 c (List.mem_iff_getElem?.mpr ⟨_, hc⟩)
        exact ⟨_, accept_step_free s connfd _ c (by omega) hc hfree (by rw [hw.1]; decide) hocc⟩
  · intro i res hi hres
    obtain ⟨c, hc⟩ : ∃ c, s.clients[i]? = some c := ⟨_, List.getElem?_eq_getElem hi⟩
    have hw := hinv.2.1 c (List.mem_iff_getElem?.mpr ⟨_, hc⟩)
    obtain ⟨s2, _, h1, _⟩ := recv_step_shape s i c res hc hw.1 hw.2.1 hw.2.2.1 hres
    exact ⟨s2, h1⟩
  · intro i hi
    obtain ⟨c, hc⟩ : ∃ c, s.clients[i]? = some c := ⟨_, List.getElem?_eq_getElem hi⟩
    have hw := hinv.2.1 c (List.mem_iff_getElem?.mpr ⟨_, hc⟩)
    obtain ⟨s2, _, h1, _⟩ := remove_client_shape s i c hc hw.1
    exact ⟨s2, h1⟩

theorem accept_step_maxfd (s s1 : Server) (connfd : Int) (h0 : 0 ≤ connfd)
    (hslot : find_slot s.clients ≠ MAX_CLIENTS s) (h : accept_step s connfd = some s1) :
    s1.maxfd = if connfd > s.maxfd then connfd else s.maxfd := by
  unfold accept_step at h
  simp only [not_lt.mpr h0, if_false, hslot] at h
  cases hc : s.clients[find_slot s.clients]? with
  | none => simp [hc] at h
  | some c =>
    simp only [hc] at h
    cases hs : store c.buf 0 0 with
    | none => simp [hs] at h
    | some b =>
      simp only [hs, Option.some.injEq] at h
      rw [← h]

theorem remove_client_maxfd (s s1 : Server) (i : Nat) (h : remove_client s i = some s1) :
    s1.maxfd = recompute_maxfd s1.clients s.listener := by
  unfold remove_client at h
  cases hc : s.clients[i]? with
  | none => simp [hc] at h
  | some c =>
    simp only [hc] at h
    cases hs : store c.buf 0 0 with
    | none => simp [hs] at h
    | some b =>
      simp only [hs, Option.some.injEq] at h
      rw [← h]

/-! ## Lemmas: a slot used again -/

/-- A run on slot `i` succeeds, is the run of `line_step`s on the observable state,
keeps the slot well-formed and leaves the other slots as they are. -/
theorem run_shape (chunks : List (List Nat)) : ∀ (s : Server) (i : Nat), slot_ok s i →
    (∀ x ∈ chunks, x.length ≤ BUFSIZE - 1) →
    ∃ s1, run s i chunks = some s1 ∧ observe s1 = line_run (observe s) i chunks ∧
      slot_ok s1 i ∧ ∀ j, j ≠ i → s1.clients[j]? = s.clients[j]? := by
  induction chunks with
  | nil => intro s i hok _; exact ⟨s, rfl, rfl, hok, fun _ _ => rfl⟩
  | cons x xs ih =>
    intro s i hok hch
    have hx := hch x (List.mem_cons_self _ _)
    obtain ⟨s1, h1, h2, h3⟩ := recv_step_refines s i (.data x) hok hx
    obtain ⟨c, hc, hbuf, hl0, hl1⟩ := hok
    obtain ⟨s1', c1, g1, g2, _⟩ := recv_step_shape s i c (.data x) hc hbuf hl0 hl1 hx
    rw [h1] at g1
    have e := Option.some.inj g1
    subst e
    obtain ⟨s2, k1, k2, k3, k4⟩ := ih s1 i h3 (fun y hy => hch y (List.mem_cons_of_mem _ hy))
    refine ⟨s2, ?_, ?_, k3, ?_⟩
    · simp only [run, h1, k1]
    · rw [k2, h2]; rfl
    · intro j hj
      rw [k4 j hj, g2, List.getElem?_set_ne (Ne.symm hj)]

/-- After end-of-stream or a read error the slot holds no connection. -/
theorem recv_step_gone (s : Server) (i : Nat) (c : client) (res : RecvResult)
    (hc : s.clients[i]? = some c) (hbuf : c.buf.length = BUFSIZE) (hr : res.r ≤ 0) :
    ∃ s2 c2, recv_step s i res = some s2 ∧ s2.clients = s.clients.set i c2 ∧ c2.fd < 0 ∧
      c2.buf.length = BUFSIZE ∧ s2.calls = s.calls := by
  have hB : BUFSIZE = 4096 := rfl
  by_cases hfd : c.fd < 0
  · refine ⟨s, c, ?_, (set_self _ _ _ hc).symm, hfd, hbuf, rfl⟩
    unfold recv_step; simp [hc, hfd]
  · have hrm := remove_client_spec s i c hc (by rw [hbuf, hB]; decide)
    have hstep : recv_step s i res = remove_client s i := by
      unfold recv_step
      simp only [hc, hfd, if_false, hr, if_true]
    rw [hrm] at hstep
    exact ⟨_, ⟨-1, c.buf.set 0 0, 0⟩, hstep, rfl, (by decide : (-1 : Int) < 0), by simp [hbuf], rfl⟩

theorem exec_lines_calls (fd : Int) (L : List (List Nat)) : ∀ u v : Server,
    (exec_lines fd u L).2 = (exec_lines fd v L).2 ∧
    ∃ K, (exec_lines fd u L).1.calls = u.calls ++ K ∧
      (exec_lines fd v L).1.calls = v.calls ++ K := by
  induction L with
  | nil => intro u v; exact ⟨rfl, [], by simp [exec_lines], by simp [exec_lines]⟩
  | cons l ls ih =>
    intro u v
    simp only [exec_lines]
    split_ifs with hq
    · exact ⟨rfl, [(fd, cstr l)], handle_command_calls l fd u, handle_command_calls l fd v⟩
    · obtain ⟨h1, K, h2, h3⟩ := ih (handle_command l fd u) (handle_command l fd v)
      refine ⟨h1, (fd, cstr l) :: K, ?_, ?_⟩
      · rw [h2, handle_command_calls]; simp
      · rw [h3, handle_command_calls]; simp

/-- The calls a step adds and the slot it leaves depend on the slot and the bytes
read, not on the rest of the state. -/
theorem line_step_calls (u v : Server) (i k : Nat) (c : client) (res : RecvResult)
    (hu : u.clients[i]? = some c) (hv : v.clients[k]? = some c) :
    ∃ K c1, (line_step u i res).calls = u.calls ++ K ∧ (line_step v k res).calls = v.calls ++ K ∧
      (line_step u i res).clients[i]? = some c1 ∧ (line_step v k res).clients[k]? = some c1 := by
  have hi := getElem?_lt hu
  have hk := getElem?_lt hv
  unfold line_step
  simp only [hu, hv]
  by_cases hfd : c.fd < 0
  · simp only [hfd, if_true]
    exact ⟨[], c, by simp, by simp, hu, hv⟩
  · simp only [hfd, if_false]
    by_cases hr : res.r ≤ 0
    · simp only [hr, if_true]
      exact ⟨[], ⟨-1, [], 0⟩, by simp, by simp, List.getElem?_set_self hi,
        List.getElem?_set_self hk⟩
    · simp only [hr, if_false]
      obtain ⟨h1, K, h2, h3⟩ := exec_lines_calls c.fd
        ((split_lines (step_data c res.tmp)).1.map strip_cr) u v
      rw [← h1]
      split_ifs
      · exact ⟨K, ⟨-1, [], 0⟩, h2, h3, List.getElem?_set_self hi, List.getElem?_set_self hk⟩
      · exact ⟨K, _, h2, h3, List.getElem?_set_self hi, List.getElem?_set_self hk⟩

theorem line_run_calls (chunks : List (List Nat)) : ∀ (u v : Server) (i k : Nat) (c : client),
    u.clients[i]? = some c → v.clients[k]? = some c →
    ∃ K, (line_run u i chunks).calls = u.calls ++ K ∧
      (line_run v k chunks).calls = v.calls ++ K := by
  induction chunks with
  | nil => intro u v i k c _ _; exact ⟨[], by simp [line_run], by simp [line_run]⟩
  | cons x xs ih =>
    intro u v i k c hu hv
    obtain ⟨K1, c1, a1, a2, a3, a4⟩ := line_step_calls u v i k c (.data x) hu hv
    obtain ⟨K2, b1, b2⟩ := ih _ _ i k c1 a3 a4
    refine ⟨K1 ++ K2, ?_, ?_⟩
    · show (line_run (line_step u i (.data x)) i xs).calls = _
      rw [b1, a1]; simp
    · show (line_run (line_step v k (.data x)) k xs).calls = _
      rw [b2, a2]; simp

/-- The calls a connection that starts with an empty buffer causes. -/
theorem line_run_session (u : Server) (i : Nat) (fd : Int) (chunks : List (List Nat))
    (hu : u.clients[i]? = some ⟨fd, [], 0⟩) :
    (line_run u i chunks).calls = u.calls ++ session_calls fd chunks := by
  obtain ⟨K, h1, h2⟩ := line_run_calls chunks u (lone_connection fd) i 0 ⟨fd, [], 0⟩ hu rfl
  rw [h1]
  unfold session_calls
  rw [h2]
  simp [lone_connection]

/-! ## Lemmas: the header block of a response -/

theorem header_lines_from_line (l : List Nat) : ∀ (cur rest : List Nat),
    (∀ b ∈ l, b ≠ CR ∧ b ≠ NL) → cur.getLast? ≠ some CR →
    header_lines_from cur (l ++ CR :: NL :: rest)
      = if cur ++ l = [] then some []
        else (header_lines_from [] rest).map (fun ls => (cur ++ l) :: ls) := by
  induction l with
  | nil =>
    intro cur rest _ hcur
    have h1 : ¬ (CR = NL ∧ cur.getLast? = some CR) := by
      rintro ⟨h, _⟩; exact absurd h (by decide)
    have h2 : (cur ++ [CR]).getLast? = some CR := by simp
    simp only [List.nil_append, header_lines_from, h1, if_false, h2, and_self, if_true,
      List.dropLast_concat, List.append_nil]
  | cons a l ih =>
    intro cur rest hl hcur
    have ha := hl a (List.mem_cons_self _ _)
    have h1 : ¬ (a = NL ∧ cur.getLast? = some CR) := fun h => ha.2 h.1
    have hcur2 : (cur ++ [a]).getLast? ≠ some CR := by
      have : (cur ++ [a]).getLast? = some a := by simp
      rw [this]
      intro h
      exact ha.1 (Option.some.inj h)
    rw [List.cons_append, header_lines_from, if_neg h1,
      ih (cur ++ [a]) rest (fun b hb => hl b (List.mem_cons_of_mem _ hb)) hcur2]
    simp

theorem header_lines_from_blank (rest : List Nat) :
    header_lines_from [] (CR :: NL :: rest) = some [] := by
  have h := header_lines_from_line [] [] rest (by simp) (by simp)
  simpa using h

/-- The header block of what `write_http_response` prints, whatever follows it. -/
theorem header_lines_http_header (status body_len : Int) (stt ct body : List Nat)
    (hs : ∀ b ∈ stt, b ≠ CR ∧ b ≠ NL ∧ b ≠ 0) (hc : ∀ b ∈ ct, b ≠ CR ∧ b ≠ NL ∧ b ≠ 0) :
    header_lines (http_header status stt ct body_len ++ body)
      = some [bytes "HTTP/1.1 " ++ fmt_lld status ++ bytes " " ++ stt,
              bytes "Content-Type: " ++ ct,
              bytes "Content-Length: " ++ fmt_lld body_len,
              bytes "Access-Control-Allow-Origin: *",
              bytes "Connection: close"] := by
  have hN : NL = 10 := rfl
  have hC : CR = 13 := rfl
  have hd : ∀ n : Int, ∀ b ∈ fmt_lld n, b ≠ CR ∧ b ≠ NL := by
    intro n b hb
    rcases (fmt_lld_chars n).2 b hb with h | h <;> rw [hN, hC] <;> omega
  have e : http_header status stt ct body_len ++ body
      = (bytes "HTTP/1.1 " ++ fmt_lld status ++ bytes " " ++ stt) ++ CR :: NL ::
        ((bytes "Content-Type: " ++ ct) ++ CR :: NL ::
        ((bytes "Content-Length: " ++ fmt_lld body_len) ++ CR :: NL ::
        (bytes "Access-Control-Allow-Origin: *" ++ CR :: NL ::
        (bytes "Connection: close" ++ CR :: NL :: ([] ++ CR :: NL :: body))))) := by
    unfold http_header
    rw [cstr_of_nonzero stt (fun b hb => (hs b hb).2.2),
      cstr_of_nonzero ct (fun b hb => (hc b hb).2.2)]
    have e1 : bytes "\r\nContent-Type: " = CR :: NL :: bytes "Content-Type: " := by decide
    have e2 : bytes "\r\nContent-Length: " = CR :: NL :: bytes "Content-Length: " := by decide
    have e3 : bytes "\r\nAccess-Control-Allow-Origin: *\r\nConnection: close\r\n\r\n"
        = CR :: NL :: (bytes "Access-Control-Allow-Origin: *" ++ CR :: NL ::
          (bytes "Connection: close" ++ CR :: NL :: [CR, NL])) := by decide
    rw [e1, e2, e3]
    simp only [List.append_assoc, List.cons_append, List.nil_append]
  have c1 : ∀ b ∈ bytes "HTTP/1.1 " ++ fmt_lld status ++ bytes " " ++ stt, b ≠ CR ∧ b ≠ NL := by
    intro b hb
    simp only [List.mem_append] at hb
    rcases hb with ((hb | hb) | hb) | hb
    · exact (by decide : ∀ b ∈ bytes "HTTP/1.1 ", b ≠ CR ∧ b ≠ NL) b hb
    · exact hd _ b hb
    · exact (by decide : ∀ b ∈ bytes " ", b ≠ CR ∧ b ≠ NL) b hb
    · exact ⟨(hs b hb).1, (hs b hb).2.1⟩
  have c2 : ∀ b ∈ bytes "Content-Type: " ++ ct, b ≠ CR ∧ b ≠ NL := by
    intro b hb
    rcases List.mem_append.mp hb with hb | hb
    · exact (by decide : ∀ b ∈ bytes "Content-Type: ", b ≠ CR ∧ b ≠ NL) b hb
    · exact ⟨(hc b hb).1, (hc b hb).2.1⟩
  have c3 : ∀ b ∈ bytes "Content-Length: " ++ fmt_lld body_len, b ≠ CR ∧ b ≠ NL := by
    intro b hb
    rcases List.mem_append.mp hb with hb | hb
    · exact (by decide : ∀ b ∈ bytes "Content-Length: ", b ≠ CR ∧ b ≠ NL) b hb
    · exact hd _ b hb
  have n1 : bytes "HTTP/1.1 " ++ fmt_lld status ++ bytes " " ++ stt ≠ [] := by
    simp [bytes]
  have n2 : bytes "Content-Type: " ++ ct ≠ [] := by simp [bytes]
  have n3 : bytes "Content-Length: " ++ fmt_lld body_len ≠ [] := by simp [bytes]
  have hnone : ([] : List Nat).getLast? ≠ some CR := by simp
  unfold header_lines
  rw [e, header_lines_from_line _ [] _ c1 hnone, List.nil_append, if_neg n1,
    header_lines_from_line _ [] _ c2 hnone, List.nil_append, if_neg n2,
    header_lines_from_line _ [] _ c3 hnone, List.nil_append, if_neg n3,
    header_lines_from_line _ [] _ (by decide) hnone, List.nil_append, if_neg (by decide),
    header_lines_from_line _ [] _ (by decide) hnone, List.nil_append, if_neg (by decide),
    header_lines_from_line [] [] _ (by simp) hnone]
  simp

theorem cstr_length_le (l : List Nat) : (cstr l).length ≤ l.length := by
  induction l with
  | nil => simp [cstr]
  | cons b rest ih =>
    simp only [cstr]
    split_ifs
    · simp
    · simp only [List.length_cons]; omega

theorem value_body_length (reply : List Nat) : (cstr (value_body reply)).length ≤ 255 := by
  have h1 := cstr_length_le (value_body reply)
  have h2 : (value_body reply).length ≤ 255 := by
    unfold value_body
    rw [List.length_take]
    omega
  omega

/-- Every call of `write_http_response` that `handle_client` makes succeeds, sends
on `clientfd` only, and what it sends starts with a header block that has the two
lines. -/
theorem write_http_response_good (cfd st : Int) (stt ct body : List Nat)
    (hst : (st, stt) ∈ [((200 : Int), bytes "OK"), (400, bytes "Bad Request"),
      (404, bytes "Not Found"), (500, bytes "Internal Server Error")])
    (hct : ct ∈ [bytes "text/plain", bytes "application/json"])
    (hbl : (cstr body).length ≤ 255) :
    ∃ w, write_http_response cfd st stt ct body = some w ∧ (∀ p ∈ w, p.1 = cfd) ∧ w ≠ [] ∧
      ∃ L, header_lines (w.map Prod.snd).flatten = some L ∧
        L.head? = some (bytes "HTTP/1.1 " ++ fmt_lld st ++ bytes " " ++ stt) ∧
        bytes "Access-Control-Allow-Origin: *" ∈ L ∧ bytes "Connection: close" ∈ L := by
  have hfl : (fmt_lld ((cstr body).length : Nat)).length ≤ 20 :=
    fmt_lld_length _ (by omega) (by omega)
  have hs : ∀ b ∈ stt, b ≠ CR ∧ b ≠ NL ∧ b ≠ 0 := by
    simp only [List.mem_cons, Prod.mk.injEq, List.mem_singleton, List.not_mem_nil,
      or_false] at hst
    rcases hst with ⟨_, rfl⟩ | ⟨_, rfl⟩ | ⟨_, rfl⟩ | ⟨_, rfl⟩ <;> decide
  have hc : ∀ b ∈ ct, b ≠ CR ∧ b ≠ NL ∧ b ≠ 0 := by
    simp only [List.mem_cons, List.mem_singleton, List.not_mem_nil, or_false] at hct
    rcases hct with rfl | rfl <;> decide
  have hlen : (http_header st stt ct ((cstr body).length : Nat)).length < 1024 := by
    have l1 : (bytes "HTTP/1.1 ").length = 9 := rfl
    have l2 : (bytes " ").length = 1 := rfl
    have l3 : (bytes "\r\nContent-Type: ").length = 16 := rfl
    have l4 : (bytes "\r\nContent-Length: ").length = 18 := rfl
    have l5 : (bytes "\r\nAccess-Control-Allow-Origin: *\r\nConnection: close\r\n\r\n").length
        = 55 := rfl
    have l6 : (fmt_lld st).length ≤ 20 ∧ stt.length ≤ 30 := by
      simp only [List.mem_cons, Prod.mk.injEq, List.mem_singleton, List.not_mem_nil,
        or_false] at hst
      rcases hst with ⟨rfl, rfl⟩ | ⟨rfl, rfl⟩ | ⟨rfl, rfl⟩ | ⟨rfl, rfl⟩ <;> decide
    have l7 : ct.length ≤ 30 := by
      simp only [List.mem_cons, List.mem_singleton, List.not_mem_nil, or_false] at hct
      rcases hct with rfl | rfl <;> decide
    unfold http_header
    rw [cstr_of_nonzero stt (fun b hb => (hs b hb).2.2),
      cstr_of_nonzero ct (fun b hb => (hc b hb).2.2)]
    simp only [List.length_append, l1, l2, l3, l4, l5]
    omega
  have hh := header_lines_http_header st ((cstr body).length : Nat) stt ct
  unfold write_http_response
  simp only [hlen, if_true]
  refine ⟨_, rfl, ?_, by simp, ?_⟩
  · intro p hp
    split_ifs at hp
    · simp only [List.mem_cons, List.mem_singleton, List.not_mem_nil, or_false] at hp
      rcases hp with rfl | rfl <;> rfl
    · simp only [List.mem_singleton] at hp
      rw [hp]
  · refine ⟨[bytes "HTTP/1.1 " ++ fmt_lld st ++ bytes " " ++ stt,
        bytes "Content-Type: " ++ ct,
        bytes "Content-Length: " ++ fmt_lld ((cstr body).length : Nat),
        bytes "Access-Control-Allow-Origin: *",
        bytes "Connection: close"], ?_, rfl, by simp, by simp⟩
    split_ifs
    · have := hh (cstr body) hs hc
      simpa using this
    · have := hh [] hs hc
      simpa using this

theorem response_good {σ : Type} (cfd st : Int) (stt ct body : List Nat) (n1 : Net σ)
    (hst : (st, stt) ∈ [((200 : Int), bytes "OK"), (400, bytes "Bad Request"),
      (404, bytes "Not Found"), (500, bytes "Internal Server Error")])
    (hct : ct ∈ [bytes "text/plain", bytes "application/json"])
    (hbl : (cstr body).length ≤ 255) :
    ∃ w n2, (write_http_response cfd st stt ct body).map (fun w => (w, n1)) = some (w, n2) ∧
      (∀ p ∈ w, p.1 = cfd) ∧ w ≠ [] ∧
      ∃ L, header_lines (w.map Prod.snd).flatten = some L ∧
        L.head? ∈ [some (bytes "HTTP/1.1 200 OK"), some (bytes "HTTP/1.1 204 No Content"),
          some (bytes "HTTP/1.1 400 Bad Request"), some (bytes "HTTP/1.1 404 Not Found"),
          some (bytes "HTTP/1.1 500 Internal Server Error")] ∧
        bytes "Access-Control-Allow-Origin: *" ∈ L ∧ bytes "Connection: close" ∈ L := by
  obtain ⟨w, h1, h2, h3, L, h4, h5, h6, h7⟩ := write_http_response_good cfd st stt ct body hst hct hbl
  refine ⟨w, n1, by rw [h1]; rfl, h2, h3, L, h4, ?_, h6, h7⟩
  rw [h5]
  simp only [List.mem_cons, Prod.mk.injEq, List.mem_singleton, List.not_mem_nil, or_false] at hst
  rcases hst with ⟨rfl, rfl⟩ | ⟨rfl, rfl⟩ | ⟨rfl, rfl⟩ | ⟨rfl, rfl⟩ <;> decide

set_option maxRecDepth 100000 in
theorem options_header_lines :
    header_lines (cstr (bytes "HTTP/1.1 204 No Content\r\nAccess-Control-Allow-Origin: *\r\nAccess-Control-Allow-Methods: GET, POST, OPTIONS\r\nAccess-Control-Allow-Headers: Content-Type\r\nContent-Length: 0\r\nConnection: close\r\n\r\n"))
      = some [bytes "HTTP/1.1 204 No Content", bytes "Access-Control-Allow-Origin: *",
          bytes "Access-Control-Allow-Methods: GET, POST, OPTIONS",
          bytes "Access-Control-Allow-Headers: Content-Type",
          bytes "Content-Length: 0", bytes "Connection: close"] := by
  decide

/-! ## Lemmas: the bridge in front of the counter server -/

/-- Reading a reply line that fits the buffer: the text before the line feed is
stored and the bytes after it are left unread. -/
theorem read_reply_line (outlen : Nat) (text : List Nat) : ∀ (out rest : List Nat),
    (∀ b ∈ text, b ≠ CR ∧ b ≠ NL) → out.length + text.length + 1 < outlen →
    read_reply outlen (text ++ NL :: rest) out = (0, out ++ text, rest) := by
  induction text with
  | nil =>
    intro out rest _ hlen
    have h1 : out.length + 1 < outlen := by simpa using hlen
    have h2 : NL ≠ CR := by decide
    simp [read_reply, h1, h2]
  | cons b text ih =>
    intro out rest hb hlen
    have hb0 := hb b (List.mem_cons_self _ _)
    simp only [List.length_cons] at hlen
    have h1 : out.length + 1 < outlen := by omega
    rw [List.cons_append, read_reply, if_pos h1, if_neg hb0.1, if_neg hb0.2,
      ih (out ++ [b]) rest (fun x hx => hb x (List.mem_cons_of_mem _ hx))
        (by simp only [List.length_append, List.length_singleton]; omega)]
    simp

theorem wrap64_range (x : Int) : -2 ^ 63 ≤ wrap64 x ∧ wrap64 x < 2 ^ 63 := by
  unfold wrap64
  have h1 : (0 : Int) ≤ (x + 2 ^ 63) % 2 ^ 64 := Int.emod_nonneg _ (by norm_num)
  have h2 : (x + 2 ^ 63) % 2 ^ 64 < 2 ^ 64 := Int.emod_lt_of_pos _ (by norm_num)
  constructor <;> omega

/-- The counter after the command of a request stays within 64 bits. -/
theorem next_range (c : Int) (q : Req) (h : -2 ^ 63 ≤ c ∧ c < 2 ^ 63) :
    -2 ^ 63 ≤ q.next c ∧ q.next c < 2 ^ 63 := by
  cases q with
  | get => exact h
  | post r =>
    cases r with
    | incr => exact wrap64_range _
    | decr => exact wrap64_range _
    | reset => exact ⟨by show (-2 : Int) ^ 63 ≤ 0; norm_num, by show (0 : Int) < 2 ^ 63; norm_num⟩

/-- One command line, sent alone to a connection with an empty buffer: the server
executes the command, sends its reply, and the buffer is empty again. -/
theorem command_step (s : Server) (i : Nat) (c : client) (cmd : Cmd)
    (hc : s.clients[i]? = some c) (hfd : 0 ≤ c.fd) (hbuf : c.buf.length = BUFSIZE)
    (hlen : c.len = 0) :
    ∃ s1 c1, recv_step s i (.data (cmd.token ++ [NL])) = some s1 ∧
      s1.clients[i]? = some c1 ∧ c1.fd = c.fd ∧ c1.len = 0 ∧ c1.buf.length = BUFSIZE ∧
      s1.counter = (handle_command cmd.token c.fd s).counter ∧
      s1.sent = (handle_command cmd.token c.fd s).sent := by
  have hB : BUFSIZE = 4096 := rfl
  have hok : slot_ok s i := ⟨c, hc, hbuf, by omega, by rw [hlen, hB]; decide⟩
  have hi := getElem?_lt hc
  have hco : (observe s).clients[i]? = some c.observe := by
    rw [observe_clients_get, hc]; rfl
  have hio : i < (observe s).clients.length := getElem?_lt hco
  have htok : (∀ b ∈ cmd.token, b ≠ NL ∧ b ≠ 0) ∧ strip_cr cmd.token = cmd.token ∧
      ¬ strcasecmp cmd.token (bytes "QUIT") = 0 ∧ cmd.token.length + 1 ≤ BUFSIZE - 1 := by
    cases cmd <;> decide
  obtain ⟨t1, t2, t3, t4⟩ := htok
  obtain ⟨s1, h1, o1, c1, g1, g2, _, _⟩ := recv_step_refines s i (.data (cmd.token ++ [NL])) hok (by
    show (cmd.token ++ [NL]).length ≤ BUFSIZE - 1
    simp only [List.length_append, List.length_singleton]; exact t4)
  rw [line_step_single (observe s) i c.observe cmd.token hco (by rw [observe_fd]; exact hfd)
    hlen t1, t2, if_neg t3, observe_fd, handle_command_observe] at o1
  have hc1o : (observe s1).clients[i]? = some c1.observe := by
    rw [observe_clients_get, g1]; rfl
  rw [o1] at hc1o
  simp only [List.getElem?_set_self hio, Option.some.injEq] at hc1o
  obtain ⟨f1, f2, _, _, _, _⟩ := observe_fields s1
  obtain ⟨k1, k2, _, _, _, _⟩ := observe_fields (handle_command cmd.token c.fd s)
  refine ⟨s1, c1, h1, g1, ?_, ?_, g2, ?_, ?_⟩
  · have := congrArg client.fd hc1o; simpa [client.observe] using this.symm
  · have := congrArg client.len hc1o; simpa [client.observe] using this.symm
  · rw [← f1, o1]; exact k1
  · rw [← f2, o1]; exact k2

theorem replies_one (s s1 : Server) (fd : Int) (r : List Nat) (h : s1.sent = s.sent ++ [(fd, r)]) :
    replies s s1 fd = r := by
  unfold replies
  rw [h, List.drop_left]
  simp

/-- The first connect: the server registers the connection in a free slot. -/
theorem connect_linked (n : Net Link) (h : unlinked n) :
    0 ≤ (server_connect n.peer).1 ∧
    linked ⟨(server_connect n.peer).2.1, (server_connect n.peer).2.2, (server_connect n.peer).1⟩ ∧
    (server_connect n.peer).2.1.server.counter = n.peer.server.counter := by
  have hB : BUFSIZE = 4096 := rfl
  obtain ⟨_, hs, hc0, hrange, hbufs, d, hd, hdfree⟩ := h
  rcases find_slot_spec n.peer.server.clients with ⟨_, hall⟩ | ⟨c, hc, hfree, hocc⟩
  · have := hall d hd
    omega
  · have hi := getElem?_lt hc
    have hb := hbufs c (List.mem_iff_getElem?.mpr ⟨_, hc⟩)
    have hacc := accept_step_free n.peer.server n.peer.connfd _ c hc0 hc hfree
      (by rw [hb, hB]; decide) hocc
    have hslot : (0 ≤ n.peer.connfd ∧ find_slot n.peer.server.clients < MAX_CLIENTS n.peer.server)
        := ⟨hc0, hi⟩
    unfold server_connect
    simp only [hacc, hslot, and_self, if_true]
    refine ⟨hs, ⟨hs, rfl, hc0, hrange, find_slot n.peer.server.clients,
      ⟨n.peer.connfd, c.buf.set 0 0, 0⟩, rfl, ?_, rfl, by simp [hb], rfl⟩, trivial⟩
    exact List.getElem?_set_self hi

/-- The effect of `handle_command` on a command token, by the two functions of the
vocabulary. -/
theorem handle_command_apply (cmd : Cmd) (fd : Int) (s : Server) :
    (handle_command cmd.token fd s).counter = cmd.apply s.counter ∧
    (handle_command cmd.token fd s).sent = s.sent ++ [(fd, cmd.reply_text s.counter ++ [NL])] := by
  rw [handle_command_token]
  cases cmd <;> exact ⟨rfl, rfl⟩

theorem reply_text_clean (c : Int) (cmd : Cmd) (h1 : -2 ^ 63 ≤ c) (h2 : c < 2 ^ 63) :
    (∀ b ∈ cmd.reply_text c, b ≠ CR ∧ b ≠ NL ∧ b ≠ 0) ∧ (cmd.reply_text c).length ≤ 20 := by
  have hN : NL = 10 := rfl
  have hC : CR = 13 := rfl
  have hf : ∀ b ∈ fmt_lld c, b ≠ CR ∧ b ≠ NL ∧ b ≠ 0 := by
    intro b hb
    rcases (fmt_lld_chars _).2 b hb with h | h <;> rw [hN, hC] <;> omega
  have hk : ∀ b ∈ bytes "OK", b ≠ CR ∧ b ≠ NL ∧ b ≠ 0 := by decide
  have hfl := fmt_lld_length c h1 h2
  have hkl : (bytes "OK").length ≤ 20 := by decide
  cases cmd
  · exact ⟨hk, hkl⟩
  · exact ⟨hk, hkl⟩
  · exact ⟨hf, hfl⟩
  · exact ⟨hk, hkl⟩

theorem apply_range (c : Int) (cmd : Cmd) (h : -2 ^ 63 ≤ c ∧ c < 2 ^ 63) :
    -2 ^ 63 ≤ cmd.apply c ∧ cmd.apply c < 2 ^ 63 := by
  cases cmd
  · exact wrap64_range _
  · exact wrap64_range _
  · exact h
  · exact ⟨by show (-2 : Int) ^ 63 ≤ 0; norm_num, by show (0 : Int) < 2 ^ 63; norm_num⟩

/-- A call of `send_command_and_read` on a linked bridge: the server executes the
command, and the call returns 0 with the text of the reply line. -/
theorem send_command_linked (n : Net Link) (h : linked n) (cmd : Cmd) :
    ∃ n1, send_command_and_read counter_upstream n cmd.token 256
        = (0, cmd.reply_text n.peer.server.counter, n1) ∧
      linked n1 ∧ n1.peer.connfd = n.peer.connfd ∧ n1.peer.sock = n.peer.sock ∧
      n1.peer.server.counter = cmd.apply n.peer.server.counter := by
  obtain ⟨hp, hin, hc0, hrange, i, c, hslot, hc, hfd, hbuf, hlen⟩ := h
  obtain ⟨s1, c1, hstep, hc1, hfd1, hlen1, hbuf1, hcnt, hsent⟩ :=
    command_step n.peer.server i c cmd hc (by rw [hfd]; exact hc0) hbuf hlen
  obtain ⟨a1, a2⟩ := handle_command_apply cmd c.fd n.peer.server
  rw [a1] at hcnt
  rw [a2, hfd] at hsent
  have hz : cstr cmd.token = cmd.token := by cases cmd <;> decide
  have hshort : ¬ (cmd.token.length + 1 ≥ 256) := by cases cmd <;> decide
  have hrep := replies_one n.peer.server s1 n.peer.connfd _ hsent
  obtain ⟨hclean, htl⟩ := reply_text_clean n.peer.server.counter cmd hrange.1 hrange.2
  have hrd : read_reply 256 (cmd.reply_text n.peer.server.counter ++ [NL]) []
      = (0, cmd.reply_text n.peer.server.counter, []) := by
    have := read_reply_line 256 (cmd.reply_text n.peer.server.counter) [] []
      (fun b hb => ⟨(hclean b hb).1, (hclean b hb).2.1⟩)
      (by simp only [List.length_nil]; omega)
    simpa using this
  have hsend : server_send n.peer (cmd.token ++ [NL])
      = ((((cmd.token ++ [NL]).length : Nat) : Int),
          ({ n.peer with server := s1, slot := some i } : Link),
          cmd.reply_text n.peer.server.counter ++ [NL]) := by
    unfold server_send
    simp only [hslot, hstep, hc1, Option.map_some', hfd1, hfd, if_true, hrep]
  refine ⟨{ peer := { n.peer with server := s1, slot := some i }, inbox := [], psock := n.psock },
    ?_, ⟨hp, rfl, hc0, ?_, i, c1, rfl, hc1, by rw [hfd1, hfd], hbuf1, hlen1⟩, rfl, rfl, hcnt⟩
  · unfold send_command_and_read
    have hnp : ¬ n.psock < 0 := by omega
    have hnn : ¬ (((cmd.token ++ [NL]).length : Nat) : Int) < 0 := by omega
    simp only [hnp, false_and, if_false, hz, hshort, counter_upstream, hsend, hnn, hin,
      List.nil_append, hrd]
    simp
  · show -2 ^ 63 ≤ s1.counter ∧ s1.counter < 2 ^ 63
    rw [hcnt]
    exact apply_range _ cmd hrange

/-- A call on a bridge that has no upstream socket yet connects first. -/
theorem send_command_unlinked (n : Net Link) (h : unlinked n) (cmd : List Nat) :
    send_command_and_read counter_upstream n cmd 256
      = send_command_and_read counter_upstream
          ⟨(server_connect n.peer).2.1, (server_connect n.peer).2.2, (server_connect n.peer).1⟩
          cmd 256 := by
  obtain ⟨h1, _, _⟩ := connect_linked n h
  have hp := h.1
  have hnn : ¬ (server_connect n.peer).1 < 0 := by omega
  unfold send_command_and_read
  dsimp only
  simp only [hp, counter_upstream, hnn, and_false, false_and, if_false, if_true]

theorem send_command_ready (n : Net Link) (h : linked n ∨ unlinked n) (cmd : Cmd) :
    ∃ n1, send_command_and_read counter_upstream n cmd.token 256
        = (0, cmd.reply_text n.peer.server.counter, n1) ∧
      linked n1 ∧ n1.peer.server.counter = cmd.apply n.peer.server.counter := by
  rcases h with h | h
  · obtain ⟨n1, h1, h2, _, _, h3⟩ := send_command_linked n h cmd
    exact ⟨n1, h1, h2, h3⟩
  · obtain ⟨_, hl, hcnt⟩ := connect_linked n h
    obtain ⟨n1, h1, h2, _, _, h3⟩ := send_command_linked _ hl cmd
    simp only [hcnt] at h1 h3
    exact ⟨n1, by rw [send_command_unlinked n h]; exact h1, h2, h3⟩

/-- The response with status 200 that shows a counter within 64 bits. -/
theorem write_ok_response (cfd c : Int) (h1 : -2 ^ 63 ≤ c) (h2 : c < 2 ^ 63) :
    ∃ w, write_http_response cfd 200 (bytes "OK") (bytes "application/json")
        (value_body (fmt_lld c)) = some w ∧ (w.map Prod.snd).flatten = ok_response c := by
  have hfl := fmt_lld_length c h1 h2
  have hnz : ∀ b ∈ bytes "\x7b\"value\": " ++ fmt_lld c ++ bytes "\x7d\n", b ≠ 0 := by
    intro b hb
    simp only [List.mem_append] at hb
    rcases hb with (hb | hb) | hb
    · exact (by decide : ∀ b ∈ bytes "\x7b\"value\": ", b ≠ 0) b hb
    · exact fmt_lld_nonzero c b hb
    · exact (by decide : ∀ b ∈ bytes "\x7d\n", b ≠ 0) b hb
  have l1 : (bytes "\x7b\"value\": ").length = 10 := rfl
  have l2 : (bytes "\x7d\n").length = 2 := rfl
  have hvb : value_body (fmt_lld c) = bytes "\x7b\"value\": " ++ fmt_lld c ++ bytes "\x7d\n" := by
    unfold value_body
    rw [cstr_of_nonzero _ (fmt_lld_nonzero c), List.take_of_length_le]
    simp only [List.length_append, l1, l2]
    omega
  have hcs : cstr (value_body (fmt_lld c))
      = bytes "\x7b\"value\": " ++ fmt_lld c ++ bytes "\x7d\n" := by
    rw [hvb, cstr_of_nonzero _ hnz]
  have hbl : (bytes "\x7b\"value\": " ++ fmt_lld c ++ bytes "\x7d\n").length ≤ 255 := by
    simp only [List.length_append, l1, l2]
    omega
  have hpos : (bytes "\x7b\"value\": " ++ fmt_lld c ++ bytes "\x7d\n").length > 0 := by
    simp only [List.length_append, l1, l2]
    omega
  obtain ⟨w, hw, _⟩ := write_http_response_good cfd 200 (bytes "OK") (bytes "application/json")
    (value_body (fmt_lld c)) (by decide) (by decide) (by rw [hcs]; exact hbl)
  refine ⟨w, hw, ?_⟩
  unfold write_http_response at hw
  rw [hcs] at hw
  dsimp only at hw
  rw [if_pos hpos] at hw
  split_ifs at hw with ha
  have e := Option.some.inj hw
  rw [← e]
  simp [ok_response]

/-- One request of the property, served by a bridge whose upstream is the counter
server: the response is the 200 response that shows the counter after the command
of the request. -/
theorem handle_client_request (n : Net Link) (h : linked n ∨ unlinked n) (q : Req)
    (text : List Nat) (hreq : is_request q text) (cfd : Int) :
    ∃ w n1, handle_client counter_upstream n cfd (.data text) = some (w, n1) ∧
      (w.map Prod.snd).flatten = ok_response (q.next n.peer.server.counter) ∧
      linked n1 ∧ n1.peer.server.counter = q.next n.peer.server.counter := by
  obtain ⟨hne, hlen, hparse⟩ := hreq
  have hr0 : ¬ (RecvResult.data text).r ≤ 0 := by
    have := List.length_pos.mpr hne
    show ¬ ((text.length : Nat) : Int) ≤ 0
    omega
  have hr1 : ¬ ¬ (RecvResult.data text).r < (Bridge.BUFSIZE : Int) := by
    show ¬ ¬ ((text.length : Nat) : Int) < (Bridge.BUFSIZE : Int)
    omega
  have get_part : ∀ (m : Net Link) (err : List Nat), (linked m ∨ unlinked m) →
      ∃ w n1,
        (if (send_command_and_read counter_upstream m (bytes "GET") 256).1 = 0 then
          (write_http_response cfd 200 (bytes "OK") (bytes "application/json")
            (value_body (send_command_and_read counter_upstream m (bytes "GET") 256).2.1)).map
            (fun w => (w, (send_command_and_read counter_upstream m (bytes "GET") 256).2.2))
        else
          (write_http_response cfd 500 (bytes "Internal Server Error")
            (bytes "application/json") err).map
            (fun w => (w, (send_command_and_read counter_upstream m (bytes "GET") 256).2.2)))
          = some (w, n1) ∧
        (w.map Prod.snd).flatten = ok_response m.peer.server.counter ∧
        linked n1 ∧ n1.peer.server.counter = m.peer.server.counter := by
    intro m err hm
    have hrange : -2 ^ 63 ≤ m.peer.server.counter ∧ m.peer.server.counter < 2 ^ 63 := by
      rcases hm with hm | hm
      · exact hm.2.2.2.1
      · exact hm.2.2.2.1
    obtain ⟨n1, e1, hl1, hc1⟩ := send_command_ready m hm Cmd.GET
    have e1' : send_command_and_read counter_upstream m (bytes "GET") 256
        = (0, fmt_lld m.peer.server.counter, n1) := e1
    obtain ⟨w, hw, hfl⟩ := write_ok_response cfd m.peer.server.counter hrange.1 hrange.2
    rw [e1']
    simp only [if_true, hw, Option.map_some']
    exact ⟨w, n1, rfl, hfl, hl1, hc1⟩
  unfold handle_client
  rw [if_neg hr0, if_neg hr1]
  dsimp only [RecvResult.tmp]
  rw [hparse]
  dsimp only
  rw [if_neg (by decide)]
  cases q with
  | get =>
    rw [if_pos (by decide)]
    exact get_part n _ h
  | post r =>
    have post_part : ∀ cmd : Cmd,
        ∃ w n1,
          (if (send_command_and_read counter_upstream n cmd.token 256).1 = 0 then
            if (send_command_and_read counter_upstream
                (send_command_and_read counter_upstream n cmd.token 256).2.2
                (bytes "GET") 256).1 = 0 then
              (write_http_response cfd 200 (bytes "OK") (bytes "application/json")
                (value_body (send_command_and_read counter_upstream
                  (send_command_and_read counter_upstream n cmd.token 256).2.2
                  (bytes "GET") 256).2.1)).map
                (fun w => (w, (send_command_and_read counter_upstream
                  (send_command_and_read counter_upstream n cmd.token 256).2.2
                  (bytes "GET") 256).2.2))
            else
              (write_http_response cfd 500 (bytes "Internal Server Error")
                (bytes "application/json")
                (bytes "\x7b\"error\": \"read failed\"\x7d\n")).map
                (fun w => (w, (send_command_and_read counter_upstream
                  (send_command_and_read counter_upstream n cmd.token 256).2.2
                  (bytes "GET") 256).2.2))
          else
            (write_http_response cfd 500 (bytes "Internal Server Error")
              (bytes "application/json")
              (bytes "\x7b\"error\": \"command failed\"\x7d\n")).map
              (fun w => (w, (send_command_and_read counter_upstream n cmd.token 256).2.2)))
            = some (w, n1) ∧
          (w.map Prod.snd).flatten = ok_response (cmd.apply n.peer.server.counter) ∧
          linked n1 ∧ n1.peer.server.counter = cmd.apply n.peer.server.counter := by
      intro cmd
      obtain ⟨n1, e1, hl1, hc1⟩ := send_command_ready n h cmd
      rw [e1]
      dsimp only
      rw [if_pos rfl]
      obtain ⟨w, n2, g1, g2, g3, g4⟩ := get_part n1 (bytes "\x7b\"error\": \"read failed\"\x7d\n")
        (Or.inl hl1)
      rw [hc1] at g2 g4
      exact ⟨w, n2, g1, g2, g3, g4⟩
    cases r with
    | incr =>
      rw [if_neg (by decide), if_pos (by decide), if_pos (by decide)]
      exact post_part Cmd.INCR
    | decr =>
      rw [if_neg (by decide), if_pos (by decide), if_neg (by decide), if_pos (by decide)]
      exact post_part Cmd.DECR
    | reset =>
      rw [if_neg (by decide), if_pos (by decide), if_neg (by decide), if_neg (by decide),
        if_pos (by decide)]
      exact post_part Cmd.RESET

/-- A sequence of requests of the property, served one after the other. -/
theorem serve_requests (reqs : List (Req × Int × List Nat)) : ∀ n : Net Link,
    (linked n ∨ unlinked n) → (∀ x ∈ reqs, is_request x.1 x.2.2) →
    ∃ n1, serve counter_upstream n (reqs.map (fun x => (x.2.1, RecvResult.data x.2.2)))
        = some (shown n.peer.server.counter (reqs.map Prod.fst), n1) ∧
      n1.peer.server.counter = (reqs.map Prod.fst).foldl Req.next n.peer.server.counter ∧
      (linked n1 ∨ unlinked n1) := by
  induction reqs with
  | nil => intro n h _; exact ⟨n, rfl, rfl, h⟩
  | cons x xs ih =>
    intro n h hreq
    obtain ⟨w, n1, h1, h2, h3, h4⟩ := handle_client_request n h x.1 x.2.2
      (hreq x (List.mem_cons_self _ _)) x.2.1
    obtain ⟨n2, g1, g2, g3⟩ := ih n1 (Or.inl h3) (fun y hy => hreq y (List.mem_cons_of_mem _ hy))
    refine ⟨n2, ?_, ?_, g3⟩
    · simp only [List.map_cons, serve, h1, g1, h2, h4, shown]
    · simp only [List.map_cons, List.foldl_cons, g2, h4]

theorem shown_getLast (qs : List Req) : ∀ c : Int, qs ≠ [] →
    (shown c qs).getLast? = some (ok_response (qs.foldl Req.next c)) := by
  induction qs with
  | nil => intro c h; exact absurd rfl h
  | cons q qs ih =>
    intro c _
    cases qs with
    | nil => simp [shown]
    | cons q2 qs2 =>
      have := ih (q.next c) (by simp)
      simp only [shown, List.foldl_cons] at this ⊢
      rw [List.getLast?_cons_cons]
      exact this

theorem shown_get (qs : List Req) : ∀ (c : Int) (k : Nat), k < qs.length →
    (shown c qs)[k]? = some (ok_response ((qs.take (k + 1)).foldl Req.next c)) := by
  induction qs with
  | nil => intro c k h; simp at h
  | cons q qs ih =>
    intro c k hk
    cases k with
    | zero => simp [shown]
    | succ k =>
      simp only [List.length_cons] at hk
      have := ih (q.next c) k (by omega)
      simp only [shown, List.getElem?_cons_succ, List.take_succ_cons, List.foldl_cons]
      exact this

set_option maxRecDepth 100000 in
theorem shown_example :
    (shown 0 [.post .incr, .post .incr, .post .incr, .post .decr, .get]).getLast?
      = some (bytes "HTTP/1.1 200 OK\r\nContent-Type: application/json\r\nContent-Length: 13\r\nAccess-Control-Allow-Origin: *\r\nConnection: close\r\n\r\n\x7b\"value\": 2\x7d\n") := by
  decide

/-! ## Lemmas: `maxfd` across the steps of `main` -/

theorem max_inv_init (mem : List (List Nat)) (L : Int) (hmem : ∀ b ∈ mem, b.length = BUFSIZE)
    (h0 : 0 ≤ L) : max_inv L (init_server mem L) := by
  obtain ⟨i1, i2, _, _, i5, i6, i7⟩ := table_inv_init mem L hmem h0
  exact ⟨i1, fun c hc => ⟨(i2 c hc).1, (i2 c hc).2.1, (i2 c hc).2.2.1⟩, i5, i6, i7⟩

theorem max_inv_keep (L : Int) (s s1 : Server) (i : Nat) (c c1 : client)
    (hinv : max_inv L s) (hc : s.clients[i]? = some c)
    (hcl : s1.clients = s.clients.set i c1) (hli : s1.listener = s.listener)
    (hb : c1.buf.length = BUFSIZE) (hl0 : 0 ≤ c1.len) (hl1 : c1.len ≤ (BUFSIZE : Int) - 1)
    (hfd : c1.fd = c.fd) (hmax : s1.maxfd = s.maxfd) :
    max_inv L s1 := by
  obtain ⟨i1, i2, i5, i6, i7⟩ := hinv
  have hh : handles s1 = handles s := by
    show s1.clients.map client.fd = handles s
    rw [hcl, handles_set, hfd]
    exact set_self _ _ _ (handles_get s i c hc)
  refine ⟨hli.trans i1, ?_, by rw [hli, hmax]; exact i5, by rw [hh, hmax]; exact i6,
    by rw [hh, hmax, hli]; exact i7⟩
  intro d hd
  rw [hcl] at hd
  rcases List.mem_or_eq_of_mem_set hd with h | rfl
  · exact i2 d h
  · exact ⟨hb, hl0, hl1⟩

theorem max_inv_remove (L : Int) (s s1 : Server) (i : Nat) (c1 : client)
    (hinv : max_inv L s) (h0 : 0 ≤ L)
    (hcl : s1.clients = s.clients.set i c1) (hli : s1.listener = s.listener)
    (hb : c1.buf.length = BUFSIZE) (hlen : c1.len = 0)
    (hmax : s1.maxfd = recompute_maxfd (s.clients.set i c1) s.listener) :
    max_inv L s1 := by
  have hB : BUFSIZE = 4096 := rfl
  have hz : (0 : Int) ≤ (BUFSIZE : Int) - 1 := by rw [hB]; decide
  obtain ⟨i1, i2, _, _, _⟩ := hinv
  obtain ⟨m1, m2, m3⟩ := recompute_maxfd_spec (s.clients.set i c1) s.listener
  rw [← hmax] at m1 m2 m3
  rw [← hcl] at m2 m3
  have hM : 0 ≤ s1.maxfd := by rw [i1] at m1; omega
  refine ⟨hli.trans i1, ?_, by rw [hli]; exact m1, ?_, ?_⟩
  · intro d hd
    rw [hcl] at hd
    rcases List.mem_or_eq_of_mem_set hd with h | rfl
    · exact i2 d h
    · exact ⟨hb, by rw [hlen], by rw [hlen]; exact hz⟩
  · intro a ha
    obtain ⟨d, hd, rfl⟩ := mem_handles.mp ha
    exact m2 d hd
  · rcases m3 with m3 | ⟨d, hd, m3⟩
    · exact Or.inl (m3.trans hli.symm)
    · exact Or.inr ⟨mem_handles.mpr ⟨d, hd, m3⟩, hM⟩

theorem max_inv_register (L : Int) (s s1 : Server) (i : Nat) (c c1 : client) (connfd : Int)
    (hinv : max_inv L s) (hc : s.clients[i]? = some c) (hfree : c.fd < 0) (h0 : 0 ≤ connfd)
    (hcl : s1.clients = s.clients.set i c1) (hli : s1.listener = s.listener)
    (hb : c1.buf.length = BUFSIZE) (hfd : c1.fd = connfd) (hlen : c1.len = 0)
    (hmax : s1.maxfd = if connfd > s.maxfd then connfd else s.maxfd) :
    max_inv L s1 := by
  have hB : BUFSIZE = 4096 := rfl
  have hz : (0 : Int) ≤ (BUFSIZE : Int) - 1 := by rw [hB]; decide
  obtain ⟨i1, i2, i5, i6, i7⟩ := hinv
  have hi := getElem?_lt hc
  have hiF : i < (handles s).length := by simp [handles, hi]
  have hFi := handles_get s i c hc
  have hh : handles s1 = (handles s).set i connfd := by
    show s1.clients.map client.fd = _
    rw [hcl, handles_set, hfd]
  have hne : ∀ j a, (handles s)[j]? = some a → 0 ≤ a → j ≠ i := by
    rintro j a hj ha rfl
    rw [hFi] at hj
    have := Option.some.inj hj
    omega
  refine ⟨hli.trans i1, ?_, ?_, ?_, ?_⟩
  · intro d hd
    rw [hcl] at hd
    rcases List.mem_or_eq_of_mem_set hd with h | rfl
    · exact i2 d h
    · exact ⟨hb, by rw [hlen], by rw [hlen]; exact hz⟩
  · rw [hli, hmax]; split_ifs <;> omega
  · intro a ha
    rw [hh, mem_set_iff _ _ _ _ hiF] at ha
    rw [hmax]
    rcases ha with rfl | ⟨j, _, hg⟩
    · split_ifs <;> omega
    · have := i6 a (List.mem_iff_getElem?.mpr ⟨j, hg⟩)
      split_ifs <;> omega
  · rw [hh, hmax, hli]
    by_cases hgt : connfd > s.maxfd
    · rw [if_pos hgt]
      exact Or.inr ⟨(mem_set_iff _ _ _ _ hiF).mpr (Or.inl rfl), h0⟩
    · rw [if_neg hgt]
      rcases i7 with h | ⟨hm, hp⟩
      · exact Or.inl h
      · obtain ⟨j, hj⟩ := List.mem_iff_getElem?.mp hm
        exact Or.inr ⟨(mem_set_iff _ _ _ _ hiF).mpr (Or.inr ⟨j, hne j _ hj hp, hj⟩), hp⟩

/-! ## Lemmas: the descriptor set -/

theorem FD_SET_some (fd : Int) (r : List Bool) (h0 : 0 ≤ fd) (h1 : fd < (r.length : Int)) :
    FD_SET fd r = some (r.set fd.toNat true) := by
  unfold FD_SET
  rw [if_pos ⟨h0, h1⟩]

theorem FD_SET_none (fd : Int) (r : List Bool) (h : (r.length : Int) ≤ fd) :
    FD_SET fd r = none := by
  unfold FD_SET
  rw [if_neg (by omega)]

theorem FD_ISSET_some (fd : Int) (r : List Bool) (h0 : 0 ≤ fd) (h1 : fd < (r.length : Int)) :
    ∃ b, FD_ISSET fd r = some b := by
  unfold FD_ISSET
  rw [if_pos ⟨h0, h1⟩]
  have : fd.toNat < r.length := by omega
  exact ⟨r[fd.toNat], List.getElem?_eq_getElem this⟩

theorem fd_set_clients_length : ∀ (cs : List client) (r : List Bool),
    (∀ c ∈ cs, c.fd < (r.length : Int)) →
    ∃ r1, fd_set_clients cs r = some r1 ∧ r1.length = r.length
  | [], r, _ => ⟨r, rfl, rfl⟩
  | c :: cs, r, h => by
    unfold fd_set_clients
    by_cases hc : c.fd ≥ 0
    · rw [if_pos hc, FD_SET_some c.fd r hc (h c (List.mem_cons_self _ _))]
      obtain ⟨r1, h1, h2⟩ := fd_set_clients_length cs (r.set c.fd.toNat true) (by
        intro d hd
        rw [List.length_set]
        exact h d (List.mem_cons_of_mem _ hd))
      exact ⟨r1, h1, by rw [h2, List.length_set]⟩
    · rw [if_neg hc]
      exact fd_set_clients_length cs r (fun d hd => h d (List.mem_cons_of_mem _ hd))

theorem fd_set_clients_free : ∀ (cs : List client) (r : List Bool),
    (∀ c ∈ cs, c.fd < 0) → fd_set_clients cs r = some r
  | [], _, _ => rfl
  | c :: cs, r, h => by
    unfold fd_set_clients
    rw [if_neg (by have := h c (List.mem_cons_self _ _); omega)]
    exact fd_set_clients_free cs r (fun d hd => h d (List.mem_cons_of_mem _ hd))

theorem fd_set_clients_large (c : client) (cs : List client) (r : List Bool)
    (h : (r.length : Int) ≤ c.fd) : fd_set_clients (c :: cs) r = none := by
  unfold fd_set_clients
  rw [if_pos (by omega), FD_SET_none c.fd r h]

theorem fill_readfds_some (s : Server) (h0 : 0 ≤ s.listener)
    (h1 : s.listener < (s.clients.length : Int))
    (h2 : ∀ c ∈ s.clients, c.fd < (s.clients.length : Int)) :
    ∃ r, fill_readfds s = some r ∧ r.length = s.clients.length := by
  unfold fill_readfds
  have hz : (FD_ZERO (FD_SETSIZE s)).length = s.clients.length := by
    unfold FD_ZERO FD_SETSIZE
    rw [List.length_replicate]
  rw [FD_SET_some _ _ h0 (by rw [hz]; exact h1)]
  obtain ⟨r1, e1, e2⟩ := fd_set_clients_length s.clients
    ((FD_ZERO (FD_SETSIZE s)).set s.listener.toNat true) (by
      intro c hc
      rw [List.length_set, hz]
      exact h2 c hc)
  exact ⟨r1, e1, by rw [e2, List.length_set, hz]⟩

theorem select_some (nfds : Int) (r : List Bool) (ready : Nat → Bool)
    (h : nfds ≤ (r.length : Int)) :
    ∃ rs, select nfds r ready = some rs ∧ rs.length = r.length := by
  unfold select
  rw [if_pos h]
  exact ⟨_, rfl, by rw [List.length_map, List.length_range]⟩

theorem select_length (nfds : Int) (r rs : List Bool) (ready : Nat → Bool)
    (h : select nfds r ready = some rs) : rs.length = r.length := by
  unfold select at h
  split_ifs at h
  have e := Option.some.inj h
  rw [← e, List.length_map, List.length_range]

/-! ## Lemmas: the slots of one turn -/

theorem recv_event_some (s s1 : Server) (i : Nat) (res : RecvResult) (reset : Option Nat)
    (h : recv_step s i res = some s1) :
    recv_event s i res reset = some (.running s1) ∨
      recv_event s i res reset = some .killed := by
  unfold recv_event
  rw [h]
  cases reset with
  | none => exact Or.inl rfl
  | some k =>
    dsimp only
    by_cases hk : k < s1.sent.length - s.sent.length
    · rw [if_pos hk]; exact Or.inr rfl
    · rw [if_neg hk]; exact Or.inl rfl

/-- A property of the table that every receive step keeps holds after the slots
of a turn have been served, and serving them succeeds. -/
theorem serve_slots_inv (I : Server → Prop) (n : Nat) (rs : List Bool) (t : Turn)
    (hrs : rs.length = n) (ht : recv_bounded t)
    (hwf : ∀ s, I s → s.clients.length = n ∧ ∀ c ∈ s.clients,
      c.buf.length = BUFSIZE ∧ 0 ≤ c.len ∧ c.len ≤ (BUFSIZE : Int) - 1 ∧ c.fd < (n : Int))
    (hstep : ∀ s i s1, I s → recv_step s i (t.recvs i) = some s1 → I s1) :
    ∀ (fuel i : Nat) (nready : Int) (s : Server), I s → n ≤ fuel + i →
      ∃ o, serve_slots rs t fuel i nready s = some o ∧ (∀ s1, o = .running s1 → I s1) ∧
        (∀ s1, o ≠ .stopped s1) ∧ ((∀ j, t.resets j = none) → o ≠ .killed) := by
  intro fuel
  induction fuel with
  | zero =>
    intro i nready s hI hle
    have hlen := (hwf s hI).1
    refine ⟨.running s, ?_, ?_, ?_, ?_⟩
    · unfold serve_slots
      rw [if_neg (by unfold MAX_CLIENTS FD_SETSIZE; omega)]
    · intro s1 e
      cases e
      exact hI
    · intro s1 e
      cases e
    · intro _ e
      cases e
  | succ fuel ih =>
    intro i nready s hI hle
    obtain ⟨hlen, hcl⟩ := hwf s hI
    unfold serve_slots
    by_cases hi : i < MAX_CLIENTS s
    · rw [if_pos hi]
      have hi2 : i < s.clients.length := hi
      have hc : s.clients[i]? = some (s.clients[i]) := List.getElem?_eq_getElem hi2
      obtain ⟨hb, hl0, hl1, hfd⟩ := hcl _ (List.getElem_mem hi2)
      rw [hc]
      dsimp only
      by_cases hneg : s.clients[i].fd < 0
      · rw [if_pos hneg]
        exact ih (i + 1) nready s hI (by omega)
      · rw [if_neg hneg]
        obtain ⟨b, hb1⟩ := FD_ISSET_some s.clients[i].fd rs (by omega) (by rw [hrs]; exact hfd)
        rw [hb1]
        cases b with
        | false => exact ih (i + 1) nready s hI (by omega)
        | true =>
          dsimp only
          obtain ⟨s1, c1, h1, _⟩ := recv_step_shape s i _ (t.recvs i) hc hb hl0 hl1 (ht i)
          have hI1 := hstep s i s1 hI h1
          rcases recv_event_some s s1 i (t.recvs i) (t.resets i) h1 with e | e
          · rw [e]
            dsimp only
            by_cases hn : nready - 1 ≤ 0
            · rw [if_pos hn]
              refine ⟨_, rfl, ?_, ?_, ?_⟩
              · intro s2 e2
                cases e2
                exact hI1
              · intro s2 e2
                cases e2
              · intro _ e2
                cases e2
            · rw [if_neg hn]
              exact ih (i + 1) (nready - 1) s1 hI1 (by omega)
          · rw [e]
            refine ⟨_, rfl, ?_, ?_, ?_⟩
            · intro s2 e2
              cases e2
            · intro s2 e2
              cases e2
            · intro hq _
              rw [hq i] at e
              unfold recv_event at e
              rw [h1] at e
              cases e
    · rw [if_neg hi]
      refine ⟨_, rfl, ?_, ?_, ?_⟩
      · intro s1 e
        cases e
        exact hI
      · intro s1 e
        cases e
      · intro _ e
        cases e

/-! ## Lemmas: one turn of the loop -/

theorem outcome_running (o : Outcome) (h1 : ∀ s1, o ≠ .stopped s1) (h2 : o ≠ .killed) :
    ∃ s1, o = .running s1 := by
  cases o with
  | running s1 => exact ⟨s1, rfl⟩
  | stopped s1 => exact absurd rfl (h1 s1)
  | killed => exact absurd rfl h2

/-- A turn succeeds from a state whose handles are below `FD_SETSIZE`, and a
property that `accept` establishes and every receive step keeps holds in the state
it leaves. -/
theorem main_turn_inv (I : Server → Prop) (s : Server) (t : Turn)
    (hL0 : 0 ≤ s.listener) (hL1 : s.listener < (s.clients.length : Int))
    (hmax : s.maxfd < (s.clients.length : Int))
    (hfd : ∀ c ∈ s.clients, c.fd < (s.clients.length : Int))
    (ht : recv_bounded t)
    (hwf : ∀ s1, I s1 → s1.clients.length = s.clients.length ∧ ∀ c ∈ s1.clients,
      c.buf.length = BUFSIZE ∧ 0 ≤ c.len ∧ c.len ≤ (BUFSIZE : Int) - 1 ∧
      c.fd < (s.clients.length : Int))
    (hstep : ∀ s1 i s2, I s1 → recv_step s1 i (t.recvs i) = some s2 → I s2)
    (hself : accepted s t = [] → I s)
    (hacc : accepted s t = (if 0 ≤ t.connfd then [t.connfd] else []) →
      ∃ sa, accept_step s t.connfd = some sa ∧ I sa) :
    ∃ o, main_turn s t = some o ∧ (∀ s1, o = .running s1 → I s1) ∧
      (0 ≤ t.nready → (∀ j, t.resets j = none) → ∃ s1, o = .running s1) := by
  obtain ⟨r, hr, hrl⟩ := fill_readfds_some s hL0 hL1 hfd
  obtain ⟨rs, hrs, hrsl⟩ := select_some (s.maxfd + 1) r t.ready (by rw [hrl]; omega)
  obtain ⟨b, hb⟩ := FD_ISSET_some s.listener rs hL0 (by rw [hrsl, hrl]; exact hL1)
  have hacc0 : (t.nready < 0 ∨ b = false) → accepted s t = [] := by
    intro h
    unfold accepted
    rw [hr]
    dsimp only
    rw [hrs]
    dsimp only
    rw [hb]
    rcases h with h | h
    · rw [if_neg (by omega)]
    · rw [h, if_neg (by simp)]
  unfold main_turn
  rw [hr]
  dsimp only
  rw [hrs]
  dsimp only
  by_cases hn : t.nready < 0
  · rw [if_pos hn]
    cases he : t.eintr with
    | true =>
      refine ⟨_, rfl, ?_, ?_⟩
      · intro s1 e
        cases e
        exact hself (hacc0 (Or.inl hn))
      · intro h0
        omega
    | false =>
      refine ⟨_, rfl, ?_, ?_⟩
      · intro s1 e
        cases e
      · intro h0
        omega
  · rw [if_neg hn, hb]
    cases b with
    | false =>
      dsimp only
      have hI := hself (hacc0 (Or.inr rfl))
      obtain ⟨o, h1, h2, h3, h4⟩ := serve_slots_inv I s.clients.length rs t (by rw [hrsl, hrl])
        ht hwf hstep (MAX_CLIENTS s) 0 t.nready s hI (by unfold MAX_CLIENTS FD_SETSIZE; omega)
      exact ⟨o, h1, h2, fun _ hq => outcome_running o h3 (h4 hq)⟩
    | true =>
      dsimp only
      have hacc1 : accepted s t = (if 0 ≤ t.connfd then [t.connfd] else []) := by
        unfold accepted
        rw [hr]
        dsimp only
        rw [hrs]
        dsimp only
        rw [hb]
        by_cases hc : 0 ≤ t.connfd
        · rw [if_pos hc, if_pos ⟨by omega, rfl, hc⟩]
        · rw [if_neg hc, if_neg (by tauto)]
      obtain ⟨sa, hsa, hI⟩ := hacc hacc1
      rw [hsa]
      dsimp only
      by_cases hn1 : t.nready - 1 ≤ 0
      · rw [if_pos hn1]
        refine ⟨_, rfl, ?_, ?_⟩
        · intro s1 e
          cases e
          exact hI
        · intro _ _
          exact ⟨_, rfl⟩
      · rw [if_neg hn1]
        have hlen := (hwf sa hI).1
        obtain ⟨o, h1, h2, h3, h4⟩ := serve_slots_inv I s.clients.length rs t
          (by rw [hrsl, hrl]) ht hwf hstep (MAX_CLIENTS sa) 0 (t.nready - 1) sa hI
          (by unfold MAX_CLIENTS FD_SETSIZE; omega)
        exact ⟨o, h1, h2, fun _ hq => outcome_running o h3 (h4 hq)⟩

theorem open_after_trans (live : List Int) (s s1 s2 : Server) (x y : List Int)
    (h1 : s1.closed = s.closed ++ x) (h2 : s2.closed = s1.closed ++ y) :
    open_after (open_after live s s1) s1 s2 = open_after live s s2 := by
  unfold open_after
  rw [List.filter_filter]
  congr 1
  funext fd
  rw [h2, h1, List.drop_left, List.append_assoc, List.drop_left]
  rw [List.drop_left]
  simp only [List.mem_append, not_or, Bool.decide_and, Bool.and_comm]

/-! ## Lemmas: `maxfd` across the turns of the loop -/

/-- The `maxfd` part of the invariant, with the size of the table and the bound on
its handles, is kept by a receive step. -/
theorem recv_step_max (L : Int) (n : Nat) (s s1 : Server) (i : Nat) (res : RecvResult)
    (h0 : 0 ≤ L) (hres : res.tmp.length ≤ BUFSIZE - 1)
    (hinv : max_inv L s ∧ s.clients.length = n ∧ ∀ c ∈ s.clients, c.fd < (n : Int))
    (hstep : recv_step s i res = some s1) :
    max_inv L s1 ∧ s1.clients.length = n ∧ ∀ c ∈ s1.clients, c.fd < (n : Int) := by
  obtain ⟨ih, hlen, hfd⟩ := hinv
  cases hc : s.clients[i]? with
  | none =>
    unfold recv_step at hstep
    simp [hc] at hstep
  | some c =>
    have hcm : c ∈ s.clients := List.mem_iff_getElem?.mpr ⟨_, hc⟩
    have hw := ih.2.1 c hcm
    obtain ⟨s2, c1, h1, h2, h3, h4, h5, h6, h7⟩ :=
      recv_step_shape s i c res hc hw.1 hw.2.1 hw.2.2 hres
    rw [h1] at hstep
    have e := Option.some.inj hstep
    subst e
    have hc1 : c1.fd < (n : Int) := by
      have := hfd c hcm
      rcases h7 with ⟨a1, _⟩ | ⟨_, a2, _⟩ <;> omega
    refine ⟨?_, by rw [h2, List.length_set]; exact hlen, ?_⟩
    · rcases h7 with ⟨a1, _, _, a4⟩ | ⟨_, _, a3, _, a5⟩
      · exact max_inv_keep L s s2 i c c1 ih hc h2 h3 h4 h5 h6 a1 a4
      · exact max_inv_remove L s s2 i c1 ih h0 h2 h3 h4 a3 a5
    · intro d hd
      rw [h2] at hd
      rcases List.mem_or_eq_of_mem_set hd with h | rfl
      · exact hfd d h
      · exact hc1

/-- The same is kept by `accept` when the handle it returns is below the size of
the table, and the step succeeds. -/
theorem accept_step_max (L : Int) (n : Nat) (s : Server) (connfd : Int)
    (hsm : connfd < (n : Int))
    (hinv : max_inv L s ∧ s.clients.length = n ∧ ∀ c ∈ s.clients, c.fd < (n : Int)) :
    ∃ sa, accept_step s connfd = some sa ∧
      max_inv L sa ∧ sa.clients.length = n ∧ ∀ c ∈ sa.clients, c.fd < (n : Int) := by
  have hB : BUFSIZE = 4096 := rfl
  obtain ⟨ih, hlen, hfd⟩ := hinv
  by_cases hc0 : connfd < 0
  · exact ⟨s, by unfold accept_step; simp [hc0], ih, hlen, hfd⟩
  · rcases find_slot_spec s.clients with ⟨_, hfull⟩ | ⟨c, hc, hfree, hocc⟩
    · exact ⟨_, accept_step_full s connfd (by omega) hfull, ih, hlen, hfd⟩
    · have hw := ih.2.1 c (List.mem_iff_getElem?.mpr ⟨_, hc⟩)
      refine ⟨_, accept_step_free s connfd _ c (by omega) hc hfree (by rw [hw.1, hB]; decide)
        hocc, ?_, ?_, ?_⟩
      · exact max_inv_register L s _ _ c ⟨connfd, c.buf.set 0 0, 0⟩ connfd ih hc hfree
          (by omega) rfl rfl (by simp [hw.1]) rfl rfl rfl
      · show (s.clients.set _ _).length = n
        rw [List.length_set]; exact hlen
      · intro d hd
        rcases List.mem_or_eq_of_mem_set hd with h | rfl
        · exact hfd d h
        · exact hsm

theorem max_inv_maxfd (L : Int) (n : Nat) (s : Server) (hLn : L < (n : Int))
    (hinv : max_inv L s) (hfd : ∀ c ∈ s.clients, c.fd < (n : Int)) : s.maxfd < (n : Int) := by
  obtain ⟨i1, _, _, _, i7⟩ := hinv
  rcases i7 with h | ⟨h, _⟩
  · omega
  · obtain ⟨c, hc, e⟩ := mem_handles.mp h
    have := hfd c hc
    omega

/-- A turn of the loop succeeds and keeps the `maxfd` part of the invariant when
the handles are below `FD_SETSIZE`. -/
theorem turn_max (L : Int) (n : Nat) (s : Server) (t : Turn) (h0 : 0 ≤ L)
    (hLn : L < (n : Int)) (ht : recv_bounded t) (hsm : small_accept s t)
    (hinv : max_inv L s ∧ s.clients.length = n ∧ ∀ c ∈ s.clients, c.fd < (n : Int)) :
    ∃ o, main_turn s t = some o ∧ (∀ s1, o = .running s1 →
      max_inv L s1 ∧ s1.clients.length = n ∧ ∀ c ∈ s1.clients, c.fd < (n : Int)) ∧
      (0 ≤ t.nready → (∀ j, t.resets j = none) → ∃ s1, o = .running s1) := by
  have hlen := hinv.2.1
  have hl := hinv.1.1
  obtain ⟨o, h1, h2, h3⟩ := main_turn_inv
    (fun s1 => max_inv L s1 ∧ s1.clients.length = n ∧ ∀ c ∈ s1.clients, c.fd < (n : Int))
    s t (by omega) (by rw [hlen]; omega)
    (by rw [hlen]; exact max_inv_maxfd L n s hLn hinv.1 hinv.2.2)
    (by rw [hlen]; exact hinv.2.2) ht
    (by
      intro s1 hI
      rw [hlen]
      refine ⟨hI.2.1, fun c hc => ?_⟩
      have hw := hI.1.2.1 c hc
      exact ⟨hw.1, hw.2.1, hw.2.2, hI.2.2 c hc⟩)
    (fun s1 i s2 hI hs => recv_step_max L n s1 s2 i _ h0 (ht i) hI hs)
    (fun _ => hinv)
    (fun _ => accept_step_max L n s t.connfd (by
      have := hsm
      unfold small_accept FD_SETSIZE at this
      rw [hlen] at this
      exact this) hinv)
  exact ⟨o, h1, h2, h3⟩

/-! ## Lemmas: the table across the turns of the loop -/

/-- A receive step keeps the invariant of the table, the open sockets being those
it has not closed, and only adds to the record of closed sockets. -/
theorem recv_step_table (L : Int) (s s1 : Server) (live : List Int) (i : Nat)
    (res : RecvResult) (h0 : 0 ≤ L) (hres : res.tmp.length ≤ BUFSIZE - 1)
    (hinv : table_inv L s live) (hstep : recv_step s i res = some s1) :
    table_inv L s1 (open_after live s s1) ∧ (∃ y, s1.closed = s.closed ++ y) ∧
      s1.clients.length = s.clients.length ∧
      ∀ n : Int, (∀ c ∈ s.clients, c.fd < n) → ∀ c ∈ s1.clients, c.fd < n := by
  cases hc : s.clients[i]? with
  | none =>
    unfold recv_step at hstep
    simp [hc] at hstep
  | some c =>
    have hcm : c ∈ s.clients := List.mem_iff_getElem?.mpr ⟨_, hc⟩
    have hw := hinv.2.1 c hcm
    obtain ⟨s2, c1, h1, h2, h3, h4, h5, h6, h7⟩ :=
      recv_step_shape s i c res hc hw.1 hw.2.1 hw.2.2.1 hres
    rw [h1] at hstep
    have e := Option.some.inj hstep
    subst e
    refine ⟨?_, ?_, by rw [h2, List.length_set], ?_⟩
    · rcases h7 with ⟨a1, a2, a3, a4⟩ | ⟨a1, a2, a3, a4, a5⟩
      · exact table_inv_keep L s s2 live i c c1 hinv hc h2 h3 h4 h5 h6 a1 a2 a3 a4
      · exact table_inv_remove L s s2 live i c c1 hinv h0 hc h2 h3 h4 a2 a3
          (by rw [a4, if_pos a1]) a5
    · rcases h7 with ⟨_, _, a3, _⟩ | ⟨_, _, _, a4, _⟩
      · exact ⟨[], by rw [a3, List.append_nil]⟩
      · exact ⟨[c.fd], a4⟩
    · intro n hn d hd
      rw [h2] at hd
      rcases List.mem_or_eq_of_mem_set hd with h | rfl
      · exact hn d h
      · have := hn c hcm
        rcases h7 with ⟨a1, _⟩ | ⟨_, a2, _⟩ <;> omega

/-- The step `accept` keeps the invariant of the table when the handle it returns
is in no slot, the handle being one more open socket unless it is closed at once. -/
theorem accept_step_table (L : Int) (s : Server) (live : List Int) (connfd : Int)
    (hnew : 0 ≤ connfd → ∀ c ∈ s.clients, c.fd ≠ connfd) (hinv : table_inv L s live) :
    ∃ sa, accept_step s connfd = some sa ∧
      table_inv L sa (open_after ((if 0 ≤ connfd then [connfd] else []) ++ live) s sa) ∧
      (∃ y, sa.closed = s.closed ++ y) ∧ sa.clients.length = s.clients.length ∧
      ∀ n : Int, connfd < n → (∀ c ∈ s.clients, c.fd < n) → ∀ c ∈ sa.clients, c.fd < n := by
  have hB : BUFSIZE = 4096 := rfl
  by_cases hc0 : connfd < 0
  · refine ⟨s, by unfold accept_step; simp [hc0], ?_, ⟨[], by rw [List.append_nil]⟩, rfl,
      fun n _ h => h⟩
    rw [if_neg (by omega), List.nil_append, open_after_same _ _ _ rfl]
    exact hinv
  · have hc1 : 0 ≤ connfd := by omega
    rw [if_pos hc1]
    have hnewh : connfd ∉ handles s := by
      intro hm
      obtain ⟨c, hc, e⟩ := mem_handles.mp hm
      exact hnew hc1 c hc e
    rcases find_slot_spec s.clients with ⟨_, hfull⟩ | ⟨c, hc, hfree, hocc⟩
    · exact ⟨_, accept_step_full s connfd hc1 hfull,
        table_inv_reject L s live connfd hinv hnewh, ⟨[connfd], rfl⟩, rfl, fun n _ h => h⟩
    · have hw := hinv.2.1 c (List.mem_iff_getElem?.mpr ⟨_, hc⟩)
      refine ⟨_, accept_step_free s connfd _ c hc1 hc hfree (by rw [hw.1, hB]; decide) hocc,
        ?_, ⟨[], by rw [List.append_nil]⟩, ?_, ?_⟩
      · exact table_inv_register L s _ live _ c ⟨connfd, c.buf.set 0 0, 0⟩ connfd hinv hc hfree
          hc1 hnewh rfl rfl (by simp [hw.1]) rfl rfl rfl rfl
      · show (s.clients.set _ _).length = _
        rw [List.length_set]
      · intro n hn h d hd
        rcases List.mem_or_eq_of_mem_set hd with h1 | rfl
        · exact h d h1
        · exact hn

theorem table_inv_maxfd (L : Int) (n : Int) (s : Server) (live : List Int) (hLn : L < n)
    (hinv : table_inv L s live) (hfd : ∀ c ∈ s.clients, c.fd < n) : s.maxfd < n := by
  obtain ⟨i1, _, _, _, _, _, i7⟩ := hinv
  rcases i7 with h | ⟨h, _⟩
  · omega
  · obtain ⟨c, hc, e⟩ := mem_handles.mp h
    have := hfd c hc
    omega

/-- A turn of the loop succeeds and keeps the invariant of the table when the
handles `accept` returns are new and below `FD_SETSIZE`. -/
theorem turn_table (L : Int) (n : Nat) (s : Server) (live : List Int) (t : Turn) (h0 : 0 ≤ L)
    (hLn : L < (n : Int)) (ht : recv_bounded t) (hfr : fresh_accept s t)
    (hsm : small_accept s t)
    (hinv : table_inv L s live ∧ s.clients.length = n ∧ ∀ c ∈ s.clients, c.fd < (n : Int)) :
    ∃ o, main_turn s t = some o ∧ (∀ s1, o = .running s1 →
      table_inv L s1 (open_after (accepted s t ++ live) s s1) ∧ s1.clients.length = n ∧
        ∀ c ∈ s1.clients, c.fd < (n : Int)) ∧
      (0 ≤ t.nready → (∀ j, t.resets j = none) → ∃ s1, o = .running s1) := by
  obtain ⟨hti, hlen, hfd⟩ := hinv
  have hl := hti.1
  have hsm1 : t.connfd < (n : Int) := by
    have := hsm
    unfold small_accept FD_SETSIZE at this
    rw [hlen] at this
    exact this
  obtain ⟨o, h1, h2, h3⟩ := main_turn_inv
    (fun s1 => table_inv L s1 (open_after (accepted s t ++ live) s s1) ∧
      (∃ x, s1.closed = s.closed ++ x) ∧ s1.clients.length = n ∧
      ∀ c ∈ s1.clients, c.fd < (n : Int))
    s t (by omega) (by rw [hlen]; omega)
    (by rw [hlen]; exact table_inv_maxfd L n s live hLn hti hfd)
    (by rw [hlen]; exact hfd) ht
    (by
      intro s1 hI
      rw [hlen]
      refine ⟨hI.2.2.1, fun c hc => ?_⟩
      have hw := hI.1.2.1 c hc
      exact ⟨hw.1, hw.2.1, hw.2.2.1, hI.2.2.2 c hc⟩)
    (by
      intro s1 i s2 hI hs
      obtain ⟨hI1, ⟨x, hx⟩, hI3, hI4⟩ := hI
      obtain ⟨k1, ⟨y, hy⟩, k3, k4⟩ := recv_step_table L s1 s2 _ i _ h0 (ht i) hI1 hs
      rw [open_after_trans _ s s1 s2 x y hx hy] at k1
      exact ⟨k1, ⟨x ++ y, by rw [hy, hx, List.append_assoc]⟩, by rw [k3]; exact hI3,
        k4 n hI4⟩)
    (by
      intro e
      rw [e, List.nil_append, open_after_same _ _ _ rfl]
      exact ⟨hti, ⟨[], by rw [List.append_nil]⟩, hlen, hfd⟩)
    (by
      intro e
      rw [e]
      obtain ⟨sa, k0, k1, k2, k3, k4⟩ := accept_step_table L s live t.connfd hfr hti
      exact ⟨sa, k0, k1, k2, by rw [k3]; exact hlen, k4 n hsm1 hfd⟩)
  exact ⟨o, h1, fun s1 e => ⟨(h2 s1 e).1, (h2 s1 e).2.2⟩, h3⟩

/-! ## Lemmas: the states the loop reaches -/

/-- The invariant of the table holds in every state the loop reaches when the
handles `accept` returns are new and below `FD_SETSIZE`. -/
theorem reachable_table (P : Server → Turn → Prop) (mem : List (List Nat)) (L : Int)
    (hP : ∀ s t, P s t → fresh_accept s t ∧ small_accept s t)
    (hmem : ∀ b ∈ mem, b.length = BUFSIZE) (h0 : 0 ≤ L) (hLn : L < (mem.length : Int))
    (s : Server) (live : List Int) (h : Reachable P mem L s live) :
    table_inv L s live ∧ s.clients.length = mem.length ∧
      ∀ c ∈ s.clients, c.fd < (mem.length : Int) := by
  induction h with
  | init =>
    refine ⟨table_inv_init mem L hmem h0, by simp [init_server], ?_⟩
    intro c hc
    simp only [init_server, List.mem_map] at hc
    obtain ⟨b, _, rfl⟩ := hc
    show (-1 : Int) < _
    omega
  | turn s s1 live t _ ht hp hstep ih =>
    obtain ⟨o, h1, h2, _⟩ := turn_table L mem.length s live t h0 hLn ht (hP s t hp).1
      (hP s t hp).2 ih
    rw [h1] at hstep
    exact h2 s1 (Option.some.inj hstep)

/-- The `maxfd` part of the invariant holds in every state the loop reaches when
the handles `accept` returns are below `FD_SETSIZE`. -/
theorem reachable_max (P : Server → Turn → Prop) (mem : List (List Nat)) (L : Int)
    (hP : ∀ s t, P s t → small_accept s t)
    (hmem : ∀ b ∈ mem, b.length = BUFSIZE) (h0 : 0 ≤ L) (hLn : L < (mem.length : Int))
    (s : Server) (live : List Int) (h : Reachable P mem L s live) :
    max_inv L s ∧ s.clients.length = mem.length ∧
      ∀ c ∈ s.clients, c.fd < (mem.length : Int) := by
  induction h with
  | init =>
    refine ⟨max_inv_init mem L hmem h0, by simp [init_server], ?_⟩
    intro c hc
    simp only [init_server, List.mem_map] at hc
    obtain ⟨b, _, rfl⟩ := hc
    show (-1 : Int) < _
    omega
  | turn s s1 live t _ ht hp hstep ih =>
    obtain ⟨o, h1, h2, _⟩ := turn_max L mem.length s t h0 hLn ht (hP s t hp) ih
    rw [h1] at hstep
    exact h2 s1 (Option.some.inj hstep)

/-! ## Lemmas: the first connection, and a handle outside the descriptor set -/

theorem fd_set_clients_stuck : ∀ (cs : List client) (r : List Bool),
    (∃ c ∈ cs, (r.length : Int) ≤ c.fd) → fd_set_clients cs r = none
  | [], _, h => by
    obtain ⟨c, hc, _⟩ := h
    cases hc
  | c :: cs, r, h => by
    unfold fd_set_clients
    by_cases hc : c.fd ≥ 0
    · rw [if_pos hc]
      by_cases hlt : c.fd < (r.length : Int)
      · rw [FD_SET_some c.fd r hc hlt]
        dsimp only
        apply fd_set_clients_stuck cs
        obtain ⟨d, hd, hle⟩ := h
        rcases List.mem_cons.mp hd with rfl | hd
        · omega
        · exact ⟨d, hd, by rw [List.length_set]; exact hle⟩
      · rw [FD_SET_none c.fd r (by omega)]
    · rw [if_neg hc]
      apply fd_set_clients_stuck cs
      obtain ⟨d, hd, hle⟩ := h
      rcases List.mem_cons.mp hd with rfl | hd
      · omega
      · exact ⟨d, hd, hle⟩

/-- No turn of the loop is defined in a state whose table holds a handle that is
not below `FD_SETSIZE`: the head of the loop stores outside the set. -/
theorem main_turn_stuck (s : Server) (c : client) (hc : c ∈ s.clients)
    (hle : (s.clients.length : Int) ≤ c.fd) :
    fill_readfds s = none ∧ ∀ t, main_turn s t = none := by
  have hf : fill_readfds s = none := by
    unfold fill_readfds
    cases h : FD_SET s.listener (FD_ZERO (FD_SETSIZE s)) with
    | none => rfl
    | some r =>
      dsimp only
      apply fd_set_clients_stuck
      refine ⟨c, hc, ?_⟩
      unfold FD_SET at h
      split_ifs at h
      have e := Option.some.inj h
      rw [← e, List.length_set]
      unfold FD_ZERO FD_SETSIZE
      rw [List.length_replicate]
      exact hle
  refine ⟨hf, fun t => ?_⟩
  unfold main_turn
  rw [hf]

/-- The first turn of the loop, when the listening handle is ready and `accept`
returns `connfd`: the connection is registered in slot 0. -/
theorem first_accept (b : List Nat) (rest : List (List Nat)) (L : Nat) (connfd : Int)
    (hb : b.length = BUFSIZE) (hL : L < (b :: rest).length) (hc : 0 ≤ connfd) :
    ∃ s1, main_turn (init_server (b :: rest) L) (accept_turn L connfd) = some (.running s1) ∧
      accepted (init_server (b :: rest) L) (accept_turn L connfd) = [connfd] ∧
      s1.closed = (init_server (b :: rest) L).closed ∧
      handles s1 = connfd :: List.replicate rest.length (-1 : Int) ∧
      s1.maxfd = (if connfd > (L : Int) then connfd else (L : Int)) ∧ s1.listener = L := by
  have hB : BUFSIZE = 4096 := rfl
  have hn : (init_server (b :: rest) L).clients.length = (b :: rest).length := by
    simp [init_server]
  have hneg : ∀ c ∈ (init_server (b :: rest) L).clients, c.fd < 0 := by
    intro c hc
    simp only [init_server, List.mem_map] at hc
    obtain ⟨x, _, rfl⟩ := hc
    show (-1 : Int) < 0
    decide
  have hfill : fill_readfds (init_server (b :: rest) L) =
      some ((FD_ZERO (b :: rest).length).set L true) := by
    unfold fill_readfds
    have hz : FD_ZERO (FD_SETSIZE (init_server (b :: rest) L)) = FD_ZERO (b :: rest).length := by
      unfold FD_SETSIZE
      rw [hn]
    rw [hz, FD_SET_some]
    · dsimp only
      rw [fd_set_clients_free _ _ hneg]
      rfl
    · exact Int.natCast_nonneg L
    · unfold FD_ZERO
      rw [List.length_replicate]
      show (L : Int) < _
      exact_mod_cast hL
  have hrl : ((FD_ZERO (b :: rest).length).set L true).length = (b :: rest).length := by
    unfold FD_ZERO
    rw [List.length_set, List.length_replicate]
  obtain ⟨rs, hsel, hrsl⟩ := select_some ((L : Int) + 1) ((FD_ZERO (b :: rest).length).set L true)
    (accept_turn L connfd).ready (by rw [hrl]; omega)
  have hbit : FD_ISSET (L : Int) rs = some true := by
    have hsel2 := hsel
    unfold select at hsel2
    rw [if_pos (by rw [hrl]; omega)] at hsel2
    have e := Option.some.inj hsel2
    unfold FD_ISSET
    rw [if_pos ⟨Int.natCast_nonneg L, by rw [hrsl, hrl]; exact_mod_cast hL⟩, ← e]
    rw [Int.toNat_ofNat, List.getElem?_map, List.getElem?_range (by rw [hrl]; exact hL)]
    simp only [Option.map_some', Option.some.injEq]
    have h1 : decide ((L : Int) < (L : Int) + 1) = true := by
      rw [decide_eq_true_iff]; omega
    have h2 : ((FD_ZERO (b :: rest).length).set L true).getD L false = true := by
      rw [List.getD_eq_getElem?_getD, List.getElem?_set_self (by
        unfold FD_ZERO; rw [List.length_replicate]; exact hL)]
      rfl
    have h3 : (accept_turn L connfd).ready L = true := by
      show (L == L) = true
      simp
    rw [h1, h2, h3]
    rfl
  have hc0 : (init_server (b :: rest) L).clients[0]? = some ⟨-1, b.set 0 0, 0⟩ := by
    simp [init_server]
  have hacc := accept_step_free (init_server (b :: rest) L) connfd 0 _ hc hc0
    (by show (-1 : Int) < 0; decide)
    (by show 0 < (b.set 0 0).length; rw [List.length_set, hb, hB]; decide)
    (fun j cj hj => absurd hj (Nat.not_lt_zero j))
  have hmaxfd : (init_server (b :: rest) L).maxfd = L := rfl
  have hlis : (init_server (b :: rest) L).listener = L := rfl
  obtain ⟨s1, hs1, k1, k2, k3, k4⟩ : ∃ s1, accept_step (init_server (b :: rest) L) connfd = some s1 ∧
      s1.closed = (init_server (b :: rest) L).closed ∧
      handles s1 = connfd :: List.replicate rest.length (-1 : Int) ∧
      s1.maxfd = (if connfd > (L : Int) then connfd else (L : Int)) ∧ s1.listener = L := by
    refine ⟨_, hacc, rfl, ?_, rfl, rfl⟩
    show ((init_server (b :: rest) L).clients.set 0 _).map client.fd = _
    simp only [init_server, List.map_cons, List.set_cons_zero, List.map_map,
      List.cons.injEq, true_and]
    show List.map (fun _ => (-1 : Int)) rest = _
    simp
  refine ⟨s1, ?_, ?_, k1, k2, k3, k4⟩
  · unfold main_turn
    rw [hfill]
    dsimp only
    rw [hmaxfd, hsel]
    dsimp only
    rw [if_neg (by show ¬ (1 : Int) < 0; decide), hlis, hbit]
    dsimp only
    rw [show (accept_turn L connfd).connfd = connfd from rfl, hs1]
    dsimp only
    rw [if_pos (by show (1 : Int) - 1 ≤ 0; decide)]
  · unfold accepted
    rw [hfill]
    dsimp only
    rw [hmaxfd, hsel]
    dsimp only
    rw [hlis, hbit]
    rw [if_pos ⟨by show (0 : Int) ≤ 1; decide, rfl, hc⟩]
    rfl

/-- The state after the first turn of the loop has accepted `connfd` is one the
loop reaches, with `connfd` its one open socket. -/
theorem reach_first (P : Server → Turn → Prop) (b : List Nat) (rest : List (List Nat))
    (L : Nat) (connfd : Int) (hb : b.length = BUFSIZE) (hL : L < (b :: rest).length)
    (hc : 0 ≤ connfd) (hp : P (init_server (b :: rest) L) (accept_turn L connfd)) :
    ∃ s1, Reachable P (b :: rest) L s1 [connfd] ∧
      main_turn (init_server (b :: rest) L) (accept_turn L connfd) = some (.running s1) ∧
      handles s1 = connfd :: List.replicate rest.length (-1 : Int) ∧
      s1.maxfd = (if connfd > (L : Int) then connfd else (L : Int)) ∧ s1.listener = L := by
  obtain ⟨s1, h1, h2, h3, h4, h5, h6⟩ := first_accept b rest L connfd hb hL hc
  have hr := Reachable.turn _ s1 [] (accept_turn L connfd)
    (Reachable.init : Reachable P (b :: rest) L _ []) (fun _ => Nat.zero_le _) hp h1
  rw [h2, open_after_same _ _ _ h3] at hr
  exact ⟨s1, hr, h1, h4, h5, h6⟩

theorem replicate_cons (x : List Nat) :
    List.replicate 1024 x = x :: List.replicate 1023 x := rfl

/-! ## Lemmas: the handles in the descriptor set -/

theorem FD_SET_eq (fd : Int) (r r1 : List Bool) (h : FD_SET fd r = some r1) :
    0 ≤ fd ∧ r1 = r.set fd.toNat true := by
  unfold FD_SET at h
  split_ifs at h with hc
  exact ⟨hc.1, (Option.some.inj h).symm⟩

theorem fd_set_clients_bits : ∀ (cs : List client) (r r1 : List Bool),
    fd_set_clients cs r = some r1 → ∀ k : Nat, r1[k]? = some true →
      r[k]? = some true ∨ ∃ c ∈ cs, 0 ≤ c.fd ∧ c.fd = (k : Int)
  | [], r, r1, h, k, hk => by
    have e : r = r1 := Option.some.inj h
    rw [e]
    exact Or.inl hk
  | c :: cs, r, r1, h, k, hk => by
    unfold fd_set_clients at h
    by_cases hc : c.fd ≥ 0
    · rw [if_pos hc] at h
      cases hs : FD_SET c.fd r with
      | none => rw [hs] at h; cases h
      | some r2 =>
        rw [hs] at h
        dsimp only at h
        obtain ⟨_, e2⟩ := FD_SET_eq c.fd r r2 hs
        rcases fd_set_clients_bits cs r2 r1 h k hk with h1 | ⟨d, hd, h1⟩
        · rw [e2] at h1
          by_cases hkn : c.fd.toNat = k
          · exact Or.inr ⟨c, List.mem_cons_self _ _, hc, by omega⟩
          · rw [List.getElem?_set_ne hkn] at h1
            exact Or.inl h1
        · exact Or.inr ⟨d, List.mem_cons_of_mem _ hd, h1⟩
    · rw [if_neg hc] at h
      rcases fd_set_clients_bits cs r r1 h k hk with h1 | ⟨d, hd, h1⟩
      · exact Or.inl h1
      · exact Or.inr ⟨d, List.mem_cons_of_mem _ hd, h1⟩

/-- The handles in the set handed to `select` are the listening handle and the
handles of the occupied slots. -/
theorem fill_readfds_bits (s : Server) (r : List Bool) (h : fill_readfds s = some r)
    (k : Nat) (hk : r[k]? = some true) :
    (k : Int) = s.listener ∨ ∃ c ∈ s.clients, 0 ≤ c.fd ∧ c.fd = (k : Int) := by
  unfold fill_readfds at h
  cases hs : FD_SET s.listener (FD_ZERO (FD_SETSIZE s)) with
  | none => rw [hs] at h; cases h
  | some r2 =>
    rw [hs] at h
    dsimp only at h
    obtain ⟨h0, e2⟩ := FD_SET_eq _ _ _ hs
    rcases fd_set_clients_bits s.clients r2 r h k hk with h1 | h1
    · rw [e2] at h1
      by_cases hkn : s.listener.toNat = k
      · exact Or.inl (by omega)
      · rw [List.getElem?_set_ne hkn] at h1
        unfold FD_ZERO at h1
        rw [List.getElem?_replicate] at h1
        split_ifs at h1
        cases h1
    · exact Or.inr h1

/-! ## Lemmas: the receive step and the state of the peer -/

theorem two_clients_ok : slot_ok two_clients 0 :=
  ⟨{ fd := 4, buf := List.replicate BUFSIZE 0, len := 0 }, rfl, List.length_replicate _ _,
    by decide, by decide⟩

theorem observe_two_clients :
    observe two_clients =
      { clients := [{ fd := 4, buf := [], len := 0 }, { fd := 5, buf := bytes "IN", len := 2 }],
        listener := 3, maxfd := 5, counter := 0, sent := [], closed := [], calls := [] } := by
  rfl

/-- The replies a receive step of `two_clients` sends for two commands. -/
theorem two_clients_step :
    ∃ s1, recv_step two_clients 0 (.data (bytes "INCR\nINCR\n")) = some s1 ∧
      s1.sent = [(4, bytes "OK\n"), (4, bytes "OK\n")] := by
  obtain ⟨s1, h1, o1, _⟩ := recv_step_refines two_clients 0 (.data (bytes "INCR\nINCR\n"))
    two_clients_ok (by decide)
  rw [observe_two_clients] at o1
  have e : s1.sent = (observe s1).sent := rfl
  refine ⟨s1, h1, ?_⟩
  rw [e, o1]
  decide

/-- An end-of-stream or a read error sends nothing. -/
theorem recv_step_silent (s s1 : Server) (i : Nat) (res : RecvResult) (hr : res.r ≤ 0)
    (h : recv_step s i res = some s1) : s1.sent = s.sent := by
  unfold recv_step at h
  cases hc : s.clients[i]? with
  | none => simp [hc] at h
  | some c =>
    simp only [hc] at h
    by_cases hfd : c.fd < 0
    · rw [if_pos hfd] at h
      rw [← Option.some.inj h]
    · rw [if_neg hfd, if_pos hr] at h
      unfold remove_client at h
      simp only [hc] at h
      cases hs : store c.buf 0 0 with
      | none => simp [hs] at h
      | some b =>
        simp only [hs] at h
        rw [← Option.some.inj h]

/-! ## The properties -/

/-- C1: for a connection whose buffer is empty, two ways of cutting the same byte
stream into reads (each read of 1 to BUFSIZE-1 bytes, none triggering the overflow
reset) give runs that both succeed and end in the same observable state: the same
calls of handle_command in the same order, the same replies, the same counter, the
same handle, len and pending bytes; and the reads "IN" then "CR\n" execute exactly
one INCR. -/
theorem C1_cut_independence (s : Server) (i : Nat) (c : client)
    (cuts1 cuts2 : List (List Nat))
    (hc : s.clients[i]? = some c) (hfd : 0 ≤ c.fd) (hbuf : c.buf.length = BUFSIZE)
    (hlen : c.len = 0)
    (hsame : cuts1.flatten = cuts2.flatten)
    (hsz1 : ∀ x ∈ cuts1, x ≠ [] ∧ x.length ≤ BUFSIZE - 1)
    (hsz2 : ∀ x ∈ cuts2, x ≠ [] ∧ x.length ≤ BUFSIZE - 1)
    (hfit1 : no_overflow s i cuts1) (hfit2 : no_overflow s i cuts2) :
    (∃ s1 s2, run s i cuts1 = some s1 ∧ run s i cuts2 = some s2 ∧ observe s1 = observe s2) ∧
    (∃ s3, run s i [bytes "IN", bytes "CR\n"] = some s3 ∧
      s3.calls = s.calls ++ [(c.fd, bytes "INCR")] ∧
      s3.counter = wrap64 (s.counter + 1) ∧
      s3.sent = s.sent ++ [(c.fd, bytes "OK\n")]) := by
  have hok : slot_ok s i := ⟨c, hc, hbuf, by omega, by rw [hlen]; decide⟩
  exact ⟨run_cut_independent s i cuts1 cuts2 hok hsame hsz1 hsz2 hfit1 hfit2,
    split_read_incr s i c hc hfd hbuf hlen⟩

theorem C1_cut_independence_witness :
    ∃ s1 s2, run sample_server 0 [bytes "IN", bytes "CR\nGE", bytes "T\n"] = some s1 ∧
      run sample_server 0 [bytes "INCR\nGET\n"] = some s2 ∧ observe s1 = observe s2 :=
  (C1_cut_independence sample_server 0 { fd := 4, buf := List.replicate BUFSIZE 0, len := 0 }
    [bytes "IN", bytes "CR\nGE", bytes "T\n"] [bytes "INCR\nGET\n"]
    rfl (by decide) (by simp) rfl (by decide) (by decide) (by decide)
    ((no_overflow_iff _ _ _ sample_slot_ok (by decide)).mpr (by decide))
    ((no_overflow_iff _ _ _ sample_slot_ok (by decide)).mpr (by decide))).1

/-- C2: a sequence of INCR, DECR, RESET and GET commands whose running value stays in
the range of the 64-bit counter: the counter ends as the net count since the last
RESET, every command gets its reply in order, the reply to each GET being the decimal
string of the net count at that point; GET directly after RESET replies "0". -/
theorem C2_get_is_net_since_reset (s : Server) (cs : List (Cmd × Int))
    (hstart : s.counter = 0)
    (hrange : ∀ k, k ≤ cs.length →
      -2 ^ 63 ≤ net ((cs.take k).map Prod.fst) ∧ net ((cs.take k).map Prod.fst) < 2 ^ 63) :
    (run_commands s cs).counter = net (cs.map Prod.fst) ∧
    (∀ k, k < cs.length → (run_commands s cs).sent[s.sent.length + k]? = expected_reply cs k) ∧
    (run_commands s cs).sent.length = s.sent.length + cs.length ∧
    (∀ (t : Server) (fd1 fd2 : Int),
      (handle_command (bytes "GET") fd2 (handle_command (bytes "RESET") fd1 t)).sent
        = t.sent ++ [(fd1, bytes "OK\n"), (fd2, bytes "0\n")]) := by
  obtain ⟨hcnt, R, hsent, hlen, hR⟩ := run_commands_spec s hstart cs hrange
  refine ⟨hcnt, ?_, by rw [hsent]; simp [hlen], ?_⟩
  · intro k hk
    rw [hsent, List.getElem?_append_right (by omega)]
    simpa using hR k hk
  · intro t fd1 fd2
    have h1 := handle_command_token Cmd.RESET fd1 t
    have h2 := handle_command_token Cmd.GET fd2 (handle_command (bytes "RESET") fd1 t)
    simp only [Cmd.token] at h1 h2
    rw [h2, h1]
    have : fmt_lld 0 ++ bytes "\n" = bytes "0\n" := by decide
    simp [this]

theorem C2_get_is_net_since_reset_witness :
    (run_commands sample_server
      [(Cmd.INCR, 4), (Cmd.INCR, 5), (Cmd.DECR, 4), (Cmd.GET, 5), (Cmd.RESET, 4), (Cmd.GET, 4)]).sent[3]?
      = some (5, bytes "1\n") :=
  ((C2_get_is_net_since_reset sample_server
      [(Cmd.INCR, 4), (Cmd.INCR, 5), (Cmd.DECR, 4), (Cmd.GET, 5), (Cmd.RESET, 4), (Cmd.GET, 4)]
      rfl (by decide)).2.1 3 (by decide)).trans (by decide)


/-- C3 (as amended): when the pending bytes P and the chunk X contain no NUL byte and
X fits without overflow, the receive step hands to handle_command exactly the
'\n'-terminated lines of P followed by X, in order, each without its '\n' and without
one trailing '\r', up to and including the first QUIT; one reply per line is sent to
the connection, in order; and when there was no QUIT the buffer holds, from offset 0,
exactly the bytes after the last '\n', len being their count. -/
theorem C3_lines_handed_in_order (s : Server) (i : Nat) (c : client) (X : List Nat)
    (hc : s.clients[i]? = some c) (hfd : 0 ≤ c.fd) (hbuf : c.buf.length = BUFSIZE)
    (hlen : 0 ≤ c.len) (hX : X ≠ []) (hfit : c.len + X.length < (BUFSIZE : Int) - 1)
    (hnul : ∀ b ∈ pending c ++ X, b ≠ 0) :
    ∃ s1 c1 R, recv_step s i (.data X) = some s1 ∧ s1.clients[i]? = some c1 ∧
      s1.calls = s.calls ++
        (upto_quit ((lines_of (pending c ++ X)).1.map strip_cr)).map (fun t => (c.fd, t)) ∧
      s1.sent = s.sent ++ R ∧
      R.length = (upto_quit ((lines_of (pending c ++ X)).1.map strip_cr)).length ∧
      (∀ p ∈ R, p.1 = c.fd) ∧
      s1.sent = (interpret c.fd s (upto_quit ((lines_of (pending c ++ X)).1.map strip_cr))).sent ∧
      s1.counter
        = (interpret c.fd s (upto_quit ((lines_of (pending c ++ X)).1.map strip_cr))).counter ∧
      (((lines_of (pending c ++ X)).1.map strip_cr).any is_quit = false →
        c1.fd = c.fd ∧ c1.len = ((lines_of (pending c ++ X)).2.length : Nat) ∧
        c1.buf.take (lines_of (pending c ++ X)).2.length = (lines_of (pending c ++ X)).2 ∧
        c1.buf.length = BUFSIZE) := by
  have hi := getElem?_lt hc
  have hsz : X.length ≤ BUFSIZE - 1 := by
    have hB : BUFSIZE = 4096 := rfl
    omega
  obtain ⟨b, hb, hstep, htake⟩ := recv_step_data s i c X hc hfd hbuf hlen hX hsz
  have hd : step_data c X = pending c ++ X := by
    unfold step_data
    rw [if_neg (by omega)]
  have hsl := split_lines_eq_lines_of _ hnul
  have htok : ∀ t ∈ (lines_of (pending c ++ X)).1.map strip_cr, ∀ x ∈ t, x ≠ 0 := by
    intro t ht x hx
    obtain ⟨l, hl, rfl⟩ := List.mem_map.mp ht
    exact hnul x ((lines_of_mem _).1 l hl x (strip_cr_mem l x hx))
  have hex := exec_lines_interpret c.fd _ s htok
  rw [hd, hsl, hex] at hstep htake
  have hupto : ∀ t ∈ upto_quit ((lines_of (pending c ++ X)).1.map strip_cr), ∀ x ∈ t, x ≠ 0 := by
    intro t ht
    apply htok t
    clear hex hstep htake htok
    generalize (lines_of (pending c ++ X)).1.map strip_cr = L at ht
    induction L with
    | nil => simp [upto_quit] at ht
    | cons a L ih =>
      rw [upto_quit] at ht
      split_ifs at ht
      · simp at ht; simp [ht]
      · rcases List.mem_cons.mp ht with rfl | ht
        · exact List.mem_cons_self _ _
        · exact List.mem_cons_of_mem _ (ih ht)
  obtain ⟨hcalls, R, hsent, hRlen, hRfd⟩ := interpret_calls c.fd _ s hupto
  cases hq : ((lines_of (pending c ++ X)).1.map strip_cr).any is_quit with
  | true =>
    simp only [hq, if_true] at hstep
    exact ⟨_, ⟨-1, b, 0⟩, R, hstep, by simp [List.getElem?_set_self hi], hcalls, hsent, hRlen,
      hRfd, rfl, rfl, by simp⟩
  | false =>
    simp only [hq, Bool.false_eq_true, if_false] at hstep
    exact ⟨_, ⟨c.fd, b, ((lines_of (pending c ++ X)).2.length : Nat)⟩, R, hstep,
      by simp [List.getElem?_set_self hi], hcalls, hsent, hRlen, hRfd, rfl, rfl,
      fun _ => ⟨rfl, rfl, htake hq, hb⟩⟩

theorem C3_lines_handed_in_order_witness :
    ∃ s1 c1 R, recv_step sample_server 0 (.data (bytes "INCR\r\nGET\nRE")) = some s1 ∧
      s1.clients[0]? = some c1 ∧
      s1.calls = [(4, bytes "INCR"), (4, bytes "GET")] ∧
      s1.sent = [] ++ R ∧ R.length = 2 ∧ (∀ p ∈ R, p.1 = 4) ∧
      s1.sent = [(4, bytes "OK\n"), (4, bytes "1\n")] ∧ s1.counter = 1 ∧
      (c1.fd = 4 ∧ c1.len = 2 ∧ c1.buf.take 2 = bytes "RE" ∧ c1.buf.length = BUFSIZE) := by
  obtain ⟨s1, c1, R, h1, h2, h3, h4, h5, h6, h7, h8, h9⟩ :=
    C3_lines_handed_in_order sample_server 0 { fd := 4, buf := List.replicate BUFSIZE 0, len := 0 }
      (bytes "INCR\r\nGET\nRE") rfl (by decide) (by simp) (by decide) (by decide) (by decide)
      (by decide)
  exact ⟨s1, c1, R, h1, h2, h3, h4, h5, h6, h7.trans (by decide), h8.trans (by decide),
    h9 (by decide)⟩

/-- C3 fails as stated: the chunk NUL "INCR\n" has one '\n'-terminated line, yet the
step hands no line to handle_command, sends no reply and keeps all six bytes. -/
theorem C3_counterexample :
    ((lines_of ([0] ++ bytes "INCR\n")).1.length = 1 ∧ (lines_of ([0] ++ bytes "INCR\n")).2 = []) ∧
    ∃ s1, recv_step sample_server 0 (.data ([0] ++ bytes "INCR\n")) = some s1 ∧
      s1.calls = [] ∧ s1.sent = [] ∧ (s1.clients[0]?).map (fun c => c.len) = some 6 := by
  refine ⟨by decide, ?_⟩
  obtain ⟨s1, h1, h2, _⟩ := recv_step_refines sample_server 0 (.data ([0] ++ bytes "INCR\n"))
    sample_slot_ok (by decide)
  rw [observe_sample] at h2
  obtain ⟨f1, f2, f3, _, _, _⟩ := observe_fields s1
  refine ⟨s1, h1, ?_, ?_, ?_⟩
  · rw [← f3, h2]; decide
  · rw [← f2, h2]; decide
  · have : ((observe s1).clients[0]?).map (fun c => c.len) = (s1.clients[0]?).map (fun c => c.len) := by
      rw [observe_clients_get]; cases s1.clients[0]? <;> rfl
    rw [← this, h2]; decide

/-- C4: on a connection that starts with an empty buffer, after every receive step
of a sequence of chunks of 1 to BUFSIZE-1 bytes the step has succeeded, which in the
embedding means that every store it made (the memcpy of the r bytes at offset len,
the terminator at buf[len], the zero over each '\n' and '\r', the memmove of the
compaction and its terminator) fell inside the BUFSIZE-byte array, and the slot has
0 <= len <= BUFSIZE-1 with its array still BUFSIZE bytes long. -/
theorem C4_buffer_never_overflows (s : Server) (i : Nat) (c : client)
    (chunks : List (List Nat))
    (hc : s.clients[i]? = some c) (hbuf : c.buf.length = BUFSIZE) (hlen : c.len = 0)
    (hsz : ∀ x ∈ chunks, 1 ≤ x.length ∧ x.length ≤ BUFSIZE - 1) :
    ∀ k, k ≤ chunks.length →
      ∃ s1 c1, run s i (chunks.take k) = some s1 ∧ s1.clients[i]? = some c1 ∧
        0 ≤ c1.len ∧ c1.len ≤ (BUFSIZE : Int) - 1 ∧ c1.buf.length = BUFSIZE := by
  intro k _
  have hok : slot_ok s i := ⟨c, hc, hbuf, by omega, by rw [hlen]; decide⟩
  obtain ⟨s1, h1, _, c1, g1, g2, g3, g4⟩ := run_refines (chunks.take k) s i hok
    (fun x hx => (hsz x (List.mem_of_mem_take hx)).2)
  exact ⟨s1, c1, h1, g1, g3, g4, g2⟩

theorem C4_buffer_never_overflows_witness :
    ∃ s1 c1, run sample_server 0 ([List.replicate 4095 65, bytes "CR\n"].take 2) = some s1 ∧
      s1.clients[0]? = some c1 ∧
      0 ≤ c1.len ∧ c1.len ≤ (BUFSIZE : Int) - 1 ∧ c1.buf.length = BUFSIZE :=
  C4_buffer_never_overflows sample_server 0
    { fd := 4, buf := List.replicate BUFSIZE 0, len := 0 }
    [List.replicate 4095 65, bytes "CR\n"] rfl (by simp) rfl
    (by
      intro x hx
      simp only [List.mem_cons, List.mem_singleton, List.not_mem_nil, or_false] at hx
      rcases hx with rfl | rfl
      · rw [List.length_replicate]; exact ⟨by decide, by decide⟩
      · exact ⟨by decide, by decide⟩)
    2 (by decide)

/-- C5 (as amended): junk J without '\n' and without NUL, delivered in any reads
to a connection that starts empty, executes no command and leaves the connection
open; when the client then sends '\n', a command c and '\n' (cut into reads in any
way) and the junk bytes still pending, less one trailing '\r', do not spell QUIT,
the server answers the junk line (the pending junk, or the empty line when the read
that brings the '\n' triggers the overflow reset) and then c: exactly these two
calls are made, and the replies and the counter are those of handle_command for c on
the state the junk line left, so the last reply is the reply for c and the change of
c is applied once. -/
theorem C5_command_after_junk (s : Server) (i : Nat) (c : client)
    (chunks : List (List Nat)) (cmd : List Nat) (ys : List (List Nat))
    (hc : s.clients[i]? = some c) (hfd : 0 ≤ c.fd) (hbuf : c.buf.length = BUFSIZE)
    (hlen : c.len = 0)
    (hjunk : ∀ x ∈ chunks, x ≠ [] ∧ x.length ≤ BUFSIZE - 1 ∧ ∀ b ∈ x, b ≠ NL ∧ b ≠ 0)
    (hcmd : cmd ∈ [bytes "INCR", bytes "DECR", bytes "GET", bytes "RESET", bytes "QUIT"])
    (hys : ys.flatten = NL :: cmd ++ [NL]) (hne : ∀ y ∈ ys, y ≠ []) :
    ∃ s1 c1, run s i chunks = some s1 ∧ s1.clients[i]? = some c1 ∧ c1.fd = c.fd ∧
      s1.counter = s.counter ∧ s1.sent = s.sent ∧ s1.calls = s.calls ∧
      (is_quit (strip_cr (pending c1)) = false →
        ∃ s2 junk, run s1 i ys = some s2 ∧ (junk = [] ∨ junk = strip_cr (pending c1)) ∧
          s2.calls = s.calls ++ [(c.fd, junk), (c.fd, cmd)] ∧
          s2.sent = (handle_command cmd c.fd (handle_command junk c.fd s1)).sent ∧
          s2.counter = (handle_command cmd c.fd (handle_command junk c.fd s1)).counter) := by
  have hB : BUFSIZE = 4096 := rfl
  have hp0 : ∀ b ∈ pending c, b ≠ NL ∧ b ≠ 0 := by
    intro b hb; simp [pending, hlen] at hb
  obtain ⟨s1, c1, h1, g1, g2, g3, g4, g5, g6, g7, g8, _⟩ :=
    junk_run chunks s i c hc hfd hbuf ⟨by omega, by rw [hlen, hB]; decide⟩ hp0 hjunk
  refine ⟨s1, c1, h1, g1, g2, g6, g7, g8, ?_⟩
  intro hq
  have hcl : cmd.length ≤ 5 := by
    simp only [List.mem_cons, List.mem_singleton, List.not_mem_nil, or_false] at hcmd
    rcases hcmd with rfl | rfl | rfl | rfl | rfl <;> decide
  have hsz : ∀ y ∈ ys, y.length ≤ BUFSIZE - 1 := by
    intro y hy
    have h1 : y.length ≤ ys.flatten.length := by
      rw [List.length_flatten]
      exact List.single_le_sum (fun _ _ => Nat.zero_le _) _ (List.mem_map_of_mem _ hy)
    rw [hys] at h1
    simp only [List.cons_append, List.length_cons, List.length_append, List.length_nil] at h1
    omega
  obtain ⟨s2, k1, k2, _⟩ := run_refines ys s1 i ⟨c1, g1, g3, g4.1, g4.2⟩ hsz
  have hco : (observe s1).clients[i]? = some c1.observe := by
    rw [observe_clients_get, g1]; rfl
  obtain ⟨junk, j1, j2, j3, j4⟩ := line_command_after_junk (observe s1) i c1.observe cmd ys hco
    (by rw [observe_fd, g2]; exact hfd) (by rw [pending_observe]; exact g5) hcmd
    (by rw [pending_observe]; exact hq) hys hne
  rw [pending_observe] at j1
  rw [← k2, observe_fd, g2] at j2 j3 j4
  rw [handle_command_observe, handle_command_observe] at j3 j4
  refine ⟨s2, junk, k1, j1, ?_, j3, j4⟩
  rw [← g8]; exact j2


theorem C5_command_after_junk_witness :
    ∃ s1 c1, run sample_server 0 [bytes "xy", bytes "z"] = some s1 ∧
      s1.clients[0]? = some c1 ∧ c1.fd = 4 ∧
      s1.counter = 0 ∧ s1.sent = [] ∧ s1.calls = [] ∧
      (is_quit (strip_cr (pending c1)) = false →
        ∃ s2 junk, run s1 0 [bytes "\nIN", bytes "CR\n"] = some s2 ∧
          (junk = [] ∨ junk = strip_cr (pending c1)) ∧
          s2.calls = [] ++ [(4, junk), (4, bytes "INCR")] ∧
          s2.sent = (handle_command (bytes "INCR") 4 (handle_command junk 4 s1)).sent ∧
          s2.counter = (handle_command (bytes "INCR") 4 (handle_command junk 4 s1)).counter) :=
  C5_command_after_junk sample_server 0 { fd := 4, buf := List.replicate BUFSIZE 0, len := 0 }
    [bytes "xy", bytes "z"] (bytes "INCR") [bytes "\nIN", bytes "CR\n"]
    rfl (by decide) (by simp) rfl (by decide) (by decide) (by decide) (by decide)

/-- C5 fails as stated: the junk is 4095 bytes 'A' followed by "QUIT" (4099 bytes,
no '\n'), read as 4095 bytes and then 4 bytes; the second read triggers the overflow
reset and leaves "QUIT" pending. When "\nINCR\n" arrives, the line QUIT is executed:
the only reply is BYE, the connection is closed, INCR is never handed to
handle_command and the counter is still 0. -/
theorem C5_counterexample :
    (List.replicate 4095 65 ++ bytes "QUIT").length > BUFSIZE ∧
    (∀ b ∈ List.replicate 4095 65 ++ bytes "QUIT", b ≠ NL) ∧
    ∃ s3, run sample_server 0
        [List.replicate 4095 65, bytes "QUIT", NL :: bytes "INCR" ++ [NL]] = some s3 ∧
      s3.sent = [(4, bytes "BYE\n")] ∧ s3.calls = [(4, bytes "QUIT")] ∧ s3.counter = 0 ∧
      s3.closed = [4] := by
  have hA : ∀ b ∈ List.replicate 4095 65, b ≠ NL ∧ b ≠ 0 := by
    intro b hb
    rw [List.eq_of_mem_replicate hb]
    decide
  refine ⟨by rw [List.length_append, List.length_replicate]; decide, ?_, ?_⟩
  · intro b hb
    rcases List.mem_append.mp hb with hb | hb
    · exact (hA b hb).1
    · exact (by decide : ∀ b ∈ bytes "QUIT", b ≠ NL) b hb
  obtain ⟨s3, h3, o3, _⟩ := run_refines
    [List.replicate 4095 65, bytes "QUIT", NL :: bytes "INCR" ++ [NL]] sample_server 0
    sample_slot_ok (by
      intro x hx
      simp only [List.mem_cons, List.mem_singleton, List.not_mem_nil, or_false] at hx
      rcases hx with rfl | rfl | rfl
      · rw [List.length_replicate]; decide
      · decide
      · decide)
  have hs1 : step_data ⟨4, [], 0⟩ (List.replicate 4095 65) = List.replicate 4095 65 :=
    step_data_empty _ _ rfl
  have hs2 : step_data ⟨4, List.replicate 4095 65, ((List.replicate 4095 65).length : Nat)⟩
      (bytes "QUIT") = bytes "QUIT" := by
    unfold step_data
    rw [if_pos (by simp only [List.length_replicate]; decide)]
    rfl
  have e1 := line_step_junk
    { clients := [⟨4, [], 0⟩, ⟨-1, [], 0⟩], listener := 3, maxfd := 4, counter := 0,
      sent := [], closed := [], calls := [] } 0 ⟨4, [], 0⟩ (List.replicate 4095 65) rfl
    (by decide) (List.ne_nil_of_length_pos (by rw [List.length_replicate]; decide))
    (by rw [hs1]; exact hA)
  rw [hs1] at e1
  have e2 := line_step_junk
    { clients := [⟨4, List.replicate 4095 65, ((List.replicate 4095 65).length : Nat)⟩,
        ⟨-1, [], 0⟩], listener := 3, maxfd := 4, counter := 0,
      sent := [], closed := [], calls := [] } 0
    ⟨4, List.replicate 4095 65, ((List.replicate 4095 65).length : Nat)⟩ (bytes "QUIT") rfl
    (by decide) (by decide) (by rw [hs2]; decide)
  rw [hs2] at e2
  simp only [List.set_cons_zero] at e1 e2
  rw [observe_sample] at o3
  have hrun : ∀ (t : Server) (a b d : List Nat), line_run t 0 [a, b, d]
      = line_step (line_step (line_step t 0 (.data a)) 0 (.data b)) 0 (.data d) :=
    fun _ _ _ _ => rfl
  rw [hrun, e1, e2] at o3
  obtain ⟨f1, f2, f3, f4, _, _⟩ := observe_fields s3
  refine ⟨s3, h3, ?_, ?_, ?_, ?_⟩
  · rw [← f2, o3]; decide
  · rw [← f3, o3]; decide
  · rw [← f1, o3]; decide
  · rw [← f4, o3]; decide

/-- C6 (as amended): when appending a received chunk would bring the buffer to
BUFSIZE-1 bytes or more, the pending bytes are discarded and the step goes on exactly
as on an empty buffer (the same step as from the state whose len is 0): the lines
found in the chunk alone are handed to handle_command, with their replies and counter
changes, and when no QUIT was among them the slot keeps its handle and holds the bytes
of the chunk that follow its last line, len being their count. -/
theorem C6_overflow_discards_pending (s : Server) (i : Nat) (c : client) (X : List Nat)
    (hc : s.clients[i]? = some c) (hfd : 0 ≤ c.fd) (hbuf : c.buf.length = BUFSIZE)
    (hlen : 0 ≤ c.len) (hX : X ≠ []) (hsz : X.length ≤ BUFSIZE - 1)
    (hov : c.len + X.length ≥ (BUFSIZE : Int) - 1) :
    recv_step s i (.data X)
      = recv_step { s with clients := s.clients.set i { c with len := 0 } } i (.data X) ∧
    ∃ s1 c1, recv_step s i (.data X) = some s1 ∧ s1.clients[i]? = some c1 ∧
      s1.calls = (exec_lines c.fd s ((split_lines X).1.map strip_cr)).1.calls ∧
      s1.sent = (exec_lines c.fd s ((split_lines X).1.map strip_cr)).1.sent ∧
      s1.counter = (exec_lines c.fd s ((split_lines X).1.map strip_cr)).1.counter ∧
      ((exec_lines c.fd s ((split_lines X).1.map strip_cr)).2 = false →
        c1.fd = c.fd ∧ c1.len = ((split_lines X).2.length : Nat) ∧
        pending c1 = (split_lines X).2) := by
  have hi := getElem?_lt hc
  constructor
  · have hc2 : ({ s with clients := s.clients.set i { c with len := 0 } } : Server).clients[i]?
        = some { c with len := 0 } := by
      simp [List.getElem?_set_self hi]
    rw [recv_step_unfold s i c X hc hfd hX,
      recv_step_unfold _ i { c with len := 0 } X hc2 hfd hX,
      append_chunk_reset c X hbuf hX hsz hov]
    simp only [List.set_set]
  · obtain ⟨b, hb, hstep, htake⟩ := recv_step_data s i c X hc hfd hbuf hlen hX hsz
    rw [step_data_overflow c X hov] at hstep htake
    cases he : (exec_lines c.fd s ((split_lines X).1.map strip_cr)).2 with
    | true =>
      simp only [he, if_true] at hstep
      exact ⟨_, ⟨-1, b, 0⟩, hstep, by simp [List.getElem?_set_self hi], rfl, rfl, rfl, by simp⟩
    | false =>
      simp only [he, Bool.false_eq_true, if_false] at hstep
      refine ⟨_, ⟨c.fd, b, ((split_lines X).2.length : Nat)⟩, hstep,
        by simp [List.getElem?_set_self hi], rfl, rfl, rfl, fun _ => ⟨rfl, rfl, ?_⟩⟩
      simpa [pending] using htake he

theorem C6_overflow_discards_pending_witness :
    recv_step { sample_server with
        clients := [{ fd := 4, buf := List.replicate BUFSIZE 65, len := 4094 }, free_slot] }
        0 (.data (bytes "GET\nAB"))
      = recv_step { sample_server with
          clients := [{ fd := 4, buf := List.replicate BUFSIZE 65, len := 0 }, free_slot] }
          0 (.data (bytes "GET\nAB")) :=
  (C6_overflow_discards_pending
    { sample_server with
      clients := [{ fd := 4, buf := List.replicate BUFSIZE 65, len := 4094 }, free_slot] }
    0 { fd := 4, buf := List.replicate BUFSIZE 65, len := 4094 } (bytes "GET\nAB")
    rfl (by decide) (by simp) (by decide) (by decide) (by decide) (by decide)).1

/-- C6 fails as stated: with 4094 bytes pending, the chunk "INCR\nAB" would overflow
the buffer; in that step INCR is handed to handle_command, the counter becomes 1, OK is
sent, and len is 2 afterwards. -/
theorem C6_counterexample :
    ∃ s1 c1 s2 c2, recv_step sample_server 0 (.data (List.replicate 4094 65)) = some s1 ∧
      s1.clients[0]? = some c1 ∧
      c1.len + (bytes "INCR\nAB").length ≥ (BUFSIZE : Int) - 1 ∧
      s1.calls = [] ∧ s1.counter = 0 ∧ s1.sent = [] ∧
      recv_step s1 0 (.data (bytes "INCR\nAB")) = some s2 ∧
      s2.calls = [(4, bytes "INCR")] ∧ s2.counter = 1 ∧ s2.sent = [(4, bytes "OK\n")] ∧
      s2.clients[0]? = some c2 ∧ c2.len = 2 := by
  have hA : ∀ b ∈ List.replicate 4094 65, b ≠ NL ∧ b ≠ 0 := by
    intro b hb
    rw [List.eq_of_mem_replicate hb]
    decide
  have hne : List.replicate 4094 65 ≠ [] :=
    List.ne_nil_of_length_pos (by rw [List.length_replicate]; decide)
  obtain ⟨s1, h1, o1, c1, g1, g2, g3, g4⟩ := recv_step_refines sample_server 0
    (.data (List.replicate 4094 65)) sample_slot_ok (by
      show (List.replicate 4094 65).length ≤ BUFSIZE - 1
      rw [List.length_replicate]; decide)
  have hs1 : step_data ⟨4, [], 0⟩ (List.replicate 4094 65) = List.replicate 4094 65 :=
    step_data_empty _ _ rfl
  have e1 := line_step_junk
    { clients := [⟨4, [], 0⟩, ⟨-1, [], 0⟩], listener := 3, maxfd := 4, counter := 0,
      sent := [], closed := [], calls := [] } 0 ⟨4, [], 0⟩ (List.replicate 4094 65) rfl
    (by decide) hne (by rw [hs1]; exact hA)
  rw [hs1] at e1
  simp only [List.set_cons_zero, List.length_replicate] at e1
  rw [observe_sample, e1] at o1
  have hc1o : (observe s1).clients[0]? = some c1.observe := by
    rw [observe_clients_get, g1]; rfl
  rw [o1] at hc1o
  simp only [List.getElem?_cons_zero, Option.some.injEq] at hc1o
  have hlen1 : c1.len = 4094 := by
    have := congrArg client.len hc1o; simpa [client.observe] using this.symm
  obtain ⟨s2, h2, o2, c2, k1, _, _, _⟩ := recv_step_refines s1 0 (.data (bytes "INCR\nAB"))
    ⟨c1, g1, g2, g3, g4⟩ (by decide)
  rw [o1] at o2
  obtain ⟨f1, f2, f3, _, _, _⟩ := observe_fields s1
  obtain ⟨d1, d2, d3, _, _, _⟩ := observe_fields s2
  have hc2o : (observe s2).clients[0]? = some c2.observe := by
    rw [observe_clients_get, k1]; rfl
  refine ⟨s1, c1, s2, c2, h1, g1, by rw [hlen1]; decide, ?_, ?_, ?_, h2, ?_, ?_, ?_, k1, ?_⟩
  · rw [← f3, o1]
  · rw [← f1, o1]
  · rw [← f2, o1]
  · rw [← d3, o2]; decide
  · rw [← d1, o2]; decide
  · rw [← d2, o2]; decide
  · have h := congrArg (fun o => o.map client.len) hc2o
    rw [o2] at h
    have h' : some c2.len = some 2 := h.symm.trans (by decide)
    exact Option.some.inj h'

/-- C7 (as amended): a buffer overflow does not remove the connection. When a
received chunk would overflow the buffer and none of the chunk's lines is QUIT, the
slot keeps its handle, nothing is closed, maxfd is unchanged and len is the length of
the chunk's unterminated remainder; the connection is removed (socket closed, slot
cleared to fd = -1 and len = 0) on a read error or end-of-stream. -/
theorem C7_overflow_keeps_connection (s : Server) (i : Nat) (c : client) (X : List Nat)
    (hc : s.clients[i]? = some c) (hfd : 0 ≤ c.fd) (hbuf : c.buf.length = BUFSIZE)
    (hlen : 0 ≤ c.len ∧ c.len ≤ (BUFSIZE : Int) - 1) (hX : X ≠ [])
    (hsz : X.length ≤ BUFSIZE - 1)
    (hov : c.len + X.length ≥ (BUFSIZE : Int) - 1)
    (hnq : ∀ t ∈ (lines_of X).1.map strip_cr, is_quit t = false) :
    (∃ s1 c1, recv_step s i (.data X) = some s1 ∧ s1.clients[i]? = some c1 ∧
      c1.fd = c.fd ∧ s1.closed = s.closed ∧ s1.maxfd = s.maxfd ∧
      c1.len = ((split_lines X).2.length : Nat)) ∧
    (∀ res : RecvResult, res.r ≤ 0 →
      ∃ s2 c2, recv_step s i res = some s2 ∧ s2.clients[i]? = some c2 ∧
        c2.fd = -1 ∧ c2.len = 0 ∧ s2.closed = s.closed ++ [c.fd]) := by
  have hi := getElem?_lt hc
  have hB : BUFSIZE = 4096 := rfl
  constructor
  · obtain ⟨b, hb, hstep, _⟩ := recv_step_data s i c X hc hfd hbuf hlen.1 hX hsz
    rw [step_data_overflow c X hov] at hstep
    have he := exec_lines_no_quit c.fd _ s (no_quit_in_scan X hnq)
    simp only [he, Bool.false_eq_true, if_false] at hstep
    obtain ⟨_, _, f3, f4⟩ := exec_lines_frame c.fd s ((split_lines X).1.map strip_cr)
    exact ⟨_, ⟨c.fd, b, ((split_lines X).2.length : Nat)⟩, hstep,
      by simp [List.getElem?_set_self hi], rfl, f4, f3, rfl⟩
  · intro res hres
    have hrm := remove_client_spec s i c hc (by rw [hbuf, hB]; decide)
    have hstep : recv_step s i res = remove_client s i := by
      unfold recv_step
      simp only [hc, not_lt.mpr hfd, if_false, hres, if_true]
    rw [hrm] at hstep
    have hge : c.fd ≥ 0 := hfd
    exact ⟨_, ⟨-1, c.buf.set 0 0, 0⟩, hstep, by simp [List.getElem?_set_self hi], rfl, rfl,
      by simp [hge]⟩

theorem C7_overflow_keeps_connection_witness :
    ∃ s1 c1, recv_step { sample_server with
        clients := [{ fd := 4, buf := List.replicate BUFSIZE 65, len := 4094 }, free_slot] }
        0 (.data (bytes "GET\nAB")) = some s1 ∧ s1.clients[0]? = some c1 ∧
      c1.fd = 4 ∧ s1.closed = [] ∧ s1.maxfd = 4 ∧ c1.len = 2 := by
  obtain ⟨s1, c1, h1, h2, h3, h4, h5, h6⟩ := (C7_overflow_keeps_connection
    { sample_server with
      clients := [{ fd := 4, buf := List.replicate BUFSIZE 65, len := 4094 }, free_slot] }
    0 { fd := 4, buf := List.replicate BUFSIZE 65, len := 4094 } (bytes "GET\nAB")
    rfl (by decide) (by simp) (by decide) (by decide) (by decide) (by decide) (by decide)).1
  exact ⟨s1, c1, h1, h2, h3, h4, h5, h6.trans (by decide)⟩

/-- C7 fails as stated: with 4094 bytes pending, the 2-byte chunk "AB" would overflow
the buffer; after that step the connection is still in its slot with handle 4 and no
socket has been closed. -/
theorem C7_counterexample :
    ∃ s1 c1 s2 c2, recv_step sample_server 0 (.data (List.replicate 4094 65)) = some s1 ∧
      s1.clients[0]? = some c1 ∧
      c1.len + (bytes "AB").length ≥ (BUFSIZE : Int) - 1 ∧
      recv_step s1 0 (.data (bytes "AB")) = some s2 ∧
      s2.clients[0]? = some c2 ∧ c2.fd = 4 ∧ c2.len = 2 ∧ s2.closed = [] := by
  obtain ⟨s1, c1, h1, g1, hok, hlen1, o1⟩ := sample_after_junk
  obtain ⟨s2, h2, o2, c2, k1, _, _, _⟩ := recv_step_refines s1 0 (.data (bytes "AB")) hok
    (by decide)
  rw [o1] at o2
  obtain ⟨_, _, _, d4, _, _⟩ := observe_fields s2
  have hc2o : (observe s2).clients[0]? = some c2.observe := by
    rw [observe_clients_get, k1]; rfl
  rw [o2] at hc2o
  have hfd2 : some c2.fd = some 4 :=
    (congrArg (fun o => o.map client.fd) hc2o).symm.trans (by decide)
  have hlen2 : some c2.len = some 2 :=
    (congrArg (fun o => o.map client.len) hc2o).symm.trans (by decide)
  refine ⟨s1, c1, s2, c2, h1, g1, by rw [hlen1]; decide, h2, k1, Option.some.inj hfd2,
    Option.some.inj hlen2, ?_⟩
  rw [← d4, o2]; decide

/-- C8 (as amended): when the buffer contents of a receive step consist of lines
without QUIT, then a QUIT line (any letter case, an optional '\r' before its '\n'), then
any bytes B, and no NUL byte precedes the '\n' of the QUIT line, the step executes the
lines up to and including QUIT, replies BYE to it, closes the socket and clears the
slot (fd = -1, len = 0); nothing of B is executed, so the calls, the replies and the
counter do not depend on B. Conversely, a receive step that delivers data removes the
connection only when the last reply it sent was BYE. -/
theorem C8_quit_closes (s : Server) (i : Nat) (c : client) (X A0 q B : List Nat)
    (hc : s.clients[i]? = some c) (hfd : 0 ≤ c.fd) (hbuf : c.buf.length = BUFSIZE)
    (hlen : 0 ≤ c.len) (hX : X ≠ []) (hsz : X.length ≤ BUFSIZE - 1)
    (hD : step_data c X = A0 ++ q ++ NL :: B)
    (hnul : ∀ b ∈ A0 ++ q, b ≠ 0)
    (hrem : (lines_of A0).2 = [])
    (hnq : ∀ t ∈ (lines_of A0).1.map strip_cr, is_quit t = false)
    (hqnl : ∀ b ∈ q, b ≠ NL) (hqq : is_quit (strip_cr q) = true) :
    (∃ s1 c1, recv_step s i (.data X) = some s1 ∧ s1.clients[i]? = some c1 ∧
      c1.fd = -1 ∧ c1.len = 0 ∧ s1.closed = s.closed ++ [c.fd] ∧
      s1.calls = s.calls ++
        ((lines_of A0).1.map strip_cr ++ [strip_cr q]).map (fun t => (c.fd, t)) ∧
      s1.sent = (interpret c.fd s ((lines_of A0).1.map strip_cr)).sent ++ [(c.fd, bytes "BYE\n")] ∧
      s1.counter = (interpret c.fd s ((lines_of A0).1.map strip_cr)).counter) ∧
    (∀ (Y : List Nat) (s2 : Server) (c2 : client), Y ≠ [] → Y.length ≤ BUFSIZE - 1 →
      recv_step s i (.data Y) = some s2 → s2.clients[i]? = some c2 → c2.fd < 0 →
      s2.sent.getLast? = some (c.fd, bytes "BYE\n")) := by
  have hi := getElem?_lt hc
  constructor
  · obtain ⟨b, hb, hstep, _⟩ := recv_step_data s i c X hc hfd hbuf hlen hX hsz
    have hA0 : ∀ x ∈ A0, x ≠ 0 := fun x hx => hnul x (List.mem_append_left _ hx)
    have hq0 : ∀ x ∈ q, x ≠ NL ∧ x ≠ 0 :=
      fun x hx => ⟨hqnl x hx, hnul x (List.mem_append_right _ hx)⟩
    have hsp : (split_lines (step_data c X)).1
        = (lines_of A0).1 ++ q :: (split_lines B).1 := by
      rw [hD, List.append_assoc, split_lines_append, split_lines_eq_lines_of A0 hA0, hrem,
        List.nil_append, split_lines_line q B hq0]
    have htok0 : ∀ t ∈ (lines_of A0).1.map strip_cr, ∀ x ∈ t, x ≠ 0 := by
      intro t ht x hx
      obtain ⟨l, hl, rfl⟩ := List.mem_map.mp ht
      exact hA0 x ((lines_of_mem _).1 l hl x (strip_cr_mem l x hx))
    have hqz : ∀ x ∈ strip_cr q, x ≠ 0 := fun x hx => (hq0 x (strip_cr_mem q x hx)).2
    obtain ⟨hu1, hu2⟩ := upto_quit_no_quit _ hnq
    have hex0 := exec_lines_interpret c.fd _ s htok0
    rw [hu1, hu2] at hex0
    have hqs : strcasecmp (strip_cr q) (bytes "QUIT") = 0 := (is_quit_iff _ hqz).mpr hqq
    have hex : exec_lines c.fd s ((split_lines (step_data c X)).1.map strip_cr)
        = (handle_command (strip_cr q) c.fd
            (interpret c.fd s ((lines_of A0).1.map strip_cr)), true) := by
      rw [hsp, List.map_append, exec_lines_append, hex0]
      simp only [Bool.false_eq_true, if_false, List.map_cons, exec_lines, hqs, if_true]
    rw [hex] at hstep
    simp only [if_true] at hstep
    obtain ⟨hcalls, _⟩ := interpret_calls c.fd _ s htok0
    refine ⟨_, ⟨-1, b, 0⟩, hstep, by simp [List.getElem?_set_self hi], rfl, rfl, rfl, ?_, ?_, ?_⟩
    · simp only [handle_command_quit _ _ _ hqs, hcalls, cstr_of_nonzero _ hqz]
      simp
    · simp only [handle_command_quit _ _ _ hqs]
    · simp only [handle_command_quit _ _ _ hqs]
  · intro Y s2 c2 hY hYsz hstep hc2 hfd2
    obtain ⟨b, hb, hstep', _⟩ := recv_step_data s i c Y hc hfd hbuf hlen hY hYsz
    rw [hstep] at hstep'
    cases he : (exec_lines c.fd s ((split_lines (step_data c Y)).1.map strip_cr)).2 with
    | true =>
      simp only [he, if_true, Option.some.injEq] at hstep'
      rw [hstep']
      exact exec_lines_quit_last c.fd _ s he
    | false =>
      exfalso
      simp only [he, Bool.false_eq_true, if_false, Option.some.injEq] at hstep'
      rw [hstep'] at hc2
      simp only [List.getElem?_set_self hi, Option.some.injEq] at hc2
      rw [← hc2] at hfd2
      simp only at hfd2
      omega

theorem C8_quit_closes_witness :
    ∃ s1 c1, recv_step sample_server 0 (.data (bytes "INCR\nQUIT\nINCR\n")) = some s1 ∧
      s1.clients[0]? = some c1 ∧ c1.fd = -1 ∧ c1.len = 0 ∧ s1.closed = [4] ∧
      s1.calls = [(4, bytes "INCR"), (4, bytes "QUIT")] ∧
      s1.sent = [(4, bytes "OK\n"), (4, bytes "BYE\n")] ∧ s1.counter = 1 := by
  obtain ⟨s1, c1, h1, h2, h3, h4, h5, h6, h7, h8⟩ :=
    (C8_quit_closes sample_server 0 { fd := 4, buf := List.replicate BUFSIZE 0, len := 0 }
      (bytes "INCR\nQUIT\nINCR\n") (bytes "INCR\n") (bytes "QUIT") (bytes "INCR\n")
      rfl (by decide) (by simp) (by decide) (by decide) (by decide)
      (step_data_empty _ _ rfl) (by decide) (by decide) (by decide) (by decide) (by decide)).1
  exact ⟨s1, c1, h1, h2, h3, h4, h5, h6.trans (by decide), h7.trans (by decide),
    h8.trans (by decide)⟩

/-- C8 fails as stated: the chunk NUL "\nQUIT\n" has the complete lines NUL and QUIT,
yet the step sends no reply, calls handle_command for no line and keeps the
connection in its slot. -/
theorem C8_counterexample :
    (bytes "QUIT" ∈ (lines_of ([0, NL] ++ bytes "QUIT\n")).1 ∧ is_quit (bytes "QUIT") = true) ∧
    ∃ s1 c1, recv_step sample_server 0 (.data ([0, NL] ++ bytes "QUIT\n")) = some s1 ∧
      s1.clients[0]? = some c1 ∧ c1.fd = 4 ∧ s1.sent = [] ∧ s1.calls = [] ∧ s1.closed = [] := by
  refine ⟨by decide, ?_⟩
  obtain ⟨s1, h1, o1, c1, g1, _, _, _⟩ := recv_step_refines sample_server 0
    (.data ([0, NL] ++ bytes "QUIT\n")) sample_slot_ok (by decide)
  rw [observe_sample] at o1
  obtain ⟨_, f2, f3, f4, _, _⟩ := observe_fields s1
  have hc1o : (observe s1).clients[0]? = some c1.observe := by
    rw [observe_clients_get, g1]; rfl
  rw [o1] at hc1o
  have hfd1 : some c1.fd = some 4 :=
    (congrArg (fun o => o.map client.fd) hc1o).symm.trans (by decide)
  refine ⟨s1, c1, h1, g1, Option.some.inj hfd1, ?_, ?_, ?_⟩
  · rw [← f2, o1]; decide
  · rw [← f3, o1]; decide
  · rw [← f4, o1]; decide

/-- C9: a token that is not one of INCR, DECR, GET, RESET, QUIT in any letter case
(the empty token and tokens with spaces included) is answered with
"ERR Unknown command\n" and nothing else changes; a line with such a token leaves
the connection in its slot, open, in the observable state it had before the line
with only the error reply added; and when bytes follow the line in the same read,
the step ends in the same observable state as the step on those bytes alone, taken
from the state in which the error reply has been sent. -/
theorem C9_unknown_command (s : Server) (i : Nat) (c : client) (l rest : List Nat)
    (hc : s.clients[i]? = some c) (hfd : 0 ≤ c.fd) (hbuf : c.buf.length = BUFSIZE)
    (hlen : c.len = 0)
    (hl : ∀ b ∈ l, b ≠ NL ∧ b ≠ 0) (hu : is_command (strip_cr l) = false)
    (hrest : rest ≠ []) (hsz : (l ++ NL :: rest).length ≤ BUFSIZE - 1) :
    (∀ (t : List Nat) (fd : Int) (w : Server), (∀ b ∈ t, b ≠ 0) → is_command t = false →
      handle_command t fd w
        = { w with calls := w.calls ++ [(fd, t)],
                   sent := w.sent ++ [(fd, bytes "ERR Unknown command\n")] }) ∧
    (∃ s1 c1, recv_step s i (.data (l ++ [NL])) = some s1 ∧ s1.clients[i]? = some c1 ∧
      c1.fd = c.fd ∧ c1.len = 0 ∧ s1.closed = s.closed ∧ s1.counter = s.counter ∧
      s1.sent = s.sent ++ [(c.fd, bytes "ERR Unknown command\n")] ∧
      s1.calls = s.calls ++ [(c.fd, strip_cr l)] ∧
      observe s1 = observe (handle_command (strip_cr l) c.fd s)) ∧
    (∃ s1 s2, recv_step s i (.data (l ++ NL :: rest)) = some s1 ∧
      recv_step (handle_command (strip_cr l) c.fd s) i (.data rest) = some s2 ∧
      observe s1 = observe s2) := by
  have hB : BUFSIZE = 4096 := rfl
  have hi := getElem?_lt hc
  have hok : slot_ok s i := ⟨c, hc, hbuf, by omega, by rw [hlen, hB]; decide⟩
  have hz : ∀ b ∈ strip_cr l, b ≠ 0 := fun b hb => (hl b (strip_cr_mem l b hb)).2
  have hq := not_quit_of_not_command _ hu
  have hco : (observe s).clients[i]? = some c.observe := by
    rw [observe_clients_get, hc]; rfl
  have hrl := List.length_pos.mpr hrest
  simp only [List.length_append, List.length_cons] at hsz
  refine ⟨fun t fd w h1 h2 => handle_command_unknown t fd w h1 h2, ?_, ?_⟩
  · obtain ⟨s1, h1, o1, c1, g1, _, _, _⟩ := recv_step_refines s i (.data (l ++ [NL])) hok (by
      show (l ++ [NL]).length ≤ BUFSIZE - 1
      simp only [List.length_append, List.length_singleton]; omega)
    have hnfd : ¬ c.fd < 0 := by omega
    have hr1 : ¬ (RecvResult.data (l ++ [NL])).r ≤ 0 := by
      show ¬ (((l ++ [NL]).length : Nat) : Int) ≤ 0
      simp only [List.length_append, List.length_singleton]; omega
    have hjq : ¬ strcasecmp (strip_cr l) (bytes "QUIT") = 0 := by
      intro e
      rw [is_quit_iff _ hz, hq] at e
      cases e
    have hsp : split_lines (l ++ [NL]) = ([l], []) := split_lines_line l [] hl
    have hline : line_step (observe s) i (.data (l ++ [NL]))
        = { handle_command (strip_cr l) c.fd (observe s) with
            clients := (observe s).clients.set i ⟨c.fd, [], 0⟩ } := by
      unfold line_step
      simp only [hco, observe_fd, hnfd, if_false, hr1, RecvResult.tmp,
        step_data_empty c.observe _ hlen, hsp, List.map_cons, List.map_nil, exec_lines, hjq,
        Bool.false_eq_true]
      rfl
    have hfull : observe s1 = observe (handle_command (strip_cr l) c.fd s) := by
      have hcobs : c.observe = ⟨c.fd, [], 0⟩ := by
        simp [client.observe, pending, hlen]
      have hset : (observe s).clients.set i ⟨c.fd, [], 0⟩ = (observe s).clients :=
        set_self _ _ _ (by rw [hco, hcobs])
      have hsame : ∀ (w : Server) (cl : List client), w.clients = cl →
          ({ w with clients := cl } : Server) = w := by
        intro w cl e; cases w; simp only at e; rw [← e]
      rw [o1, hline, ← handle_command_observe, hset]
      exact hsame _ _ (handle_command_frame (strip_cr l) c.fd (observe s)).1
    rw [hline, handle_command_unknown _ _ _ hz hu] at o1
    have hc1o : (observe s1).clients[i]? = some c1.observe := by
      rw [observe_clients_get, g1]; rfl
    have hi2 : i < (observe s).clients.length := by simp [observe, hi]
    rw [o1] at hc1o
    simp only [List.getElem?_set_self hi2, Option.some.injEq] at hc1o
    obtain ⟨f1, f2, f3, f4, _, _⟩ := observe_fields s1
    refine ⟨s1, c1, h1, g1, ?_, ?_, ?_, ?_, ?_, ?_, hfull⟩
    · have := congrArg client.fd hc1o; simpa [client.observe] using this.symm
    · have := congrArg client.len hc1o; simpa [client.observe] using this.symm
    · rw [← f4, o1]; rfl
    · rw [← f1, o1]; rfl
    · rw [← f2, o1]; rfl
    · rw [← f3, o1]; rfl
  · obtain ⟨s1, h1, o1, _⟩ := recv_step_refines s i (.data (l ++ NL :: rest)) hok (by
      show (l ++ NL :: rest).length ≤ BUFSIZE - 1
      simp only [List.length_append, List.length_cons]; omega)
    obtain ⟨g1, _, _, _⟩ := handle_command_frame (strip_cr l) c.fd s
    have hok2 : slot_ok (handle_command (strip_cr l) c.fd s) i :=
      ⟨c, by rw [g1]; exact hc, hbuf, by omega, by rw [hlen, hB]; decide⟩
    obtain ⟨s2, h2, o2, _⟩ := recv_step_refines _ i (.data rest) hok2 (by
      show rest.length ≤ BUFSIZE - 1
      omega)
    refine ⟨s1, s2, h1, h2, ?_⟩
    rw [o1, o2, ← handle_command_observe,
      line_step_skip_line (observe s) i c.observe l rest hco (by rw [observe_fd]; exact hfd)
        hlen hl hq hrest, observe_fd]

theorem C9_unknown_command_witness :
    ∃ s1 s2, recv_step sample_server 0 (.data (bytes " INCR" ++ NL :: bytes "INCR\nGET\n")) = some s1 ∧
      recv_step (handle_command (strip_cr (bytes " INCR")) 4 sample_server) 0
        (.data (bytes "INCR\nGET\n")) = some s2 ∧
      observe s1 = observe s2 :=
  (C9_unknown_command sample_server 0 { fd := 4, buf := List.replicate BUFSIZE 0, len := 0 }
    (bytes " INCR") (bytes "INCR\nGET\n") rfl (by decide) (by simp) rfl (by decide) (by decide)
    (by decide) (by decide)).2.2

/-- C10: when t' is t with the case of some ASCII letters changed, handle_command
sends the same reply and leaves the same counter for t and t', the test of the
receive loop that decides to close the connection has the same outcome for both, and
a receive step that delivers the line t and one that delivers the line t' to a
connection with an empty buffer end with the same counter, replies, closed sockets,
maxfd and slots. -/
theorem C10_case_insensitive (t t' : List Nat) (fd : Int) (s : Server) (i : Nat) (c : client)
    (h : case_variant t t' = true)
    (hc : s.clients[i]? = some c) (hfd : 0 ≤ c.fd) (hbuf : c.buf.length = BUFSIZE)
    (hlen : c.len = 0) (ht : ∀ b ∈ t, b ≠ NL ∧ b ≠ 0) (hsz : t.length + 1 ≤ BUFSIZE - 1) :
    (handle_command t fd s).counter = (handle_command t' fd s).counter ∧
    (handle_command t fd s).sent = (handle_command t' fd s).sent ∧
    (strcasecmp t (bytes "QUIT") = 0 ↔ strcasecmp t' (bytes "QUIT") = 0) ∧
    (∃ s1 s2, recv_step s i (.data (t ++ [NL])) = some s1 ∧
      recv_step s i (.data (t' ++ [NL])) = some s2 ∧
      s1.counter = s2.counter ∧ s1.sent = s2.sent ∧ s1.closed = s2.closed ∧
      s1.maxfd = s2.maxfd ∧ (observe s1).clients = (observe s2).clients) := by
  have hB : BUFSIZE = 4096 := rfl
  obtain ⟨a1, a2⟩ := handle_command_variant t t' fd s h
  refine ⟨a1, a2, by rw [strcasecmp_variant t t' h], ?_⟩
  have hok : slot_ok s i := ⟨c, hc, hbuf, by omega, by rw [hlen, hB]; decide⟩
  have hlen' := case_variant_length t t' h
  have ht' := case_variant_clean t t' h ht
  have hv := case_variant_strip_cr t t' h
  obtain ⟨s1, h1, o1, _⟩ := recv_step_refines s i (.data (t ++ [NL])) hok (by
    show (t ++ [NL]).length ≤ BUFSIZE - 1
    simp only [List.length_append, List.length_singleton]; omega)
  obtain ⟨s2, h2, o2, _⟩ := recv_step_refines s i (.data (t' ++ [NL])) hok (by
    show (t' ++ [NL]).length ≤ BUFSIZE - 1
    simp only [List.length_append, List.length_singleton]; omega)
  have hco : (observe s).clients[i]? = some c.observe := by
    rw [observe_clients_get, hc]; rfl
  rw [line_step_single (observe s) i c.observe t hco (by rw [observe_fd]; exact hfd) hlen ht] at o1
  rw [line_step_single (observe s) i c.observe t' hco (by rw [observe_fd]; exact hfd) hlen ht',
    ← strcasecmp_variant _ _ hv] at o2
  obtain ⟨b1, b2⟩ := handle_command_variant (strip_cr t) (strip_cr t') c.observe.fd (observe s) hv
  obtain ⟨f1, f2, _, f4, f5, _⟩ := observe_fields s1
  obtain ⟨d1, d2, _, d4, d5, _⟩ := observe_fields s2
  refine ⟨s1, s2, h1, h2, ?_, ?_, ?_, ?_, ?_⟩
  · rw [← f1, ← d1, o1, o2]; split_ifs <;> exact b1
  · rw [← f2, ← d2, o1, o2]; split_ifs <;> exact b2
  · rw [← f4, ← d4, o1, o2]
    obtain ⟨_, _, _, g4⟩ := handle_command_frame (strip_cr t) c.observe.fd (observe s)
    obtain ⟨_, _, _, k4⟩ := handle_command_frame (strip_cr t') c.observe.fd (observe s)
    split_ifs
    · rfl
    · exact g4.trans k4.symm
  · rw [← f5, ← d5, o1, o2]
    obtain ⟨_, _, g3, _⟩ := handle_command_frame (strip_cr t) c.observe.fd (observe s)
    obtain ⟨_, _, k3, _⟩ := handle_command_frame (strip_cr t') c.observe.fd (observe s)
    split_ifs
    · rfl
    · exact g3.trans k3.symm
  · rw [o1, o2]; split_ifs <;> rfl

theorem C10_case_insensitive_witness :
    (handle_command (bytes "InCr") 4 sample_server).counter
        = (handle_command (bytes "incr") 4 sample_server).counter ∧
    (handle_command (bytes "InCr") 4 sample_server).sent
        = (handle_command (bytes "incr") 4 sample_server).sent :=
  ⟨(C10_case_insensitive (bytes "InCr") (bytes "incr") 4 sample_server 0
      { fd := 4, buf := List.replicate BUFSIZE 0, len := 0 }
      (by decide) rfl (by decide) (by simp) rfl (by decide) (by decide)).1,
   (C10_case_insensitive (bytes "InCr") (bytes "incr") 4 sample_server 0
      { fd := 4, buf := List.replicate BUFSIZE 0, len := 0 }
      (by decide) rfl (by decide) (by simp) rfl (by decide) (by decide)).2.1⟩

/-- C11: on a connection with an empty buffer, for every token t that has no
'\n' and no NUL byte and does not end in '\r': the bytes t "\r\n" and the bytes
t "\n", each followed by the same further bytes, give the same observable state
(calls of handle_command, replies, counter, pending bytes, handle) when each is
delivered in one read, and also however each is cut into reads, the cut between
'\r' and '\n' included, as long as the bytes stay below the overflow bound; for
every t that one read can carry, t "\r" in one read and "\n" in the next give the
same replies, counter and pending bytes as t "\n" in one read; one '\r' is removed
and no more: the line l "\r" hands the token l to handle_command whatever l ends
in; and the line "\n" alone on an empty buffer is processed, as the empty token,
although the byte before the start of the buffer cannot be read. -/
theorem C11_both_line_endings (s : Server) (i : Nat) (c : client) (t : List Nat)
    (hc : s.clients[i]? = some c) (hfd : 0 ≤ c.fd) (hbuf : c.buf.length = BUFSIZE)
    (hlen : c.len = 0) (ht : ∀ b ∈ t, b ≠ NL ∧ b ≠ 0) (hcr : t.getLast? ≠ some CR)
    (hread : t.length + 1 ≤ BUFSIZE - 1) :
    (∀ rest : List Nat, t.length + 2 + rest.length ≤ BUFSIZE - 1 →
      ∃ s1 s2, recv_step s i (.data (t ++ CR :: NL :: rest)) = some s1 ∧
        recv_step s i (.data (t ++ NL :: rest)) = some s2 ∧ observe s1 = observe s2) ∧
    (∀ (rest : List Nat) (cuts1 cuts2 : List (List Nat)),
      cuts1.flatten = t ++ CR :: NL :: rest → cuts2.flatten = t ++ NL :: rest →
      (∀ x ∈ cuts1, x ≠ []) → (∀ x ∈ cuts2, x ≠ []) →
      t.length + 2 + rest.length < BUFSIZE - 1 →
      ∃ s1 s2, run s i cuts1 = some s1 ∧ run s i cuts2 = some s2 ∧ observe s1 = observe s2) ∧
    (∃ s2 s3, run s i [t ++ [CR], [NL]] = some s2 ∧ run s i [t ++ [NL]] = some s3 ∧
      s2.sent = s3.sent ∧ s2.counter = s3.counter ∧ s2.closed = s3.closed ∧
      s2.maxfd = s3.maxfd ∧ (observe s2).clients = (observe s3).clients) ∧
    (∀ l : List Nat, (∀ b ∈ l, b ≠ NL ∧ b ≠ 0) → l.length + 2 ≤ BUFSIZE - 1 →
      strip_cr (l ++ [CR]) = l ∧
      ∃ s1, recv_step s i (.data (l ++ [CR] ++ [NL])) = some s1 ∧
        s1.calls = s.calls ++ [(c.fd, l)]) ∧
    (load c.buf ((0 : Int) - 1) = none ∧
      ∃ s1, recv_step s i (.data [NL]) = some s1 ∧ s1.calls = s.calls ++ [(c.fd, [])] ∧
        s1.sent = s.sent ++ [(c.fd, bytes "ERR Unknown command\n")] ∧
        s1.counter = s.counter) := by
  have hB : BUFSIZE = 4096 := rfl
  have hok : slot_ok s i := ⟨c, hc, hbuf, by omega, by rw [hlen, hB]; decide⟩
  have hco : (observe s).clients[i]? = some c.observe := by
    rw [observe_clients_get, hc]; rfl
  refine ⟨?_, ?_, ?_, ?_, ?_, ?_⟩
  · intro rest hsz
    obtain ⟨s1, h1, o1, _⟩ := recv_step_refines s i (.data (t ++ CR :: NL :: rest)) hok (by
      show (t ++ CR :: NL :: rest).length ≤ BUFSIZE - 1
      simp only [List.length_append, List.length_cons]; omega)
    obtain ⟨s2, h2, o2, _⟩ := recv_step_refines s i (.data (t ++ NL :: rest)) hok (by
      show (t ++ NL :: rest).length ≤ BUFSIZE - 1
      simp only [List.length_append, List.length_cons]; omega)
    refine ⟨s1, s2, h1, h2, ?_⟩
    have e : t ++ CR :: NL :: rest = (t ++ [CR]) ++ NL :: rest := by simp
    rw [o1, o2, e]
    exact line_step_token (observe s) i c.observe (t ++ [CR]) t rest hco hlen
      (clean_snoc_cr ht) ht (by rw [strip_cr_snoc, strip_cr_id t hcr])
  · intro rest cuts1 cuts2 h1 h2 hne1 hne2 hfit
    exact crlf_cuts s i c t rest cuts1 cuts2 hc hbuf hlen ht hcr h1 h2 hne1 hne2 hfit
  · by_cases hlong : BUFSIZE - 1 ≤ t.length + 2
    · exact crlf_split_long s i c t hc hfd hbuf hlen ht hcr hread hlong
    · obtain ⟨s2, s3, r2, r3, o⟩ := crlf_cuts s i c t [] [t ++ [CR], [NL]] [t ++ [NL]]
        hc hbuf hlen ht hcr (by simp) (by simp) (by simp) (by simp)
        (by simp only [List.length_nil]; omega)
      obtain ⟨f1, f2, _, f4, f5, _⟩ := observe_fields s2
      obtain ⟨d1, d2, _, d4, d5, _⟩ := observe_fields s3
      exact ⟨s2, s3, r2, r3, by rw [← f2, ← d2, o], by rw [← f1, ← d1, o],
        by rw [← f4, ← d4, o], by rw [← f5, ← d5, o], by rw [o]⟩
  · intro l hl hsz
    refine ⟨strip_cr_snoc l, ?_⟩
    obtain ⟨s1, h1, h2, _⟩ := line_alone_calls s i c (l ++ [CR]) hc hfd hbuf hlen
      (clean_snoc_cr hl) (by simp only [List.length_append, List.length_singleton]; omega)
    rw [strip_cr_snoc] at h2
    exact ⟨s1, h1, h2⟩
  · unfold load
    rw [if_neg]
    omega
  · obtain ⟨s1, h1, h2, h3, h4⟩ := line_alone_calls s i c [] hc hfd hbuf hlen
      (by simp) (by rw [hB]; decide)
    have hs0 : strip_cr [] = [] := by decide
    rw [hs0] at h2 h3 h4
    rw [handle_command_unknown [] c.fd s (by simp) (by decide)] at h3 h4
    exact ⟨s1, h1, h2, h3, h4⟩

theorem C11_both_line_endings_witness :
    ∃ s2 s3, run sample_server 0 [bytes "INCR" ++ [CR], [NL]] = some s2 ∧
      run sample_server 0 [bytes "INCR" ++ [NL]] = some s3 ∧
      s2.sent = s3.sent ∧ s2.counter = s3.counter ∧ s2.closed = s3.closed ∧
      s2.maxfd = s3.maxfd ∧ (observe s2).clients = (observe s3).clients :=
  (C11_both_line_endings sample_server 0 { fd := 4, buf := List.replicate BUFSIZE 0, len := 0 }
    (bytes "INCR") rfl (by decide) (by simp) rfl (by decide) (by decide) (by decide)).2.2.1

/-- C12: accept has returned a connection. When every slot of the table is occupied,
the step closes the new socket and changes nothing else: no reply is sent, and every
slot (handle, buffer, len), maxfd and the counter are as before. When some slot is
free, the connection is registered in the free slot with the lowest index (handle
stored, len 0, terminator at the start of the buffer), no socket is closed, the
other slots are as before and maxfd is raised to the new handle when that is
larger. -/
theorem C12_full_table_rejects (s : Server) (connfd : Int) (h0 : 0 ≤ connfd)
    (hbuf : ∀ c ∈ s.clients, 0 < c.buf.length) :
    ((∀ c ∈ s.clients, 0 ≤ c.fd) →
      find_slot s.clients = MAX_CLIENTS s ∧
      accept_step s connfd = some { s with closed := s.closed ++ [connfd] } ∧
      ∃ s1, accept_step s connfd = some s1 ∧ s1.clients = s.clients ∧ s1.maxfd = s.maxfd ∧
        s1.counter = s.counter ∧ s1.sent = s.sent ∧ s1.closed = s.closed ++ [connfd]) ∧
    ((∃ c ∈ s.clients, c.fd < 0) →
      ∃ i c, s.clients[i]? = some c ∧ c.fd < 0 ∧
        (∀ j cj, j < i → s.clients[j]? = some cj → 0 ≤ cj.fd) ∧
        accept_step s connfd = some { s with
          clients := s.clients.set i { fd := connfd, buf := c.buf.set 0 0, len := 0 },
          maxfd := if connfd > s.maxfd then connfd else s.maxfd } ∧
        ∃ s1 c1, accept_step s connfd = some s1 ∧ s1.clients[i]? = some c1 ∧
          c1.fd = connfd ∧ c1.len = 0 ∧ s1.closed = s.closed ∧ s1.sent = s.sent ∧
          s1.counter = s.counter ∧
          ∀ j, j ≠ i → s1.clients[j]? = s.clients[j]?) := by
  constructor
  · intro hfull
    have h := accept_step_full s connfd h0 hfull
    exact ⟨find_slot_full _ hfull, h, _, h, rfl, rfl, rfl, rfl, rfl⟩
  · rintro ⟨d, hd, hdfree⟩
    rcases find_slot_spec s.clients with ⟨_, hall⟩ | ⟨c, hc, hfree, hocc⟩
    · have := hall d hd
      omega
    · have hi := getElem?_lt hc
      have h := accept_step_free s connfd _ c h0 hc hfree
        (hbuf c (List.mem_iff_getElem?.mpr ⟨_, hc⟩)) hocc
      refine ⟨_, c, hc, hfree, hocc, h, _, ⟨connfd, c.buf.set 0 0, 0⟩, h, ?_, rfl, rfl, rfl, rfl, rfl, ?_⟩
      · exact List.getElem?_set_self hi
      · intro j hj
        exact List.getElem?_set_ne (Ne.symm hj)

theorem C12_full_table_rejects_witness :
    accept_step { sample_server with clients :=
        [{ fd := 4, buf := List.replicate BUFSIZE 0, len := 0 },
         { fd := 5, buf := List.replicate BUFSIZE 0, len := 0 }] } 6
      = some { sample_server with
          clients := [{ fd := 4, buf := List.replicate BUFSIZE 0, len := 0 },
                      { fd := 5, buf := List.replicate BUFSIZE 0, len := 0 }],
          closed := [6] } :=
  ((C12_full_table_rejects { sample_server with clients :=
        [{ fd := 4, buf := List.replicate BUFSIZE 0, len := 0 },
         { fd := 5, buf := List.replicate BUFSIZE 0, len := 0 }] } 6 (by decide)
      (by
        intro c hc
        simp only [List.mem_cons, List.mem_singleton, List.not_mem_nil, or_false] at hc
        rcases hc with rfl | rfl <;>
        · show 0 < (List.replicate BUFSIZE 0).length
          rw [List.length_replicate]; decide)).1
    (by
      intro c hc
      simp only [List.mem_cons, List.mem_singleton, List.not_mem_nil, or_false] at hc
      rcases hc with rfl | rfl <;> decide)).2.1

/-- C13: for every argument cmd (read as a C string: any bytes, the empty string
included), every handle fd and every state, handle_command appends exactly one
entry to the log of sends, addressed to fd, and its bytes are a text that is not
empty and holds no '\n' and no NUL, followed by one '\n'; with a counter in the
64-bit range the line is shorter than the 128 bytes of out; and when cmd spells GET
in any letter case the text is the decimal string of the counter: it reads back as
the counter's value and starts with '-' exactly when the counter is negative. -/
theorem C13_one_reply_line (cmd : List Nat) (fd : Int) (s : Server) :
    ∃ text, (handle_command cmd fd s).sent = s.sent ++ [(fd, text ++ [NL])] ∧
      text ≠ [] ∧ (∀ b ∈ text, b ≠ NL ∧ b ≠ 0) ∧
      ((-2 ^ 63 ≤ s.counter ∧ s.counter < 2 ^ 63) → (text ++ [NL]).length < 128) ∧
      (strcasecmp cmd (bytes "GET") = 0 →
        text = fmt_lld s.counter ∧ parse_decimal text = some s.counter ∧
        (s.counter < 0 ↔ text.head? = some 45)) := by
  obtain ⟨text, h1, h2, h3⟩ := handle_command_reply cmd fd s
  obtain ⟨f1, f2⟩ := fmt_lld_chars s.counter
  refine ⟨text, h1, ?_, ?_, ?_, ?_⟩
  · rcases h2 with rfl | rfl | rfl | rfl
    · decide
    · decide
    · decide
    · exact f1
  · rcases h2 with rfl | rfl | rfl | rfl
    · decide
    · decide
    · decide
    · intro b hb
      have hN : NL = 10 := rfl
      rcases f2 b hb with h | h <;> rw [hN] <;> omega
  · rintro ⟨r1, r2⟩
    rcases h2 with rfl | rfl | rfl | rfl
    · decide
    · decide
    · decide
    · have := fmt_lld_length s.counter r1 r2
      simp only [List.length_append, List.length_singleton]
      omega
  · intro hget
    have e := h3 hget
    subst e
    exact ⟨rfl, parse_decimal_fmt_lld s.counter, fmt_lld_sign s.counter⟩

/-- C14, as stated, does not hold. The table and the descriptor set have 1024
places (FD_SETSIZE), the listening handle is 3, and in the first turn of the loop
accept returns the handle 1024, which is not negative and is in no slot. The turn
registers it in slot 0, so the state is reached under the assumption of the claim;
from that state the head of the loop runs FD_SET(1024, &readfds), a store outside
readfds, so no further turn is defined, whatever the environment does, and nothing
holds of the table from then on. -/
theorem C14_counterexample :
    ∃ s1, Reachable fresh_accept (List.replicate 1024 (List.replicate BUFSIZE 0)) 3 s1 [1024] ∧
      main_turn (init_server (List.replicate 1024 (List.replicate BUFSIZE 0)) 3)
        (accept_turn 3 1024) = some (.running s1) ∧
      handles s1 = 1024 :: List.replicate 1023 (-1) ∧ FD_SETSIZE s1 = 1024 ∧
      fill_readfds s1 = none ∧ ∀ t, main_turn s1 t = none := by
  obtain ⟨s1, h1, h2, h3, _⟩ := reach_first fresh_accept (List.replicate BUFSIZE 0)
    (List.replicate 1023 (List.replicate BUFSIZE 0)) 3 1024 (List.length_replicate _ _)
    (by rw [List.length_cons, List.length_replicate]; decide) (by decide)
    (by
      intro _ c hc
      simp only [init_server, List.mem_map] at hc
      obtain ⟨x, _, rfl⟩ := hc
      show (-1 : Int) ≠ 1024
      decide)
  rw [List.length_replicate] at h3
  have hlen : s1.clients.length = 1024 := by
    have e : (handles s1).length = s1.clients.length := List.length_map _ _
    rw [← e, h3, List.length_cons, List.length_replicate]
  obtain ⟨c, hc, hfd⟩ := mem_handles.mp (show (1024 : Int) ∈ handles s1 by
    rw [h3]; exact List.mem_cons_self _ _)
  obtain ⟨k1, k2⟩ := main_turn_stuck s1 c hc (by rw [hlen, hfd]; decide)
  rw [replicate_cons]
  exact ⟨s1, h1, h2, h3, hlen, k1, k2⟩

/-- C14: in every state the loop of main reaches from the start of main (all slots
fd = -1), the listening handle being at least 0 and below FD_SETSIZE, by turns in
which recv returns at most the bytes asked for and every handle accept returns is
in no slot and below FD_SETSIZE, with live the client sockets that are open in
that state: a slot's handle is not negative exactly when it is one of the open
sockets, every open socket sits in a slot, a slot whose handle is negative has
fd = -1 and len = 0, no two slots hold the same handle that is not negative, every
handle of the table is below FD_SETSIZE, the table keeps its number of slots,
every further accept and receive step succeeds, and every further turn of the
loop under the same assumptions is defined: when select does not fail and no peer
has reset its connection, it leaves the process running in a state the loop
reaches. -/
theorem C14_table_invariant (mem : List (List Nat)) (listener : Int) (s : Server)
    (live : List Int) (hmem : ∀ b ∈ mem, b.length = BUFSIZE) (hl : 0 ≤ listener)
    (hls : listener < (mem.length : Int))
    (h : Reachable (fun s t => fresh_accept s t ∧ small_accept s t) mem listener s live) :
    (∀ (j : Nat) (c : client), s.clients[j]? = some c → (0 ≤ c.fd ↔ c.fd ∈ live)) ∧
    (∀ fd ∈ live, ∃ (j : Nat) (c : client), s.clients[j]? = some c ∧ c.fd = fd) ∧
    (∀ (j : Nat) (c : client), s.clients[j]? = some c → c.fd < 0 → c.fd = -1 ∧ c.len = 0) ∧
    (∀ (j k : Nat) (cj ck : client), s.clients[j]? = some cj → s.clients[k]? = some ck →
      0 ≤ cj.fd → cj.fd = ck.fd → j = k) ∧
    (∀ c ∈ s.clients, c.fd < (FD_SETSIZE s : Int)) ∧
    s.clients.length = mem.length ∧
    (∀ connfd, ∃ s1, accept_step s connfd = some s1) ∧
    (∀ (i : Nat) (res : RecvResult), i < mem.length → res.tmp.length ≤ BUFSIZE - 1 →
      ∃ s1, recv_step s i res = some s1) ∧
    (∀ t, recv_bounded t → fresh_accept s t → small_accept s t →
      ∃ o, main_turn s t = some o ∧
        (0 ≤ t.nready → (∀ j, t.resets j = none) → ∃ s1, o = .running s1 ∧
          Reachable (fun s t => fresh_accept s t ∧ small_accept s t) mem listener s1
            (open_after (accepted s t ++ live) s s1))) := by
  obtain ⟨hinv, hlen, hfd⟩ := reachable_table _ mem listener (fun _ _ hp => hp) hmem hl hls
    s live h
  obtain ⟨t1, t2, _⟩ := table_inv_total listener s live hinv
  have hturn : ∀ t, recv_bounded t → fresh_accept s t → small_accept s t →
      ∃ o, main_turn s t = some o ∧
        (0 ≤ t.nready → (∀ j, t.resets j = none) → ∃ s1, o = .running s1 ∧
          Reachable (fun s t => fresh_accept s t ∧ small_accept s t) mem listener s1
            (open_after (accepted s t ++ live) s s1)) := by
    intro t ht hf hsm
    obtain ⟨o, ho, _, hrun⟩ := turn_table listener mem.length s live t hl hls ht hf hsm
      ⟨hinv, hlen, hfd⟩
    refine ⟨o, ho, fun hn hq => ?_⟩
    obtain ⟨s1, e⟩ := hrun hn hq
    rw [e] at ho
    exact ⟨s1, e, Reachable.turn s s1 live t h ht ⟨hf, hsm⟩ ho⟩
  obtain ⟨_, i2, i3, i4, _, _, _⟩ := hinv
  refine ⟨?_, ?_, ?_, ?_, ?_, hlen, t1, fun i res hi hres => t2 i res (by omega) hres, hturn⟩
  · intro j c hc
    rw [i3]
    constructor
    · intro h0
      exact ⟨mem_handles.mpr ⟨c, List.mem_iff_getElem?.mpr ⟨j, hc⟩, rfl⟩, h0⟩
    · exact fun h => h.2
  · intro fd hfd
    obtain ⟨c, hc, e⟩ := mem_handles.mp ((i3 fd).mp hfd).1
    obtain ⟨j, hj⟩ := List.mem_iff_getElem?.mp hc
    exact ⟨j, c, hj, e⟩
  · intro j c hc hneg
    exact (i2 c (List.mem_iff_getElem?.mpr ⟨j, hc⟩)).2.2.2 hneg
  · intro j k cj ck hj hk h0 e
    exact i4 j k cj.fd (handles_get s j cj hj) (by rw [e]; exact handles_get s k ck hk) h0
  · intro c hc
    unfold FD_SETSIZE
    rw [hlen]
    exact hfd c hc

theorem C14_table_invariant_witness :
    ∃ s1, Reachable (fun s t => fresh_accept s t ∧ small_accept s t)
        (List.replicate 1024 (List.replicate BUFSIZE 0)) 3 s1 [4] ∧
      handles s1 = 4 :: List.replicate 1023 (-1) ∧
      (∀ (j k : Nat) (cj ck : client), s1.clients[j]? = some cj → s1.clients[k]? = some ck →
        0 ≤ cj.fd → cj.fd = ck.fd → j = k) ∧
      ∀ t, recv_bounded t → fresh_accept s1 t → small_accept s1 t →
        ∃ o, main_turn s1 t = some o ∧
          (0 ≤ t.nready → (∀ j, t.resets j = none) → ∃ s2, o = .running s2 ∧
            Reachable (fun s t => fresh_accept s t ∧ small_accept s t)
              (List.replicate 1024 (List.replicate BUFSIZE 0)) 3 s2
              (open_after (accepted s1 t ++ [4]) s1 s2)) := by
  obtain ⟨s1, h1, _, h3, _⟩ := reach_first (fun s t => fresh_accept s t ∧ small_accept s t)
    (List.replicate BUFSIZE 0) (List.replicate 1023 (List.replicate BUFSIZE 0)) 3 4
    (List.length_replicate _ _)
    (by rw [List.length_cons, List.length_replicate]; decide) (by decide)
    (by
      refine ⟨?_, ?_⟩
      · intro _ c hc
        simp only [init_server, List.mem_map] at hc
        obtain ⟨x, _, rfl⟩ := hc
        show (-1 : Int) ≠ 4
        decide
      · show (4 : Int) < ((init_server _ _).clients.length : Int)
        simp only [init_server, List.length_map, List.length_cons, List.length_replicate]
        decide)
  rw [List.length_replicate] at h3
  rw [← replicate_cons] at h1
  have hw := C14_table_invariant (List.replicate 1024 (List.replicate BUFSIZE 0)) 3 s1 [4]
    (fun b hb => by rw [List.eq_of_mem_replicate hb]; exact List.length_replicate _ _)
    (by decide) (by rw [List.length_replicate]; decide) h1
  exact ⟨s1, h1, h3, hw.2.2.2.1, hw.2.2.2.2.2.2.2.2⟩

/-- C15: the bridge starts without an upstream socket; its upstream is a counter
server with a free slot and a counter within 64 bits. For every sequence of
requests, each one a POST on /counter/incr, /counter/decr or /counter/reset or a
GET /counter, served one after the other: every request is answered with the 200
response whose body is the JSON object with member "value" (followed by a line
feed), and the value shown for the k-th request is the decimal string of the
counter the server has after the requests up to the k-th; the counter moves by the
commands of the requests. With the counter at 0, three POST /counter/incr, one
POST /counter/decr and a GET /counter end with the body {"value": 2}. -/
theorem C15_bridge_shows_counter (l : Link) (reqs : List (Req × Int × List Nat))
    (hsock : 0 ≤ l.sock) (hconn : 0 ≤ l.connfd)
    (hrange : -2 ^ 63 ≤ l.server.counter ∧ l.server.counter < 2 ^ 63)
    (hbufs : ∀ c ∈ l.server.clients, c.buf.length = BUFSIZE)
    (hfree : ∃ c ∈ l.server.clients, c.fd < 0)
    (hreq : ∀ x ∈ reqs, is_request x.1 x.2.2) :
    (∃ n1, serve counter_upstream ⟨l, [], -1⟩
          (reqs.map (fun x => (x.2.1, RecvResult.data x.2.2)))
        = some (shown l.server.counter (reqs.map Prod.fst), n1) ∧
      n1.peer.server.counter = (reqs.map Prod.fst).foldl Req.next l.server.counter) ∧
    (∀ k, k < reqs.length →
      ∃ nk, serve counter_upstream ⟨l, [], -1⟩
            ((reqs.take (k + 1)).map (fun x => (x.2.1, RecvResult.data x.2.2)))
          = some (shown l.server.counter ((reqs.take (k + 1)).map Prod.fst), nk) ∧
        (shown l.server.counter (reqs.map Prod.fst))[k]?
          = some (ok_response nk.peer.server.counter)) ∧
    (shown 0 [.post .incr, .post .incr, .post .incr, .post .decr, .get]).getLast?
      = some (bytes "HTTP/1.1 200 OK\r\nContent-Type: application/json\r\nContent-Length: 13\r\nAccess-Control-Allow-Origin: *\r\nConnection: close\r\n\r\n\x7b\"value\": 2\x7d\n") := by
  have hun : unlinked ⟨l, [], -1⟩ :=
    ⟨(by decide : (-1 : Int) < 0), hsock, hconn, hrange, hbufs, hfree⟩
  refine ⟨?_, ?_, shown_example⟩
  · obtain ⟨n1, h1, h2, _⟩ := serve_requests reqs ⟨l, [], -1⟩ (Or.inr hun) hreq
    exact ⟨n1, h1, h2⟩
  · intro k hk
    obtain ⟨nk, h1, h2, _⟩ := serve_requests (reqs.take (k + 1)) ⟨l, [], -1⟩ (Or.inr hun)
      (fun x hx => hreq x (List.mem_of_mem_take hx))
    refine ⟨nk, h1, ?_⟩
    rw [shown_get _ _ k (by simpa using hk), h2, List.map_take]

theorem C15_bridge_shows_counter_witness :
    ∃ n1, serve counter_upstream ⟨⟨sample_server, none, 5, 9⟩, [], -1⟩
        [(7, .data (bytes "POST /counter/incr HTTP/1.1\r\nHost: localhost\r\n\r\n")),
         (7, .data (bytes "POST /counter/incr HTTP/1.1\r\n\r\n")),
         (7, .data (bytes "POST /counter/incr HTTP/1.1\r\n\r\n")),
         (7, .data (bytes "POST /counter/decr HTTP/1.1\r\n\r\n")),
         (7, .data (bytes "GET /counter HTTP/1.1\r\n\r\n"))]
      = some (shown 0 [.post .incr, .post .incr, .post .incr, .post .decr, .get], n1) ∧
      n1.peer.server.counter = 2 := by
  obtain ⟨n1, h1, h2⟩ := (C15_bridge_shows_counter ⟨sample_server, none, 5, 9⟩
    [(.post .incr, 7, bytes "POST /counter/incr HTTP/1.1\r\nHost: localhost\r\n\r\n"),
     (.post .incr, 7, bytes "POST /counter/incr HTTP/1.1\r\n\r\n"),
     (.post .incr, 7, bytes "POST /counter/incr HTTP/1.1\r\n\r\n"),
     (.post .decr, 7, bytes "POST /counter/decr HTTP/1.1\r\n\r\n"),
     (.get, 7, bytes "GET /counter HTTP/1.1\r\n\r\n")]
    (by decide) (by decide) (by decide)
    (by
      intro c hc
      simp only [sample_server, free_slot, List.mem_cons, List.mem_singleton,
        List.not_mem_nil, or_false] at hc
      rcases hc with rfl | rfl <;> exact List.length_replicate _ _)
    ⟨free_slot, by simp [sample_server], by decide⟩
    (by
      intro x hx
      simp only [List.mem_cons, List.mem_singleton, List.not_mem_nil, or_false] at hx
      rcases hx with rfl | rfl | rfl | rfl | rfl <;>
        exact ⟨by decide, by decide, by decide⟩)).1
  exact ⟨n1, h1, h2.trans (by decide)⟩

/-- C16: for every upstream peer, every state and every outcome of the read on the
client connection, handle_client returns; it sends on clientfd only; it sends
nothing exactly when the read returned no byte; and otherwise the bytes sent begin
with a header block, ended by an empty line, whose first line is the status line of
one of 200, 204, 400, 404 and 500 and which contains the lines
"Access-Control-Allow-Origin: *" and "Connection: close". -/
theorem C16_every_response_has_headers {σ : Type} (U : Upstream σ) (n : Net σ)
    (clientfd : Int) (req : RecvResult) (hreq : req.r < Bridge.BUFSIZE) :
    ∃ w n1, handle_client U n clientfd req = some (w, n1) ∧ (∀ p ∈ w, p.1 = clientfd) ∧
      (w = [] ↔ req.r ≤ 0) ∧
      (0 < req.r →
        ∃ L, header_lines (w.map Prod.snd).flatten = some L ∧
          L.head? ∈ [some (bytes "HTTP/1.1 200 OK"), some (bytes "HTTP/1.1 204 No Content"),
            some (bytes "HTTP/1.1 400 Bad Request"), some (bytes "HTTP/1.1 404 Not Found"),
            some (bytes "HTTP/1.1 500 Internal Server Error")] ∧
          bytes "Access-Control-Allow-Origin: *" ∈ L ∧ bytes "Connection: close" ∈ L) := by
  have fin : ∀ (r : Option (List (Int × List Nat) × Net σ)),
      (∃ w n2, r = some (w, n2) ∧ (∀ p ∈ w, p.1 = clientfd) ∧ w ≠ [] ∧
        ∃ L, header_lines (w.map Prod.snd).flatten = some L ∧
          L.head? ∈ [some (bytes "HTTP/1.1 200 OK"), some (bytes "HTTP/1.1 204 No Content"),
            some (bytes "HTTP/1.1 400 Bad Request"), some (bytes "HTTP/1.1 404 Not Found"),
            some (bytes "HTTP/1.1 500 Internal Server Error")] ∧
          bytes "Access-Control-Allow-Origin: *" ∈ L ∧ bytes "Connection: close" ∈ L) →
      0 < req.r →
      ∃ w n1, r = some (w, n1) ∧ (∀ p ∈ w, p.1 = clientfd) ∧ (w = [] ↔ req.r ≤ 0) ∧
        (0 < req.r →
          ∃ L, header_lines (w.map Prod.snd).flatten = some L ∧
            L.head? ∈ [some (bytes "HTTP/1.1 200 OK"), some (bytes "HTTP/1.1 204 No Content"),
              some (bytes "HTTP/1.1 400 Bad Request"), some (bytes "HTTP/1.1 404 Not Found"),
              some (bytes "HTTP/1.1 500 Internal Server Error")] ∧
            bytes "Access-Control-Allow-Origin: *" ∈ L ∧ bytes "Connection: close" ∈ L) := by
    rintro r ⟨w, n2, h1, h2, h3, h4⟩ hpos
    exact ⟨w, n2, h1, h2, ⟨fun h => absurd h h3, fun h => by omega⟩, fun _ => h4⟩
  by_cases h0 : req.r ≤ 0
  · refine ⟨[], n, ?_, by simp, by simp [h0], fun h => by omega⟩
    unfold handle_client
    simp [h0]
  · have hpos : 0 < req.r := by omega
    have hnn : ¬ ¬ req.r < (Bridge.BUFSIZE : Int) := not_not.mpr hreq
    have c1 : (cstr (bytes "Bad Request\n")).length ≤ 255 := by decide
    have c2 : (cstr (bytes "\x7b\"error\": \"server unreachable\"\x7d\n")).length ≤ 255 := by
      decide
    have c3 : (cstr (bytes "\x7b\"error\": \"not found\"\x7d\n")).length ≤ 255 := by decide
    have c4 : (cstr (bytes "\x7b\"error\": \"read failed\"\x7d\n")).length ≤ 255 := by decide
    have c5 : (cstr (bytes "\x7b\"error\": \"command failed\"\x7d\n")).length ≤ 255 := by
      decide
    have tail : ∀ cmd : List Nat, ∃ w n1,
        (if (send_command_and_read U n cmd 256).1 = 0 then
          if (send_command_and_read U (send_command_and_read U n cmd 256).2.2
                (bytes "GET") 256).1 = 0 then
            (write_http_response clientfd 200 (bytes "OK") (bytes "application/json")
              (value_body (send_command_and_read U (send_command_and_read U n cmd 256).2.2
                (bytes "GET") 256).2.1)).map
              (fun w => (w, (send_command_and_read U (send_command_and_read U n cmd 256).2.2
                (bytes "GET") 256).2.2))
          else
            (write_http_response clientfd 500 (bytes "Internal Server Error")
              (bytes "application/json")
              (bytes "\x7b\"error\": \"read failed\"\x7d\n")).map
              (fun w => (w, (send_command_and_read U (send_command_and_read U n cmd 256).2.2
                (bytes "GET") 256).2.2))
        else
          (write_http_response clientfd 500 (bytes "Internal Server Error")
            (bytes "application/json")
            (bytes "\x7b\"error\": \"command failed\"\x7d\n")).map
            (fun w => (w, (send_command_and_read U n cmd 256).2.2))) = some (w, n1) ∧
        (∀ p ∈ w, p.1 = clientfd) ∧ (w = [] ↔ req.r ≤ 0) ∧
        (0 < req.r →
          ∃ L, header_lines (w.map Prod.snd).flatten = some L ∧
            L.head? ∈ [some (bytes "HTTP/1.1 200 OK"), some (bytes "HTTP/1.1 204 No Content"),
              some (bytes "HTTP/1.1 400 Bad Request"), some (bytes "HTTP/1.1 404 Not Found"),
              some (bytes "HTTP/1.1 500 Internal Server Error")] ∧
            bytes "Access-Control-Allow-Origin: *" ∈ L ∧ bytes "Connection: close" ∈ L) := by
      intro cmd
      by_cases hr1 : (send_command_and_read U n cmd 256).1 = 0
      · rw [if_pos hr1]
        by_cases hr2 : (send_command_and_read U (send_command_and_read U n cmd 256).2.2
            (bytes "GET") 256).1 = 0
        · rw [if_pos hr2]
          exact fin _ (response_good clientfd 200 (bytes "OK") (bytes "application/json") _ _
            (by decide) (by decide) (value_body_length _)) hpos
        · rw [if_neg hr2]
          exact fin _ (response_good clientfd 500 (bytes "Internal Server Error")
            (bytes "application/json") _ _ (by decide) (by decide) c4) hpos
      · rw [if_neg hr1]
        exact fin _ (response_good clientfd 500 (bytes "Internal Server Error")
          (bytes "application/json") _ _ (by decide) (by decide) c5) hpos
    unfold handle_client
    rw [if_neg h0, if_neg hnn]
    dsimp only
    generalize sscanf_request (req.tmp ++ [0]) = parsed
    obtain ⟨cnt, method, path⟩ := parsed
    dsimp only
    by_cases hc : cnt ≠ 2
    · rw [if_pos hc]
      exact fin _ (response_good clientfd 400 (bytes "Bad Request") (bytes "text/plain") _ _
          (by decide) (by decide) c1) hpos
    rw [if_neg hc]
    by_cases hget : strcmp method (bytes "GET") = 0 ∧ strcmp path (bytes "/counter") = 0
    · rw [if_pos hget]
      by_cases hr : (send_command_and_read U n (bytes "GET") 256).1 = 0
      · rw [if_pos hr]
        exact fin _ (response_good clientfd 200 (bytes "OK") (bytes "application/json") _ _
          (by decide) (by decide) (value_body_length _)) hpos
      · rw [if_neg hr]
        exact fin _ (response_good clientfd 500 (bytes "Internal Server Error")
          (bytes "application/json") _ _ (by decide) (by decide) c2) hpos
    rw [if_neg hget]
    by_cases hpost : strcmp method (bytes "POST") = 0 ∧
        (strcmp path (bytes "/counter/incr") = 0 ∨ strcmp path (bytes "/counter/decr") = 0 ∨
          strcmp path (bytes "/counter/reset") = 0)
    · rw [if_pos hpost]
      by_cases h1 : strcmp path (bytes "/counter/incr") = 0
      · rw [if_pos h1]
        exact tail _
      rw [if_neg h1]
      by_cases h2 : strcmp path (bytes "/counter/decr") = 0
      · rw [if_pos h2]
        exact tail _
      rw [if_neg h2]
      by_cases h3 : strcmp path (bytes "/counter/reset") = 0
      · rw [if_pos h3]
        exact tail _
      rw [if_neg h3]
      exact fin _ (response_good clientfd 404 (bytes "Not Found") (bytes "application/json") _ _
        (by decide) (by decide) c3) hpos
    rw [if_neg hpost]
    by_cases hopt : strcmp method (bytes "OPTIONS") = 0
    · rw [if_pos hopt]
      refine fin _ ⟨_, _, rfl, ?_, by simp, ?_⟩ hpos
      · intro p hp
        rw [List.mem_singleton.mp hp]
      · refine ⟨[bytes "HTTP/1.1 204 No Content", bytes "Access-Control-Allow-Origin: *",
          bytes "Access-Control-Allow-Methods: GET, POST, OPTIONS",
          bytes "Access-Control-Allow-Headers: Content-Type",
          bytes "Content-Length: 0", bytes "Connection: close"], ?_, by decide, by decide,
          by decide⟩
        have e : ∀ x : List Nat, (List.map Prod.snd [(clientfd, x)]).flatten = x := by
          intro x; simp
        rw [e]
        exact options_header_lines
    rw [if_neg hopt]
    exact fin _ (response_good clientfd 404 (bytes "Not Found") (bytes "application/json") _ _
      (by decide) (by decide) c3) hpos

theorem C16_every_response_has_headers_witness :
    ∃ w n1, handle_client dead_upstream ⟨(), [], -1⟩ 7
        (.data (bytes "GET /counter HTTP/1.1\r\n\r\n")) = some (w, n1) ∧
      (∀ p ∈ w, p.1 = 7) ∧
      (w = [] ↔ (RecvResult.data (bytes "GET /counter HTTP/1.1\r\n\r\n")).r ≤ 0) ∧
      (0 < (RecvResult.data (bytes "GET /counter HTTP/1.1\r\n\r\n")).r →
        ∃ L, header_lines (w.map Prod.snd).flatten = some L ∧
          L.head? ∈ [some (bytes "HTTP/1.1 200 OK"), some (bytes "HTTP/1.1 204 No Content"),
            some (bytes "HTTP/1.1 400 Bad Request"), some (bytes "HTTP/1.1 404 Not Found"),
            some (bytes "HTTP/1.1 500 Internal Server Error")] ∧
          bytes "Access-Control-Allow-Origin: *" ∈ L ∧ bytes "Connection: close" ∈ L) :=
  C16_every_response_has_headers dead_upstream ⟨(), [], -1⟩ 7
    (.data (bytes "GET /counter HTTP/1.1\r\n\r\n")) (by decide)

/-- C17, as stated, does not hold. The table and the descriptor set have 1024
places (FD_SETSIZE), the listening handle is 3, and in the first turn of the loop
accept returns the handle 1500. The turn registers it in slot 0 and sets maxfd to
1500; from that state the head of the loop runs FD_SET(1500, &readfds), a store
outside readfds, before select is called with maxfd + 1 = 1501, so no further turn
is defined, whatever the environment does, and nothing holds of maxfd from then
on. -/
theorem C17_counterexample :
    ∃ s1, Reachable (fun _ _ => True) (List.replicate 1024 (List.replicate BUFSIZE 0)) 3 s1
        [1500] ∧
      main_turn (init_server (List.replicate 1024 (List.replicate BUFSIZE 0)) 3)
        (accept_turn 3 1500) = some (.running s1) ∧
      s1.maxfd = 1500 ∧ FD_SETSIZE s1 = 1024 ∧
      fill_readfds s1 = none ∧ ∀ t, main_turn s1 t = none := by
  obtain ⟨s1, h1, h2, h3, h4, _⟩ := reach_first (fun _ _ => True) (List.replicate BUFSIZE 0)
    (List.replicate 1023 (List.replicate BUFSIZE 0)) 3 1500 (List.length_replicate _ _)
    (by rw [List.length_cons, List.length_replicate]; decide) (by decide) trivial
  rw [List.length_replicate] at h3
  have hlen : s1.clients.length = 1024 := by
    have e : (handles s1).length = s1.clients.length := List.length_map _ _
    rw [← e, h3, List.length_cons, List.length_replicate]
  obtain ⟨c, hc, hfd⟩ := mem_handles.mp (show (1500 : Int) ∈ handles s1 by
    rw [h3]; exact List.mem_cons_self _ _)
  obtain ⟨k1, k2⟩ := main_turn_stuck s1 c hc (by rw [hlen, hfd]; decide)
  rw [replicate_cons]
  exact ⟨s1, h1, h2, by rw [h4]; decide, hlen, k1, k2⟩

/-- C17: in every state the loop of main reaches from the start of main, the
listening handle being at least 0 and below FD_SETSIZE, by turns in which recv
returns at most the bytes asked for and every handle accept returns is below
FD_SETSIZE (new or not), maxfd is the largest of the listening handle and the
handles of the occupied slots and is below FD_SETSIZE; the head of the loop
succeeds and every handle it puts in the set handed to select is at most maxfd;
every further turn under the same assumptions is defined, leaves maxfd the
largest handle again in the state it leaves, and leaves the process running when
select does not fail and no peer has reset its connection; an accept that registers the connection leaves maxfd at the
larger of its old value and the new handle, and remove_client leaves the value it
recomputes from the listening handle and the slots of the table, which is the
largest handle. -/
theorem C17_maxfd_is_largest_handle (mem : List (List Nat)) (listener : Int) (s : Server)
    (live : List Int) (hmem : ∀ b ∈ mem, b.length = BUFSIZE) (hl : 0 ≤ listener)
    (hls : listener < (mem.length : Int)) (h : Reachable small_accept mem listener s live) :
    s.maxfd = max_handle s ∧ s.listener = listener ∧ s.listener ≤ s.maxfd ∧
    (∀ c ∈ s.clients, c.fd ≤ s.maxfd) ∧ s.maxfd < (FD_SETSIZE s : Int) ∧
    (∃ r, fill_readfds s = some r ∧ ∀ k : Nat, r[k]? = some true → (k : Int) ≤ s.maxfd) ∧
    (∀ t, recv_bounded t → small_accept s t →
      ∃ o, main_turn s t = some o ∧ (∀ s1, o = .running s1 → s1.maxfd = max_handle s1) ∧
        (0 ≤ t.nready → (∀ j, t.resets j = none) → ∃ s1, o = .running s1)) ∧
    (∀ connfd s1, 0 ≤ connfd → find_slot s.clients ≠ MAX_CLIENTS s →
      accept_step s connfd = some s1 →
      s1.maxfd = if connfd > s.maxfd then connfd else s.maxfd) ∧
    (∀ i s1, remove_client s i = some s1 →
      s1.maxfd = recompute_maxfd s1.clients s.listener ∧ s1.maxfd = max_handle s1) := by
  have hall := reachable_max _ mem listener (fun _ _ hp => hp) hmem hl hls s live h
  obtain ⟨hinv, hlen, hfd⟩ := hall
  obtain ⟨i1, i2, i5, i6, i7⟩ := hinv
  have hc6 : ∀ c ∈ s.clients, c.fd ≤ s.maxfd :=
    fun c hc => i6 c.fd (mem_handles.mpr ⟨c, hc, rfl⟩)
  have hmx := max_inv_maxfd listener mem.length s hls ⟨i1, i2, i5, i6, i7⟩ hfd
  refine ⟨max_handle_eq s i5 i6 i7, i1, i5, hc6, ?_, ?_, ?_, ?_, ?_⟩
  · unfold FD_SETSIZE
    rw [hlen]
    exact hmx
  · obtain ⟨r, hr, _⟩ := fill_readfds_some s (by omega) (by rw [hlen]; omega)
      (by rw [hlen]; exact hfd)
    refine ⟨r, hr, fun k hk => ?_⟩
    rcases fill_readfds_bits s r hr k hk with e | ⟨c, hc, _, e⟩
    · omega
    · have := hc6 c hc
      omega
  · intro t ht hsm
    obtain ⟨o, ho, hrun, hgo⟩ := turn_max listener mem.length s t hl hls ht hsm
      ⟨⟨i1, i2, i5, i6, i7⟩, hlen, hfd⟩
    refine ⟨o, ho, fun s1 e => ?_, hgo⟩
    obtain ⟨⟨_, _, j5, j6, j7⟩, _⟩ := hrun s1 e
    exact max_handle_eq s1 j5 j6 j7
  · intro connfd s1 h0 hslot hstep
    exact accept_step_maxfd s s1 connfd h0 hslot hstep
  · intro i s1 hstep
    refine ⟨remove_client_maxfd s s1 i hstep, ?_⟩
    cases hc : s.clients[i]? with
    | none =>
      unfold remove_client at hstep
      simp [hc] at hstep
    | some c =>
      have hw := i2 c (List.mem_iff_getElem?.mpr ⟨_, hc⟩)
      obtain ⟨s2, c1, h1, h2, h3, h4, _, h6, _, h8⟩ := remove_client_shape s i c hc hw.1
      rw [h1] at hstep
      have e := Option.some.inj hstep
      subst e
      obtain ⟨_, _, j5, j6, j7⟩ := max_inv_remove listener s s2 i c1 ⟨i1, i2, i5, i6, i7⟩ hl h2 h3
        h4 h6 h8
      exact max_handle_eq s2 j5 j6 j7

theorem C17_maxfd_is_largest_handle_witness :
    ∃ s1, Reachable small_accept (List.replicate 1024 (List.replicate BUFSIZE 0)) 3 s1 [4] ∧
      s1.maxfd = 4 ∧ s1.maxfd = max_handle s1 ∧
      ∃ r, fill_readfds s1 = some r ∧ ∀ k : Nat, r[k]? = some true → (k : Int) ≤ s1.maxfd := by
  obtain ⟨s1, h1, _, _, h4, _⟩ := reach_first small_accept
    (List.replicate BUFSIZE 0) (List.replicate 1023 (List.replicate BUFSIZE 0)) 3 4
    (List.length_replicate _ _)
    (by rw [List.length_cons, List.length_replicate]; decide) (by decide)
    (by
      show (4 : Int) < ((init_server _ _).clients.length : Int)
      simp only [init_server, List.length_map, List.length_cons, List.length_replicate]
      decide)
  rw [← replicate_cons] at h1
  have hw := C17_maxfd_is_largest_handle (List.replicate 1024 (List.replicate BUFSIZE 0)) 3 s1
    [4] (fun b hb => by rw [List.eq_of_mem_replicate hb]; exact List.length_replicate _ _)
    (by decide) (by rw [List.length_replicate]; decide) h1
  exact ⟨s1, h1, by rw [h4]; decide, hw.1, hw.2.2.2.2.2.1⟩

/-- C18, as stated, does not hold. Slot 0 holds the connection with handle 4 and
slot 1 the connection with handle 5 and the pending bytes "IN". The peer of slot 0
sends "INCR\nINCR\n" and resets the connection, and one more send goes through.
The receive step on slot 0 hands both lines to handle_command; the first send
goes through, the second raises SIGPIPE, which the program neither handles nor
blocks, and the process ends: the event leaves no table, so slot 1 is not as it
was. -/
theorem C18_counterexample :
    recv_event two_clients 0 (.data (bytes "INCR\nINCR\n")) (some 1) = some .killed ∧
      (∃ s1, recv_step two_clients 0 (.data (bytes "INCR\nINCR\n")) = some s1 ∧
        s1.sent = [(4, bytes "OK\n"), (4, bytes "OK\n")]) ∧
      ¬ ∃ s1, recv_event two_clients 0 (.data (bytes "INCR\nINCR\n")) (some 1) =
        some (.running s1) := by
  obtain ⟨s1, h1, h2⟩ := two_clients_step
  have hk : recv_event two_clients 0 (.data (bytes "INCR\nINCR\n")) (some 1) = some .killed := by
    unfold recv_event
    rw [h1]
    dsimp only
    rw [h2]
    rfl
  refine ⟨hk, ⟨s1, h1, h2⟩, ?_⟩
  rintro ⟨s2, h⟩
  rw [hk] at h
  cases h

/-- C18: every event on slot i (bytes received and processed, whatever they are: a
partial line, lines with QUIT among them, bytes that trigger the overflow reset;
end-of-stream; a read error) is defined. When the peer keeps the connection, or
has reset it and every send of the event still goes through (an end-of-stream and
a read error send nothing), the process goes on and the event leaves every other
slot j exactly as it was: the same handle, the same array contents and the same
len, hence the same pending bytes; the table keeps its number of slots and the
listening handle is unchanged. The one other outcome is that the peer has reset
the connection and the event sends more than still goes through: that send raises
SIGPIPE and the process ends. -/
theorem C18_event_touches_one_slot (s : Server) (i : Nat) (c : client) (res : RecvResult)
    (hc : s.clients[i]? = some c) (hbuf : c.buf.length = BUFSIZE) (hl0 : 0 ≤ c.len)
    (hl1 : c.len ≤ (BUFSIZE : Int) - 1) (hres : res.tmp.length ≤ BUFSIZE - 1) :
    ∃ s1, recv_step s i res = some s1 ∧
      recv_event s i res none = some (.running s1) ∧
      (∀ k, recv_event s i res (some k) =
        if k < s1.sent.length - s.sent.length then some .killed else some (.running s1)) ∧
      (res.r ≤ 0 → ∀ reset, recv_event s i res reset = some (.running s1)) ∧
      s1.clients.length = s.clients.length ∧
      s1.listener = s.listener ∧
      (∀ j, j ≠ i → s1.clients[j]? = s.clients[j]?) ∧
      (∀ (j : Nat) (cj : client), j ≠ i → s.clients[j]? = some cj →
        ∃ cj1, s1.clients[j]? = some cj1 ∧ cj1.fd = cj.fd ∧ cj1.buf = cj.buf ∧
          cj1.len = cj.len ∧ pending cj1 = pending cj) := by
  obtain ⟨s1, c1, h1, h2, h3, _⟩ := recv_step_shape s i c res hc hbuf hl0 hl1 hres
  have hfr : ∀ j, j ≠ i → s1.clients[j]? = s.clients[j]? := by
    intro j hj
    rw [h2, List.getElem?_set_ne (Ne.symm hj)]
  have hnone : recv_event s i res none = some (.running s1) := by
    unfold recv_event
    rw [h1]
  have hsome : ∀ k, recv_event s i res (some k) =
      if k < s1.sent.length - s.sent.length then some .killed else some (.running s1) := by
    intro k
    unfold recv_event
    rw [h1]
  refine ⟨s1, h1, hnone, hsome, ?_, by rw [h2]; simp, h3, hfr, ?_⟩
  · intro hr reset
    cases reset with
    | none => exact hnone
    | some k =>
      rw [hsome k, recv_step_silent s s1 i res hr h1, if_neg (by omega)]
  · intro j cj hj hcj
    exact ⟨cj, by rw [hfr j hj]; exact hcj, rfl, rfl, rfl, rfl⟩

theorem C18_event_touches_one_slot_witness :
    ∃ s1, recv_event two_clients 0 (.data (bytes "QUIT\nIN")) none = some (.running s1) ∧
      s1.clients[1]? = two_clients.clients[1]? := by
  obtain ⟨s1, _, h1, _, _, _, _, h2, _⟩ := C18_event_touches_one_slot two_clients 0
    { fd := 4, buf := List.replicate BUFSIZE 0, len := 0 } (.data (bytes "QUIT\nIN"))
    rfl (List.length_replicate _ _) (by decide) (by decide) (by decide)
  exact ⟨s1, h1, h2 1 (by decide)⟩

/-- C19: slot i holds a connection that has received any reads (so its buffer may
hold pending bytes without a newline), the connection ends (end-of-stream or read
error, or a QUIT among its lines), and the next accept finds slot i as the free
slot with the lowest index. Then the new connection is registered in slot i with
len = 0; the observable state from which its reads are processed has slot i equal
to (connfd, no pending bytes, 0), whatever the previous occupant left; and the
calls of handle_command its reads cause are those of a connection that starts with
an empty buffer, a function of its handle and of its own bytes. -/
theorem C19_reused_slot_starts_empty (s : Server) (i : Nat) (c : client)
    (chunks0 : List (List Nat)) (res : RecvResult) (connfd : Int) (chunks : List (List Nat))
    (hc : s.clients[i]? = some c) (hbuf : c.buf.length = BUFSIZE) (hl0 : 0 ≤ c.len)
    (hl1 : c.len ≤ (BUFSIZE : Int) - 1)
    (hocc : ∀ (j : Nat) (cj : client), j < i → s.clients[j]? = some cj → 0 ≤ cj.fd)
    (hsz0 : ∀ x ∈ chunks0, x.length ≤ BUFSIZE - 1) (hr : res.r ≤ 0) (h0 : 0 ≤ connfd)
    (hsz : ∀ x ∈ chunks, x.length ≤ BUFSIZE - 1) :
    ∃ s1 s2 s3 s4 c3,
      run s i chunks0 = some s1 ∧ recv_step s1 i res = some s2 ∧
      accept_step s2 connfd = some s3 ∧ run s3 i chunks = some s4 ∧
      observe s2 = line_step (line_run (observe s) i chunks0) i res ∧
      s3.clients[i]? = some c3 ∧ c3.fd = connfd ∧ c3.len = 0 ∧
      observe s4 = line_run { observe s2 with
          clients := (observe s2).clients.set i ⟨connfd, [], 0⟩,
          maxfd := if connfd > s2.maxfd then connfd else s2.maxfd } i chunks ∧
      s4.calls = s2.calls ++ session_calls connfd chunks := by
  have hB : BUFSIZE = 4096 := rfl
  have hok : slot_ok s i := ⟨c, hc, hbuf, hl0, hl1⟩
  obtain ⟨s1, r1, o1, ok1, fr1⟩ := run_shape chunks0 s i hok hsz0
  obtain ⟨c1, hc1, hb1, _, _⟩ := ok1
  have hres : res.tmp.length ≤ BUFSIZE - 1 := by
    cases res with
    | error => simp [RecvResult.tmp]
    | data tmp =>
      have : ((tmp.length : Nat) : Int) ≤ 0 := hr
      simp only [RecvResult.tmp]
      omega
  obtain ⟨s2, r2, o2, _⟩ := recv_step_refines s1 i res ⟨c1, hc1, hb1, by assumption, by assumption⟩ hres
  obtain ⟨s2', c2, g1, g2, hneg, hb2, _⟩ := recv_step_gone s1 i c1 res hc1 hb1 hr
  rw [r2] at g1
  have e := Option.some.inj g1
  subst e
  have hi1 := getElem?_lt hc1
  have hc2 : s2.clients[i]? = some c2 := by rw [g2]; exact List.getElem?_set_self hi1
  have hi2 := getElem?_lt hc2
  have hocc2 : ∀ (j : Nat) (cj : client), j < i → s2.clients[j]? = some cj → 0 ≤ cj.fd := by
    intro j cj hj hcj
    rw [g2, List.getElem?_set_ne (by omega), fr1 j (by omega)] at hcj
    exact hocc j cj hj hcj
  have r3 := accept_step_free s2 connfd i c2 h0 hc2 hneg (by rw [hb2, hB]; decide) hocc2
  obtain ⟨s3, r3', e3⟩ : ∃ s3, accept_step s2 connfd = some s3 ∧ s3 = { s2 with
      clients := s2.clients.set i { fd := connfd, buf := c2.buf.set 0 0, len := 0 },
      maxfd := if connfd > s2.maxfd then connfd else s2.maxfd } := ⟨_, r3, rfl⟩
  have hc3 : s3.clients[i]? = some ⟨connfd, c2.buf.set 0 0, 0⟩ := by
    rw [e3]; exact List.getElem?_set_self hi2
  have hz : (0 : Int) ≤ (BUFSIZE : Int) - 1 := by rw [hB]; decide
  obtain ⟨s4, r4, o4, _, _⟩ := run_shape chunks s3 i
    ⟨_, hc3, by simp [hb2], le_refl _, hz⟩ hsz
  have ho3 : observe s3 = { observe s2 with
      clients := (observe s2).clients.set i ⟨connfd, [], 0⟩,
      maxfd := if connfd > s2.maxfd then connfd else s2.maxfd } := by
    rw [e3]
    simp [observe, List.map_set, client.observe, pending]
  have hcalls : s4.calls = s2.calls ++ session_calls connfd chunks := by
    have h1 : s4.calls = (observe s4).calls := rfl
    rw [h1, o4]
    have hu : (observe s3).clients[i]? = some ⟨connfd, [], 0⟩ := by
      rw [observe_clients_get, hc3]
      simp [client.observe, pending]
    rw [line_run_session (observe s3) i connfd chunks hu, e3]
    rfl
  refine ⟨s1, s2, s3, s4, _, r1, r2, r3', r4, ?_, hc3, rfl, rfl, ?_, hcalls⟩
  · rw [o2, o1]
  · rw [o4, ho3]

theorem C19_reused_slot_starts_empty_witness :
    ∃ s1 s2 s3 s4, run sample_server 0 [bytes "IN"] = some s1 ∧
      recv_step s1 0 (.data []) = some s2 ∧ accept_step s2 5 = some s3 ∧
      run s3 0 [bytes "CR\n"] = some s4 ∧
      s4.calls = [(5, bytes "CR")] ∧ s4.sent = [(5, bytes "ERR Unknown command\n")] ∧
      s4.counter = 0 := by
  obtain ⟨s1, s2, s3, s4, _, r1, r2, r3, r4, o2, _, _, _, o4, hcalls⟩ :=
    C19_reused_slot_starts_empty sample_server 0
      { fd := 4, buf := List.replicate BUFSIZE 0, len := 0 } [bytes "IN"] (.data []) 5
      [bytes "CR\n"] rfl (by simp) (by decide) (by decide)
      (fun j _ hj => absurd hj (Nat.not_lt_zero j)) (by decide) (by decide) (by decide)
      (by decide)
  have hm : s2.maxfd = (observe s2).maxfd := rfl
  have hk : s2.calls = (observe s2).calls := rfl
  rw [hm, o2, observe_sample] at o4
  rw [hk, o2, observe_sample] at hcalls
  refine ⟨s1, s2, s3, s4, r1, r2, r3, r4, ?_, ?_, ?_⟩
  · rw [hcalls]; decide
  · have h : s4.sent = (observe s4).sent := rfl
    rw [h, o4]; decide
  · have h : s4.counter = (observe s4).counter := rfl
    rw [h, o4]; decide

end CounterServer
